import Mathlib

/-!
# CASPER evacuation solver: evacuee paths and the dynamic step

A shallow embedding of `src/src/Evacuee.cpp` (paths, path segments, the dynamic
move-on-path step, the final merge of half-paths, the second chance, the
evacuee vertex table of the CARMA pass, the grouping of the evacuee list and the
safe zones), of the constructor and the time frames of `src/src/Dynamic.cpp`, and
of the constructor of `NAEdgeCache` in `src/src/NAGraph.h`.

Conventions of the embedding

* C++ `double` values are exact rationals (`ℚ`): the arithmetic identities are
  those of the real-number reading of the code, rounding is not modelled.
  Where the code can divide by zero (`DoesItNeedASecondChance`,
  `MergeEvacueeClusters`) the test on the quotient is `quotientReaches`, which
  gives the outcome of the `double` division by zero; the other divisions are
  reached with a divisor that is not zero (`DynamicStep_MoveOnPath` divides by
  the cost of an edge whose segment just added a positive cost, `SafeZoneCost`
  divides under the guard `capacity > 0`).
* The `int` counter of path orders is incremented by `incrInt`, which wraps
  around at `INT_MAX`; `--segment` on a `size_t` wraps around at zero
  (`decrSizeT`).
* Pointers are handles: a path pointer is an index into `World.paths`, an
  evacuee pointer an index into `World.evacuees`, an edge pointer an edge id, a
  safe zone pointer a zone id. `operator new` on a path takes the handle
  `World.nextPath` and increments it.
* `Edge->GetCurrentCost(method)` and `Edge->OriginalCost` belong to the edge
  class, which is outside the embedded file: they enter as functions
  `cost, origCost : Nat → ℚ` of the edge id, fixed for the duration of one call.
* `std::list`/`std::vector` containers are `List`s with the front at the head.
-/

namespace CASPER

/-- Evacuee status, `EvacueeStatus` of the source. -/
inductive EvacueeStatus where
  | Unprocessed
  | CARMALooking
  | Processed
  | Unreachable
  deriving DecidableEq, Repr

/-- Path status, `PathStatus` of the source. -/
inductive PathStatus where
  | ActiveComplete
  | FrozenComplete
  | FrozenSplitted
  deriving DecidableEq, Repr

/-- Modelled from the spec: the `PathSegment` class of the header that goes with
`Evacuee.cpp` is missing; a segment is a slice of an edge with a `from_ratio`
and a `to_ratio`. -/
structure PathSegment where
  Edge : Nat
  fromRatio : ℚ
  toRatio : ℚ
  deriving DecidableEq, Repr

/-- Modelled from the spec: the two-argument constructor call
`PathSegment(edge, fromRatio)` of the missing header; the slice runs from
`fromRatio` to the end of the edge. -/
def PathSegment.ctor (edge : Nat) (fromRatio : ℚ) : PathSegment :=
  { Edge := edge, fromRatio := fromRatio, toRatio := 1 }

/-- Modelled from the spec: `GetEdgePortion` of the missing header, the signed
length of the slice. -/
def PathSegment.GetEdgePortion (s : PathSegment) : ℚ := s.toRatio - s.fromRatio

/-- Modelled from the spec: `GetFromRatio` of the missing header. -/
def PathSegment.GetFromRatio (s : PathSegment) : ℚ := s.fromRatio

/-- Modelled from the spec: `GetToRatio` of the missing header. -/
def PathSegment.GetToRatio (s : PathSegment) : ℚ := s.toRatio

/-- Modelled from the spec: `SetFromRatio` of the missing header, a plain
setter. -/
def PathSegment.SetFromRatio (s : PathSegment) (r : ℚ) : PathSegment :=
  { s with fromRatio := r }

/-- Modelled from the spec: `SetToRatio` of the missing header, a plain
setter. -/
def PathSegment.SetToRatio (s : PathSegment) (r : ℚ) : PathSegment :=
  { s with toRatio := r }

/-- `PathSegment::GetCurrentCost`:
`Edge->GetCurrentCost(method) * abs(GetEdgePortion())`. -/
def PathSegment.GetCurrentCost (cost : Nat → ℚ) (s : PathSegment) : ℚ :=
  cost s.Edge * |s.GetEdgePortion|

/-- An evacuee path: the segment list (`baselist`) and the fields of `EvcPath`
that `Evacuee.cpp` reads and writes. -/
structure EvcPath where
  segs : List PathSegment
  MySafeZone : Nat
  RoutedPop : ℚ
  Status : PathStatus
  PathStartCost : ℚ
  FinalEvacuationCost : ℚ
  ReserveEvacuationCost : ℚ
  OrginalCost : ℚ
  Order : Int
  myEvc : Nat
  deriving DecidableEq, Repr

/-- An `NAVertex` as an anchor of an evacuee: the EID of its junction, the edge
behind the vertex (none for an evacuee that sits on an intersection) and its
`GVal`. -/
structure AnchorVertex where
  EID : Nat
  behindEdge : Option Nat
  GVal : ℚ
  deriving DecidableEq, Repr

/-- An evacuee: the fields of `Evacuee` that `Evacuee.cpp` reads and writes. -/
structure Evacuee where
  ObjectID : Nat
  Population : ℚ
  Status : EvacueeStatus
  Paths : List Nat
  PredictedCost : ℚ
  FinalCost : ℚ
  StartingCost : ℚ
  VerticesAndRatio : List AnchorVertex
  DiscoveryLeaf : Option Nat
  deriving DecidableEq, Repr

/-- The heap the path operations work on: path objects, evacuee objects, the
reservation list of every edge (the paths reserving it) and the reserved
population of every safe zone. -/
structure World where
  paths : Nat → EvcPath
  evacuees : Nat → Evacuee
  edgeRes : Nat → List Nat
  zoneReserved : Nat → ℚ
  nextPath : Nat

/-- Modelled from the spec: `NAEdge::AddReservation` is outside the embedded
file; the path joins the reservation list of the edge. -/
def NAEdge.AddReservation (path : Nat) (res : List Nat) : List Nat := path :: res

/-- Modelled from the spec: `NAEdge::RemoveReservation` is outside the embedded
file; the reservation of the path leaves the list of the edge. -/
def NAEdge.RemoveReservation (path : Nat) (res : List Nat) : List Nat :=
  res.filter (fun q => q ≠ path)

/-- Modelled from the spec: `NAEdge::SwapReservation` is outside the embedded
file; the reservation of `oldPath` is re-attributed to `newPath`. -/
def NAEdge.SwapReservation (oldPath newPath : Nat) (res : List Nat) : List Nat :=
  res.map (fun q => if q = oldPath then newPath else q)

/-- `SafeZone::Reserve`: `reservedPop += pop`. -/
def SafeZone.Reserve (w : World) (zone : Nat) (pop : ℚ) : World :=
  { w with zoneReserved := Function.update w.zoneReserved zone (w.zoneReserved zone + pop) }

/-- `EvcPath::EvcPath(initDelayCostPerPop, routedPop, order, evc, mySafeZone)`:
an empty `ActiveComplete` path whose three costs start at
`RoutedPop * initDelayCostPerPop + PathStartCost`. -/
def EvcPath.ctor (initDelayCostPerPop routedPop : ℚ) (order : Int) (evcId : Nat)
    (evc : Evacuee) (mySafeZone : Nat) : EvcPath :=
  let PathStartCost := evc.StartingCost
  { segs := []
    MySafeZone := mySafeZone
    RoutedPop := routedPop
    Status := PathStatus.ActiveComplete
    PathStartCost := PathStartCost
    FinalEvacuationCost := routedPop * initDelayCostPerPop + PathStartCost
    ReserveEvacuationCost := routedPop * initDelayCostPerPop + PathStartCost
    OrginalCost := routedPop * initDelayCostPerPop + PathStartCost
    Order := order
    myEvc := evcId }

/-- `EvcPath::EvcPath(const EvcPath & that)`: every field is copied, the
segment list starts empty. -/
def EvcPath.copy (that : EvcPath) : EvcPath :=
  { segs := []
    MySafeZone := that.MySafeZone
    RoutedPop := that.RoutedPop
    Status := that.Status
    PathStartCost := that.PathStartCost
    FinalEvacuationCost := that.FinalEvacuationCost
    ReserveEvacuationCost := that.ReserveEvacuationCost
    OrginalCost := that.OrginalCost
    Order := that.Order
    myEvc := that.myEvc }

/-- `new EvcPath(...)`: the object is stored under the next free handle. -/
def World.alloc (w : World) (p : EvcPath) : World :=
  { w with paths := Function.update w.paths w.nextPath p, nextPath := w.nextPath + 1 }

/-- `EvcPath::AddSegment`: the segment goes to the front, the edge gets the
reservation, and the reserve and original costs grow by the cost of the
slice. `cost` is the current edge cost read after the reservation is added. -/
def EvcPath.AddSegment (cost origCost : Nat → ℚ) (w : World) (pid : Nat)
    (segment : PathSegment) : World :=
  let path := w.paths pid
  let p := |segment.GetEdgePortion|
  { w with
    paths := Function.update w.paths pid
      { path with
        segs := segment :: path.segs
        ReserveEvacuationCost := path.ReserveEvacuationCost + cost segment.Edge * p
        OrginalCost := path.OrginalCost + origCost segment.Edge * p }
    edgeRes := Function.update w.edgeRes segment.Edge
      (NAEdge.AddReservation pid (w.edgeRes segment.Edge)) }

/-- `EvcPath::CalculateFinalEvacuationCost`: the final cost restarts at
`RoutedPop * initDelayCostPerPop + PathStartCost`, every segment adds its
current cost, and the evacuee keeps the larger of its final cost and the
path's. -/
def EvcPath.CalculateFinalEvacuationCost (cost : Nat → ℚ) (initDelayCostPerPop : ℚ)
    (w : World) (pid : Nat) : World :=
  let path := w.paths pid
  let fec := path.segs.foldl (fun acc pathSegment => acc + pathSegment.GetCurrentCost cost)
    (path.RoutedPop * initDelayCostPerPop + path.PathStartCost)
  let evc := w.evacuees path.myEvc
  { w with
    paths := Function.update w.paths pid { path with FinalEvacuationCost := fec }
    evacuees := Function.update w.evacuees path.myEvc
      { evc with FinalCost := max evc.FinalCost fec } }

/-- The path a constructor call followed by a sequence of `AddSegment` calls
leaves behind: each call comes with the current edge costs in force at the
time. -/
def buildPath (origCost : Nat → ℚ) (initDelayCostPerPop routedPop : ℚ) (order : Int)
    (evcId mySafeZone : Nat) (w : World) (calls : List ((Nat → ℚ) × PathSegment)) : EvcPath :=
  let w1 := w.alloc
    (EvcPath.ctor initDelayCostPerPop routedPop order evcId (w.evacuees evcId) mySafeZone)
  let w2 := calls.foldl (fun acc c => EvcPath.AddSegment c.1 origCost acc w.nextPath c.2) w1
  w2.paths w.nextPath

/-- Sum over the segments of a path of `Edge.OriginalCost * |edge portion|`. -/
def originalSegmentSum (origCost : Nat → ℚ) (segs : List PathSegment) : ℚ :=
  (segs.map (fun s => origCost s.Edge * |s.GetEdgePortion|)).sum

/-- Sum over the segments of a path of their current costs. -/
def currentSegmentSum (cost : Nat → ℚ) (segs : List PathSegment) : ℚ :=
  (segs.map (fun s => s.GetCurrentCost cost)).sum

/-- An evacuee fresh from its constructor as far as the path operations see
it. -/
def sampleEvacuee : Evacuee :=
  { ObjectID := 0
    Population := 1
    Status := EvacueeStatus.Processed
    Paths := []
    PredictedCost := 0
    FinalCost := 0
    StartingCost := 0
    VerticesAndRatio := []
    DiscoveryLeaf := none }

/-- A world with no path allocated yet. -/
def emptyWorld : World :=
  { paths := fun _ => EvcPath.ctor 0 0 0 0 sampleEvacuee 0
    evacuees := fun _ => sampleEvacuee
    edgeRes := fun _ => []
    zoneReserved := fun _ => 0
    nextPath := 0 }

/-- The line of scenario 1: four whole edges towards the safe zone, pushed
front-first from the last edge back to the first. -/
def lineCalls : List ((Nat → ℚ) × PathSegment) :=
  [(fun _ => 10, PathSegment.mk 3 0 1), (fun _ => 10, PathSegment.mk 2 0 1),
   (fun _ => 10, PathSegment.mk 1 0 1), (fun _ => 10, PathSegment.mk 0 0 1)]

/-- `Evacuee::DynamicMove`: the anchor vertices are dropped; when the two network
queries succeed (`queryOk`) the evacuee gets one anchor on `edge`, at the
junction `toJunction` that `QueryJunctions` reports for the edge, with
`GVal = 1 - toRatio`, `edge` as discovery leaf and `startTime` as starting
cost. -/
def Evacuee.DynamicMove (queryOk : Bool) (toJunction : Nat) (evc : Evacuee) (edge : Nat)
    (toRatio startTime : ℚ) : Evacuee :=
  if queryOk then
    { evc with
      VerticesAndRatio := [{ EID := toJunction, behindEdge := some edge, GVal := 1 - toRatio }]
      DiscoveryLeaf := some edge
      StartingCost := startTime }
  else
    { evc with VerticesAndRatio := [] }

/-- Largest value of `size_t`. -/
def SIZE_MAX : Nat := 2 ^ 64 - 1

/-- `--segment` on a `size_t`: zero wraps around. -/
def decrSizeT (n : Nat) : Nat := if n = 0 then SIZE_MAX else n - 1

/-- Largest value of `int`. -/
def INT_MAX : Int := 2 ^ 31 - 1

/-- Smallest value of `int`. -/
def INT_MIN : Int := -(2 ^ 31)

/-- `++x` on an `int`: below `INT_MAX` the next integer; at `INT_MAX` the
overflow is undefined in C++ and the model takes the wrap-around of two's
complement, `INT_MIN`. -/
def incrInt (x : Int) : Int := (x + 1 + 2 ^ 31) % 2 ^ 32 - 2 ^ 31

/-- The loop
`for (...; pathCost < CurrentTime && segment < path->size(); ++segment)
   pathCost += path->at(segment)->GetCurrentCost(method);`
on the segments from index `segment` on; the result is `(pathCost, segment)`
when the loop stops. -/
def walkSegments (cost : Nat → ℚ) (CurrentTime : ℚ) : List PathSegment → ℚ → Nat → ℚ × Nat
  | [], pathCost, segment => (pathCost, segment)
  | s :: rest, pathCost, segment =>
    if pathCost < CurrentTime then
      walkSegments cost CurrentTime rest (pathCost + s.GetCurrentCost cost) (segment + 1)
    else (pathCost, segment)

/-- The search for the segment where the path is cut, lines 75 to 87: the pair
`(pathCost, segment)` in force at line 92. -/
def findCut (cost : Nat → ℚ) (CurrentTime : ℚ) (path : EvcPath) : ℚ × Nat :=
  if path.FinalEvacuationCost > CurrentTime then
    let r := walkSegments cost CurrentTime path.segs path.PathStartCost 0
    (r.1, decrSizeT r.2)
  else
    (path.FinalEvacuationCost, path.segs.length - 1)

/-- The read-only arguments of `DynamicStep_MoveOnPath`: the current cost of
every edge under the solver method, the affected paths, the time of the slice,
whether the network queries of `DynamicMove` succeed and the EID of the junction
they report for an edge. -/
structure MoveArgs where
  cost : Nat → ℚ
  AffectedPaths : List Nat
  CurrentTime : ℚ
  queryOk : Bool
  toJunction : Nat → Nat

/-- The locals and in-out arguments of `DynamicStep_MoveOnPath` while it loops
over the paths. -/
structure MoveState where
  w : World
  count : Nat
  activeCompleteCount : Nat
  RemoveReservations : List (Nat × Nat)
  pathGenerationCount : Int

/-- `Edge->SwapReservation(path, newPath)` on every edge of `edges`, in that
order. -/
def swapAll (oldPath newPath : Nat) (edges : List Nat) (res : Nat → List Nat) : Nat → List Nat :=
  edges.foldl (fun r e => Function.update r e (NAEdge.SwapReservation oldPath newPath (r e))) res

/-- Lines 94 to 95: the path cannot be split any more; it is frozen as complete
and its evacuee is processed. -/
def freezeComplete (st : MoveState) (pid : Nat) : MoveState :=
  let path := st.w.paths pid
  let evc := st.w.evacuees path.myEvc
  { st with
    w := { st.w with
      paths := Function.update st.w.paths pid { path with Status := PathStatus.FrozenComplete }
      evacuees := Function.update st.w.evacuees path.myEvc
        { evc with Status := EvacueeStatus.Processed } } }

/-- Lines 102 to 104: the evacuee is moved onto the edge of segment `segment`
(the segment `sk`), the segment gets `edgeRatio` as its `to_ratio` and the path
is frozen as splitted. -/
def cutAt (a : MoveArgs) (st : MoveState) (pid segment : Nat) (sk : PathSegment)
    (edgeRatio : ℚ) : MoveState :=
  let path := st.w.paths pid
  let evc := st.w.evacuees path.myEvc
  { st with
    w := { st.w with
      evacuees := Function.update st.w.evacuees path.myEvc
        (evc.DynamicMove a.queryOk (a.toJunction sk.Edge) sk.Edge edgeRatio a.CurrentTime)
      paths := Function.update st.w.paths pid
        { path with
          segs := path.segs.set segment (sk.SetToRatio edgeRatio)
          Status := PathStatus.FrozenSplitted } } }

/-- Lines 110 to 125, the path is in `AffectedPaths`: the reservations of the
segments after `segment` (last one first) and of the cut segment itself are
queued for removal, the evacuee is marked unprocessed, and the safe zone gives
the population back. -/
def dropAffected (st : MoveState) (pid segment : Nat) (sk : PathSegment) : MoveState :=
  let path := st.w.paths pid
  let evc := st.w.evacuees path.myEvc
  let rest := (path.segs.drop (segment + 1)).reverse
  let w1 : World := { st.w with
    evacuees := Function.update st.w.evacuees path.myEvc
      { evc with
        Status := EvacueeStatus.Unprocessed
        PredictedCost := path.FinalEvacuationCost
        FinalCost := path.FinalEvacuationCost } }
  { st with
    w := SafeZone.Reserve w1 path.MySafeZone (-path.RoutedPop)
    count := st.count + 1
    RemoveReservations :=
      st.RemoveReservations ++ rest.map (fun s => (s.Edge, pid)) ++ [(sk.Edge, pid)] }

/-- Lines 130 to 148, the path is not in `AffectedPaths`: a copy of the path
becomes the live half with a new order and `CurrentTime` as start cost; the
segments after `segment` move to it (last one first, each pushed to the front)
together with their reservations, a duplicate of the cut segment starting at
`edgeRatio` goes in front, and the new path goes to the front of the evacuee's
paths. -/
def splitOff (a : MoveArgs) (st : MoveState) (pid segment : Nat) (sk : PathSegment)
    (edgeRatio : ℚ) : MoveState :=
  let path := st.w.paths pid
  let evc := st.w.evacuees path.myEvc
  let rest := (path.segs.drop (segment + 1)).reverse
  let newId := st.w.nextPath
  let gen := incrInt st.pathGenerationCount
  let dupSegment := PathSegment.ctor sk.Edge edgeRatio
  let newPath := { EvcPath.copy path with
    Status := PathStatus.ActiveComplete
    Order := gen
    PathStartCost := a.CurrentTime
    segs := dupSegment :: rest.foldl (fun acc s => s :: acc) [] }
  { st with
    w := { st.w with
      paths := Function.update st.w.paths newId newPath
      evacuees := Function.update st.w.evacuees path.myEvc
        { evc with
          Paths := newId :: evc.Paths
          Status := EvacueeStatus.Processed }
      edgeRes := swapAll pid newId (rest.map (fun s => s.Edge) ++ [sk.Edge]) st.w.edgeRes
      nextPath := newId + 1 }
    activeCompleteCount := st.activeCompleteCount + 1
    pathGenerationCount := gen }

/-- Line 151: `path->erase(path->begin() + segment + 1, path->end())`. -/
def eraseTail (st : MoveState) (pid segment : Nat) : MoveState :=
  let path := st.w.paths pid
  { st with
    w := { st.w with
      paths := Function.update st.w.paths pid { path with segs := path.segs.take (segment + 1) } } }

/-- The body of the loop over `allPaths`, lines 72 to 152, for the path `pid`.
`none` stands for the `std::out_of_range` of `path->at(segment)`. -/
def moveOnePath (a : MoveArgs) (st : MoveState) (pid : Nat) : Option MoveState :=
  let path := st.w.paths pid
  let evc := st.w.evacuees path.myEvc
  if evc.Status ≠ EvacueeStatus.Unreachable ∧ path.segs ≠ []
      ∧ path.Status = PathStatus.ActiveComplete then
    let cut := findCut a.cost a.CurrentTime path
    let pathCost := cut.1
    let segment := cut.2
    if pathCost ≤ a.CurrentTime then
      some (freezeComplete st pid)
    else
      match path.segs[segment]? with
      | none => none
      | some sk =>
        let edgeCost := a.cost sk.Edge
        let edgeRatio := (pathCost - a.CurrentTime) / edgeCost
        let st1 := cutAt a st pid segment sk edgeRatio
        if pid ∈ a.AffectedPaths then
          some (eraseTail (dropAffected st1 pid segment sk) pid segment)
        else
          some (eraseTail (splitOff a st1 pid segment sk edgeRatio) pid segment)
  else
    some st

/-- The final loop of `DynamicStep_MoveOnPath` over `RemoveReservations`: the
reservation of the path leaves the edge and the edge joins
`DynamicallyAffectedEdges`. -/
def flushReservations (rem : List (Nat × Nat)) (res : Nat → List Nat)
    (DynamicallyAffectedEdges : List Nat) : (Nat → List Nat) × List Nat :=
  rem.foldl
    (fun acc p =>
      (Function.update acc.1 p.1 (NAEdge.RemoveReservation p.2 (acc.1 p.1)), acc.2.insert p.1))
    (res, DynamicallyAffectedEdges)

/-- What `DynamicStep_MoveOnPath` leaves behind: the heap, the in-out arguments
and the returned count. -/
structure MoveResult where
  w : World
  DynamicallyAffectedEdges : List Nat
  pathGenerationCount : Int
  count : Nat
  activeCompleteCount : Nat
  ret : Nat

/-- Modelled from the spec: `EvcPath::MoreThanPathOrder2` of the missing header,
read like its sibling `MoreThanPathOrder1`: the path of greater `Order` comes
first. `std::sort` leaves the order among equal keys open; here it is the one of
insertion sort. -/
def sortByOrderDesc (w : World) (allPaths : List Nat) : List Nat :=
  allPaths.insertionSort (fun p q => (w.paths q).Order ≤ (w.paths p).Order)

/-- `EvcPath::DynamicStep_MoveOnPath`. `none` stands for an exception thrown by
`path->at(segment)`. -/
def EvcPath.DynamicStep_MoveOnPath (a : MoveArgs) (w : World) (allPaths : List Nat)
    (DynamicallyAffectedEdges : List Nat) (pathGenerationCount : Int) : Option MoveResult :=
  let st0 : MoveState :=
    { w := w, count := 0, activeCompleteCount := 0, RemoveReservations := [],
      pathGenerationCount := pathGenerationCount }
  let looped : Option MoveState :=
    if a.CurrentTime > 0 then (sortByOrderDesc w allPaths).foldlM (moveOnePath a) st0
    else some st0
  match looped with
  | none => none
  | some st =>
    let fl := flushReservations st.RemoveReservations st.w.edgeRes DynamicallyAffectedEdges
    some
      { w := { st.w with edgeRes := fl.1 }
        DynamicallyAffectedEdges := fl.2
        pathGenerationCount := st.pathGenerationCount
        count := st.count
        activeCompleteCount := st.activeCompleteCount
        ret := if st.count > 0 then st.count else st.activeCompleteCount }

/-- How `DynamicStep_MergePaths` can fail: the `std::logic_error` it throws, or
`front()`/`back()` taken of a path without segments (undefined in C++). -/
inductive MergeError where
  | manyMainPaths
  | emptyPath
  deriving DecidableEq, Repr

/-- Lines 191 to 199: the paths of the evacuee are sorted into the frozen ones
(`frozenList`, in list order) and the main one; a second main path is the
`std::logic_error` (`none`). -/
def identifyPaths (w : World) : List Nat → List Nat → Option Nat → Option (List Nat × Option Nat)
  | [], frozenList, mainPath => some (frozenList, mainPath)
  | p :: ps, frozenList, mainPath =>
    if (w.paths p).Status = PathStatus.FrozenSplitted then
      identifyPaths w ps (frozenList ++ [p]) mainPath
    else
      match mainPath with
      | some _ => none
      | none => identifyPaths w ps frozenList (some p)

/-- Lines 217 to 225, one frozen half `fp` merged into the main path: the front
segment of the main path takes the `from_ratio` of the last segment of `fp`,
then the segments of `fp` from the one before the last back to the first are
pushed to the front; `fp` is cleared. The `_ASSERT_EXPR` lines are debug-only
and compile to nothing. -/
def mergeHalf (mainPath : Nat) (w : World) (fp : Nat) : Except MergeError World :=
  match (w.paths mainPath).segs, (w.paths fp).segs.getLast? with
  | front :: others, some back =>
    let merged := ((w.paths fp).segs.reverse.drop 1).foldl (fun acc seg => seg :: acc)
      (front.SetFromRatio back.GetFromRatio :: others)
    Except.ok { w with
      paths := Function.update
        (Function.update w.paths mainPath { w.paths mainPath with segs := merged })
        fp { w.paths fp with segs := [] } }
  | _, _ => Except.error MergeError.emptyPath

/-- The body of the loop of `DynamicStep_MergePaths` for one evacuee, lines 186
to 238. Deleting a path object leaves the heap cell as it is. -/
def mergeEvacuee (w : World) (e : Nat) : Except MergeError World :=
  let evc := w.evacuees e
  if evc.Status ≠ EvacueeStatus.Unreachable then
    match identifyPaths w evc.Paths [] none with
    | none => Except.error MergeError.manyMainPaths
    | some (frozenList, mainPath) =>
      if frozenList = [] then Except.ok w
      else
        match mainPath with
        | none =>
          Except.ok { w with evacuees := Function.update w.evacuees e { evc with Paths := [] } }
        | some m =>
          match frozenList.foldlM (mergeHalf m) w with
          | Except.error err => Except.error err
          | Except.ok w1 =>
            Except.ok { w1 with
              paths := Function.update w1.paths m { w1.paths m with PathStartCost := 0 }
              evacuees := Function.update w1.evacuees e { w1.evacuees e with Paths := [m] } }
  else
    Except.ok { w with evacuees := Function.update w.evacuees e { evc with Paths := [] } }

/-- `EvcPath::DynamicStep_MergePaths`. -/
def EvcPath.DynamicStep_MergePaths (w : World) (AllEvacuees : List Nat) :
    Except MergeError World :=
  AllEvacuees.foldlM mergeEvacuee w

/-- The cumulative cost of the walk after the first `j` segments of the path:
`PathStartCost` plus their current costs. -/
def cumulativeCost (cost : Nat → ℚ) (path : EvcPath) (j : Nat) : ℚ :=
  path.PathStartCost + currentSegmentSum cost (path.segs.take j)

/-- The walk over the path crosses the time `t` inside segment `k`: the path is
not finished at `t`, the cumulative cost stays below `t` up to the start of
segment `k` and is above `t` at its end. -/
def crossesAt (cost : Nat → ℚ) (t : ℚ) (path : EvcPath) (k : Nat) : Prop :=
  k < path.segs.length ∧ t < path.FinalEvacuationCost
    ∧ (∀ j, j ≤ k → cumulativeCost cost path j < t) ∧ t < cumulativeCost cost path (k + 1)

/-- The ratio line 101 computes when the walk stops behind segment `k`, the
segment `sk`: `(pathCost - CurrentTime) / edgeCost`. -/
def cutRatio (cost : Nat → ℚ) (t : ℚ) (path : EvcPath) (k : Nat) (sk : PathSegment) : ℚ :=
  (cumulativeCost cost path (k + 1) - t) / cost sk.Edge

/-- What a run of loop bodies over the paths of `L` leaves alone: handles only
grow; a path outside `L` keeps its object; an evacuee none of whose paths in `L`
is `ActiveComplete` keeps its record; a safe zone that no affected path of `L`
uses keeps its reserved population; a path outside `L` keeps its reservations;
and the removals queued are for affected paths of `L`. -/
def FrameOn (a : MoveArgs) (L : List Nat) (st st' : MoveState) : Prop :=
  st.w.nextPath ≤ st'.w.nextPath
    ∧ (∀ p, p ∉ L → p < st.w.nextPath → st'.w.paths p = st.w.paths p)
    ∧ (∀ e, (∀ q, q ∈ L → (st.w.paths q).myEvc = e →
          (st.w.paths q).Status ≠ PathStatus.ActiveComplete) →
        st'.w.evacuees e = st.w.evacuees e)
    ∧ (∀ z, (∀ q, q ∈ L → q ∈ a.AffectedPaths → (st.w.paths q).MySafeZone ≠ z) →
        st'.w.zoneReserved z = st.w.zoneReserved z)
    ∧ (∀ x e, x ∉ L → x < st.w.nextPath → (x ∈ st'.w.edgeRes e ↔ x ∈ st.w.edgeRes e))
    ∧ (∃ extra, st'.RemoveReservations = st.RemoveReservations ++ extra
        ∧ ∀ pr, pr ∈ extra → pr.2 ∈ L ∧ pr.2 ∈ a.AffectedPaths)

/-- A path of evacuee 0 towards safe zone 0 carrying one person, with the given
segments, status, start cost and final cost. -/
def samplePath (segs : List PathSegment) (status : PathStatus) (start final : ℚ) : EvcPath :=
  { segs := segs
    MySafeZone := 0
    RoutedPop := 1
    Status := status
    PathStartCost := start
    FinalEvacuationCost := final
    ReserveEvacuationCost := final
    OrginalCost := final
    Order := 1
    myEvc := 0 }

/-- One processed evacuee whose single path, handle 0, is `p`; the path holds a
reservation on every edge and one person is reserved at the safe zone. -/
def oneRouteWorld (p : EvcPath) : World :=
  { paths := fun _ => p
    evacuees := fun _ => { sampleEvacuee with Paths := [0] }
    edgeRes := fun _ => [0]
    zoneReserved := fun _ => 1
    nextPath := 1 }

/-- A slice at time `t` where every edge has current cost 10. -/
def sliceArgs (t : ℚ) (affected : List Nat) : MoveArgs :=
  { cost := fun _ => 10, AffectedPaths := affected, CurrentTime := t, queryOk := true,
    toJunction := fun edge => edge + 1 }

/-- A two-edge route (edges 0 and 1, both whole), each edge costing 10, not yet
started and finished at time 20. -/
def twoEdgePath : EvcPath :=
  samplePath [PathSegment.mk 0 0 1, PathSegment.mk 1 0 1] PathStatus.ActiveComplete 0 20

/-- A one-edge route of cost 10 recorded with the final cost `final`. -/
def oneEdgePath (final : ℚ) : EvcPath :=
  samplePath [PathSegment.mk 0 0 1] PathStatus.ActiveComplete 0 final

/-- The loop body cuts the path `q` in the world `w`: the path is processed
(reachable evacuee, non-empty, `ActiveComplete`) and the cost found by the walk
is after the slice time. -/
def isCut (a : MoveArgs) (w : World) (q : Nat) : Bool :=
  decide ((w.evacuees (w.paths q).myEvc).Status ≠ EvacueeStatus.Unreachable
    ∧ (w.paths q).segs ≠ [] ∧ (w.paths q).Status = PathStatus.ActiveComplete
    ∧ a.CurrentTime < (findCut a.cost a.CurrentTime (w.paths q)).1)

/-- Number of listed paths that are cut and belong to `AffectedPaths`. -/
def affectedCuts (a : MoveArgs) (w : World) (allPaths : List Nat) : Nat :=
  (allPaths.filter (fun q => isCut a w q && decide (q ∈ a.AffectedPaths))).length

/-- Number of listed paths that are cut and do not belong to `AffectedPaths`:
each gets a live half. -/
def liveHalves (a : MoveArgs) (w : World) (allPaths : List Nat) : Nat :=
  (allPaths.filter (fun q => isCut a w q && !decide (q ∈ a.AffectedPaths))).length

/-- A route over the edges 2 and 3, each whole and costing 10, with the order 2;
otherwise like `twoEdgePath`. -/
def upperRoute : EvcPath :=
  { twoEdgePath with segs := [PathSegment.mk 2 0 1, PathSegment.mk 3 0 1], Order := 2 }

/-- A one-edge route with the order 2 that was finished at time 2. -/
def arrivedRoute : EvcPath := { oneEdgePath 2 with Order := 2 }

/-- One processed evacuee with two paths towards the same safe zone: the handle 0
is `p0` and the handle 1 is `p1`; two persons are reserved at the safe zone. -/
def pairWorld (p0 p1 : EvcPath) : World :=
  { paths := fun i => if i = 1 then p1 else p0
    evacuees := fun _ => { sampleEvacuee with Paths := [0, 1] }
    edgeRes := fun e => if e < 2 then [0] else [1]
    zoneReserved := fun _ => 2
    nextPath := 2 }

/-- The population that the listed paths cut inside `AffectedPaths` give back to
the safe zone `z`: the sum of `RoutedPop` over the listed paths that are cut,
belong to `AffectedPaths` and head for `z`. -/
def releasedAt (a : MoveArgs) (w : World) (allPaths : List Nat) (z : Nat) : ℚ :=
  ((allPaths.filter (fun q => isCut a w q && decide (q ∈ a.AffectedPaths)
      && decide ((w.paths q).MySafeZone = z))).map (fun q => (w.paths q).RoutedPop)).sum

/-- Number of evacuees of `evcs` whose status is `Unprocessed`. -/
def unprocessedEvacuees (w : World) (evcs : List Nat) : Nat :=
  (evcs.filter (fun e => decide ((w.evacuees e).Status = EvacueeStatus.Unprocessed))).length

/-- A piece whose first segment takes `r` as its `from_ratio`; edge and
`to_ratio` stay. -/
def spliceFront (r : ℚ) : List PathSegment → List PathSegment
  | [] => []
  | h :: t => h.SetFromRatio r :: t

/-- A piece spliced with the `from_ratio` that is waiting, if one is. -/
def spliceCarry : Option ℚ → List PathSegment → List PathSegment
  | none, l => l
  | some r, l => spliceFront r l

/-- The `from_ratio` of the last segment of a half. -/
def lastFromRatio (F : List PathSegment) : Option ℚ := F.getLast?.map (fun s => s.GetFromRatio)

/-- One frozen half `F` merged into the segments `M` of the main path, as a
function of the two segment lists: `F` without its last segment, then `M` with
the `from_ratio` of its first segment taken from the last segment of `F`. -/
def mergeSegs (M F : List PathSegment) : List PathSegment :=
  F.dropLast ++ spliceCarry (lastFromRatio F) M

/-- The merged path in the words of the spec: the frozen halves in creation
order, oldest first, each without its last segment, then the live tail `M`. The
first segment of every piece is a splice segment: it takes the `from_ratio` that
is waiting (`carry`), which is that of the last segment of the half just passed;
a half with a single segment contributes nothing and hands on the `from_ratio`
it would itself have received from the older half, if there is one. -/
def concatHalves : Option ℚ → List (List PathSegment) → List PathSegment → List PathSegment
  | carry, [], M => spliceCarry carry M
  | carry, G :: rest, M =>
    spliceCarry carry G.dropLast
      ++ concatHalves (if G.dropLast = [] ∧ carry.isSome then carry else lastFromRatio G) rest M

/-- An evacuee after two cuts inside edge 1: the oldest half (handle 0) ends on
edge 1 at ratio 1/4, the second half (handle 1) is the single segment of edge 1
from 1/4 to 1/2, and the main path (handle 2) starts on edge 1 at 1/2. -/
def twiceCutWorld : World :=
  { paths := fun i =>
      if i = 0 then
        samplePath [PathSegment.mk 0 0 1, PathSegment.mk 1 0 (1 / 4)] PathStatus.FrozenSplitted 0 30
      else if i = 1 then
        samplePath [PathSegment.mk 1 (1 / 4) (1 / 2)] PathStatus.FrozenSplitted 0 30
      else
        samplePath [PathSegment.mk 1 (1 / 2) 1, PathSegment.mk 2 0 1] PathStatus.ActiveComplete 0 30
    evacuees := fun _ => { sampleEvacuee with Paths := [2, 1, 0] }
    edgeRes := fun _ => [2]
    zoneReserved := fun _ => 1
    nextPath := 3 }

/-- The invariant of a path segment: `0 ≤ from_ratio ≤ to_ratio ≤ 1`. -/
def segmentInvariant (s : PathSegment) : Prop :=
  0 ≤ s.fromRatio ∧ s.fromRatio ≤ s.toRatio ∧ s.toRatio ≤ 1

/-- A route whose only segment starts at the evacuee's anchor, 4/5 along edge 0,
and runs to the end of the edge: current cost 2. -/
def anchoredPath : EvcPath :=
  samplePath [PathSegment.mk 0 (4 / 5) 1] PathStatus.ActiveComplete 0 2

/-- A route whose only segment ends at the safe zone half way along edge 0:
current cost 5. -/
def halfEdgePath : EvcPath :=
  samplePath [PathSegment.mk 0 0 (1 / 2)] PathStatus.ActiveComplete 0 5

/-- A safe zone object: the EID of its vertex and the private fields of
`SafeZone` that `SafeZoneCost` and `IsRestricted` read. -/
structure SafeZone where
  EID : Nat
  behindEdge : Option Nat
  positionAlong : ℚ
  capacity : ℚ
  reservedPop : ℚ
  deriving DecidableEq, Repr

/-- `SafeZone::SafeZoneCost`. `CASPER_INFINITY` is a constant of a missing header
and enters as a parameter; `GetCost edge pop d` stands for
`edge->GetCost(pop, method, &globalDeltaCost)` of the edge class: the cost it
returns and the value it leaves in `globalDeltaCost` when that holds `d` before.
The result is the returned cost and `globalDeltaCost` afterwards. -/
def SafeZone.SafeZoneCost (CASPER_INFINITY : ℚ) (GetCost : Nat → ℚ → ℚ → ℚ × ℚ) (z : SafeZone)
    (population2Route costPerDensity globalDeltaCost : ℚ) : ℚ × ℚ :=
  let cost : ℚ := 0
  let totalPop := population2Route + z.reservedPop
  if z.capacity = 0 ∧ costPerDensity > 0 then (CASPER_INFINITY, globalDeltaCost)
  else
    let cost :=
      if totalPop > z.capacity ∧ z.capacity > 0 then
        cost + costPerDensity * ((totalPop / z.capacity) - 1)
      else cost
    match z.behindEdge with
    | some edge =>
      let r := GetCost edge population2Route globalDeltaCost
      (cost + r.1 * z.positionAlong, r.2)
    | none => (cost, globalDeltaCost)

/-- The safe zone cost in the words of the spec: infinity for a zone of capacity
0 under a positive cost per density; otherwise the penalty
`cost_per_density * max(0, (reserved_pop + pop) / capacity - 1)` of a zone with
positive capacity (no penalty without one) plus the entry cost
`behind_edge.cost_with(pop) * position_along` of a zone with a behind-edge. -/
def safeZoneCostReference (infinity : ℚ) (costWith : Nat → ℚ → ℚ) (z : SafeZone)
    (pop costPerDensity : ℚ) : ℚ :=
  if z.capacity = 0 ∧ costPerDensity > 0 then infinity
  else
    (if z.capacity > 0 then costPerDensity * max 0 ((z.reservedPop + pop) / z.capacity - 1)
      else 0)
    + (match z.behindEdge with
      | some edge => costWith edge pop * z.positionAlong
      | none => 0)

/-- `SafeZone::IsRestricted`. `QueryAdjacencies eid leadingEdge` stands for
`ecache->QueryAdjacencies(VertexAndRatio, leadingEdge, Forward, &adj)`: the
adjacent edges, or `none` when the query fails. Edges are equal
(`IsEqualNAEdgePtr`) when their ids are. -/
def SafeZone.IsRestricted (QueryAdjacencies : Nat → Option Nat → Option (List Nat))
    (z : SafeZone) (leadingEdge : Option Nat) (costPerDensity : ℚ) : Bool :=
  let restricted : Bool := decide (z.capacity = 0 ∧ costPerDensity > 0)
  if z.behindEdge.isSome && !restricted then
    match QueryAdjacencies z.EID leadingEdge with
    | some adj =>
      adj.foldl (fun r currentEdge => if z.behindEdge = some currentEdge then false else r) true
    | none => true
  else restricted

/-- An `NAVertex` as far as `CheckDiscoveredSafePoint` reads it. -/
structure NAVertex where
  EID : Nat
  GVal : ℚ
  GlobalPenaltyCost : ℚ
  deriving DecidableEq, Repr

/-- The in-out arguments of `SafeZoneTable::CheckDiscoveredSafePoint`. -/
structure SafePointSearch where
  finalVertex : Option NAVertex
  TimeToBeat : ℚ
  BetterSafeZone : Option SafeZone
  globalDeltaCost : ℚ
  foundRestrictedSafezone : Bool
  deriving DecidableEq, Repr

/-- `SafeZoneTable::CheckDiscoveredSafePoint`: the table is the map from vertex
EID to safe zone; the result is the returned flag and the in-out arguments
afterwards. -/
def SafeZoneTable.CheckDiscoveredSafePoint (CASPER_INFINITY : ℚ)
    (GetCost : Nat → ℚ → ℚ → ℚ × ℚ) (QueryAdjacencies : Nat → Option Nat → Option (List Nat))
    (table : Nat → Option SafeZone) (myVertex : NAVertex) (myEdge : Option Nat)
    (s : SafePointSearch) (costPerDensity population2Route : ℚ) : Bool × SafePointSearch :=
  match table myVertex.EID with
  | some zone =>
    if !(zone.IsRestricted QueryAdjacencies myEdge costPerDensity) then
      let r := zone.SafeZoneCost CASPER_INFINITY GetCost population2Route costPerDensity
        s.globalDeltaCost
      let costLeft := r.1
      let globalDeltaCost := r.2
      if s.TimeToBeat > costLeft + myVertex.GVal + myVertex.GlobalPenaltyCost + globalDeltaCost then
        (true, { s with
          BetterSafeZone := some zone
          TimeToBeat := costLeft + myVertex.GVal + myVertex.GlobalPenaltyCost + globalDeltaCost
          finalVertex := some myVertex
          globalDeltaCost := globalDeltaCost })
      else (true, { s with globalDeltaCost := globalDeltaCost })
    else (true, { s with foundRestrictedSafezone := true })
  | none => (false, s)

/-- A safe zone of capacity 10 at vertex 7 without a behind-edge. -/
def openZone : SafeZone :=
  { EID := 7, behindEdge := none, positionAlong := 0, capacity := 10, reservedPop := 0 }

/-- A search state that has found nothing yet and must beat the time `t`. -/
def freshSearch (t : ℚ) : SafePointSearch :=
  { finalVertex := none, TimeToBeat := t, BetterSafeZone := none, globalDeltaCost := 0,
    foundRestrictedSafezone := false }

/-- A safe zone table holding `openZone` alone. -/
def openZoneTable : Nat → Option SafeZone := fun eid => if eid = 7 then some openZone else none

/-- An edge class whose costs are all 0 and that leaves `globalDeltaCost`
alone. -/
def freeEdges : Nat → ℚ → ℚ → ℚ × ℚ := fun _ _ d => (0, d)

/-- `evc->Status = EvacueeStatus::Unprocessed` on the evacuee `e`. -/
def World.demote (w : World) (e : Nat) : World :=
  let evc := w.evacuees e
  { w with
    evacuees := Function.update w.evacuees e { evc with Status := EvacueeStatus.Unprocessed } }

/-- Modelled from the spec: `NAEdge::GetUniqeCrossingPaths` (with the vector
cleaned first) is outside the embedded file; it lists the distinct paths that
reserve the edge. -/
def NAEdge.GetUniqeCrossingPaths (res : List Nat) : List Nat := res.dedup

/-- Modelled from the spec: the `Histogram` class is in a missing header; it
keeps a weight for every path, in the order of first appearance, and the
largest weight reached. -/
structure Histogram where
  entries : List (Nat × ℚ)
  maxWeight : ℚ

/-- Modelled from the spec: one path gains `weight` in the histogram. -/
def Histogram.add (h : Histogram) (item : Nat) (weight : ℚ) : Histogram :=
  let old := (h.entries.lookup item).getD 0
  let entries :=
    if h.entries.any (fun p => p.1 == item) then
      h.entries.map (fun p => if p.1 = item then (p.1, p.2 + weight) else p)
    else h.entries ++ [(item, weight)]
  { entries := entries, maxWeight := max h.maxWeight (old + weight) }

/-- Modelled from the spec: `Histogram::WeightedAdd`, every listed path gains
`weight`. -/
def Histogram.WeightedAdd (h : Histogram) (items : List Nat) (weight : ℚ) : Histogram :=
  items.foldl (fun acc item => acc.add item weight) h

/-- The test `num / den >= bound` of the code, a division of `double` values
compared with a finite `bound`. When `den` is zero (read as `+0.0`) the
quotient of the code is `+inf` for a positive `num`, which passes the test, and
NaN or `-inf` for a zero or negative `num`, which fail it; the quotient of `ℚ`
is used for the other denominators only. -/
def quotientReaches (num den bound : ℚ) : Bool :=
  if den = 0 then decide (0 < num) else decide (bound ≤ num / den)

/-- Lines 322 to 329 for one entry of the histogram: an `ActiveComplete` path of
a `Processed` evacuee whose weight is above the cut-off gets its evacuee into
the affecting list and demoted. -/
def demoteCrossing (cutOffWeight : ℚ) (st : World × List Nat) (pair : Nat × ℚ) :
    World × List Nat :=
  if (st.1.paths pair.1).Status = PathStatus.ActiveComplete
      ∧ (st.1.evacuees (st.1.paths pair.1).myEvc).Status = EvacueeStatus.Processed
      ∧ pair.2 > cutOffWeight then
    (st.1.demote (st.1.paths pair.1).myEvc, st.2 ++ [(st.1.paths pair.1).myEvc])
  else st

/-- `EvcPath::DoesItNeedASecondChance` on the path `pid`: the heap and the
affecting list afterwards. `PredictionReaches` and `EvacuationReaches` are the
tests `PredictionCostRatio >= ThreasholdForCost` and
`EvacuationCostRatio >= ThreasholdForCost` of line 300 on the quotients of lines
297 and 298. -/
def EvcPath.DoesItNeedASecondChance (cost : Nat → ℚ)
    (ThreasholdForCost ThreasholdForPathOverlap ThisIterationMaxCost : ℚ) (w : World)
    (AffectingList : List Nat) (pid : Nat) : World × List Nat :=
  let path := w.paths pid
  let myEvc := w.evacuees path.myEvc
  let PredictionReaches := quotientReaches (path.ReserveEvacuationCost - myEvc.PredictedCost)
    ThisIterationMaxCost ThreasholdForCost
  let EvacuationReaches := quotientReaches (path.FinalEvacuationCost - path.ReserveEvacuationCost)
    ThisIterationMaxCost ThreasholdForCost
  if path.Status = PathStatus.ActiveComplete
      ∧ (PredictionReaches = true ∨ EvacuationReaches = true) then
    let st1 : World × List Nat :=
      if myEvc.Status = EvacueeStatus.Processed then
        (w.demote path.myEvc, AffectingList ++ [path.myEvc])
      else (w, AffectingList)
    let FreqOfOverlaps : Histogram := path.segs.foldl
      (fun (h : Histogram) seg =>
        h.WeightedAdd (NAEdge.GetUniqeCrossingPaths (w.edgeRes seg.Edge)) (seg.GetCurrentCost cost))
      { entries := [], maxWeight := 0 }
    let cutOffWeight := ThreasholdForPathOverlap * FreqOfOverlaps.maxWeight
    FreqOfOverlaps.entries.foldl (demoteCrossing cutOffWeight) st1
  else (w, AffectingList)

/-- The state of the loop of `DetachPathsFromEvacuee`: the heap, the touched
edges and the optional vector of detached paths. -/
structure DetachState where
  w : World
  touchedEdges : List Nat
  detachedPaths : Option (List Nat)

/-- The else branch of the loop of `EvcPath::DetachPathsFromEvacuee` for the
`ActiveComplete` path `path` of the evacuee `evc`, whose list is `kept`, `path`,
`rest`: the path gives its population back to the safe zone, loses its
reservation on the edge of every segment (last segment first), which joins the
touched edges, is erased from the list and goes to `detachedPaths` when that
vector is given (it is deleted otherwise, which leaves the heap cell as it
is). -/
def detachOne (evc : Nat) (st : DetachState) (kept rest : List Nat) (path : Nat) : DetachState :=
  let p := st.w.paths path
  let w1 := SafeZone.Reserve st.w p.MySafeZone (-p.RoutedPop)
  let fl := flushReservations (p.segs.reverse.map (fun s => (s.Edge, path))) w1.edgeRes
    st.touchedEdges
  let e := w1.evacuees evc
  let w2 : World := { w1 with
    edgeRes := fl.1
    evacuees := Function.update w1.evacuees evc { e with Paths := kept ++ rest } }
  { w := w2, touchedEdges := fl.2,
    detachedPaths := st.detachedPaths.map (fun d => d ++ [path]) }

/-- The loop of `EvcPath::DetachPathsFromEvacuee` over the paths of the evacuee
`evc`: `kept` are the paths before the iterator, the list argument the paths
from the iterator on. A path that is not `ActiveComplete` is stepped over, an
`ActiveComplete` one is detached. The list holds no null pointer. -/
def detachLoop (evc : Nat) : DetachState → List Nat → List Nat → DetachState
  | st, _, [] => st
  | st, kept, path :: rest =>
    if (st.w.paths path).Status ≠ PathStatus.ActiveComplete then
      detachLoop evc st (kept ++ [path]) rest
    else
      detachLoop evc (detachOne evc st kept rest path) kept rest

/-- `EvcPath::DetachPathsFromEvacuee`. -/
def EvcPath.DetachPathsFromEvacuee (w : World) (evc : Nat) (touchedEdges : List Nat)
    (detachedPaths : Option (List Nat)) : DetachState :=
  detachLoop evc { w := w, touchedEdges := touchedEdges, detachedPaths := detachedPaths } []
    (w.evacuees evc).Paths

/-- The `ActiveComplete` paths among `paths`, in list order. -/
def activePaths (w : World) (paths : List Nat) : List Nat :=
  paths.filter (fun p => decide ((w.paths p).Status = PathStatus.ActiveComplete))

/-- The paths among `paths` that are not `ActiveComplete`, in list order. -/
def frozenPaths (w : World) (paths : List Nat) : List Nat :=
  paths.filter (fun p => decide ((w.paths p).Status ≠ PathStatus.ActiveComplete))

/-- The population that the paths of `paths` heading for the safe zone `z`
route. -/
def routedTo (w : World) (z : Nat) (paths : List Nat) : ℚ :=
  ((paths.filter (fun p => decide ((w.paths p).MySafeZone = z))).map
    (fun p => (w.paths p).RoutedPop)).sum

/-- The mode of the dynamic engine. -/
inductive DynamicMode where
  | Disabled
  | Simple
  | Smart
  | Full
deriving DecidableEq, Repr

/-- Modelled from the spec: the direction mask of a dynamic change, in a missing
header; `CheckFlag` against `EdgeDirection::Along` and against
`EdgeDirection::Against` reads the two flags. -/
structure EdgeDirection where
  Along : Bool
  Against : Bool
deriving DecidableEq, Repr

/-- Modelled from the spec: `SingleDynamicChange`, declared in a missing header,
with the fields the constructor of `DynamicDisaster` fills; the unordered set
of enclosed edge ids is the list of its elements. -/
structure SingleDynamicChange where
  DisasterDirection : EdgeDirection
  StartTime : ℚ
  EndTime : ℚ
  AffectedCostRate : ℚ
  AffectedCapacityRate : ℚ
  EnclosedEdges : List Nat
deriving DecidableEq

/-- Modelled from the spec: `CriticalTime`, declared in a missing header: a time
and the changes active at that time; the set of critical times is ordered by
`Time`. -/
structure CriticalTime where
  Time : ℚ
  Intersected : List SingleDynamicChange
deriving DecidableEq

/-- `dynamicTimeFrame.emplace(CriticalTime(t))` on the ordered set, kept as the
list of its elements in increasing time: a slice with no change is inserted at
its place unless a slice of that time is there already. -/
def emplace : List CriticalTime → ℚ → List CriticalTime
  | [], t => [{ Time := t, Intersected := [] }]
  | c :: rest, t =>
    if t < c.Time then { Time := t, Intersected := [] } :: c :: rest
    else if c.Time < t then c :: emplace rest t
    else c :: rest

/-- Modelled from the spec: `AddIntersectedChange(p)` on the slice that the
iterator returned by `emplace` for the time `t` points to; the change joins the
back of `Intersected`. -/
def addIntersectedAt (tf : List CriticalTime) (t : ℚ) (p : SingleDynamicChange) :
    List CriticalTime :=
  tf.map (fun c => if c.Time = t then { c with Intersected := c.Intersected ++ [p] } else c)

/-- The loop of `CriticalTime::MergeWithPreviousTimeFrame` from `thisTime` on:
every change of the previous slice that ends after this time, or never, joins
this slice. -/
def mergeLoop (INFINITE : ℚ) : List SingleDynamicChange → List CriticalTime → List CriticalTime
  | _, [] => []
  | previousTimeFrame, thisTime :: rest =>
    let merged : CriticalTime :=
      { thisTime with
        Intersected := thisTime.Intersected ++ previousTimeFrame.filter
          (fun prevChange =>
            decide (prevChange.EndTime > thisTime.Time ∨ prevChange.EndTime ≥ INFINITE)) }
    merged :: mergeLoop INFINITE merged.Intersected rest

/-- `CriticalTime::MergeWithPreviousTimeFrame`; the constructor calls it on a
set that holds at least the slice of time 0. -/
def CriticalTime.MergeWithPreviousTimeFrame (INFINITE : ℚ) :
    List CriticalTime → List CriticalTime
  | [] => []
  | first :: rest => first :: mergeLoop INFINITE first.Intersected rest

/-- What the reads of one row of the table of dynamic changes give: a failure
of a call that ends the construction (`get_Value` on one of the five fields,
`get_NALocationRanges`, `get_EdgeRangeCount`, `get_JunctionCount`), a row that
is no location object, or the five values with the answer of every
`QueryEdgeRange` call (`none` when the call fails) and the junction count. -/
inductive RowRead where
  | valueError
  | noLocation
  | located (DisasterDirection : EdgeDirection)
      (StartTime EndTime AffectedCostRate AffectedCapacityRate : ℚ)
      (edgeQueries : List (Option Nat)) (JunctionCount : Nat)

/-- The table of dynamic changes: whether the five `FindField` calls, `Search`
and `RowCount` succeed, and the rows the cursor gives. -/
structure ChangeTable where
  fieldsOk : Bool
  rows : List RowRead

/-- The locals of the constructor during the loop over the rows: the changes
loaded so far, the flag of the caller, and whether `hr` holds a failure. -/
structure LoadState where
  allChanges : List SingleDynamicChange
  flagBadDynamicChangeSnapping : Bool
  hrFailed : Bool

/-- The loop over the edge ranges of a row: the edge id of every successful
`QueryEdgeRange` is inserted into the set `EnclosedEdges`. -/
def enclosedEdges (edgeQueries : List (Option Nat)) : List Nat :=
  edgeQueries.foldl
    (fun acc q =>
      match q with
      | some EID => if EID ∈ acc then acc else acc ++ [EID]
      | none => acc)
    []

/-- One turn of the loop over the rows (lines 55 to 86). `Except.error` is the
jump to `END_OF_FUNC` with a failed `hr`. A failed `QueryEdgeRange` only skips
the edge range, but `hr` keeps the failure until the next assignment. The row
is kept when `IsValid` accepts it (`IsValid` is declared in a missing
header). -/
def loadRow (IsValid : SingleDynamicChange → Bool) (st : LoadState) :
    RowRead → Except LoadState LoadState
  | RowRead.valueError => Except.error { st with hrFailed := true }
  | RowRead.noLocation => Except.ok { st with hrFailed := false }
  | RowRead.located dir StartTime EndTime AffectedCostRate AffectedCapacityRate edgeQueries
      JunctionCount =>
    let item : SingleDynamicChange :=
      { DisasterDirection := dir
        StartTime := StartTime
        EndTime := EndTime
        AffectedCostRate := AffectedCostRate
        AffectedCapacityRate := AffectedCapacityRate
        EnclosedEdges := enclosedEdges edgeQueries }
    Except.ok
      { allChanges := if IsValid item then st.allChanges ++ [item] else st.allChanges
        flagBadDynamicChangeSnapping :=
          st.flagBadDynamicChangeSnapping || (JunctionCount != 0 && edgeQueries.length == 0)
        hrFailed := edgeQueries.getLast? == some none }

/-- Lines 40 to 86 of the constructor: the null check on the table, the field
lookups and the loop over the rows. -/
def loadTable (IsValid : SingleDynamicChange → Bool) (table : Option ChangeTable)
    (flagBadDynamicChangeSnapping : Bool) : Except LoadState LoadState :=
  let st0 : LoadState :=
    { allChanges := [], flagBadDynamicChangeSnapping := flagBadDynamicChangeSnapping,
      hrFailed := false }
  match table with
  | none => Except.error { st0 with hrFailed := true }
  | some t =>
    if t.fieldsOk then t.rows.foldlM (loadRow IsValid) st0
    else Except.error { st0 with hrFailed := true }

/-- Lines 89 to 111 of the constructor: the slices of time 0 and `INFINITE`,
then in Simple mode every change joins both, and in Smart and Full mode every
change gets a slice at its start and at its end, joins the one at its start,
and the slices are merged. -/
def buildTimeFrame (INFINITE : ℚ) (myDynamicMode : DynamicMode)
    (allChanges : List SingleDynamicChange) : List CriticalTime :=
  let cleared := emplace (emplace [] 0) INFINITE
  match myDynamicMode with
  | DynamicMode.Simple =>
    allChanges.foldl (fun tf p => addIntersectedAt (addIntersectedAt tf 0 p) INFINITE p) cleared
  | DynamicMode.Disabled => cleared
  | _ =>
    CriticalTime.MergeWithPreviousTimeFrame INFINITE
      (allChanges.foldl
        (fun tf p => addIntersectedAt (emplace (emplace tf p.StartTime) p.EndTime) p.StartTime p)
        cleared)

/-- The members of `DynamicDisaster` that the constructor sets. -/
structure DynamicDisaster where
  myDynamicMode : DynamicMode
  allChanges : List SingleDynamicChange
  dynamicTimeFrame : List CriticalTime
deriving DecidableEq

/-- `DynamicDisaster::DynamicDisaster`: the engine and the flag of the caller
afterwards. `INFINITE` is a constant of a missing header. -/
def DynamicDisaster.ctor (INFINITE : ℚ) (IsValid : SingleDynamicChange → Bool)
    (DynamicChangesTable : Option ChangeTable) (dynamicMode : DynamicMode)
    (flagBadDynamicChangeSnapping : Bool) : DynamicDisaster × Bool :=
  let failed : DynamicDisaster :=
    { myDynamicMode := DynamicMode.Disabled, allChanges := [], dynamicTimeFrame := [] }
  match loadTable IsValid DynamicChangesTable flagBadDynamicChangeSnapping with
  | Except.error st => (failed, st.flagBadDynamicChangeSnapping)
  | Except.ok st =>
    let dynamicTimeFrame := buildTimeFrame INFINITE dynamicMode st.allChanges
    let myDynamicMode :=
      if (dynamicMode = DynamicMode.Smart ∨ dynamicMode = DynamicMode.Full)
          ∧ dynamicTimeFrame.length = 2 then DynamicMode.Simple
      else dynamicMode
    if st.hrFailed then (failed, st.flagBadDynamicChangeSnapping)
    else
      ({ myDynamicMode := myDynamicMode, allChanges := st.allChanges,
         dynamicTimeFrame := dynamicTimeFrame }, st.flagBadDynamicChangeSnapping)

/-- The change `c` is active at the time `t`: it has started and it ends later,
or never. -/
def SingleDynamicChange.activeAt (INFINITE : ℚ) (c : SingleDynamicChange) (t : ℚ) : Bool :=
  decide (c.StartTime ≤ t ∧ (t < c.EndTime ∨ INFINITE ≤ c.EndTime))

/-- A change over edge 4, both ways, from time 2 to time 5, tripling the cost
and halving the capacity. -/
def sampleChange : SingleDynamicChange :=
  { DisasterDirection := { Along := true, Against := true }
    StartTime := 2
    EndTime := 5
    AffectedCostRate := 3
    AffectedCapacityRate := 1 / 2
    EnclosedEdges := [4] }

/-- A table whose single row reads as `sampleChange`. -/
def sampleTable : ChangeTable :=
  { fieldsOk := true
    rows := [RowRead.located { Along := true, Against := true } 2 5 3 (1 / 2) [some 4] 0] }

/-- The direction of a network edge. -/
inductive esriNetworkEdgeDirection where
  | esriNEDAlongDigitized
  | esriNEDAgainstDigitized
deriving DecidableEq, Repr

/-- Modelled from the spec: `EdgeOriginalData`, declared in a missing header:
the backup of the cost and the capacity of an edge and the two ratios that the
active changes compose. -/
structure EdgeOriginalData where
  OriginalCost : ℚ
  OriginalCapacity : ℚ
  CostRatio : ℚ
  CapacityRatio : ℚ
deriving DecidableEq

/-- Modelled from the spec: `EdgeOriginalData(edge)`, the backup of an edge on
first touch, with both ratios 1. -/
def EdgeOriginalData.ctor (edge : ℚ × ℚ) : EdgeOriginalData :=
  { OriginalCost := edge.1, OriginalCapacity := edge.2, CostRatio := 1, CapacityRatio := 1 }

/-- Modelled from the spec: `EdgeOriginalData::ResetRatios`, both ratios back
to 1. -/
def EdgeOriginalData.ResetRatios (d : EdgeOriginalData) : EdgeOriginalData :=
  { d with CostRatio := 1, CapacityRatio := 1 }

/-- The loop over `EnclosedEdges` for one direction (lines 176 to 182 and 186
to 192): the edge is backed up unless the map has it, and its two ratios are
multiplied by the rates of the change. `edges` gives the cost and the capacity
of the edge object that `ecache->New` returns. -/
def applyDirection (edges : Nat × esriNetworkEdgeDirection → ℚ × ℚ)
    (polygon : SingleDynamicChange) (dir : esriNetworkEdgeDirection)
    (OriginalEdgeSettings : Nat × esriNetworkEdgeDirection → Option EdgeOriginalData) :
    Nat × esriNetworkEdgeDirection → Option EdgeOriginalData :=
  polygon.EnclosedEdges.foldl
    (fun m EID =>
      let d := (m (EID, dir)).getD (EdgeOriginalData.ctor (edges (EID, dir)))
      Function.update m (EID, dir)
        (some { d with
          CapacityRatio := d.CapacityRatio * polygon.AffectedCapacityRate
          CostRatio := d.CostRatio * polygon.AffectedCostRate }))
    OriginalEdgeSettings

/-- The body of the loop over `Intersected` (lines 172 to 193). -/
def applyChange (edges : Nat × esriNetworkEdgeDirection → ℚ × ℚ)
    (OriginalEdgeSettings : Nat × esriNetworkEdgeDirection → Option EdgeOriginalData)
    (polygon : SingleDynamicChange) : Nat × esriNetworkEdgeDirection → Option EdgeOriginalData :=
  let m1 :=
    if polygon.DisasterDirection.Along then
      applyDirection edges polygon esriNetworkEdgeDirection.esriNEDAlongDigitized
        OriginalEdgeSettings
    else OriginalEdgeSettings
  if polygon.DisasterDirection.Against then
    applyDirection edges polygon esriNetworkEdgeDirection.esriNEDAgainstDigitized m1
  else m1

/-- The undo and apply steps of `CriticalTime::ProcessAllChanges` (lines 163 to
193): every backup has its ratios reset, then every change of the slice is
applied. -/
def CriticalTime.undoAndApply (edges : Nat × esriNetworkEdgeDirection → ℚ × ℚ)
    (slice : CriticalTime)
    (OriginalEdgeSettings : Nat × esriNetworkEdgeDirection → Option EdgeOriginalData) :
    Nat × esriNetworkEdgeDirection → Option EdgeOriginalData :=
  slice.Intersected.foldl (applyChange edges)
    (fun k => (OriginalEdgeSettings k).map EdgeOriginalData.ResetRatios)

/-- The change encloses the edge id of `k` and its direction mask contains the
direction of `k`. -/
def SingleDynamicChange.covers (c : SingleDynamicChange) (k : Nat × esriNetworkEdgeDirection) :
    Bool :=
  decide (k.1 ∈ c.EnclosedEdges) &&
    (match k.2 with
     | esriNetworkEdgeDirection.esriNEDAlongDigitized => c.DisasterDirection.Along
     | esriNetworkEdgeDirection.esriNEDAgainstDigitized => c.DisasterDirection.Against)

/-- The product of `AffectedCostRate` over the listed changes that cover `k`. -/
def costProduct (k : Nat × esriNetworkEdgeDirection) (l : List SingleDynamicChange) : ℚ :=
  ((l.filter (fun c => c.covers k)).map (fun c => c.AffectedCostRate)).prod

/-- The product of `AffectedCapacityRate` over the listed changes that cover
`k`. -/
def capacityProduct (k : Nat × esriNetworkEdgeDirection) (l : List SingleDynamicChange) : ℚ :=
  ((l.filter (fun c => c.covers k)).map (fun c => c.AffectedCapacityRate)).prod

/-- The state of the time frame in Smart and Full mode after the changes `P`
have got their slices and before the merge. -/
def BuiltFrom (INFINITE : ℚ) (tf : List CriticalTime) (P : List SingleDynamicChange) : Prop :=
  (tf.map (fun s => s.Time)).Pairwise (fun a b => a < b)
  ∧ (∀ x, x ∈ tf.map (fun s => s.Time) ↔
      x = 0 ∨ x = INFINITE ∨ ∃ c ∈ P, x = c.StartTime ∨ x = c.EndTime)
  ∧ ∀ s ∈ tf, s.Intersected = P.filter (fun c => decide (c.StartTime = s.Time))

/-- The backup map that the undo and apply steps are to leave for the changes
`l`, by the words of the specification: an entry for every edge that had one or
that a change covers, holding the backed-up cost and capacity and, as ratios,
the products of the rates of the changes that cover the edge. -/
def composedRatios (edges : Nat × esriNetworkEdgeDirection → ℚ × ℚ)
    (OriginalEdgeSettings : Nat × esriNetworkEdgeDirection → Option EdgeOriginalData)
    (l : List SingleDynamicChange) (k : Nat × esriNetworkEdgeDirection) :
    Option EdgeOriginalData :=
  if (OriginalEdgeSettings k).isSome || l.any (fun c => c.covers k) then
    some
      { OriginalCost :=
          ((OriginalEdgeSettings k).getD (EdgeOriginalData.ctor (edges k))).OriginalCost
        OriginalCapacity :=
          ((OriginalEdgeSettings k).getD (EdgeOriginalData.ctor (edges k))).OriginalCapacity
        CostRatio := costProduct k l
        CapacityRatio := capacityProduct k l }
  else none

/-- The slice of time 2 that holds the sample change. -/
def sampleSlice : CriticalTime := { Time := 2, Intersected := [sampleChange] }

/-- `Evacuee::Evacuee(name, pop, objectID)`: an unprocessed evacuee without
anchors or paths whose predicted and final cost start at `CASPER_INFINITY`, a
constant of a missing header. -/
def Evacuee.ctor (CASPER_INFINITY : ℚ) (pop : ℚ) (objectID : Nat) : Evacuee :=
  { ObjectID := objectID
    Population := pop
    Status := EvacueeStatus.Unprocessed
    Paths := []
    PredictedCost := CASPER_INFINITY
    FinalCost := CASPER_INFINITY
    StartingCost := 0
    VerticesAndRatio := []
    DiscoveryLeaf := none }

/-- Modelled from the spec: the traffic models of `EVC_TRAFFIC_MODEL`, declared
in a missing header. -/
inductive EVC_TRAFFIC_MODEL where
  | FLAT
  | STEP
  | LINEAR
  | CASPER
deriving DecidableEq, Repr

/-- The scalar members of `NAEdgeCache` (`NAGraph.h`); the two edge caches and
the reservation tables start empty. -/
structure NAEdgeCache where
  capacityAttribID : Int
  costAttribID : Int
  saturationPerCap : ℚ
  criticalDensPerCap : ℚ
  twoWayRoadsShareCap : Bool
  initDelayCostPerPop : ℚ
  trafficModel : EVC_TRAFFIC_MODEL
deriving DecidableEq, Repr

/-- `NAEdgeCache::NAEdgeCache`: the arguments are stored, and a saturation
density that is not above the critical density is raised by the critical
density. -/
def NAEdgeCache.ctor (CapacityAttribID CostAttribID : Int)
    (SaturationPerCap CriticalDensPerCap : ℚ) (TwoWayRoadsShareCap : Bool)
    (InitDelayCostPerPop : ℚ) (TrafficModel : EVC_TRAFFIC_MODEL) : NAEdgeCache :=
  { capacityAttribID := CapacityAttribID
    costAttribID := CostAttribID
    saturationPerCap :=
      if SaturationPerCap ≤ CriticalDensPerCap then SaturationPerCap + CriticalDensPerCap
      else SaturationPerCap
    criticalDensPerCap := CriticalDensPerCap
    twoWayRoadsShareCap := TwoWayRoadsShareCap
    initDelayCostPerPop := InitDelayCostPerPop
    trafficModel := TrafficModel }

/-- The change that the constructor of `DynamicDisaster` fills from a row that
is a location object. -/
def RowRead.item : RowRead → Option SingleDynamicChange
  | RowRead.located dir StartTime EndTime AffectedCostRate AffectedCapacityRate edgeQueries _ =>
    some
      { DisasterDirection := dir
        StartTime := StartTime
        EndTime := EndTime
        AffectedCostRate := AffectedCostRate
        AffectedCapacityRate := AffectedCapacityRate
        EnclosedEdges := enclosedEdges edgeQueries }
  | _ => none

/-- Every read of the row succeeds: no value error, and every `QueryEdgeRange`
call answers. -/
def RowRead.readsOk : RowRead → Bool
  | RowRead.valueError => false
  | RowRead.noLocation => true
  | RowRead.located _ _ _ _ _ edgeQueries _ => edgeQueries.all (fun q => q.isSome)

/-- A validity check that asks a change to start before it ends. -/
def startsBeforeEnd (c : SingleDynamicChange) : Bool := decide (c.StartTime < c.EndTime)

/-- A table of two rows: one that ends (time 2) before it starts (time 5), and
the row of `sampleChange`. -/
def malformedTable : ChangeTable :=
  { fieldsOk := true
    rows := [RowRead.located { Along := true, Against := true } 5 2 3 (1 / 2) [some 4] 0,
             RowRead.located { Along := true, Against := true } 2 5 3 (1 / 2) [some 4] 0] }

/-- The arguments of one `DoesItNeedASecondChance` call: the two thresholds, the
largest cost of the iteration and the path the call is made on. -/
structure SecondChanceCall where
  ThreasholdForCost : ℚ
  ThreasholdForPathOverlap : ℚ
  ThisIterationMaxCost : ℚ
  path : Nat

/-- A sequence of `DoesItNeedASecondChance` calls, each on the heap and the
affecting list that the one before left. -/
def secondChanceCalls (cost : Nat → ℚ) (calls : List SecondChanceCall)
    (st : World × List Nat) : World × List Nat :=
  calls.foldl
    (fun acc c =>
      EvcPath.DoesItNeedASecondChance cost c.ThreasholdForCost c.ThreasholdForPathOverlap
        c.ThisIterationMaxCost acc.1 acc.2 c.path)
    st

/-- The evacuees `added` are what a run from the heap `w0` and the list `l0`
appended to reach `st`: each was `Processed` in `w0` and is `Unprocessed` in
`st`, none is listed twice, and no other evacuee has changed its status. -/
def AppendedFrom (w0 : World) (l0 : List Nat) (st : World × List Nat) (added : List Nat) : Prop :=
  st.2 = l0 ++ added
  ∧ added.Nodup
  ∧ (∀ e ∈ added, (w0.evacuees e).Status = EvacueeStatus.Processed
      ∧ (st.1.evacuees e).Status = EvacueeStatus.Unprocessed)
  ∧ ∀ e, e ∉ added → (st.1.evacuees e).Status = (w0.evacuees e).Status

/-- The paths among `paths` that are not `FrozenSplitted`: the candidates for the
main path of an evacuee. -/
def mainPaths (w : World) (paths : List Nat) : List Nat :=
  paths.filter (fun p => decide ((w.paths p).Status ≠ PathStatus.FrozenSplitted))

/-- The evacuee has at most one path and none of status `FrozenSplitted`. -/
def Merged (w : World) (e : Nat) : Prop :=
  (w.evacuees e).Paths.length ≤ 1
  ∧ ∀ p ∈ (w.evacuees e).Paths, (w.paths p).Status ≠ PathStatus.FrozenSplitted

/-- Modelled from the spec: the sort modes of `CARMASort`, declared in a missing
header. -/
inductive CARMASort where
  | Forward
  | Backward
  | FWCont
  | BWCont
deriving DecidableEq, Repr

/-- `NAEvacueeVertexTable`, an unordered map from vertex EID to a vector of
evacuees: the EIDs that have an entry, in the order the map is iterated, and the
vector of every entry. -/
structure NAEvacueeVertexTable where
  keys : List Nat
  entries : Nat → List Nat

/-- The evacuees registered under the EID `x`. -/
def NAEvacueeVertexTable.registered (table : NAEvacueeVertexTable) (x : Nat) : List Nat :=
  if x ∈ table.keys then table.entries x else []

/-- Lines 594 to 597 for one anchor vertex: an entry with an empty vector is
inserted for the EID unless there is one, and the evacuee joins the back of the
vector. -/
def registerVertex (evc : Nat) (table : NAEvacueeVertexTable) (v : AnchorVertex) :
    NAEvacueeVertexTable :=
  let inserted : NAEvacueeVertexTable :=
    if v.EID ∈ table.keys then table
    else { keys := table.keys ++ [v.EID], entries := Function.update table.entries v.EID [] }
  { inserted with
    entries := Function.update inserted.entries v.EID (inserted.entries v.EID ++ [evc]) }

/-- What `InsertReachable` reads and writes: the heap, the table itself and the
container of leaf edges (the EIDs inserted with their direction mask). -/
structure ReachState where
  w : World
  table : NAEvacueeVertexTable
  leafs : List (Nat × Nat)

/-- Lines 590 to 597 for the evacuee `evc`, whose record with the prediction
reset or kept is `e`: it becomes `CARMALooking` and is registered under every
anchor vertex. -/
def markLooking (st : ReachState) (evc : Nat) (e : Evacuee) : ReachState :=
  { st with
    w := { st.w with
      evacuees := Function.update st.w.evacuees evc
        { e with Status := EvacueeStatus.CARMALooking } }
    table := e.VerticesAndRatio.foldl (registerVertex evc) st.table }

/-- The body of the loop of `NAEvacueeVertexTable::InsertReachable` for one
evacuee. `origCost` is `OriginalCost` and `edgeEID` the EID of an edge, both of
the edge class; `CASPER_INFINITY` is a constant of a missing header. -/
def insertReachableOne (CASPER_INFINITY : ℚ) (origCost : Nat → ℚ) (edgeEID : Nat → Nat)
    (sortDir : CARMASort) (st : ReachState) (evc : Nat) : ReachState :=
  let e := st.w.evacuees evc
  if e.Status = EvacueeStatus.Unprocessed ∧ e.Population > 0 then
    let e1 : Evacuee :=
      if sortDir = CARMASort.BWCont ∨ sortDir = CARMASort.FWCont then
        { e with PredictedCost := CASPER_INFINITY }
      else e
    match e1.DiscoveryLeaf with
    | some leaf =>
      if origCost leaf ≥ CASPER_INFINITY then
        { st with
          w := { st.w with
            evacuees := Function.update st.w.evacuees evc
              { e1 with Status := EvacueeStatus.Unreachable } } }
      else markLooking { st with leafs := st.leafs ++ [(edgeEID leaf, 3)] } evc e1
    | none => markLooking st evc e1
  else st

/-- `NAEvacueeVertexTable::InsertReachable`. -/
def NAEvacueeVertexTable.InsertReachable (CASPER_INFINITY : ℚ) (origCost : Nat → ℚ)
    (edgeEID : Nat → Nat) (w : World) (table : NAEvacueeVertexTable) (list : List Nat)
    (sortDir : CARMASort) (leafs : List (Nat × Nat)) : ReachState :=
  list.foldl (insertReachableOne CASPER_INFINITY origCost edgeEID sortDir)
    { w := w, table := table, leafs := leafs }

/-- The heap and the vector `SortedEvacuees` during `RemoveDiscoveredEvacuees`
and `LoadSortedEvacuees`. -/
structure DiscoverState where
  w : World
  SortedEvacuees : List Nat

/-- The cost of the edge behind an anchor vertex for `RemoveDiscoveredEvacuees`:
`GetCost(pop, method)` of the edge, 0 without an edge. -/
def anchorEdgeCost (GetCost : Nat → ℚ → ℚ) (pop : ℚ) (v : AnchorVertex) : ℚ :=
  match v.behindEdge with
  | some behindEdge => GetCost behindEdge pop
  | none => 0

/-- Lines 625 to 637 of `RemoveDiscoveredEvacuees` on the record `e` of a
`CARMALooking` evacuee whose anchor at `myVertex` is `foundVertexRatio`: the
evacuee becomes `Unprocessed` with the smaller of its predicted cost and the new
one, and `myEdge` as discovery leaf, when the cost of the edge behind the anchor
is below `CASPER_INFINITY`, and `Unreachable` otherwise. `GetCost` belongs to
the edge class. -/
def Evacuee.discovered (CASPER_INFINITY : ℚ) (GetCost : Nat → ℚ → ℚ) (myVertex : NAVertex)
    (myEdge : Option Nat) (pop : ℚ) (e : Evacuee) (foundVertexRatio : AnchorVertex) : Evacuee :=
  let edgeCost := anchorEdgeCost GetCost pop foundVertexRatio
  if edgeCost < CASPER_INFINITY then
    { e with
      Status := EvacueeStatus.Unprocessed
      PredictedCost :=
        min e.PredictedCost (myVertex.GVal + foundVertexRatio.GVal * edgeCost + e.StartingCost)
      DiscoveryLeaf := myEdge }
  else { e with Status := EvacueeStatus.Unreachable }

/-- The body of the loop of `RemoveDiscoveredEvacuees` for one evacuee of the
entry of `myVertex` (lines 612 to 639): an evacuee with an anchor at the vertex
and status `CARMALooking` is discovered and joins `SortedEvacuees`, whatever the
cost of the edge. -/
def discoverOne (CASPER_INFINITY : ℚ) (GetCost : Nat → ℚ → ℚ) (myVertex : NAVertex)
    (myEdge : Option Nat) (pop : ℚ) (st : DiscoverState) (evc : Nat) : DiscoverState :=
  let e := st.w.evacuees evc
  match e.VerticesAndRatio.find? (fun v => decide (v.EID = myVertex.EID)) with
  | some foundVertexRatio =>
    if e.Status = EvacueeStatus.CARMALooking then
      { w := { st.w with
          evacuees := Function.update st.w.evacuees evc
            (e.discovered CASPER_INFINITY GetCost myVertex myEdge pop foundVertexRatio) }
        SortedEvacuees := st.SortedEvacuees ++ [evc] }
    else st
  | none => st

/-- `NAEvacueeVertexTable::RemoveDiscoveredEvacuees`: the heap, the table and
`SortedEvacuees` afterwards. -/
def NAEvacueeVertexTable.RemoveDiscoveredEvacuees (CASPER_INFINITY : ℚ)
    (GetCost : Nat → ℚ → ℚ) (w : World) (table : NAEvacueeVertexTable) (myVertex : NAVertex)
    (myEdge : Option Nat) (SortedEvacuees : List Nat) (pop : ℚ) :
    DiscoverState × NAEvacueeVertexTable :=
  if myVertex.EID ∈ table.keys then
    ((table.entries myVertex.EID).foldl
        (discoverOne CASPER_INFINITY GetCost myVertex myEdge pop)
        { w := w, SortedEvacuees := SortedEvacuees },
      { keys := table.keys.filter (fun k => decide (k ≠ myVertex.EID))
        entries := Function.update table.entries myVertex.EID [] })
  else ({ w := w, SortedEvacuees := SortedEvacuees }, table)

/-- The body of the loops of `LoadSortedEvacuees` for one evacuee of one
entry. -/
def loadOne (CASPER_INFINITY : ℚ) (st : DiscoverState) (evc : Nat) : DiscoverState :=
  let e := st.w.evacuees evc
  if e.Status = EvacueeStatus.CARMALooking ∨ e.PredictedCost ≥ CASPER_INFINITY then
    { st with
      w := { st.w with
        evacuees := Function.update st.w.evacuees evc
          { e with Status := EvacueeStatus.Unreachable } } }
  else { st with SortedEvacuees := st.SortedEvacuees ++ [evc] }

/-- `NAEvacueeVertexTable::LoadSortedEvacuees`. -/
def NAEvacueeVertexTable.LoadSortedEvacuees (CASPER_INFINITY : ℚ) (w : World)
    (table : NAEvacueeVertexTable) (SortedEvacuees : List Nat) : DiscoverState :=
  table.keys.foldl
    (fun st k => (table.entries k).foldl (loadOne CASPER_INFINITY) st)
    { w := w, SortedEvacuees := SortedEvacuees }

/-- The evacuee record is one that `InsertReachable` takes up: `Unprocessed`
with a positive population. -/
def Evacuee.awaitsCARMA (e : Evacuee) : Prop :=
  e.Status = EvacueeStatus.Unprocessed ∧ e.Population > 0

/-- The discovery leaf of the evacuee record has an original cost of at least
`CASPER_INFINITY`. -/
def Evacuee.trapped (CASPER_INFINITY : ℚ) (origCost : Nat → ℚ) (e : Evacuee) : Prop :=
  ∃ leaf, e.DiscoveryLeaf = some leaf ∧ origCost leaf ≥ CASPER_INFINITY

/-- How often the evacuee `e` is listed under the EID `x`. -/
def NAEvacueeVertexTable.regCount (table : NAEvacueeVertexTable) (x e : Nat) : Nat :=
  (table.registered x).count e

/-- What `InsertReachable` is to leave for the evacuee `e` whose record was `r`
and whose registrations were `c`: `Unreachable` and no new registration when
trapped, `CARMALooking` and one more registration under the EID of every anchor
vertex when taken up and not trapped, and the record and the registrations as
they were otherwise. -/
def InsertOutcome (CASPER_INFINITY : ℚ) (origCost : Nat → ℚ) (r : Evacuee) (c : Nat → Nat)
    (out : ReachState) (e : Nat) : Prop :=
  (r.awaitsCARMA → r.trapped CASPER_INFINITY origCost →
    (out.w.evacuees e).Status = EvacueeStatus.Unreachable
    ∧ ∀ x, out.table.regCount x e = c x)
  ∧ (r.awaitsCARMA → ¬ r.trapped CASPER_INFINITY origCost →
    (out.w.evacuees e).Status = EvacueeStatus.CARMALooking
    ∧ ∀ x, out.table.regCount x e
        = c x + (r.VerticesAndRatio.filter (fun v => decide (v.EID = x))).length)
  ∧ (¬ r.awaitsCARMA → out.w.evacuees e = r ∧ ∀ x, out.table.regCount x e = c x)

/-- One `RemoveDiscoveredEvacuees` call of a CARMA pass: the popped vertex, the
expanding edge and the population. -/
structure DiscoverCall where
  myVertex : NAVertex
  myEdge : Option Nat
  pop : ℚ

/-- A sequence of `RemoveDiscoveredEvacuees` calls, each on the heap, the table
and the vector that the one before left. -/
def discoverCalls (CASPER_INFINITY : ℚ) (GetCost : Nat → ℚ → ℚ) (calls : List DiscoverCall)
    (st : DiscoverState × NAEvacueeVertexTable) : DiscoverState × NAEvacueeVertexTable :=
  calls.foldl
    (fun acc c =>
      NAEvacueeVertexTable.RemoveDiscoveredEvacuees CASPER_INFINITY GetCost acc.1.w acc.2
        c.myVertex c.myEdge acc.1.SortedEvacuees c.pop)
    st

/-- One CARMA pass over an evacuee list: `InsertReachable` into an empty table,
the given `RemoveDiscoveredEvacuees` calls, then `LoadSortedEvacuees`. -/
def carmaPass (CASPER_INFINITY : ℚ) (origCost : Nat → ℚ) (edgeEID : Nat → Nat)
    (GetCost : Nat → ℚ → ℚ) (w : World) (list : List Nat) (sortDir : CARMASort)
    (calls : List DiscoverCall) : DiscoverState :=
  let inserted := NAEvacueeVertexTable.InsertReachable CASPER_INFINITY origCost edgeEID w
    { keys := [], entries := fun _ => [] } list sortDir []
  let found := discoverCalls CASPER_INFINITY GetCost calls
    ({ w := inserted.w, SortedEvacuees := [] }, inserted.table)
  NAEvacueeVertexTable.LoadSortedEvacuees CASPER_INFINITY found.1.w found.2
    found.1.SortedEvacuees

/-- The evacuees `added` are what the turns of the loop of one
`RemoveDiscoveredEvacuees` call appended from the heap `w0` and the vector `S0`
to reach `st`: each was `CARMALooking` with an anchor at the vertex and has the
record that the discovery gives it, none is listed twice, and every other
evacuee has the record it had. -/
def DiscoveredFrom (CASPER_INFINITY : ℚ) (GetCost : Nat → ℚ → ℚ) (myVertex : NAVertex)
    (myEdge : Option Nat) (pop : ℚ) (w0 : World) (S0 : List Nat) (st : DiscoverState)
    (added : List Nat) : Prop :=
  st.SortedEvacuees = S0 ++ added
  ∧ added.Nodup
  ∧ (∀ e ∈ added, (w0.evacuees e).Status = EvacueeStatus.CARMALooking
      ∧ ∃ v, (w0.evacuees e).VerticesAndRatio.find? (fun v => decide (v.EID = myVertex.EID))
            = some v
          ∧ st.w.evacuees e
            = (w0.evacuees e).discovered CASPER_INFINITY GetCost myVertex myEdge pop v)
  ∧ ∀ e, e ∉ added → st.w.evacuees e = w0.evacuees e

/-- An unprocessed evacuee of population 1 on a two-way street: one anchor at
junction 1 behind edge 10 and one at junction 2 behind edge 11, each half way
along, with the predicted cost 1000 that the constructor stores as infinity. -/
def twoAnchorEvacuee : Evacuee :=
  { ObjectID := 0
    Population := 1
    Status := EvacueeStatus.Unprocessed
    Paths := []
    PredictedCost := 1000
    FinalCost := 1000
    StartingCost := 0
    VerticesAndRatio :=
      [{ EID := 1, behindEdge := some 10, GVal := 1 / 2 },
       { EID := 2, behindEdge := some 11, GVal := 1 / 2 }]
    DiscoveryLeaf := none }

/-- A heap whose evacuees are all `twoAnchorEvacuee`. -/
def carmaWorld : World :=
  { paths := fun _ => oneEdgePath 10
    evacuees := fun _ => twoAnchorEvacuee
    edgeRes := fun _ => []
    zoneReserved := fun _ => 0
    nextPath := 0 }

/-- The heap of `carmaWorld` with the evacuee already `CARMALooking` and holding
the predicted cost `predicted`. -/
def lookingWorld (predicted : ℚ) : World :=
  { carmaWorld with
    evacuees := fun _ =>
      { twoAnchorEvacuee with Status := EvacueeStatus.CARMALooking, PredictedCost := predicted } }

/-- The table that lists evacuee 0 under the junctions 1 and 2. -/
def twoAnchorTable : NAEvacueeVertexTable :=
  { keys := [1, 2], entries := fun k => if k = 1 ∨ k = 2 then [0] else [] }

/-- The evacuees `added` are what turns of the loops of `LoadSortedEvacuees`
appended from the heap `w0` and the vector `S0` to reach `st`: each is not
`CARMALooking` and has a predicted cost below `CASPER_INFINITY`, each comes from
the listed `source`, and no predicted cost has changed. -/
def LoadedFrom (CASPER_INFINITY : ℚ) (source : List Nat) (w0 : World) (S0 : List Nat)
    (st : DiscoverState) (added : List Nat) : Prop :=
  st.SortedEvacuees = S0 ++ added
  ∧ (∀ e ∈ added, (st.w.evacuees e).Status ≠ EvacueeStatus.CARMALooking
      ∧ (st.w.evacuees e).PredictedCost < CASPER_INFINITY ∧ e ∈ source)
  ∧ ∀ e, (st.w.evacuees e).PredictedCost = (w0.evacuees e).PredictedCost

/-- The account of a run of `RemoveDiscoveredEvacuees` calls from the vector
`S0`: the evacuees `A` were appended, none twice, and none of them is
`CARMALooking`. -/
def FoundOnce (S0 : List Nat) (st : DiscoverState) (A : List Nat) : Prop :=
  st.SortedEvacuees = S0 ++ A
  ∧ A.Nodup
  ∧ ∀ e ∈ A, (st.w.evacuees e).Status ≠ EvacueeStatus.CARMALooking

/-- Modelled from the spec: the grouping options of `EvacueeGrouping`, a bit mask
of a missing header, as its two flags. -/
structure EvacueeGrouping where
  Merge : Bool
  Separate : Bool
deriving DecidableEq, Repr

/-- The members of `EvacueeList` that `FinilizeGroupings` reads and writes: the
vector of evacuees, the grouping option and the flag that remembers a
separation switched off. -/
structure EvacueeList where
  items : List Nat
  groupingOption : EvacueeGrouping
  SeperationDisabledForDynamicCASPER : Bool

/-- A `std::unordered_map<long, std::list<EvacueePtr>>`: the edge EIDs that have
an entry, in the order the map is iterated, and the list of every entry. -/
structure MapOfLists where
  keys : List Nat
  lists : Nat → List Nat

/-- The evacuees in the lists of the map, entry after entry. -/
def MapOfLists.members (m : MapOfLists) : List Nat := m.keys.flatMap m.lists

/-- `evc->VerticesAndRatio->front()->GVal`. The evacuees that reach the maps of
`FinilizeGroupings` have an anchor vertex: the loop took `front()` of each
before it inserted it; 0 stands for the value of an evacuee without one. -/
def frontGVal (w : World) (evc : Nat) : ℚ :=
  match (w.evacuees evc).VerticesAndRatio with
  | v :: _ => v.GVal
  | [] => 0

/-- `OriginalCost` of the edge behind the front anchor of the evacuee, the
`edge->OriginalCost` of `MergeEvacueeClusters`. The evacuees in the maps have
such an edge; 0 stands for the value of an evacuee without one. -/
def frontEdgeCost (origCost : Nat → ℚ) (w : World) (evc : Nat) : ℚ :=
  match (w.evacuees evc).VerticesAndRatio with
  | v :: _ =>
    match v.behindEdge with
    | some edge => origCost edge
    | none => 0
  | [] => 0

/-- The loop and the insertion of `SortedInsertIntoMapOfLists` on the list of
one entry: the evacuee goes before the first member whose front `GVal` is not
below its own. -/
def sortedInsert (w : World) (evc : Nat) : List Nat → List Nat
  | [] => [evc]
  | j :: rest =>
    if frontGVal w evc > frontGVal w j then j :: sortedInsert w evc rest
    else evc :: j :: rest

/-- `SortedInsertIntoMapOfLists`: an entry with an empty list is inserted for
the EID unless there is one, and the evacuee is inserted into the list in the
order of the front `GVal`. -/
def SortedInsertIntoMapOfLists (w : World) (EdgeEvacuee : MapOfLists) (eid evc : Nat) :
    MapOfLists :=
  let inserted : MapOfLists :=
    if eid ∈ EdgeEvacuee.keys then EdgeEvacuee
    else { keys := EdgeEvacuee.keys ++ [eid], lists := Function.update EdgeEvacuee.lists eid [] }
  { inserted with
    lists := Function.update inserted.lists eid (sortedInsert w evc (inserted.lists eid)) }

/-- `left->Population += i->Population`. -/
def World.absorb (w : World) (left i : Nat) : World :=
  let l := w.evacuees left
  { w with
    evacuees := Function.update w.evacuees left
      { l with Population := l.Population + (w.evacuees i).Population } }

/-- The heap and the vector `ToErase` during the merges. -/
structure ClusterState where
  w : World
  ToErase : List Nat

/-- The body of the inner loop of `MergeEvacueeClusters` for the member `i` of a
list, with the pointer `left` next to the state: a member whose distance to
`left` in front `GVal` passes the test `abs(..) <= OKDistance / edge->OriginalCost`
(`edgeCost` is `edge->OriginalCost`) is put on `ToErase` and its population goes
to `left`; any other member becomes `left`. -/
def mergeClusterOne (OKDistance edgeCost : ℚ) (acc : ClusterState × Option Nat) (i : Nat) :
    ClusterState × Option Nat :=
  match acc.2 with
  | some left =>
    if quotientReaches OKDistance edgeCost |frontGVal acc.1.w i - frontGVal acc.1.w left|
        = true then
      ({ w := acc.1.w.absorb left i, ToErase := acc.1.ToErase ++ [i] }, some left)
    else (acc.1, some i)
  | none => (acc.1, some i)

/-- `MergeEvacueeClusters`: every list of the map is walked from the front with
`left` reset; `edge` is the edge behind the front anchor of the first member. A
list of the map is never empty. -/
def MergeEvacueeClusters (origCost : Nat → ℚ) (st : ClusterState) (EdgeEvacuee : MapOfLists)
    (OKDistance : ℚ) : ClusterState :=
  EdgeEvacuee.keys.foldl
    (fun st k =>
      match EdgeEvacuee.lists k with
      | [] => st
      | first :: rest =>
        ((first :: rest).foldl
          (mergeClusterOne OKDistance (frontEdgeCost origCost st.w first)) (st, none)).1)
    st

/-- The locals of the merge branch of `FinilizeGroupings` during its first
loop. -/
structure GroupingState where
  w : World
  VertexEvacuee : Nat → Option Nat
  EdgeAlongEvacuee : MapOfLists
  EdgeAgainstEvacuee : MapOfLists
  DoubleEdgeEvacuee : MapOfLists
  ToErase : List Nat

/-- The body of the first loop of `FinilizeGroupings` (lines 541 to 556) for one
evacuee; `none` is `front()` of an empty vector of anchors. `edgeEID` and
`edgeDirection` are `EID` and `Direction` of the edge class. -/
def groupOne (edgeEID : Nat → Nat) (edgeDirection : Nat → esriNetworkEdgeDirection)
    (st : GroupingState) (evc : Nat) : Option GroupingState :=
  match (st.w.evacuees evc).VerticesAndRatio with
  | [] => none
  | v1 :: _ =>
    match v1.behindEdge with
    | none =>
      match st.VertexEvacuee v1.EID with
      | none => some { st with VertexEvacuee := Function.update st.VertexEvacuee v1.EID (some evc) }
      | some i => some { st with ToErase := st.ToErase ++ [evc], w := st.w.absorb i evc }
    | some e1 =>
      if (st.w.evacuees evc).VerticesAndRatio.length = 2 then
        some { st with
          DoubleEdgeEvacuee :=
            SortedInsertIntoMapOfLists st.w st.DoubleEdgeEvacuee (edgeEID e1) evc }
      else if edgeDirection e1 = esriNetworkEdgeDirection.esriNEDAlongDigitized then
        some { st with
          EdgeAlongEvacuee :=
            SortedInsertIntoMapOfLists st.w st.EdgeAlongEvacuee (edgeEID e1) evc }
      else
        some { st with
          EdgeAgainstEvacuee :=
            SortedInsertIntoMapOfLists st.w st.EdgeAgainstEvacuee (edgeEID e1) evc }

/-- Modelled from the spec: `unordered_erase` of a missing header with the
predicate of `FinilizeGroupings`: the first element of the vector with the
object id of `e` leaves it. -/
def unordered_erase (w : World) (items : List Nat) (e : Nat) : List Nat :=
  items.eraseP (fun x => decide ((w.evacuees x).ObjectID = (w.evacuees e).ObjectID))

/-- `EvacueeList::FinilizeGroupings`: the heap and the list afterwards; `none`
when `front()` is taken of an empty vector of anchors. -/
def EvacueeList.FinilizeGroupings (origCost : Nat → ℚ) (edgeEID : Nat → Nat)
    (edgeDirection : Nat → esriNetworkEdgeDirection) (w : World) (list : EvacueeList)
    (OKDistance : ℚ) (DynamicCASPEREnabled : DynamicMode) : Option (World × EvacueeList) :=
  let list1 : EvacueeList :=
    if DynamicCASPEREnabled = DynamicMode.Full ∨ DynamicCASPEREnabled = DynamicMode.Smart then
      { list with
        SeperationDisabledForDynamicCASPER := list.groupingOption.Separate
        groupingOption := { list.groupingOption with Separate := false } }
    else list
  if list1.groupingOption.Merge then
    match list1.items.foldlM (groupOne edgeEID edgeDirection)
        { w := w
          VertexEvacuee := fun _ => none
          EdgeAlongEvacuee := { keys := [], lists := fun _ => [] }
          EdgeAgainstEvacuee := { keys := [], lists := fun _ => [] }
          DoubleEdgeEvacuee := { keys := [], lists := fun _ => [] }
          ToErase := [] } with
    | none => none
    | some g =>
      let c1 := MergeEvacueeClusters origCost { w := g.w, ToErase := g.ToErase }
        g.EdgeAgainstEvacuee OKDistance
      let c2 := MergeEvacueeClusters origCost c1 g.EdgeAlongEvacuee OKDistance
      let c3 := MergeEvacueeClusters origCost c2 g.DoubleEdgeEvacuee OKDistance
      some (c3.w, { list1 with items := c3.ToErase.foldl (unordered_erase c3.w) list1.items })
  else some (w, list1)

/-- The sum of `Population` over the listed evacuees. -/
def totalPopulation (w : World) (l : List Nat) : ℚ :=
  (l.map (fun e => (w.evacuees e).Population)).sum

/-- The evacuees of `L` that are not on `ToErase`. -/
def survivors (L ToErase : List Nat) : List Nat := L.filter (fun x => decide (x ∉ ToErase))

/-- The state of the merges of `FinilizeGroupings` on the list `L` from the heap
`w0`: the evacuees not on `ToErase` hold the whole population, the evacuees
still to be walked (`pending`) are distinct members of `L` not on `ToErase`,
no evacuee has changed its anchors or its object id, and `ToErase` holds
evacuees of `L` only. -/
def Grouped (L : List Nat) (w0 : World) (st : ClusterState) (pending : List Nat) : Prop :=
  totalPopulation st.w (survivors L st.ToErase) = totalPopulation w0 L
  ∧ (∀ x ∈ pending, x ∈ L ∧ x ∉ st.ToErase)
  ∧ pending.Nodup
  ∧ (∀ e, (st.w.evacuees e).VerticesAndRatio = (w0.evacuees e).VerticesAndRatio
      ∧ (st.w.evacuees e).ObjectID = (w0.evacuees e).ObjectID)
  ∧ ∀ x ∈ st.ToErase, x ∈ L

/-- The state of the first loop of `FinilizeGroupings` on the list `L` after the
evacuees `P`: the account of the merges with the members of the three maps
still to be walked, `ToErase`, the evacuees kept per junction and the members
of the maps all among `P`, no evacuee kept per junction on `ToErase`, and no EID
twice among the keys of a map. -/
def GroupingInv (L : List Nat) (w0 : World) (P : List Nat) (st : GroupingState) : Prop :=
  Grouped L w0 { w := st.w, ToErase := st.ToErase }
      (st.EdgeAgainstEvacuee.members
        ++ (st.EdgeAlongEvacuee.members ++ st.DoubleEdgeEvacuee.members))
  ∧ (∀ x ∈ st.ToErase, x ∈ P)
  ∧ (∀ k x, st.VertexEvacuee k = some x → x ∈ P ∧ x ∉ st.ToErase)
  ∧ (∀ x ∈ st.EdgeAgainstEvacuee.members
        ++ (st.EdgeAlongEvacuee.members ++ st.DoubleEdgeEvacuee.members), x ∈ P)
  ∧ st.EdgeAgainstEvacuee.keys.Nodup
  ∧ st.EdgeAlongEvacuee.keys.Nodup
  ∧ st.DoubleEdgeEvacuee.keys.Nodup

/-- A heap whose evacuee `e` is `twoAnchorEvacuee` with the object id `e`. -/
def groupingWorld : World :=
  { carmaWorld with evacuees := fun e => { twoAnchorEvacuee with ObjectID := e } }

/-- The list of the evacuees 0 and 1 with the merge option on. -/
def groupingList : EvacueeList :=
  { items := [0, 1]
    groupingOption := { Merge := true, Separate := false }
    SeperationDisabledForDynamicCASPER := false }

/-- The heap of `oneRouteWorld twoEdgePath` with the evacuee as the constructor
leaves it for `CASPER_INFINITY = 1000`, but for the path it owns. -/
def freshEvacueeWorld : World :=
  let evc := Evacuee.ctor 1000 1 0
  { oneRouteWorld twoEdgePath with evacuees := fun _ => { evc with Paths := [0] } }

/-! ## Theorems -/

theorem foldl_add_eq_sum {α : Type} (f : α → ℚ) (l : List α) (a : ℚ) :
    l.foldl (fun acc x => acc + f x) a = a + (l.map f).sum := by
  induction l generalizing a with
  | nil => simp
  | cons x xs ih => simp [ih, add_assoc]

/-- C1: after `CalculateFinalEvacuationCost` the path's final evacuation cost is
`RoutedPop * initDelayCostPerPop + PathStartCost` plus the sum over its segments
of the edge's current cost times the absolute edge portion. -/
theorem C1_final_cost_identity (cost : Nat → ℚ) (initDelayCostPerPop : ℚ) (w : World)
    (pid : Nat) :
    ((EvcPath.CalculateFinalEvacuationCost cost initDelayCostPerPop w pid).paths pid).FinalEvacuationCost
      = (w.paths pid).RoutedPop * initDelayCostPerPop + (w.paths pid).PathStartCost
        + ((w.paths pid).segs.map (fun s => cost s.Edge * |s.GetEdgePortion|)).sum := by
  simp only [EvcPath.CalculateFinalEvacuationCost, Function.update_same]
  rw [foldl_add_eq_sum]
  rfl

theorem AddSegment_paths_same (cost origCost : Nat → ℚ) (w : World) (pid : Nat)
    (s : PathSegment) :
    (EvcPath.AddSegment cost origCost w pid s).paths pid =
      { w.paths pid with
        segs := s :: (w.paths pid).segs
        ReserveEvacuationCost := (w.paths pid).ReserveEvacuationCost + cost s.Edge * |s.GetEdgePortion|
        OrginalCost := (w.paths pid).OrginalCost + origCost s.Edge * |s.GetEdgePortion| } := by
  simp [EvcPath.AddSegment]

theorem foldl_AddSegment_original (origCost : Nat → ℚ) (pid : Nat)
    (calls : List ((Nat → ℚ) × PathSegment)) (w : World) :
    ((calls.foldl (fun acc c => EvcPath.AddSegment c.1 origCost acc pid c.2) w).paths pid).OrginalCost
        - originalSegmentSum origCost
            ((calls.foldl (fun acc c => EvcPath.AddSegment c.1 origCost acc pid c.2) w).paths pid).segs
      = (w.paths pid).OrginalCost - originalSegmentSum origCost (w.paths pid).segs := by
  induction calls generalizing w with
  | nil => rfl
  | cons c cs ih =>
    rw [List.foldl_cons, ih, AddSegment_paths_same]
    simp only [originalSegmentSum, List.map_cons, List.sum_cons]
    ring

/-- C2 (as the code has it): a path built by the constructor and any sequence of
`AddSegment` calls has an original cost of
`RoutedPop * initDelayCostPerPop + StartingCost` of its evacuee plus the sum over
its segments of the edge's original cost times the absolute edge portion. -/
theorem C2_original_cost_with_start (origCost : Nat → ℚ) (initDelayCostPerPop routedPop : ℚ)
    (order : Int) (evcId mySafeZone : Nat) (w : World)
    (calls : List ((Nat → ℚ) × PathSegment)) :
    (buildPath origCost initDelayCostPerPop routedPop order evcId mySafeZone w calls).OrginalCost
      = routedPop * initDelayCostPerPop + (w.evacuees evcId).StartingCost
        + originalSegmentSum origCost
            (buildPath origCost initDelayCostPerPop routedPop order evcId mySafeZone w calls).segs := by
  have h := foldl_AddSegment_original origCost w.nextPath calls
    (w.alloc (EvcPath.ctor initDelayCostPerPop routedPop order evcId (w.evacuees evcId) mySafeZone))
  simp only [World.alloc, Function.update_same, EvcPath.ctor, originalSegmentSum, List.map_nil,
    List.sum_nil, sub_zero] at h
  simp only [buildPath, World.alloc, EvcPath.ctor, originalSegmentSum]
  linarith

/-- C2 fails as stated: on the line of scenario 1 (four edges of original cost
10, population 1) with an initial delay of 1 per person the original cost of the
path is 41 while the sum over its segments is 40. -/
theorem C2_counterexample :
    (buildPath (fun _ => 10) 1 1 0 0 0 emptyWorld lineCalls).OrginalCost = 41
      ∧ originalSegmentSum (fun _ => 10)
          (buildPath (fun _ => 10) 1 1 0 0 0 emptyWorld lineCalls).segs = 40 := by
  constructor
  · simp [buildPath, lineCalls, emptyWorld, World.alloc, EvcPath.AddSegment, EvcPath.ctor,
      sampleEvacuee, PathSegment.GetEdgePortion]
    norm_num
  · simp [buildPath, lineCalls, emptyWorld, World.alloc, EvcPath.AddSegment, EvcPath.ctor,
      sampleEvacuee, PathSegment.GetEdgePortion, originalSegmentSum]
    norm_num

theorem currentSegmentSum_take_succ (cost : Nat → ℚ) (s : PathSegment) (l : List PathSegment)
    (i : Nat) :
    currentSegmentSum cost ((s :: l).take (i + 1))
      = s.GetCurrentCost cost + currentSegmentSum cost (l.take i) := by
  simp [currentSegmentSum]

theorem walkSegments_spec (cost : Nat → ℚ) (t : ℚ) (l : List PathSegment) (pc : ℚ) (seg : Nat) :
    ∃ j, j ≤ l.length
      ∧ walkSegments cost t l pc seg = (pc + currentSegmentSum cost (l.take j), seg + j)
      ∧ (∀ i, i < j → pc + currentSegmentSum cost (l.take i) < t)
      ∧ (j = l.length ∨ t ≤ pc + currentSegmentSum cost (l.take j)) := by
  induction l generalizing pc seg with
  | nil => exact ⟨0, le_refl _, by simp [walkSegments, currentSegmentSum], by simp, Or.inl rfl⟩
  | cons s rest ih =>
    by_cases h : pc < t
    · obtain ⟨j, hj, hw, hlt, hstop⟩ := ih (pc + s.GetCurrentCost cost) (seg + 1)
      refine ⟨j + 1, by simpa using hj, ?_, ?_, ?_⟩
      · rw [walkSegments, if_pos h, hw, currentSegmentSum_take_succ]
        simp only [Prod.mk.injEq]
        constructor
        · ring
        · omega
      · intro i hi
        cases i with
        | zero => simpa [currentSegmentSum] using h
        | succ i =>
          rw [currentSegmentSum_take_succ, ← add_assoc]
          exact hlt i (by omega)
      · rcases hstop with hstop | hstop
        · left; simp [hstop]
        · right
          rw [currentSegmentSum_take_succ, ← add_assoc]
          exact hstop
    · refine ⟨0, Nat.zero_le _, ?_, by simp, Or.inr ?_⟩
      · rw [walkSegments, if_neg h]; simp [currentSegmentSum]
      · simpa [currentSegmentSum] using not_lt.mp h


theorem findCut_of_crossesAt (cost : Nat → ℚ) (t : ℚ) (path : EvcPath) (k : Nat)
    (h : crossesAt cost t path k) :
    findCut cost t path = (cumulativeCost cost path (k + 1), k) := by
  obtain ⟨hk, hfec, hlt, hgt⟩ := h
  obtain ⟨j, hj, hw, hbelow, hstop⟩ := walkSegments_spec cost t path.segs path.PathStartCost 0
  have hj1 : j = k + 1 := by
    rcases Nat.lt_trichotomy j (k + 1) with hlt1 | heq | hgt1
    · exfalso
      have hjk : j ≤ k := by omega
      have := hlt j hjk
      rcases hstop with hstop | hstop
      · omega
      · exact absurd this (not_lt.mpr hstop)
    · exact heq
    · exfalso
      have := hbelow (k + 1) hgt1
      exact absurd hgt (not_lt.mpr (le_of_lt this))
  subst hj1
  simp only [findCut, gt_iff_lt, hfec, if_true, hw, cumulativeCost, decrSizeT]
  simp

theorem findCut_in_range (cost : Nat → ℚ) (t : ℚ) (path : EvcPath)
    (hstart : path.PathStartCost ≤ t)
    (hgt : t < (findCut cost t path).1) :
    ∃ k, (findCut cost t path) = (cumulativeCost cost path (k + 1), k) ∧ crossesAt cost t path k := by
  by_cases hfec : t < path.FinalEvacuationCost
  · obtain ⟨j, hj, hw, hbelow, hstop⟩ := walkSegments_spec cost t path.segs path.PathStartCost 0
    have hcut : findCut cost t path
        = (path.PathStartCost + currentSegmentSum cost (path.segs.take j), decrSizeT (0 + j)) := by
      simp only [findCut, gt_iff_lt, hfec, if_true, hw]
    rw [hcut] at hgt
    cases j with
    | zero =>
      exfalso
      simp [currentSegmentSum] at hgt
      linarith
    | succ k =>
      refine ⟨k, ?_, ?_, hfec, ?_, ?_⟩
      · rw [hcut]; simp [cumulativeCost, decrSizeT]
      · omega
      · intro i hi
        exact hbelow i (by omega)
      · exact hgt
  · exfalso
    simp only [findCut, gt_iff_lt, hfec, if_false] at hgt



/-- The division of line 101 is reached with a divisor that is not zero: the
segment where the walk crosses the slice time added a positive cost, so the
current cost of its edge is not zero. -/
theorem cut_edge_cost_ne_zero (cost : Nat → ℚ) (t : ℚ) (path : EvcPath) (k : Nat)
    (sk : PathSegment) (hcross : crossesAt cost t path k) (hsk : path.segs[k]? = some sk) :
    cost sk.Edge ≠ 0 := by
  obtain ⟨hk, -, hlt, hgt⟩ := hcross
  have h1 := hlt k (le_refl k)
  have hsk' : path.segs[k] = sk := by
    rw [List.getElem?_eq_getElem hk] at hsk
    exact Option.some.inj hsk
  have hstep : cumulativeCost cost path (k + 1)
      = cumulativeCost cost path k + sk.GetCurrentCost cost := by
    unfold cumulativeCost currentSegmentSum
    rw [List.take_succ, List.getElem?_eq_getElem hk, hsk']
    simp [add_assoc]
  intro h0
  have hz : sk.GetCurrentCost cost = 0 := by
    unfold PathSegment.GetCurrentCost
    rw [h0, zero_mul]
  rw [hstep, hz, add_zero] at hgt
  exact absurd h1 (not_lt.mpr (le_of_lt hgt))

theorem moveOnePath_split (a : MoveArgs) (st : MoveState) (P k : Nat)
    (hreach : (st.w.evacuees (st.w.paths P).myEvc).Status ≠ EvacueeStatus.Unreachable)
    (hact : (st.w.paths P).Status = PathStatus.ActiveComplete)
    (hcross : crossesAt a.cost a.CurrentTime (st.w.paths P) k) :
    ∃ sk, (st.w.paths P).segs[k]? = some sk ∧
      moveOnePath a st P = some (eraseTail
        (if P ∈ a.AffectedPaths then
          dropAffected (cutAt a st P k sk (cutRatio a.cost a.CurrentTime (st.w.paths P) k sk)) P k sk
        else
          splitOff a (cutAt a st P k sk (cutRatio a.cost a.CurrentTime (st.w.paths P) k sk)) P k sk
            (cutRatio a.cost a.CurrentTime (st.w.paths P) k sk)) P k) := by
  have hcut := findCut_of_crossesAt a.cost a.CurrentTime (st.w.paths P) k hcross
  obtain ⟨hk, -, -, hgt⟩ := hcross
  have hne : (st.w.paths P).segs ≠ [] := by
    intro h; rw [h] at hk; simp at hk
  refine ⟨(st.w.paths P).segs[k], List.getElem?_eq_getElem hk, ?_⟩
  unfold moveOnePath
  simp only [hcut, hreach, hne, hact, ne_eq, not_false_eq_true, and_self, if_true,
    not_le.mpr hgt, if_false, List.getElem?_eq_getElem hk, cutRatio]
  split_ifs <;> rfl

theorem moveOnePath_complete (a : MoveArgs) (st : MoveState) (P : Nat)
    (hreach : (st.w.evacuees (st.w.paths P).myEvc).Status ≠ EvacueeStatus.Unreachable)
    (hne : (st.w.paths P).segs ≠ [])
    (hact : (st.w.paths P).Status = PathStatus.ActiveComplete)
    (hle : (findCut a.cost a.CurrentTime (st.w.paths P)).1 ≤ a.CurrentTime) :
    moveOnePath a st P = some (freezeComplete st P) := by
  unfold moveOnePath
  simp only [hreach, hne, hact, ne_eq, not_false_eq_true, and_self, if_true, hle]

theorem moveOnePath_cases (a : MoveArgs) (st st' : MoveState) (q : Nat)
    (h : moveOnePath a st q = some st') :
    st' = st ∨ st' = freezeComplete st q
      ∨ (∃ seg sk r, q ∈ a.AffectedPaths
          ∧ st' = eraseTail (dropAffected (cutAt a st q seg sk r) q seg sk) q seg)
      ∨ (∃ seg sk r, q ∉ a.AffectedPaths
          ∧ st' = eraseTail (splitOff a (cutAt a st q seg sk r) q seg sk r) q seg) := by
  unfold moveOnePath at h
  dsimp only at h
  by_cases h1 : (st.w.evacuees (st.w.paths q).myEvc).Status ≠ EvacueeStatus.Unreachable
      ∧ (st.w.paths q).segs ≠ [] ∧ (st.w.paths q).Status = PathStatus.ActiveComplete
  · rw [if_pos h1] at h
    by_cases h2 : (findCut a.cost a.CurrentTime (st.w.paths q)).1 ≤ a.CurrentTime
    · rw [if_pos h2] at h
      right; left; exact (Option.some.inj h).symm
    · rw [if_neg h2] at h
      split at h
      · exact absurd h (by simp)
      · by_cases h3 : q ∈ a.AffectedPaths
        · rw [if_pos h3] at h
          right; right; left; exact ⟨_, _, _, h3, (Option.some.inj h).symm⟩
        · rw [if_neg h3] at h
          right; right; right; exact ⟨_, _, _, h3, (Option.some.inj h).symm⟩
  · rw [if_neg h1] at h
    left; exact (Option.some.inj h).symm

theorem moveOnePath_total (a : MoveArgs) (st : MoveState) (q : Nat)
    (hstart : (st.w.paths q).PathStartCost ≤ a.CurrentTime) :
    ∃ st', moveOnePath a st q = some st' := by
  unfold moveOnePath
  dsimp only
  by_cases h1 : (st.w.evacuees (st.w.paths q).myEvc).Status ≠ EvacueeStatus.Unreachable
      ∧ (st.w.paths q).segs ≠ [] ∧ (st.w.paths q).Status = PathStatus.ActiveComplete
  · rw [if_pos h1]
    by_cases h2 : (findCut a.cost a.CurrentTime (st.w.paths q)).1 ≤ a.CurrentTime
    · rw [if_pos h2]; exact ⟨_, rfl⟩
    · rw [if_neg h2]
      obtain ⟨k, hcut, hk, -⟩ := findCut_in_range a.cost a.CurrentTime (st.w.paths q) hstart
        (not_le.mp h2)
      simp only [hcut, List.getElem?_eq_getElem hk]
      split_ifs <;> exact ⟨_, rfl⟩
  · rw [if_neg h1]; exact ⟨_, rfl⟩


theorem swapReservation_mem (old new x : Nat) (l : List Nat) (h1 : x ≠ old) (h2 : x ≠ new) :
    x ∈ NAEdge.SwapReservation old new l ↔ x ∈ l := by
  simp only [NAEdge.SwapReservation, List.mem_map]
  constructor
  · rintro ⟨q, hq, hx⟩
    by_cases hqo : q = old
    · rw [if_pos hqo] at hx; exact absurd hx.symm h2
    · rw [if_neg hqo] at hx; exact hx ▸ hq
  · intro hx
    exact ⟨x, hx, by rw [if_neg h1]⟩

theorem swapAll_mem (old new x : Nat) (edges : List Nat) (res : Nat → List Nat) (e : Nat)
    (h1 : x ≠ old) (h2 : x ≠ new) :
    x ∈ swapAll old new edges res e ↔ x ∈ res e := by
  induction edges generalizing res with
  | nil => simp [swapAll]
  | cons e0 es ih =>
    have := ih (Function.update res e0 (NAEdge.SwapReservation old new (res e0)))
    simp only [swapAll, List.foldl_cons] at this ⊢
    rw [this]
    by_cases he : e = e0
    · subst he
      rw [Function.update_same]
      exact swapReservation_mem old new x _ h1 h2
    · rw [Function.update_noteq he]

theorem moveOnePath_inactive (a : MoveArgs) (st : MoveState) (q : Nat)
    (h : (st.w.paths q).Status ≠ PathStatus.ActiveComplete) : moveOnePath a st q = some st := by
  unfold moveOnePath
  dsimp only
  rw [if_neg (fun hh => h hh.2.2)]

theorem moveOnePath_unreachable (a : MoveArgs) (st st' : MoveState) (q : Nat)
    (h : moveOnePath a st q = some st') (e : Nat) :
    (st'.w.evacuees e).Status = EvacueeStatus.Unreachable
      ↔ (st.w.evacuees e).Status = EvacueeStatus.Unreachable := by
  unfold moveOnePath at h
  dsimp only at h
  by_cases h1 : (st.w.evacuees (st.w.paths q).myEvc).Status ≠ EvacueeStatus.Unreachable
      ∧ (st.w.paths q).segs ≠ [] ∧ (st.w.paths q).Status = PathStatus.ActiveComplete
  · rw [if_pos h1] at h
    have key : ∀ st2 : MoveState,
        (∀ e', e' ≠ (st.w.paths q).myEvc → st2.w.evacuees e' = st.w.evacuees e') →
        (st2.w.evacuees (st.w.paths q).myEvc).Status ≠ EvacueeStatus.Unreachable →
        ((st2.w.evacuees e).Status = EvacueeStatus.Unreachable
          ↔ (st.w.evacuees e).Status = EvacueeStatus.Unreachable) := by
      intro st2 hother hself
      by_cases he : e = (st.w.paths q).myEvc
      · subst he
        exact ⟨fun hh => absurd hh hself, fun hh => absurd hh h1.1⟩
      · rw [hother e he]
    by_cases h2 : (findCut a.cost a.CurrentTime (st.w.paths q)).1 ≤ a.CurrentTime
    · rw [if_pos h2] at h
      rw [← Option.some.inj h]
      apply key
      · intro e' he'; simp [freezeComplete, Function.update_noteq he']
      · simp [freezeComplete]
    · rw [if_neg h2] at h
      split at h
      · exact absurd h (by simp)
      · by_cases h3 : q ∈ a.AffectedPaths
        · rw [if_pos h3] at h
          rw [← Option.some.inj h]
          apply key
          · intro e' he'
            simp [eraseTail, dropAffected, cutAt, SafeZone.Reserve, Function.update_noteq he']
          · simp [eraseTail, dropAffected, cutAt, SafeZone.Reserve]
        · rw [if_neg h3] at h
          rw [← Option.some.inj h]
          apply key
          · intro e' he'
            simp [eraseTail, splitOff, cutAt, Function.update_noteq he']
          · simp [eraseTail, splitOff, cutAt]
  · rw [if_neg h1] at h
    rw [← Option.some.inj h]

theorem isCut_congr (a : MoveArgs) (w w' : World) (q : Nat) (hp : w'.paths q = w.paths q)
    (hu : ∀ e, (w'.evacuees e).Status = EvacueeStatus.Unreachable
      ↔ (w.evacuees e).Status = EvacueeStatus.Unreachable) :
    isCut a w' q = isCut a w q := by
  simp only [isCut, hp, ne_eq, hu]

theorem frameOn_refl (a : MoveArgs) (L : List Nat) (st : MoveState) : FrameOn a L st st :=
  ⟨le_refl _, fun _ _ _ => rfl, fun _ _ => rfl, fun _ _ => rfl, fun _ _ _ _ => Iff.rfl,
    ⟨[], by simp, by simp⟩⟩

theorem frameOn_step (a : MoveArgs) (st st' : MoveState) (q : Nat)
    (h : moveOnePath a st q = some st') : FrameOn a [q] st st' := by
  by_cases hact : (st.w.paths q).Status = PathStatus.ActiveComplete
  swap
  · rw [moveOnePath_inactive a st q hact] at h
    rw [← Option.some.inj h]
    exact frameOn_refl a [q] st
  rcases moveOnePath_cases a st st' q h with h | h | ⟨seg, sk, r, hq, h⟩ | ⟨seg, sk, r, hq, h⟩
  · rw [h]; exact frameOn_refl a [q] st
  · rw [h]
    refine ⟨le_refl _, ?_, ?_, ?_, ?_, ⟨[], by simp [freezeComplete], by simp⟩⟩
    · intro p hp _
      have hpq : p ≠ q := by simpa using hp
      simp [freezeComplete, Function.update_noteq hpq]
    · intro e he
      have heq : e ≠ (st.w.paths q).myEvc := fun hh => he q (by simp) hh.symm hact
      simp [freezeComplete, Function.update_noteq heq]
    · intro z _; rfl
    · intro x e _ _; rfl
  · rw [h]
    refine ⟨le_refl _, ?_, ?_, ?_, ?_,
      ⟨((((cutAt a st q seg sk r).w.paths q).segs.drop (seg + 1)).reverse.map
          (fun s => (s.Edge, q))) ++ [(sk.Edge, q)], ?_, ?_⟩⟩
    · intro p hp _
      have hpq : p ≠ q := by simpa using hp
      simp [eraseTail, dropAffected, cutAt, SafeZone.Reserve, Function.update_noteq hpq]
    · intro e he
      have heq : e ≠ (st.w.paths q).myEvc := fun hh => he q (by simp) hh.symm hact
      simp [eraseTail, dropAffected, cutAt, SafeZone.Reserve, Function.update_noteq heq]
    · intro z hz
      have hzq : z ≠ (st.w.paths q).MySafeZone := fun hh => hz q (by simp) hq hh.symm
      simp [eraseTail, dropAffected, cutAt, SafeZone.Reserve, Function.update_noteq hzq]
    · intro x e _ _; rfl
    · simp [eraseTail, dropAffected, cutAt, List.append_assoc]
    · intro pr hpr
      simp only [List.mem_append, List.mem_map, List.mem_singleton] at hpr
      rcases hpr with ⟨s, -, rfl⟩ | rfl
      · exact ⟨by simp, hq⟩
      · exact ⟨by simp, hq⟩
  · rw [h]
    refine ⟨?_, ?_, ?_, ?_, ?_, ⟨[], by simp [eraseTail, splitOff, cutAt], by simp⟩⟩
    · simp [eraseTail, splitOff, cutAt]
    · intro p hp hlt
      have hpq : p ≠ q := by simpa using hp
      have hpn : p ≠ st.w.nextPath := Nat.ne_of_lt hlt
      simp [eraseTail, splitOff, cutAt, Function.update_noteq hpq, Function.update_noteq hpn]
    · intro e he
      have heq : e ≠ (st.w.paths q).myEvc := fun hh => he q (by simp) hh.symm hact
      by_cases hqn : q = st.w.nextPath
      · subst hqn
        simp [eraseTail, splitOff, cutAt, Function.update_noteq heq, EvcPath.copy]
      · simp [eraseTail, splitOff, cutAt, Function.update_noteq heq, EvcPath.copy]
    · intro z _; rfl
    · intro x e hx hlt
      have hxq : x ≠ q := by simpa using hx
      have hxn : x ≠ st.w.nextPath := Nat.ne_of_lt hlt
      simp only [eraseTail, splitOff, cutAt]
      exact swapAll_mem q st.w.nextPath x _ _ e hxq hxn


theorem frameOn_cons (a : MoveArgs) (q : Nat) (L : List Nat) (st st1 st2 : MoveState)
    (h1 : FrameOn a [q] st st1) (h2 : FrameOn a L st1 st2) (hq : q ∉ L)
    (halloc : ∀ p, p ∈ L → p < st.w.nextPath) : FrameOn a (q :: L) st st2 := by
  obtain ⟨n1, p1, e1, z1, r1, ⟨x1, hx1, hx1'⟩⟩ := h1
  obtain ⟨n2, p2, e2, z2, r2, ⟨x2, hx2, hx2'⟩⟩ := h2
  have hsame : ∀ p, p ∈ L → st1.w.paths p = st.w.paths p := by
    intro p hp
    refine p1 p ?_ (halloc p hp)
    simp only [List.mem_singleton]
    rintro rfl
    exact hq hp
  refine ⟨le_trans n1 n2, ?_, ?_, ?_, ?_, ⟨x1 ++ x2, ?_, ?_⟩⟩
  · intro p hp hlt
    simp only [List.mem_cons, not_or] at hp
    rw [p2 p hp.2 (lt_of_lt_of_le hlt n1), p1 p (by simpa using hp.1) hlt]
  · intro e he
    rw [e2 e ?_, e1 e ?_]
    · intro x hx
      simp only [List.mem_singleton] at hx
      exact he x (by simp [hx])
    · intro x hx
      rw [hsame x hx]
      exact he x (by simp [hx])
  · intro z hz
    rw [z2 z ?_, z1 z ?_]
    · intro x hx hxa
      simp only [List.mem_singleton] at hx
      exact hz x (by simp [hx]) hxa
    · intro x hx hxa
      rw [hsame x hx]
      exact hz x (by simp [hx]) hxa
  · intro x e hx hlt
    simp only [List.mem_cons, not_or] at hx
    rw [r2 x e hx.2 (lt_of_lt_of_le hlt n1), r1 x e (by simpa using hx.1) hlt]
  · rw [hx2, hx1, List.append_assoc]
  · intro pr hpr
    rcases List.mem_append.mp hpr with h | h
    · have := hx1' pr h
      exact ⟨by simp [List.mem_singleton.mp this.1], this.2⟩
    · have := hx2' pr h
      exact ⟨List.mem_cons_of_mem _ this.1, this.2⟩

theorem frameOn_fold (a : MoveArgs) (L : List Nat) (st st' : MoveState)
    (h : L.foldlM (moveOnePath a) st = some st') (hnd : L.Nodup)
    (halloc : ∀ p, p ∈ L → p < st.w.nextPath) : FrameOn a L st st' := by
  induction L generalizing st with
  | nil =>
    simp only [List.foldlM_nil, pure, Option.some.injEq] at h
    rw [← h]; exact frameOn_refl a [] st
  | cons q L ih =>
    rw [List.foldlM_cons] at h
    obtain ⟨st1, hs1, hrest⟩ := Option.bind_eq_some.mp h
    have hf1 := frameOn_step a st st1 q hs1
    have hq : q ∉ L := (List.nodup_cons.mp hnd).1
    have halloc' : ∀ p, p ∈ L → p < st1.w.nextPath := fun p hp =>
      lt_of_lt_of_le (halloc p (List.mem_cons_of_mem _ hp)) hf1.1
    exact frameOn_cons a q L st st1 st' hf1 (ih st1 hrest (List.nodup_cons.mp hnd).2 halloc') hq
      (fun p hp => halloc p (List.mem_cons_of_mem _ hp))

theorem fold_total (a : MoveArgs) (L : List Nat) (st : MoveState) (hnd : L.Nodup)
    (halloc : ∀ p, p ∈ L → p < st.w.nextPath)
    (hstart : ∀ p, p ∈ L → (st.w.paths p).PathStartCost ≤ a.CurrentTime) :
    ∃ st', L.foldlM (moveOnePath a) st = some st' := by
  induction L generalizing st with
  | nil => exact ⟨st, rfl⟩
  | cons q L ih =>
    obtain ⟨st1, hs1⟩ := moveOnePath_total a st q (hstart q (by simp))
    have hf1 := frameOn_step a st st1 q hs1
    have hq : q ∉ L := (List.nodup_cons.mp hnd).1
    have hsame : ∀ p, p ∈ L → st1.w.paths p = st.w.paths p := by
      intro p hp
      refine hf1.2.1 p ?_ (halloc p (List.mem_cons_of_mem _ hp))
      simp only [List.mem_singleton]
      rintro rfl
      exact hq hp
    obtain ⟨st2, hs2⟩ := ih st1 (List.nodup_cons.mp hnd).2
      (fun p hp => lt_of_lt_of_le (halloc p (List.mem_cons_of_mem _ hp)) hf1.1)
      (fun p hp => by rw [hsame p hp]; exact hstart p (List.mem_cons_of_mem _ hp))
    exact ⟨st2, by rw [List.foldlM_cons, hs1]; exact hs2⟩


theorem removeReservation_mem (path x : Nat) (l : List Nat) :
    x ∈ NAEdge.RemoveReservation path l ↔ x ∈ l ∧ x ≠ path := by
  simp [NAEdge.RemoveReservation, List.mem_filter]

theorem flushReservations_mem (rem : List (Nat × Nat)) (res : Nat → List Nat) (dae : List Nat)
    (x e : Nat) :
    x ∈ (flushReservations rem res dae).1 e ↔ x ∈ res e ∧ (e, x) ∉ rem := by
  induction rem generalizing res dae with
  | nil => simp [flushReservations]
  | cons pr rem ih =>
    have := ih (Function.update res pr.1 (NAEdge.RemoveReservation pr.2 (res pr.1)))
      (dae.insert pr.1)
    simp only [flushReservations, List.foldl_cons] at this ⊢
    rw [this]
    by_cases he : e = pr.1
    · subst he
      rw [Function.update_same, removeReservation_mem]
      simp only [List.mem_cons, not_or]
      constructor
      · rintro ⟨⟨h1, h2⟩, h3⟩
        refine ⟨h1, ?_, h3⟩
        intro heq
        exact h2 (by rw [← heq])
      · rintro ⟨h1, h2, h3⟩
        refine ⟨⟨h1, ?_⟩, h3⟩
        intro heq
        exact h2 (by rw [heq])
    · rw [Function.update_noteq he]
      simp only [List.mem_cons, not_or]
      constructor
      · rintro ⟨h1, h3⟩
        refine ⟨h1, ?_, h3⟩
        intro heq
        exact he (by rw [← heq])
      · rintro ⟨h1, -, h3⟩
        exact ⟨h1, h3⟩

theorem flushReservations_edges (rem : List (Nat × Nat)) (res : Nat → List Nat) (dae : List Nat)
    (e : Nat) :
    e ∈ (flushReservations rem res dae).2 ↔ e ∈ dae ∨ ∃ pr, pr ∈ rem ∧ pr.1 = e := by
  induction rem generalizing res dae with
  | nil => simp [flushReservations]
  | cons pr rem ih =>
    have := ih (Function.update res pr.1 (NAEdge.RemoveReservation pr.2 (res pr.1)))
      (dae.insert pr.1)
    simp only [flushReservations, List.foldl_cons] at this ⊢
    rw [this]
    simp only [List.mem_insert_iff, List.mem_cons, exists_eq_or_imp]
    constructor
    · rintro ((h | h) | h)
      · right; left; exact h.symm
      · left; exact h
      · right; right; exact h
    · rintro (h | h | h)
      · left; right; exact h
      · left; left; exact h.symm
      · right; exact h


theorem sortByOrderDesc_perm (w : World) (L : List Nat) : (sortByOrderDesc w L).Perm L :=
  List.perm_insertionSort _ _

theorem fold_unreachable (a : MoveArgs) (L : List Nat) (st st' : MoveState)
    (h : L.foldlM (moveOnePath a) st = some st') (e : Nat) :
    (st'.w.evacuees e).Status = EvacueeStatus.Unreachable
      ↔ (st.w.evacuees e).Status = EvacueeStatus.Unreachable := by
  induction L generalizing st with
  | nil =>
    simp only [List.foldlM_nil, pure, Option.some.injEq] at h
    rw [← h]
  | cons q L ih =>
    rw [List.foldlM_cons] at h
    obtain ⟨st1, hs1, hrest⟩ := Option.bind_eq_some.mp h
    rw [ih st1 hrest, moveOnePath_unreachable a st st1 q hs1 e]

/-- The loop body only pushes to the front of the path list of an evacuee. -/
theorem moveOnePath_paths_suffix (a : MoveArgs) (st st' : MoveState) (q : Nat)
    (h : moveOnePath a st q = some st') (e : Nat) :
    (st.w.evacuees e).Paths <:+ (st'.w.evacuees e).Paths := by
  rcases moveOnePath_cases a st st' q h with h | h | ⟨seg, sk, r, -, h⟩ | ⟨seg, sk, r, -, h⟩
  · rw [h]
  · rw [h]
    by_cases he : e = (st.w.paths q).myEvc
    · subst he; simp [freezeComplete]
    · simp [freezeComplete, Function.update_noteq he]
  · rw [h]
    by_cases he : e = (st.w.paths q).myEvc
    · subst he
      cases hq : a.queryOk <;>
        simp [eraseTail, dropAffected, cutAt, SafeZone.Reserve, Evacuee.DynamicMove, hq]
    · simp [eraseTail, dropAffected, cutAt, SafeZone.Reserve, Function.update_noteq he]
  · rw [h]
    by_cases he : e = (st.w.paths q).myEvc
    · subst he
      cases hq : a.queryOk <;>
        simp [eraseTail, splitOff, cutAt, Evacuee.DynamicMove, hq, EvcPath.copy,
          List.suffix_cons]
    · simp [eraseTail, splitOff, cutAt, Function.update_noteq he, EvcPath.copy]

theorem fold_paths_suffix (a : MoveArgs) (L : List Nat) (st st' : MoveState)
    (h : L.foldlM (moveOnePath a) st = some st') (e : Nat) :
    (st.w.evacuees e).Paths <:+ (st'.w.evacuees e).Paths := by
  induction L generalizing st with
  | nil =>
    simp only [List.foldlM_nil, pure, Option.some.injEq] at h
    rw [← h]
  | cons q L ih =>
    rw [List.foldlM_cons] at h
    obtain ⟨st1, hs1, hrest⟩ := Option.bind_eq_some.mp h
    exact (moveOnePath_paths_suffix a st st1 q hs1 e).trans (ih st1 hrest)

/-- The loop body takes the routed population of a path cut inside
`AffectedPaths` from its safe zone and leaves the other zones alone. -/
theorem moveOnePath_zone (a : MoveArgs) (st st' : MoveState) (q : Nat)
    (h : moveOnePath a st q = some st') (z : Nat) :
    st'.w.zoneReserved z = st.w.zoneReserved z
      - (if isCut a st.w q && decide (q ∈ a.AffectedPaths)
            && decide ((st.w.paths q).MySafeZone = z) then (st.w.paths q).RoutedPop else 0) := by
  unfold moveOnePath at h
  dsimp only at h
  by_cases h1 : (st.w.evacuees (st.w.paths q).myEvc).Status ≠ EvacueeStatus.Unreachable
      ∧ (st.w.paths q).segs ≠ [] ∧ (st.w.paths q).Status = PathStatus.ActiveComplete
  · rw [if_pos h1] at h
    by_cases h2 : (findCut a.cost a.CurrentTime (st.w.paths q)).1 ≤ a.CurrentTime
    · rw [if_pos h2] at h
      rw [← Option.some.inj h]
      have hc : isCut a st.w q = false := by
        simp only [isCut, decide_eq_false_iff_not]
        intro hh
        exact absurd hh.2.2.2 (not_lt.mpr h2)
      simp [hc, freezeComplete]
    · rw [if_neg h2] at h
      have hc : isCut a st.w q = true := by
        simp only [isCut, decide_eq_true_eq]
        exact ⟨h1.1, h1.2.1, h1.2.2, not_le.mp h2⟩
      split at h
      · exact absurd h (by simp)
      · by_cases h3 : q ∈ a.AffectedPaths
        · rw [if_pos h3] at h
          rw [← Option.some.inj h]
          by_cases hz : (st.w.paths q).MySafeZone = z
          · subst hz
            simp [hc, h3, eraseTail, dropAffected, cutAt, SafeZone.Reserve, sub_eq_add_neg]
          · have hz' : z ≠ (st.w.paths q).MySafeZone := fun hh => hz hh.symm
            simp [hc, h3, hz, eraseTail, dropAffected, cutAt, SafeZone.Reserve,
              Function.update_noteq hz']
        · rw [if_neg h3] at h
          rw [← Option.some.inj h]
          simp [hc, h3, eraseTail, splitOff, cutAt]
  · rw [if_neg h1] at h
    rw [← Option.some.inj h]
    have hc : isCut a st.w q = false := by
      simp only [isCut, decide_eq_false_iff_not]
      intro hh
      exact h1 ⟨hh.1, hh.2.1, hh.2.2.1⟩
    simp [hc]

theorem releasedAt_cons (a : MoveArgs) (w : World) (q : Nat) (L : List Nat) (z : Nat) :
    releasedAt a w (q :: L) z
      = (if isCut a w q && decide (q ∈ a.AffectedPaths)
            && decide ((w.paths q).MySafeZone = z) then (w.paths q).RoutedPop else 0)
        + releasedAt a w L z := by
  simp only [releasedAt, List.filter_cons]
  split_ifs <;> simp

theorem releasedAt_congr (a : MoveArgs) (w w' : World) (L : List Nat) (z : Nat)
    (hp : ∀ q, q ∈ L → w'.paths q = w.paths q)
    (hu : ∀ e, (w'.evacuees e).Status = EvacueeStatus.Unreachable
      ↔ (w.evacuees e).Status = EvacueeStatus.Unreachable) :
    releasedAt a w' L z = releasedAt a w L z := by
  induction L with
  | nil => rfl
  | cons q L ih =>
    rw [releasedAt_cons, releasedAt_cons, ih (fun p hp' => hp p (List.mem_cons_of_mem _ hp')),
      isCut_congr a w w' q (hp q (List.mem_cons_self _ _)) hu, hp q (List.mem_cons_self _ _)]

theorem releasedAt_perm (a : MoveArgs) (w : World) (L L' : List Nat) (z : Nat)
    (h : L.Perm L') : releasedAt a w L z = releasedAt a w L' z := by
  unfold releasedAt
  exact ((h.filter _).map _).sum_eq

/-- The loop takes from every safe zone what the listed paths cut inside
`AffectedPaths` had reserved there. -/
theorem fold_zone (a : MoveArgs) (L : List Nat) (st st' : MoveState)
    (h : L.foldlM (moveOnePath a) st = some st') (hnd : L.Nodup)
    (halloc : ∀ p, p ∈ L → p < st.w.nextPath) (z : Nat) :
    st'.w.zoneReserved z = st.w.zoneReserved z - releasedAt a st.w L z := by
  induction L generalizing st with
  | nil =>
    simp only [List.foldlM_nil, pure, Option.some.injEq] at h
    rw [← h]; simp [releasedAt]
  | cons q L ih =>
    rw [List.foldlM_cons] at h
    obtain ⟨st1, hs1, hrest⟩ := Option.bind_eq_some.mp h
    have hf1 := frameOn_step a st st1 q hs1
    have hq : q ∉ L := (List.nodup_cons.mp hnd).1
    have hsame : ∀ p, p ∈ L → st1.w.paths p = st.w.paths p := by
      intro p hp
      refine hf1.2.1 p ?_ (halloc p (List.mem_cons_of_mem _ hp))
      simp only [List.mem_singleton]
      rintro rfl
      exact hq hp
    rw [ih st1 hrest (List.nodup_cons.mp hnd).2
        (fun p hp => lt_of_lt_of_le (halloc p (List.mem_cons_of_mem _ hp)) hf1.1),
      moveOnePath_zone a st st1 q hs1 z,
      releasedAt_congr a st.w st1.w L z hsame (moveOnePath_unreachable a st st1 q hs1),
      releasedAt_cons]
    ring

theorem move_localise (a : MoveArgs) (w : World) (allPaths dae : List Nat) (gen : Int) (P : Nat)
    (ht : 0 < a.CurrentTime) (hP : P ∈ allPaths) (hnd : allPaths.Nodup)
    (halloc : ∀ q, q ∈ allPaths → q < w.nextPath)
    (hstart : ∀ q, q ∈ allPaths → (w.paths q).PathStartCost ≤ a.CurrentTime) :
    ∃ st1 st2 r,
      EvcPath.DynamicStep_MoveOnPath a w allPaths dae gen = some r
      ∧ moveOnePath a st1 P = some st2
      ∧ st1.w.paths P = w.paths P
      ∧ w.nextPath ≤ st1.w.nextPath
      ∧ ((∀ q, q ∈ allPaths → q ≠ P → (w.paths q).myEvc = (w.paths P).myEvc →
            (w.paths q).Status ≠ PathStatus.ActiveComplete) →
          st1.w.evacuees (w.paths P).myEvc = w.evacuees (w.paths P).myEvc
          ∧ r.w.evacuees (w.paths P).myEvc = st2.w.evacuees (w.paths P).myEvc)
      ∧ ((∀ q, q ∈ allPaths → q ≠ P → q ∈ a.AffectedPaths →
            (w.paths q).MySafeZone ≠ (w.paths P).MySafeZone) →
          st1.w.zoneReserved (w.paths P).MySafeZone = w.zoneReserved (w.paths P).MySafeZone
          ∧ r.w.zoneReserved (w.paths P).MySafeZone = st2.w.zoneReserved (w.paths P).MySafeZone)
      ∧ (∀ e, P ∈ st1.w.edgeRes e ↔ P ∈ w.edgeRes e)
      ∧ (∀ pr, pr ∈ st1.RemoveReservations → pr.2 ≠ P ∧ pr.2 ∈ allPaths)
      ∧ (∀ p, p < st2.w.nextPath → (p ∈ allPaths → p = P) → r.w.paths p = st2.w.paths p)
      ∧ (∀ x e, x < st2.w.nextPath → (x ∈ allPaths → x = P) →
          (x ∈ r.w.edgeRes e ↔ x ∈ st2.w.edgeRes e ∧ (e, x) ∉ st2.RemoveReservations))
      ∧ (∀ pr, pr ∈ st2.RemoveReservations → pr.1 ∈ r.DynamicallyAffectedEdges)
      ∧ (∀ e, (st1.w.evacuees e).Status = EvacueeStatus.Unreachable
          ↔ (w.evacuees e).Status = EvacueeStatus.Unreachable)
      ∧ (∀ e, (w.evacuees e).Paths <:+ (st1.w.evacuees e).Paths)
      ∧ (∀ e, (st2.w.evacuees e).Paths <:+ (r.w.evacuees e).Paths)
      ∧ (∀ z, r.w.zoneReserved z = w.zoneReserved z - releasedAt a w allPaths z) := by
  have hperm := sortByOrderDesc_perm w allPaths
  have hPs : P ∈ sortByOrderDesc w allPaths := hperm.mem_iff.mpr hP
  have hnds : (sortByOrderDesc w allPaths).Nodup := hperm.nodup_iff.mpr hnd
  obtain ⟨L1, L2, hL⟩ := List.append_of_mem hPs
  rw [hL] at hnds
  have hmem : ∀ q, q ∈ L1 ∨ q ∈ L2 → q ∈ allPaths ∧ q ≠ P := by
    intro q hq
    have hqs : q ∈ L1 ++ P :: L2 := by
      rcases hq with hq | hq
      · exact List.mem_append_left _ hq
      · exact List.mem_append_right _ (List.mem_cons_of_mem _ hq)
    refine ⟨hperm.mem_iff.mp (hL ▸ hqs), ?_⟩
    rintro rfl
    have h1 := List.nodup_append.mp hnds
    rcases hq with hq | hq
    · exact h1.2.2 hq (List.mem_cons_self _ _)
    · exact (List.nodup_cons.mp h1.2.1).1 hq
  have hnd1 : L1.Nodup := (List.nodup_append.mp hnds).1
  have hnd2 : L2.Nodup := (List.nodup_cons.mp (List.nodup_append.mp hnds).2.1).2
  have hdisj : ∀ q, q ∈ L2 → q ∉ L1 := fun q h2 h1 =>
    (List.nodup_append.mp hnds).2.2 h1 (List.mem_cons_of_mem _ h2)
  have hP1 : P ∉ L1 := fun h => (hmem P (Or.inl h)).2 rfl
  have hP2 : P ∉ L2 := fun h => (hmem P (Or.inr h)).2 rfl
  let st0 : MoveState :=
    { w := w, count := 0, activeCompleteCount := 0, RemoveReservations := [],
      pathGenerationCount := gen }
  obtain ⟨st3, hfold⟩ := fold_total a (sortByOrderDesc w allPaths) st0 (hperm.nodup_iff.mpr hnd)
    (fun p hp => halloc p (hperm.mem_iff.mp hp)) (fun p hp => hstart p (hperm.mem_iff.mp hp))
  have hfold' := hfold
  rw [hL, List.foldlM_append] at hfold'
  obtain ⟨st1, hs1, hrest⟩ := Option.bind_eq_some.mp hfold'
  rw [List.foldlM_cons] at hrest
  obtain ⟨st2, hs2, hs3⟩ := Option.bind_eq_some.mp hrest
  have F1 := frameOn_fold a L1 st0 st1 hs1 hnd1 (fun p hp => halloc p (hmem p (Or.inl hp)).1)
  have FP := frameOn_step a st1 st2 P hs2
  have hn1 : w.nextPath ≤ st1.w.nextPath := F1.1
  have hn2 : st1.w.nextPath ≤ st2.w.nextPath := FP.1
  have F2 := frameOn_fold a L2 st2 st3 hs3 hnd2
    (fun p hp => lt_of_lt_of_le (halloc p (hmem p (Or.inr hp)).1) (le_trans hn1 hn2))
  have hsame2 : ∀ q, q ∈ L2 → st2.w.paths q = w.paths q := by
    intro q hq
    have hq' := hmem q (Or.inr hq)
    rw [FP.2.1 q (by simpa using hq'.2) (lt_of_lt_of_le (halloc q hq'.1) hn1),
      F1.2.1 q (hdisj q hq) (halloc q hq'.1)]
  have hcall : EvcPath.DynamicStep_MoveOnPath a w allPaths dae gen = some
      { w := { st3.w with
          edgeRes := (flushReservations st3.RemoveReservations st3.w.edgeRes dae).1 }
        DynamicallyAffectedEdges := (flushReservations st3.RemoveReservations st3.w.edgeRes dae).2
        pathGenerationCount := st3.pathGenerationCount
        count := st3.count
        activeCompleteCount := st3.activeCompleteCount
        ret := if st3.count > 0 then st3.count else st3.activeCompleteCount } := by
    unfold EvcPath.DynamicStep_MoveOnPath
    simp only [gt_iff_lt, ht, if_true, hfold]
  obtain ⟨x1, hx1, hx1'⟩ := F1.2.2.2.2.2
  obtain ⟨x2, hx2, hx2'⟩ := F2.2.2.2.2.2
  have hrem1 : ∀ pr, pr ∈ st1.RemoveReservations → pr.2 ≠ P ∧ pr.2 ∈ allPaths := by
    intro pr hpr
    rw [hx1] at hpr
    simp only [st0, List.nil_append] at hpr
    exact ⟨fun h => hP1 (h ▸ (hx1' pr hpr).1), (hmem _ (Or.inl (hx1' pr hpr).1)).1⟩
  refine ⟨st1, st2, _, hcall, hs2, F1.2.1 P hP1 (halloc P hP), hn1, ?_, ?_, ?_, hrem1, ?_, ?_, ?_,
    fun e => fold_unreachable a L1 st0 st1 hs1 e, fun e => fold_paths_suffix a L1 st0 st1 hs1 e,
    fun e => fold_paths_suffix a L2 st2 st3 hs3 e, ?_⟩
  · intro hiso
    constructor
    · exact F1.2.2.1 _ (fun q hq => hiso q (hmem q (Or.inl hq)).1 (hmem q (Or.inl hq)).2)
    · refine F2.2.2.1 _ (fun q hq => ?_)
      rw [hsame2 q hq]
      exact hiso q (hmem q (Or.inr hq)).1 (hmem q (Or.inr hq)).2
  · intro hiso
    constructor
    · exact F1.2.2.2.1 _ (fun q hq hqa => hiso q (hmem q (Or.inl hq)).1 (hmem q (Or.inl hq)).2 hqa)
    · refine F2.2.2.2.1 _ (fun q hq hqa => ?_)
      rw [hsame2 q hq]
      exact hiso q (hmem q (Or.inr hq)).1 (hmem q (Or.inr hq)).2 hqa
  · intro e
    exact F1.2.2.2.2.1 P e hP1 (halloc P hP)
  · intro p hlt hp
    have hp2 : p ∉ L2 := fun h => (hmem p (Or.inr h)).2 (hp (hmem p (Or.inr h)).1)
    exact F2.2.1 p hp2 hlt
  · intro x e hlt hx
    have hx2n : x ∉ L2 := fun h => (hmem x (Or.inr h)).2 (hx (hmem x (Or.inr h)).1)
    show x ∈ (flushReservations st3.RemoveReservations st3.w.edgeRes dae).1 e ↔ _
    rw [flushReservations_mem, F2.2.2.2.2.1 x e hx2n hlt, hx2]
    simp only [List.mem_append, not_or]
    constructor
    · rintro ⟨h1, h2, -⟩; exact ⟨h1, h2⟩
    · rintro ⟨h1, h2⟩
      exact ⟨h1, h2, fun h => hx2n (hx2' _ h).1⟩
  · intro pr hpr
    show pr.1 ∈ (flushReservations st3.RemoveReservations st3.w.edgeRes dae).2
    rw [flushReservations_edges]
    right
    exact ⟨pr, by rw [hx2]; exact List.mem_append_left _ hpr, rfl⟩
  · intro z
    have hz : st3.w.zoneReserved z
        = w.zoneReserved z - releasedAt a w (sortByOrderDesc w allPaths) z :=
      fold_zone a _ st0 st3 hfold (hperm.nodup_iff.mpr hnd)
        (fun p hp => halloc p (hperm.mem_iff.mp hp)) z
    rw [releasedAt_perm a w _ _ z hperm] at hz
    exact hz

theorem isCut_of_crossesAt (a : MoveArgs) (w : World) (P k : Nat)
    (hreach : (w.evacuees (w.paths P).myEvc).Status ≠ EvacueeStatus.Unreachable)
    (hact : (w.paths P).Status = PathStatus.ActiveComplete)
    (hcross : crossesAt a.cost a.CurrentTime (w.paths P) k) : isCut a w P = true := by
  have hne : (w.paths P).segs ≠ [] := by
    intro h
    have hk := hcross.1
    rw [h] at hk
    simp at hk
  simp only [isCut, decide_eq_true_eq]
  refine ⟨hreach, hne, hact, ?_⟩
  rw [findCut_of_crossesAt a.cost a.CurrentTime (w.paths P) k hcross]
  exact hcross.2.2.2

/-- What the listed paths cut inside `AffectedPaths` give back to the zone of one
of them: its routed population and what the others give back. -/
theorem releasedAt_erase (a : MoveArgs) (w : World) (L : List Nat) (P : Nat) (hP : P ∈ L)
    (hcut : isCut a w P = true) (haff : P ∈ a.AffectedPaths) :
    releasedAt a w L (w.paths P).MySafeZone
      = (w.paths P).RoutedPop + releasedAt a w (L.erase P) (w.paths P).MySafeZone := by
  rw [releasedAt_perm a w L (P :: L.erase P) _ (List.perm_cons_erase hP), releasedAt_cons]
  simp [hcut, haff]


theorem foldl_pushFront (l acc : List PathSegment) :
    l.foldl (fun acc s => s :: acc) acc = l.reverse ++ acc := by
  induction l generalizing acc with
  | nil => rfl
  | cons x xs ih => simp [ih]

theorem take_set_succ (l : List PathSegment) (k : Nat) (x : PathSegment) (hk : k < l.length) :
    (l.set k x).take (k + 1) = l.take k ++ [x] := by
  induction l generalizing k with
  | nil => simp at hk
  | cons y ys ih =>
    cases k with
    | zero => simp
    | succ k => simp [ih k (by simpa using hk)]

theorem drop_set_succ (l : List PathSegment) (k : Nat) (x : PathSegment) :
    (l.set k x).drop (k + 1) = l.drop (k + 1) := by
  induction l generalizing k with
  | nil => simp
  | cons y ys ih =>
    cases k with
    | zero => simp
    | succ k => simp [ih k]

theorem twoEdgePath_crossesAt_zero (t : ℚ) (h0 : 0 < t) (h1 : t < 10) :
    crossesAt (fun _ => 10) t twoEdgePath 0 := by
  refine ⟨by simp [twoEdgePath, samplePath], ?_, ?_, ?_⟩
  · simp only [twoEdgePath, samplePath]; linarith
  · intro j hj
    have hj0 : j = 0 := by omega
    subst hj0
    simpa [cumulativeCost, currentSegmentSum, twoEdgePath, samplePath] using h0
  · simp [cumulativeCost, currentSegmentSum, twoEdgePath, samplePath,
      PathSegment.GetCurrentCost, PathSegment.GetEdgePortion]
    exact h1

/-- The live path of the evacuee that was cut twice before crosses the slice
time 3 in its first segment, the half of edge 1 that costs 5. -/
theorem twiceCut_crossesAt :
    crossesAt (sliceArgs 3 []).cost (sliceArgs 3 []).CurrentTime (twiceCutWorld.paths 2) 0 := by
  refine ⟨by simp [twiceCutWorld, samplePath], ?_, ?_, ?_⟩
  · norm_num [twiceCutWorld, samplePath, sliceArgs]
  · intro j hj
    have hj0 : j = 0 := by omega
    subst hj0
    norm_num [cumulativeCost, currentSegmentSum, twiceCutWorld, samplePath, sliceArgs]
  · have h : |(1 : ℚ) / 2| = 1 / 2 := abs_of_pos (by norm_num)
    norm_num [cumulativeCost, currentSegmentSum, twiceCutWorld, samplePath, sliceArgs,
      PathSegment.GetCurrentCost, PathSegment.GetEdgePortion, h]

/-- In `twiceCutWorld` the path 2 is the only `ActiveComplete` path. -/
theorem twiceCut_solo (q : Nat) (hq : q ∈ [0, 1, 2]) (hne : q ≠ 2) :
    (twiceCutWorld.paths q).Status ≠ PathStatus.ActiveComplete := by
  simp only [List.mem_cons, List.mem_singleton, List.not_mem_nil, or_false] at hq
  rcases hq with rfl | rfl | rfl
  · simp [twiceCutWorld, samplePath]
  · simp [twiceCutWorld, samplePath]
  · exact absurd rfl hne

/-- C7 (as the code has it): a path `P` of `AffectedPaths` that the walk crosses
at segment `k` is left `FrozenSplitted` with its segments up to `k`; its
reservation is gone from the edge of the cut segment and of every later segment,
and those edges are in `DynamicallyAffectedEdges`; the safe zone's reserved
population has gone down by the routed population of `P` and by that of every
other listed path of `AffectedPaths` that the call cuts and that heads for the
same zone; and when no other listed path of the evacuee of `P` is
`ActiveComplete`, the evacuee is `Unprocessed`. -/
theorem C7_split_affected (a : MoveArgs) (w : World) (allPaths dae : List Nat) (gen : Int)
    (P k : Nat)
    (ht : 0 < a.CurrentTime) (hP : P ∈ allPaths) (hnd : allPaths.Nodup)
    (halloc : ∀ q, q ∈ allPaths → q < w.nextPath)
    (hstart : ∀ q, q ∈ allPaths → (w.paths q).PathStartCost ≤ a.CurrentTime)
    (hreach : (w.evacuees (w.paths P).myEvc).Status ≠ EvacueeStatus.Unreachable)
    (hact : (w.paths P).Status = PathStatus.ActiveComplete)
    (hcross : crossesAt a.cost a.CurrentTime (w.paths P) k)
    (haff : P ∈ a.AffectedPaths) :
    ∃ r sk,
      EvcPath.DynamicStep_MoveOnPath a w allPaths dae gen = some r
      ∧ (w.paths P).segs[k]? = some sk
      ∧ (r.w.paths P).Status = PathStatus.FrozenSplitted
      ∧ (r.w.paths P).segs = (w.paths P).segs.take k
          ++ [sk.SetToRatio (cutRatio a.cost a.CurrentTime (w.paths P) k sk)]
      ∧ (∀ s, s ∈ (w.paths P).segs.drop k →
          P ∉ r.w.edgeRes s.Edge ∧ s.Edge ∈ r.DynamicallyAffectedEdges)
      ∧ r.w.zoneReserved (w.paths P).MySafeZone
          = w.zoneReserved (w.paths P).MySafeZone - (w.paths P).RoutedPop
            - releasedAt a w (allPaths.erase P) (w.paths P).MySafeZone
      ∧ ((∀ q, q ∈ allPaths → q ≠ P → (w.paths q).myEvc = (w.paths P).myEvc →
            (w.paths q).Status ≠ PathStatus.ActiveComplete) →
          (r.w.evacuees (w.paths P).myEvc).Status = EvacueeStatus.Unprocessed) := by
  obtain ⟨st1, st2, r, hcall, hstep, hP1, hn1, hev, -, -, -, hpaths, hres, hdae, hunr, -, -,
      hzone⟩ :=
    move_localise a w allPaths dae gen P ht hP hnd halloc hstart
  have hk : k < (w.paths P).segs.length := hcross.1
  have hreach1 : (st1.w.evacuees (st1.w.paths P).myEvc).Status ≠ EvacueeStatus.Unreachable := by
    rw [hP1]
    exact fun h => hreach ((hunr _).mp h)
  obtain ⟨sk, hsk, hstep'⟩ := moveOnePath_split a st1 P k hreach1 (by rw [hP1]; exact hact)
    (by rw [hP1]; exact hcross)
  rw [hP1] at hsk hstep'
  rw [if_pos haff, hstep] at hstep'
  have hst2 := Option.some.inj hstep'
  have hnext2 : st2.w.nextPath = st1.w.nextPath := by
    rw [hst2]; simp [eraseTail, dropAffected, cutAt, SafeZone.Reserve]
  have hPlt2 : P < st2.w.nextPath := by
    have := lt_of_lt_of_le (halloc P hP) hn1
    omega
  have hpP : r.w.paths P = st2.w.paths P := hpaths P hPlt2 (fun _ => rfl)
  have h2P : st2.w.paths P = { w.paths P with
      segs := ((w.paths P).segs.set k
        (sk.SetToRatio (cutRatio a.cost a.CurrentTime (w.paths P) k sk))).take (k + 1)
      Status := PathStatus.FrozenSplitted } := by
    rw [hst2]
    simp [eraseTail, dropAffected, cutAt, SafeZone.Reserve, hP1]
  have h2E : (st2.w.evacuees (w.paths P).myEvc).Status = EvacueeStatus.Unprocessed := by
    rw [hst2]
    simp [eraseTail, dropAffected, cutAt, SafeZone.Reserve, hP1]
  have h2M : st2.RemoveReservations = st1.RemoveReservations
      ++ ((w.paths P).segs.drop (k + 1)).reverse.map (fun s => (s.Edge, P)) ++ [(sk.Edge, P)] := by
    rw [hst2]
    simp [eraseTail, dropAffected, cutAt, SafeZone.Reserve, hP1, drop_set_succ]
  refine ⟨r, sk, hcall, hsk, ?_, ?_, ?_, ?_, ?_⟩
  · rw [hpP, h2P]
  · rw [hpP, h2P]; exact take_set_succ _ _ _ hk
  · intro s hs
    have hqueued : (s.Edge, P) ∈ st2.RemoveReservations := by
      have hdrop : (w.paths P).segs.drop k = sk :: (w.paths P).segs.drop (k + 1) := by
        rw [List.drop_eq_getElem_cons hk]
        congr 1
        have := List.getElem?_eq_getElem hk
        rw [this] at hsk
        exact Option.some.inj hsk
      rw [hdrop] at hs
      rw [h2M]
      rcases List.mem_cons.mp hs with h | h
      · simp [h]
      · simp only [List.mem_append, List.mem_map, List.mem_reverse, List.mem_singleton]
        left; right; exact ⟨s, h, rfl⟩
    constructor
    · rw [hres P s.Edge hPlt2 (fun _ => rfl)]
      intro h
      exact h.2 hqueued
    · exact hdae _ hqueued
  · rw [hzone, releasedAt_erase a w allPaths P hP
      (isCut_of_crossesAt a w P k hreach hact hcross) haff]
    ring
  · intro hsolo
    obtain ⟨-, hev2⟩ := hev hsolo
    rw [hev2, h2E]

/-- C7 at a concrete slice: the evacuee that was cut twice before, all its three
paths listed, and its live path cut again at time 3 inside the affected set:
the live path is frozen, the person it carried leaves the safe zone (no other
listed path is cut) and the evacuee is `Unprocessed`. -/
theorem C7_split_affected_witness :
    ∃ r, EvcPath.DynamicStep_MoveOnPath (sliceArgs 3 [2]) twiceCutWorld [0, 1, 2] [] 1 = some r
      ∧ (r.w.paths 2).Status = PathStatus.FrozenSplitted
      ∧ r.w.zoneReserved (twiceCutWorld.paths 2).MySafeZone
          = twiceCutWorld.zoneReserved (twiceCutWorld.paths 2).MySafeZone
            - (twiceCutWorld.paths 2).RoutedPop
            - releasedAt (sliceArgs 3 [2]) twiceCutWorld ([0, 1, 2].erase 2)
                (twiceCutWorld.paths 2).MySafeZone
      ∧ releasedAt (sliceArgs 3 [2]) twiceCutWorld ([0, 1, 2].erase 2)
          (twiceCutWorld.paths 2).MySafeZone = 0
      ∧ (r.w.evacuees 0).Status = EvacueeStatus.Unprocessed := by
  obtain ⟨r, sk, h1, -, h2, -, -, h3, h4⟩ :=
    C7_split_affected (sliceArgs 3 [2]) twiceCutWorld [0, 1, 2] [] 1 2 0
      (by norm_num [sliceArgs]) (by simp) (by simp)
      (by intro q hq; simp at hq; rcases hq with rfl | rfl | rfl <;> simp [twiceCutWorld])
      (by intro q _; norm_num [twiceCutWorld, sliceArgs, samplePath]; split_ifs <;> norm_num)
      (by simp [twiceCutWorld, sampleEvacuee]) (by simp [twiceCutWorld, samplePath])
      twiceCut_crossesAt (by simp [sliceArgs])
  refine ⟨r, h1, h2, h3, ?_, h4 (fun q hq hne _ => twiceCut_solo q hq hne)⟩
  simp [releasedAt, sliceArgs]

/-- C7 as stated fails in two ways on the two paths of
`pairWorld twoEdgePath upperRoute`, cut at time 3. With only path 1 in
`AffectedPaths`, path 1 is cut first and its evacuee marked `Unprocessed`, then
path 0 of the same evacuee is split outside the affected set and the evacuee
ends `Processed`. With both paths in `AffectedPaths`, the safe zone they share
goes from 2 reserved persons to 0, not down by the 1 person of path 1 alone. -/
theorem C7_counterexample :
    (EvcPath.DynamicStep_MoveOnPath (sliceArgs 3 [1]) (pairWorld twoEdgePath upperRoute) [0, 1] []
        2).map (fun r => ((r.w.paths 1).Status, (r.w.evacuees 0).Status))
      = some (PathStatus.FrozenSplitted, EvacueeStatus.Processed)
    ∧ (EvcPath.DynamicStep_MoveOnPath (sliceArgs 3 [0, 1]) (pairWorld twoEdgePath upperRoute)
        [0, 1] [] 2).map (fun r => ((r.w.paths 1).Status, r.w.zoneReserved 0))
      = some (PathStatus.FrozenSplitted, 0)
    ∧ (pairWorld twoEdgePath upperRoute).zoneReserved 0
        - ((pairWorld twoEdgePath upperRoute).paths 1).RoutedPop = 1 := by
  refine ⟨?_, ?_, ?_⟩
  · repeat first
      | simp [EvcPath.DynamicStep_MoveOnPath, sortByOrderDesc, sliceArgs, pairWorld,
        upperRoute, twoEdgePath, samplePath, moveOnePath, sampleEvacuee, findCut, walkSegments,
        decrSizeT, eraseTail, splitOff, dropAffected, cutAt, flushReservations,
        PathSegment.GetCurrentCost, PathSegment.GetEdgePortion, Evacuee.DynamicMove,
        EvcPath.copy, PathSegment.ctor, PathSegment.SetToRatio, SafeZone.Reserve, incrInt,
        Function.update, List.insertionSort, List.orderedInsert, swapAll,
        NAEdge.SwapReservation, NAEdge.RemoveReservation]
      | norm_num [EvcPath.DynamicStep_MoveOnPath, sortByOrderDesc, sliceArgs, pairWorld,
        upperRoute, twoEdgePath, samplePath, moveOnePath, sampleEvacuee, findCut, walkSegments,
        decrSizeT, eraseTail, splitOff, dropAffected, cutAt, flushReservations,
        PathSegment.GetCurrentCost, PathSegment.GetEdgePortion, Evacuee.DynamicMove,
        EvcPath.copy, PathSegment.ctor, PathSegment.SetToRatio, SafeZone.Reserve, incrInt,
        Function.update, List.insertionSort, List.orderedInsert, swapAll,
        NAEdge.SwapReservation, NAEdge.RemoveReservation]
  · repeat first
      | simp [EvcPath.DynamicStep_MoveOnPath, sortByOrderDesc, sliceArgs, pairWorld,
        upperRoute, twoEdgePath, samplePath, moveOnePath, sampleEvacuee, findCut, walkSegments,
        decrSizeT, eraseTail, splitOff, dropAffected, cutAt, flushReservations,
        PathSegment.GetCurrentCost, PathSegment.GetEdgePortion, Evacuee.DynamicMove,
        EvcPath.copy, PathSegment.ctor, PathSegment.SetToRatio, SafeZone.Reserve, incrInt,
        Function.update, List.insertionSort, List.orderedInsert, swapAll,
        NAEdge.SwapReservation, NAEdge.RemoveReservation]
      | norm_num [EvcPath.DynamicStep_MoveOnPath, sortByOrderDesc, sliceArgs, pairWorld,
        upperRoute, twoEdgePath, samplePath, moveOnePath, sampleEvacuee, findCut, walkSegments,
        decrSizeT, eraseTail, splitOff, dropAffected, cutAt, flushReservations,
        PathSegment.GetCurrentCost, PathSegment.GetEdgePortion, Evacuee.DynamicMove,
        EvcPath.copy, PathSegment.ctor, PathSegment.SetToRatio, SafeZone.Reserve, incrInt,
        Function.update, List.insertionSort, List.orderedInsert, swapAll,
        NAEdge.SwapReservation, NAEdge.RemoveReservation]
  · norm_num [pairWorld, upperRoute, twoEdgePath, samplePath]


theorem getCurrentCost_nonneg (cost : Nat → ℚ) (hcost : ∀ e, 0 ≤ cost e) (s : PathSegment) :
    0 ≤ s.GetCurrentCost cost :=
  mul_nonneg (hcost _) (abs_nonneg _)

theorem currentSegmentSum_nonneg (cost : Nat → ℚ) (hcost : ∀ e, 0 ≤ cost e)
    (l : List PathSegment) : 0 ≤ currentSegmentSum cost l := by
  induction l with
  | nil => simp [currentSegmentSum]
  | cons s rest ih =>
    simp only [currentSegmentSum, List.map_cons, List.sum_cons] at ih ⊢
    exact add_nonneg (getCurrentCost_nonneg cost hcost s) ih

theorem currentSegmentSum_take_le (cost : Nat → ℚ) (hcost : ∀ e, 0 ≤ cost e)
    (l : List PathSegment) (j : Nat) :
    currentSegmentSum cost (l.take j) ≤ currentSegmentSum cost l := by
  have h : currentSegmentSum cost l
      = currentSegmentSum cost (l.take j) + currentSegmentSum cost (l.drop j) := by
    conv_lhs => rw [← List.take_append_drop j l]
    simp [currentSegmentSum]
  have := currentSegmentSum_nonneg cost hcost (l.drop j)
  linarith

theorem findCut_le_of_arrived (cost : Nat → ℚ) (hcost : ∀ e, 0 ≤ cost e) (t : ℚ)
    (path : EvcPath)
    (h : path.FinalEvacuationCost ≤ t ∨ cumulativeCost cost path path.segs.length ≤ t) :
    (findCut cost t path).1 ≤ t := by
  by_cases hfec : t < path.FinalEvacuationCost
  · have htot : cumulativeCost cost path path.segs.length ≤ t := by
      rcases h with h | h
      · exact absurd hfec (not_lt.mpr h)
      · exact h
    obtain ⟨j, hj, hw, -, hstop⟩ := walkSegments_spec cost t path.segs path.PathStartCost 0
    simp only [findCut, gt_iff_lt, hfec, if_true, hw]
    have hle := currentSegmentSum_take_le cost hcost path.segs j
    simp only [cumulativeCost, List.take_length] at htot
    linarith
  · simp only [findCut, gt_iff_lt, hfec, if_false]
    exact not_lt.mp hfec

/-- C8 (as the code has it): a non-empty `ActiveComplete` path of a reachable
evacuee is frozen as complete, with nothing else changed on it, when its
recorded final cost is not after the slice time or the cumulative cost of the
walk never exceeds the slice time, and its evacuee is then `Processed` when no
other listed path of that evacuee is `ActiveComplete`; the path is cut at
segment `k` and becomes `FrozenSplitted` when its final cost is after the slice
time and the cumulative cost passes the slice time strictly inside segment
`k`. -/
theorem C8_frozen_complete_or_split (a : MoveArgs) (w : World) (allPaths dae : List Nat)
    (gen : Int) (P : Nat)
    (ht : 0 < a.CurrentTime) (hP : P ∈ allPaths) (hnd : allPaths.Nodup)
    (halloc : ∀ q, q ∈ allPaths → q < w.nextPath)
    (hstart : ∀ q, q ∈ allPaths → (w.paths q).PathStartCost ≤ a.CurrentTime)
    (hcost : ∀ e, 0 ≤ a.cost e)
    (hreach : (w.evacuees (w.paths P).myEvc).Status ≠ EvacueeStatus.Unreachable)
    (hne : (w.paths P).segs ≠ [])
    (hact : (w.paths P).Status = PathStatus.ActiveComplete) :
    ∃ r, EvcPath.DynamicStep_MoveOnPath a w allPaths dae gen = some r
      ∧ (((w.paths P).FinalEvacuationCost ≤ a.CurrentTime
            ∨ cumulativeCost a.cost (w.paths P) (w.paths P).segs.length ≤ a.CurrentTime) →
          r.w.paths P = { w.paths P with Status := PathStatus.FrozenComplete }
            ∧ ((∀ q, q ∈ allPaths → q ≠ P → (w.paths q).myEvc = (w.paths P).myEvc →
                  (w.paths q).Status ≠ PathStatus.ActiveComplete) →
                (r.w.evacuees (w.paths P).myEvc).Status = EvacueeStatus.Processed))
      ∧ (∀ k, crossesAt a.cost a.CurrentTime (w.paths P) k →
          (r.w.paths P).Status = PathStatus.FrozenSplitted
            ∧ (r.w.paths P).segs.length = k + 1) := by
  obtain ⟨st1, st2, r, hcall, hstep, hP1, hn1, hev, -, -, -, hpaths, -, -, hunr, -, -, -⟩ :=
    move_localise a w allPaths dae gen P ht hP hnd halloc hstart
  have hreach1 : (st1.w.evacuees (st1.w.paths P).myEvc).Status ≠ EvacueeStatus.Unreachable := by
    rw [hP1]
    exact fun h => hreach ((hunr _).mp h)
  have hFr := frameOn_step a st1 st2 P hstep
  have hPlt2 : P < st2.w.nextPath := lt_of_lt_of_le (lt_of_lt_of_le (halloc P hP) hn1) hFr.1
  have hpP : r.w.paths P = st2.w.paths P := hpaths P hPlt2 (fun _ => rfl)
  refine ⟨r, hcall, ?_, ?_⟩
  · intro harr
    have hle := findCut_le_of_arrived a.cost hcost a.CurrentTime (w.paths P) harr
    have hstep' := moveOnePath_complete a st1 P hreach1 (by rw [hP1]; exact hne)
      (by rw [hP1]; exact hact) (by rw [hP1]; exact hle)
    rw [hstep] at hstep'
    have hst2 := Option.some.inj hstep'
    constructor
    · rw [hpP, hst2]; simp [freezeComplete, hP1]
    · intro hsolo
      obtain ⟨-, hev2⟩ := hev hsolo
      rw [hev2, hst2]; simp [freezeComplete, hP1]
  · intro k hcross
    have hk : k < (w.paths P).segs.length := hcross.1
    obtain ⟨sk, hsk, hstep'⟩ := moveOnePath_split a st1 P k hreach1 (by rw [hP1]; exact hact)
      (by rw [hP1]; exact hcross)
    rw [hP1] at hsk hstep'
    rw [hstep] at hstep'
    have hst2 := Option.some.inj hstep'
    have hPN : P ≠ st1.w.nextPath := Nat.ne_of_lt (lt_of_lt_of_le (halloc P hP) hn1)
    have h2P : st2.w.paths P = { w.paths P with
        segs := ((w.paths P).segs.set k
          (sk.SetToRatio (cutRatio a.cost a.CurrentTime (w.paths P) k sk))).take (k + 1)
        Status := PathStatus.FrozenSplitted } := by
      rw [hst2]
      by_cases haff : P ∈ a.AffectedPaths
      · rw [if_pos haff]
        simp [eraseTail, dropAffected, cutAt, SafeZone.Reserve, hP1]
      · rw [if_neg haff]
        simp [eraseTail, splitOff, cutAt, hP1, Function.update_noteq hPN]
    constructor
    · rw [hpP, h2P]
    · rw [hpP, h2P]
      simp only [take_set_succ _ _ _ hk, List.length_append, List.length_take,
        List.length_singleton]
      omega

/-- C8 at a concrete slice: the evacuee that was cut twice before, all its three
paths listed, at time 3, where the walk over the live path crosses the slice
time in its first segment, and at time 30, its recorded final cost. -/
theorem C8_frozen_complete_or_split_witness :
    (∃ r, EvcPath.DynamicStep_MoveOnPath (sliceArgs 3 []) twiceCutWorld [0, 1, 2] [] 1 = some r
      ∧ (r.w.paths 2).Status = PathStatus.FrozenSplitted
      ∧ (r.w.paths 2).segs.length = 0 + 1)
    ∧ (∃ r, EvcPath.DynamicStep_MoveOnPath (sliceArgs 30 []) twiceCutWorld [0, 1, 2] [] 1
          = some r
      ∧ r.w.paths 2 = { twiceCutWorld.paths 2 with Status := PathStatus.FrozenComplete }
      ∧ (r.w.evacuees (twiceCutWorld.paths 2).myEvc).Status = EvacueeStatus.Processed) := by
  constructor
  · obtain ⟨r, h1, -, h2⟩ :=
      C8_frozen_complete_or_split (sliceArgs 3 []) twiceCutWorld [0, 1, 2] [] 1 2
        (by norm_num [sliceArgs]) (by simp) (by simp)
        (by intro q hq; simp at hq; rcases hq with rfl | rfl | rfl <;> simp [twiceCutWorld])
        (by intro q _; norm_num [twiceCutWorld, sliceArgs, samplePath]; split_ifs <;> norm_num)
        (by intro e; norm_num [sliceArgs])
        (by simp [twiceCutWorld, sampleEvacuee])
        (by simp [twiceCutWorld, samplePath]) (by simp [twiceCutWorld, samplePath])
    exact ⟨r, h1, h2 0 twiceCut_crossesAt⟩
  · obtain ⟨r, h1, h2, -⟩ :=
      C8_frozen_complete_or_split (sliceArgs 30 []) twiceCutWorld [0, 1, 2] [] 1 2
        (by norm_num [sliceArgs]) (by simp) (by simp)
        (by intro q hq; simp at hq; rcases hq with rfl | rfl | rfl <;> simp [twiceCutWorld])
        (by intro q _; norm_num [twiceCutWorld, sliceArgs, samplePath]; split_ifs <;> norm_num)
        (by intro e; norm_num [sliceArgs])
        (by simp [twiceCutWorld, sampleEvacuee])
        (by simp [twiceCutWorld, samplePath]) (by simp [twiceCutWorld, samplePath])
    obtain ⟨h3, h4⟩ := h2 (Or.inl (by norm_num [twiceCutWorld, samplePath, sliceArgs]))
    exact ⟨r, h1, h3, h4 (fun q hq hne _ => twiceCut_solo q hq hne)⟩

/-- C8 fails as stated, at three inputs. A one-edge route of current cost 10
whose recorded final cost is 5: at slice time 8 the cumulative cost reaches the
slice time inside the edge, yet the path is frozen as complete. The same route
with final cost 10 at slice time 10: the cumulative cost reaches the slice time
at the end of the edge, and the path is frozen as complete, not cut. And in
`pairWorld twoEdgePath arrivedRoute` at slice time 3 with path 0 in
`AffectedPaths`: path 1, finished at time 2, is frozen as complete, then path 0
of the same evacuee is cut and the evacuee ends `Unprocessed`. -/
theorem C8_counterexample :
    ((EvcPath.DynamicStep_MoveOnPath (sliceArgs 8 []) (oneRouteWorld (oneEdgePath 5)) [0] [] 0).map
          (fun r => (r.w.paths 0).Status) = some PathStatus.FrozenComplete
        ∧ 8 ≤ cumulativeCost (fun _ => 10) (oneEdgePath 5) 1)
      ∧ ((EvcPath.DynamicStep_MoveOnPath (sliceArgs 10 []) (oneRouteWorld (oneEdgePath 10)) [0] []
            0).map (fun r => (r.w.paths 0).Status) = some PathStatus.FrozenComplete
        ∧ 10 ≤ cumulativeCost (fun _ => 10) (oneEdgePath 10) 1)
      ∧ (EvcPath.DynamicStep_MoveOnPath (sliceArgs 3 [0]) (pairWorld twoEdgePath arrivedRoute)
            [0, 1] [] 2).map (fun r => ((r.w.paths 1).Status, (r.w.evacuees 0).Status))
          = some (PathStatus.FrozenComplete, EvacueeStatus.Unprocessed) := by
  refine ⟨⟨?_, ?_⟩, ⟨?_, ?_⟩, ?_⟩
  · simp [EvcPath.DynamicStep_MoveOnPath, sortByOrderDesc, sliceArgs, oneRouteWorld, oneEdgePath,
      samplePath, moveOnePath, sampleEvacuee, findCut, freezeComplete]
    norm_num
  · norm_num [cumulativeCost, currentSegmentSum, oneEdgePath, samplePath,
      PathSegment.GetCurrentCost, PathSegment.GetEdgePortion]
  · simp [EvcPath.DynamicStep_MoveOnPath, sortByOrderDesc, sliceArgs, oneRouteWorld, oneEdgePath,
      samplePath, moveOnePath, sampleEvacuee, findCut, freezeComplete]
  · norm_num [cumulativeCost, currentSegmentSum, oneEdgePath, samplePath,
      PathSegment.GetCurrentCost, PathSegment.GetEdgePortion]
  · repeat first
      | simp [EvcPath.DynamicStep_MoveOnPath, sortByOrderDesc, sliceArgs, pairWorld,
        arrivedRoute, oneEdgePath, twoEdgePath, samplePath, moveOnePath, sampleEvacuee, findCut,
        walkSegments, decrSizeT, freezeComplete, eraseTail, dropAffected, cutAt,
        flushReservations, PathSegment.GetCurrentCost, PathSegment.GetEdgePortion,
        Evacuee.DynamicMove, PathSegment.SetToRatio, SafeZone.Reserve, Function.update,
        List.insertionSort, List.orderedInsert, NAEdge.RemoveReservation]
      | norm_num [EvcPath.DynamicStep_MoveOnPath, sortByOrderDesc, sliceArgs, pairWorld,
        arrivedRoute, oneEdgePath, twoEdgePath, samplePath, moveOnePath, sampleEvacuee, findCut,
        walkSegments, decrSizeT, freezeComplete, eraseTail, dropAffected, cutAt,
        flushReservations, PathSegment.GetCurrentCost, PathSegment.GetEdgePortion,
        Evacuee.DynamicMove, PathSegment.SetToRatio, SafeZone.Reserve, Function.update,
        List.insertionSort, List.orderedInsert, NAEdge.RemoveReservation]

set_option linter.unnecessarySeqFocus false

theorem moveOnePath_counts (a : MoveArgs) (st st' : MoveState) (q : Nat)
    (h : moveOnePath a st q = some st') :
    st'.count = st.count
        + (if isCut a st.w q && decide (q ∈ a.AffectedPaths) then 1 else 0)
      ∧ st'.activeCompleteCount = st.activeCompleteCount
        + (if isCut a st.w q && !decide (q ∈ a.AffectedPaths) then 1 else 0) := by
  unfold moveOnePath at h
  dsimp only at h
  by_cases h1 : (st.w.evacuees (st.w.paths q).myEvc).Status ≠ EvacueeStatus.Unreachable
      ∧ (st.w.paths q).segs ≠ [] ∧ (st.w.paths q).Status = PathStatus.ActiveComplete
  · rw [if_pos h1] at h
    by_cases h2 : (findCut a.cost a.CurrentTime (st.w.paths q)).1 ≤ a.CurrentTime
    · rw [if_pos h2] at h
      rw [← Option.some.inj h]
      have hc : isCut a st.w q = false := by
        simp only [isCut, decide_eq_false_iff_not]
        intro hh
        exact absurd hh.2.2.2 (not_lt.mpr h2)
      simp [hc, freezeComplete]
    · rw [if_neg h2] at h
      have hc : isCut a st.w q = true := by
        simp only [isCut, decide_eq_true_eq]
        exact ⟨h1.1, h1.2.1, h1.2.2, not_le.mp h2⟩
      split at h
      · exact absurd h (by simp)
      · by_cases h3 : q ∈ a.AffectedPaths
        · rw [if_pos h3] at h
          rw [← Option.some.inj h]
          simp [hc, h3, eraseTail, dropAffected, cutAt, SafeZone.Reserve]
        · rw [if_neg h3] at h
          rw [← Option.some.inj h]
          simp [hc, h3, eraseTail, splitOff, cutAt]
  · rw [if_neg h1] at h
    rw [← Option.some.inj h]
    have hc : isCut a st.w q = false := by
      simp only [isCut, decide_eq_false_iff_not]
      intro hh
      exact h1 ⟨hh.1, hh.2.1, hh.2.2.1⟩
    simp [hc]

theorem fold_counts (a : MoveArgs) (L : List Nat) (st st' : MoveState)
    (h : L.foldlM (moveOnePath a) st = some st') (hnd : L.Nodup)
    (halloc : ∀ p, p ∈ L → p < st.w.nextPath) :
    st'.count = st.count + affectedCuts a st.w L
      ∧ st'.activeCompleteCount = st.activeCompleteCount + liveHalves a st.w L := by
  induction L generalizing st with
  | nil =>
    simp only [List.foldlM_nil, pure, Option.some.injEq] at h
    rw [← h]; simp [affectedCuts, liveHalves]
  | cons q L ih =>
    rw [List.foldlM_cons] at h
    obtain ⟨st1, hs1, hrest⟩ := Option.bind_eq_some.mp h
    have hf1 := frameOn_step a st st1 q hs1
    have hq : q ∉ L := (List.nodup_cons.mp hnd).1
    have hcongr : ∀ p, p ∈ L → isCut a st1.w p = isCut a st.w p := by
      intro p hp
      apply isCut_congr
      · refine hf1.2.1 p ?_ (halloc p (List.mem_cons_of_mem _ hp))
        simp only [List.mem_singleton]
        rintro rfl
        exact hq hp
      · exact moveOnePath_unreachable a st st1 q hs1
    obtain ⟨ih1, ih2⟩ := ih st1 hrest (List.nodup_cons.mp hnd).2
      (fun p hp => lt_of_lt_of_le (halloc p (List.mem_cons_of_mem _ hp)) hf1.1)
    obtain ⟨c1, c2⟩ := moveOnePath_counts a st st1 q hs1
    have e1 : affectedCuts a st1.w L = affectedCuts a st.w L := by
      simp only [affectedCuts]
      congr 1
      apply List.filter_congr
      intro p hp
      rw [hcongr p hp]
    have e2 : liveHalves a st1.w L = liveHalves a st.w L := by
      simp only [liveHalves]
      congr 1
      apply List.filter_congr
      intro p hp
      rw [hcongr p hp]
    rw [ih1, ih2, c1, c2, e1, e2]
    constructor
    · simp only [affectedCuts, List.filter_cons]
      split_ifs <;> simp <;> omega
    · simp only [liveHalves, List.filter_cons]
      split_ifs <;> simp <;> omega


/-- C10 (as the code has it): the value returned is the number of listed paths
cut inside `AffectedPaths` when there is one, and otherwise the number of live
halves created (paths cut outside `AffectedPaths`); without a positive slice
time it is 0. -/
theorem C10_return_value (a : MoveArgs) (w : World) (allPaths dae : List Nat) (gen : Int)
    (hnd : allPaths.Nodup) (halloc : ∀ q, q ∈ allPaths → q < w.nextPath)
    (hstart : ∀ q, q ∈ allPaths → (w.paths q).PathStartCost ≤ a.CurrentTime) :
    ∃ r, EvcPath.DynamicStep_MoveOnPath a w allPaths dae gen = some r
      ∧ r.ret =
        if 0 < a.CurrentTime then
          (if 0 < affectedCuts a w allPaths then affectedCuts a w allPaths
            else liveHalves a w allPaths)
        else 0 := by
  by_cases ht : 0 < a.CurrentTime
  · have hperm := sortByOrderDesc_perm w allPaths
    let st0 : MoveState :=
      { w := w, count := 0, activeCompleteCount := 0, RemoveReservations := [],
        pathGenerationCount := gen }
    obtain ⟨st3, hfold⟩ := fold_total a (sortByOrderDesc w allPaths) st0
      (hperm.nodup_iff.mpr hnd) (fun p hp => halloc p (hperm.mem_iff.mp hp))
      (fun p hp => hstart p (hperm.mem_iff.mp hp))
    obtain ⟨c1, c2⟩ := fold_counts a (sortByOrderDesc w allPaths) st0 st3 hfold
      (hperm.nodup_iff.mpr hnd) (fun p hp => halloc p (hperm.mem_iff.mp hp))
    have e1 : affectedCuts a w (sortByOrderDesc w allPaths) = affectedCuts a w allPaths :=
      (hperm.filter _).length_eq
    have e2 : liveHalves a w (sortByOrderDesc w allPaths) = liveHalves a w allPaths :=
      (hperm.filter _).length_eq
    simp only [st0, Nat.zero_add] at c1 c2
    rw [e1] at c1
    rw [e2] at c2
    have hcall : EvcPath.DynamicStep_MoveOnPath a w allPaths dae gen = some
        { w := { st3.w with
            edgeRes := (flushReservations st3.RemoveReservations st3.w.edgeRes dae).1 }
          DynamicallyAffectedEdges :=
            (flushReservations st3.RemoveReservations st3.w.edgeRes dae).2
          pathGenerationCount := st3.pathGenerationCount
          count := st3.count
          activeCompleteCount := st3.activeCompleteCount
          ret := if st3.count > 0 then st3.count else st3.activeCompleteCount } := by
      unfold EvcPath.DynamicStep_MoveOnPath
      simp only [gt_iff_lt, ht, if_true, hfold]
    refine ⟨_, hcall, ?_⟩
    simp only [ht, if_true, c1, c2, gt_iff_lt]
  · have hcall : EvcPath.DynamicStep_MoveOnPath a w allPaths dae gen = some
        { w := { w with edgeRes := (flushReservations [] w.edgeRes dae).1 }
          DynamicallyAffectedEdges := (flushReservations [] w.edgeRes dae).2
          pathGenerationCount := gen
          count := 0
          activeCompleteCount := 0
          ret := 0 } := by
      unfold EvcPath.DynamicStep_MoveOnPath
      simp only [gt_iff_lt, ht, if_false]
      rfl
    refine ⟨_, hcall, ?_⟩
    simp [ht]

/-- C10 at a concrete slice: the two-edge route cut at time 3 inside the affected
set. -/
theorem C10_return_value_witness :
    ∃ r, EvcPath.DynamicStep_MoveOnPath (sliceArgs 3 [0]) (oneRouteWorld twoEdgePath) [0] [] 0
        = some r
      ∧ r.ret =
        if (0 : ℚ) < (sliceArgs 3 [0]).CurrentTime then
          (if 0 < affectedCuts (sliceArgs 3 [0]) (oneRouteWorld twoEdgePath) [0] then
            affectedCuts (sliceArgs 3 [0]) (oneRouteWorld twoEdgePath) [0]
            else liveHalves (sliceArgs 3 [0]) (oneRouteWorld twoEdgePath) [0])
        else 0 :=
  C10_return_value (sliceArgs 3 [0]) (oneRouteWorld twoEdgePath) [0] [] 0 (by simp)
    (by simp [oneRouteWorld]) (by simp [oneRouteWorld, sliceArgs, twoEdgePath, samplePath])

/-- C10 fails as stated: the two-edge route cut at time 3 outside the affected
set makes the call return 1, while its evacuee, the only one, is `Processed`
and not `Unprocessed` afterwards. -/
theorem C10_counterexample :
    (EvcPath.DynamicStep_MoveOnPath (sliceArgs 3 []) (oneRouteWorld twoEdgePath) [0] [] 0).map
        (fun r => (r.ret, unprocessedEvacuees r.w [0], (r.w.evacuees 0).Status))
      = some (1, 0, EvacueeStatus.Processed) := by
  simp [EvcPath.DynamicStep_MoveOnPath, sortByOrderDesc, sliceArgs, oneRouteWorld, twoEdgePath,
    samplePath, moveOnePath, sampleEvacuee, findCut, walkSegments, decrSizeT, eraseTail, splitOff,
    cutAt, flushReservations, unprocessedEvacuees, PathSegment.GetCurrentCost,
    PathSegment.GetEdgePortion, Evacuee.DynamicMove]
  norm_num
  decide


theorem spliceCarry_append (c : Option ℚ) (A B : List PathSegment) (hA : A ≠ []) :
    spliceCarry c (A ++ B) = spliceCarry c A ++ B := by
  cases c with
  | none => rfl
  | some r =>
    cases A with
    | nil => exact absurd rfl hA
    | cons x xs => rfl

theorem spliceFront_spliceFront (r r' : ℚ) (M : List PathSegment) :
    spliceFront r (spliceFront r' M) = spliceFront r M := by
  cases M with
  | nil => rfl
  | cons x xs => rfl

theorem concatHalves_snoc (c : Option ℚ) (Gs : List (List PathSegment)) (F M : List PathSegment)
    (hF : F ≠ []) :
    concatHalves c (Gs ++ [F]) M = concatHalves c Gs (mergeSegs M F) := by
  induction Gs generalizing c with
  | nil =>
    obtain ⟨r, hr⟩ : ∃ r, lastFromRatio F = some r := by
      cases hl : F.getLast? with
      | none => exact absurd (List.getLast?_eq_none_iff.mp hl) hF
      | some b => exact ⟨b.GetFromRatio, by simp [lastFromRatio, hl]⟩
    simp only [List.nil_append, concatHalves, mergeSegs, hr]
    by_cases hd : F.dropLast = []
    · rw [hd]
      cases c with
      | none => simp [spliceCarry, hr]
      | some r' =>
        simp only [spliceCarry, List.nil_append, true_and, Option.isSome_some, if_true,
          spliceFront_spliceFront]
        rfl
    · rw [spliceCarry_append c _ _ hd]
      simp [hd, hr]
  | cons G Gs ih =>
    show spliceCarry c G.dropLast ++ concatHalves _ (Gs ++ [F]) M = _
    rw [ih]
    rfl

theorem foldl_mergeSegs (Fs : List (List PathSegment)) (M : List PathSegment)
    (hF : ∀ F, F ∈ Fs → F ≠ []) :
    Fs.foldl mergeSegs M = concatHalves none Fs.reverse M := by
  induction Fs generalizing M with
  | nil => rfl
  | cons F Fs ih =>
    rw [List.foldl_cons, ih _ (fun G hG => hF G (List.mem_cons_of_mem _ hG)), List.reverse_cons,
      concatHalves_snoc _ _ _ _ (hF F (List.mem_cons_self _ _))]

theorem mergeSegs_ne_nil (M F : List PathSegment) (hM : M ≠ []) : mergeSegs M F ≠ [] := by
  cases M with
  | nil => exact absurd rfl hM
  | cons x xs =>
    cases h : lastFromRatio F <;> simp [mergeSegs, spliceCarry, spliceFront, h]


theorem reverse_drop_one_reverse (F : List PathSegment) : (F.reverse.drop 1).reverse = F.dropLast := by
  rcases List.eq_nil_or_concat F with h | ⟨init, b, h⟩
  · subst h; rfl
  · subst h; simp

theorem mergeHalf_frame (m : Nat) (w w' : World) (fp : Nat) (h : mergeHalf m w fp = Except.ok w') :
    (∀ p, p ≠ m → p ≠ fp → w'.paths p = w.paths p) ∧ w'.evacuees = w.evacuees := by
  unfold mergeHalf at h
  split at h
  · injection h with h
    subst h
    refine ⟨fun p h1 h2 => ?_, rfl⟩
    simp [Function.update_noteq h1, Function.update_noteq h2]
  · exact absurd h (by simp)

theorem mergeHalf_ok (m : Nat) (w : World) (fp : Nat) (hmf : m ≠ fp)
    (hM : (w.paths m).segs ≠ []) (hF : (w.paths fp).segs ≠ []) :
    ∃ w', mergeHalf m w fp = Except.ok w'
      ∧ (w'.paths m).segs = mergeSegs (w.paths m).segs (w.paths fp).segs := by
  obtain ⟨front, others, hseg⟩ := List.exists_cons_of_ne_nil hM
  obtain ⟨back, hlast⟩ : ∃ b, (w.paths fp).segs.getLast? = some b := by
    cases hl : (w.paths fp).segs.getLast? with
    | none => exact absurd (List.getLast?_eq_none_iff.mp hl) hF
    | some b => exact ⟨b, rfl⟩
  simp only [mergeHalf, hseg, hlast]
  refine ⟨_, rfl, ?_⟩
  simp only [Function.update_noteq hmf, Function.update_same, foldl_pushFront,
    reverse_drop_one_reverse, mergeSegs, lastFromRatio, hlast, Option.map_some', spliceCarry,
    spliceFront, hseg]

theorem foldlM_mergeHalf_frame (m : Nat) (halves : List Nat) (w w' : World)
    (h : halves.foldlM (mergeHalf m) w = Except.ok w') :
    (∀ p, p ≠ m → p ∉ halves → w'.paths p = w.paths p) ∧ w'.evacuees = w.evacuees := by
  induction halves generalizing w with
  | nil =>
    simp only [List.foldlM_nil, pure, Except.pure, Except.ok.injEq] at h
    subst h
    exact ⟨fun _ _ _ => rfl, rfl⟩
  | cons fp rest ih =>
    rw [List.foldlM_cons] at h
    cases h1 : mergeHalf m w fp with
    | error err => rw [h1] at h; exact absurd h (by simp [bind, Except.bind])
    | ok w1 =>
      rw [h1] at h
      obtain ⟨f1, f2⟩ := mergeHalf_frame m w w1 fp h1
      obtain ⟨g1, g2⟩ := ih w1 h
      refine ⟨fun p hp hn => ?_, by rw [g2, f2]⟩
      simp only [List.mem_cons, not_or] at hn
      rw [g1 p hp hn.2, f1 p hp hn.1]

theorem foldlM_mergeHalf_ok (m : Nat) (halves : List Nat) (w : World) (hnd : halves.Nodup)
    (hm : m ∉ halves) (hM : (w.paths m).segs ≠ [])
    (hF : ∀ h, h ∈ halves → (w.paths h).segs ≠ []) :
    ∃ w', halves.foldlM (mergeHalf m) w = Except.ok w'
      ∧ (w'.paths m).segs
        = (halves.map (fun h => (w.paths h).segs)).foldl mergeSegs (w.paths m).segs := by
  induction halves generalizing w with
  | nil => exact ⟨w, rfl, rfl⟩
  | cons fp rest ih =>
    have hmf : m ≠ fp := fun h => hm (by simp [h])
    obtain ⟨w1, h1, hs1⟩ := mergeHalf_ok m w fp hmf hM (hF fp (by simp))
    obtain ⟨f1, -⟩ := mergeHalf_frame m w w1 fp h1
    have hfp : fp ∉ rest := (List.nodup_cons.mp hnd).1
    have hsame : ∀ h, h ∈ rest → w1.paths h = w.paths h := fun h hh =>
      f1 h (fun e => hm (by simp [← e, hh])) (fun e => hfp (e ▸ hh))
    obtain ⟨w2, h2, hs2⟩ := ih w1 (List.nodup_cons.mp hnd).2 (fun h => hm (List.mem_cons_of_mem _ h))
      (by rw [hs1]; exact mergeSegs_ne_nil _ _ hM)
      (fun h hh => by rw [hsame h hh]; exact hF h (List.mem_cons_of_mem _ hh))
    refine ⟨w2, ?_, ?_⟩
    · rw [List.foldlM_cons, h1]; exact h2
    · rw [hs2, hs1, List.map_cons, List.foldl_cons]
      congr 1
      apply List.map_congr_left
      intro h hh
      rw [hsame h hh]

theorem identifyPaths_frozen (w : World) (halves fl : List Nat) (M : Nat)
    (hH : ∀ h, h ∈ halves → (w.paths h).Status = PathStatus.FrozenSplitted) :
    identifyPaths w halves fl (some M) = some (fl ++ halves, some M) := by
  induction halves generalizing fl with
  | nil => simp [identifyPaths]
  | cons h rest ih =>
    rw [identifyPaths, if_pos (hH h (by simp)), ih _ (fun x hx => hH x (List.mem_cons_of_mem _ hx))]
    simp

theorem identifyPaths_mem (w : World) (ps fl : List Nat) (mp : Option Nat) (fl' : List Nat)
    (mp' : Option Nat) (h : identifyPaths w ps fl mp = some (fl', mp')) :
    (∀ x, x ∈ fl' → x ∈ fl ∨ x ∈ ps) ∧ (∀ m, mp' = some m → mp = some m ∨ m ∈ ps) := by
  induction ps generalizing fl mp with
  | nil =>
    simp only [identifyPaths, Option.some.injEq, Prod.mk.injEq] at h
    obtain ⟨rfl, rfl⟩ := h
    exact ⟨fun x hx => Or.inl hx, fun m hm => Or.inl hm⟩
  | cons p ps ih =>
    simp only [identifyPaths] at h
    split_ifs at h with hs
    · obtain ⟨a1, a2⟩ := ih _ _ h
      refine ⟨fun x hx => ?_, fun m hm => ?_⟩
      · rcases a1 x hx with h1 | h1
        · rcases List.mem_append.mp h1 with h2 | h2
          · exact Or.inl h2
          · right; simp [List.mem_singleton.mp h2]
        · right; exact List.mem_cons_of_mem _ h1
      · rcases a2 m hm with h1 | h1
        · exact Or.inl h1
        · right; exact List.mem_cons_of_mem _ h1
    · cases mp with
      | some m0 => exact absurd h (by simp)
      | none =>
        simp only at h
        obtain ⟨a1, a2⟩ := ih _ _ h
        refine ⟨fun x hx => ?_, fun m hm => ?_⟩
        · rcases a1 x hx with h1 | h1
          · exact Or.inl h1
          · right; exact List.mem_cons_of_mem _ h1
        · rcases a2 m hm with h1 | h1
          · right; simp [Option.some.inj h1]
          · right; exact List.mem_cons_of_mem _ h1


theorem mergeEvacuee_frame (w w' : World) (e : Nat) (h : mergeEvacuee w e = Except.ok w') :
    (∀ e', e' ≠ e → w'.evacuees e' = w.evacuees e')
      ∧ (∀ p, p ∉ (w.evacuees e).Paths → w'.paths p = w.paths p) := by
  unfold mergeEvacuee at h
  dsimp only at h
  by_cases hreach : (w.evacuees e).Status ≠ EvacueeStatus.Unreachable
  · rw [if_pos hreach] at h
    cases hid : identifyPaths w (w.evacuees e).Paths [] none with
    | none => rw [hid] at h; exact absurd h (by simp)
    | some pr =>
      obtain ⟨fl, mp⟩ := pr
      rw [hid] at h
      dsimp only at h
      obtain ⟨m1, m2⟩ := identifyPaths_mem w _ _ _ _ _ hid
      by_cases hfl : fl = []
      · rw [if_pos hfl] at h
        injection h with h
        subst h
        exact ⟨fun _ _ => rfl, fun _ _ => rfl⟩
      · rw [if_neg hfl] at h
        cases mp with
        | none =>
          dsimp only at h
          injection h with h
          subst h
          exact ⟨fun e' he' => by simp [Function.update_noteq he'], fun _ _ => rfl⟩
        | some m =>
          dsimp only at h
          cases hfold : fl.foldlM (mergeHalf m) w with
          | error err => rw [hfold] at h; exact absurd h (by simp)
          | ok w1 =>
            rw [hfold] at h
            dsimp only at h
            injection h with h
            subst h
            obtain ⟨f1, f2⟩ := foldlM_mergeHalf_frame m fl w w1 hfold
            have hm : m ∈ (w.evacuees e).Paths := by
              rcases m2 m rfl with h1 | h1
              · exact absurd h1 (by simp)
              · exact h1
            refine ⟨fun e' he' => ?_, fun p hp => ?_⟩
            · simp [Function.update_noteq he', f2]
            · have hpm : p ≠ m := fun hh => hp (hh ▸ hm)
              have hpf : p ∉ fl := fun hh => by
                rcases m1 p hh with h1 | h1
                · exact absurd h1 (by simp)
                · exact hp h1
              simp [Function.update_noteq hpm, f1 p hpm hpf]
  · rw [if_neg hreach] at h
    injection h with h
    subst h
    exact ⟨fun e' he' => by simp [Function.update_noteq he'], fun _ _ => rfl⟩

theorem mergeEvacuee_main (w : World) (e M : Nat) (halves : List Nat)
    (hreach : (w.evacuees e).Status ≠ EvacueeStatus.Unreachable)
    (hpaths : (w.evacuees e).Paths = M :: halves) (hne : halves ≠ [])
    (hnodup : (M :: halves).Nodup)
    (hMs : (w.paths M).Status ≠ PathStatus.FrozenSplitted)
    (hH : ∀ h, h ∈ halves → (w.paths h).Status = PathStatus.FrozenSplitted)
    (hMne : (w.paths M).segs ≠ [])
    (hFne : ∀ h, h ∈ halves → (w.paths h).segs ≠ []) :
    ∃ w', mergeEvacuee w e = Except.ok w'
      ∧ (w'.evacuees e).Paths = [M]
      ∧ (w'.paths M).segs
        = concatHalves none (halves.reverse.map (fun h => (w.paths h).segs)) (w.paths M).segs := by
  have hid : identifyPaths w (w.evacuees e).Paths [] none = some (halves, some M) := by
    rw [hpaths]
    simp only [identifyPaths, hMs, if_false]
    rw [identifyPaths_frozen w halves [] M hH]
    simp
  obtain ⟨w1, hfold, hsegs⟩ := foldlM_mergeHalf_ok M halves w (List.nodup_cons.mp hnodup).2
    (List.nodup_cons.mp hnodup).1 hMne hFne
  have hcall : mergeEvacuee w e = Except.ok { w1 with
      paths := Function.update w1.paths M { w1.paths M with PathStartCost := 0 }
      evacuees := Function.update w1.evacuees e { w1.evacuees e with Paths := [M] } } := by
    unfold mergeEvacuee
    simp only [hreach, ne_eq, not_false_eq_true, if_true, hid, hne, if_false, hfold]
  refine ⟨_, hcall, ?_, ?_⟩
  · simp
  · simp only [Function.update_same, hsegs]
    rw [foldl_mergeSegs, List.map_reverse]
    intro F hF
    obtain ⟨h, hh, rfl⟩ := List.mem_map.mp hF
    exact hFne h hh

theorem fold_mergeEvacuee_frame (L : List Nat) (w w' : World)
    (h : L.foldlM mergeEvacuee w = Except.ok w') (hnd : L.Nodup) (e : Nat) (he : e ∉ L)
    (S : List Nat) (hdisj : ∀ e', e' ∈ L → ∀ p, p ∈ (w.evacuees e').Paths → p ∉ S) :
    w'.evacuees e = w.evacuees e ∧ ∀ p, p ∈ S → w'.paths p = w.paths p := by
  induction L generalizing w with
  | nil =>
    simp only [List.foldlM_nil, pure, Except.pure, Except.ok.injEq] at h
    subst h
    exact ⟨rfl, fun _ _ => rfl⟩
  | cons e0 rest ih =>
    rw [List.foldlM_cons] at h
    cases h1 : mergeEvacuee w e0 with
    | error err => rw [h1] at h; exact absurd h (by simp [bind, Except.bind])
    | ok w1 =>
      rw [h1] at h
      obtain ⟨f1, f2⟩ := mergeEvacuee_frame w w1 e0 h1
      have he0 : e0 ∉ rest := (List.nodup_cons.mp hnd).1
      obtain ⟨g1, g2⟩ := ih w1 h (List.nodup_cons.mp hnd).2 (fun hh => he (List.mem_cons_of_mem _ hh))
        (fun e' he' p hp => by
          rw [f1 e' (fun hh => he0 (hh ▸ he'))] at hp
          exact hdisj e' (List.mem_cons_of_mem _ he') p hp)
      refine ⟨?_, fun p hp => ?_⟩
      · rw [g1, f1 e (fun hh => he (by simp [hh]))]
      · rw [g2 p hp, f2 p (fun hh => hdisj e0 (by simp) p hh hp)]


theorem foldlM_mergeEvacuee_append (L1 L2 : List Nat) (w w' : World)
    (h : (L1 ++ L2).foldlM mergeEvacuee w = Except.ok w') :
    ∃ w1, L1.foldlM mergeEvacuee w = Except.ok w1 ∧ L2.foldlM mergeEvacuee w1 = Except.ok w' := by
  rw [List.foldlM_append] at h
  cases h1 : L1.foldlM mergeEvacuee w with
  | error err => rw [h1] at h; exact absurd h (by simp [bind, Except.bind])
  | ok w1 => rw [h1] at h; exact ⟨w1, rfl, h⟩

/-- C5 (as the code has it): for a reachable evacuee whose paths are the main
path `M` followed by its frozen halves, the loop body of the merge succeeds, and
whenever the call returns, `M` is the evacuee's only path and its segments are
the halves in creation order, each without its last segment, followed by the
segments of `M`, every splice segment taking the waiting `from_ratio` as
`concatHalves` hands it on. -/
theorem C5_merge_concatenation (w : World) (AllEvacuees : List Nat) (e M : Nat)
    (halves : List Nat)
    (he : e ∈ AllEvacuees) (hnd : AllEvacuees.Nodup)
    (hdisj : ∀ e', e' ∈ AllEvacuees → e' ≠ e →
      ∀ p, p ∈ (w.evacuees e').Paths → p ∉ (w.evacuees e).Paths)
    (hreach : (w.evacuees e).Status ≠ EvacueeStatus.Unreachable)
    (hpaths : (w.evacuees e).Paths = M :: halves) (hne : halves ≠ [])
    (hnodup : (M :: halves).Nodup)
    (hMs : (w.paths M).Status ≠ PathStatus.FrozenSplitted)
    (hH : ∀ h, h ∈ halves → (w.paths h).Status = PathStatus.FrozenSplitted)
    (hMne : (w.paths M).segs ≠ [])
    (hFne : ∀ h, h ∈ halves → (w.paths h).segs ≠ []) :
    (∃ w1, mergeEvacuee w e = Except.ok w1)
      ∧ ∀ w', EvcPath.DynamicStep_MergePaths w AllEvacuees = Except.ok w' →
          (w'.evacuees e).Paths = [M]
          ∧ (w'.paths M).segs
            = concatHalves none (halves.reverse.map (fun h => (w.paths h).segs))
                (w.paths M).segs := by
  constructor
  · obtain ⟨w1, h1, -⟩ := mergeEvacuee_main w e M halves hreach hpaths hne hnodup hMs hH hMne hFne
    exact ⟨w1, h1⟩
  · intro w' hcall
    obtain ⟨L1, L2, hL⟩ := List.append_of_mem he
    rw [hL] at hnd
    have hnd1 : L1.Nodup := (List.nodup_append.mp hnd).1
    have hnd2 : L2.Nodup := (List.nodup_cons.mp (List.nodup_append.mp hnd).2.1).2
    have he1 : e ∉ L1 := fun h => (List.nodup_append.mp hnd).2.2 h (List.mem_cons_self _ _)
    have he2 : e ∉ L2 := (List.nodup_cons.mp (List.nodup_append.mp hnd).2.1).1
    have hin1 : ∀ e', e' ∈ L1 → e' ∈ AllEvacuees ∧ e' ≠ e := fun e' h =>
      ⟨hL ▸ List.mem_append_left _ h, fun hh => he1 (hh ▸ h)⟩
    have hin2 : ∀ e', e' ∈ L2 → e' ∈ AllEvacuees ∧ e' ≠ e := fun e' h =>
      ⟨hL ▸ List.mem_append_right _ (List.mem_cons_of_mem _ h), fun hh => he2 (hh ▸ h)⟩
    have h12 : ∀ e', e' ∈ L2 → e' ∉ L1 := fun e' h2 h1 =>
      (List.nodup_append.mp hnd).2.2 h1 (List.mem_cons_of_mem _ h2)
    unfold EvcPath.DynamicStep_MergePaths at hcall
    rw [hL] at hcall
    obtain ⟨w1, hrun1, hrun2⟩ := foldlM_mergeEvacuee_append L1 (e :: L2) w w' hcall
    obtain ⟨fe, fp⟩ := fold_mergeEvacuee_frame L1 w w1 hrun1 hnd1 e he1 (M :: halves)
      (fun e' he' p hp => by
        have := hdisj e' (hin1 e' he').1 (hin1 e' he').2 p hp
        rwa [hpaths] at this)
    have hsame : ∀ p, p ∈ M :: halves → w1.paths p = w.paths p := fp
    obtain ⟨w2, hbody, hP2, hS2⟩ := mergeEvacuee_main w1 e M halves (by rw [fe]; exact hreach)
      (by rw [fe]; exact hpaths) hne hnodup (by rw [hsame M (by simp)]; exact hMs)
      (fun h hh => by rw [hsame h (List.mem_cons_of_mem _ hh)]; exact hH h hh)
      (by rw [hsame M (by simp)]; exact hMne)
      (fun h hh => by rw [hsame h (List.mem_cons_of_mem _ hh)]; exact hFne h hh)
    rw [List.foldlM_cons, hbody] at hrun2
    have hrun3 : L2.foldlM mergeEvacuee w2 = Except.ok w' := hrun2
    obtain ⟨b1, -⟩ := mergeEvacuee_frame w1 w2 e hbody
    obtain ⟨ge, gp⟩ := fold_mergeEvacuee_frame L2 w2 w' hrun3 hnd2 e he2 [M]
      (fun e' he' p hp => by
        rw [b1 e' (hin2 e' he').2] at hp
        have hw1 : w1.evacuees e' = w.evacuees e' :=
          (fold_mergeEvacuee_frame L1 w w1 hrun1 hnd1 e' (h12 e' he') []
            (fun _ _ _ _ => by simp)).1
        rw [hw1] at hp
        have := hdisj e' (hin2 e' he').1 (hin2 e' he').2 p hp
        rw [hpaths] at this
        simp only [List.mem_singleton]
        rintro rfl
        exact this (by simp))
    refine ⟨by rw [ge, hP2], ?_⟩
    rw [gp M (by simp), hS2, hsame M (by simp)]
    congr 1
    apply List.map_congr_left
    intro h hh
    rw [hsame h (List.mem_cons_of_mem _ (List.mem_reverse.mp hh))]

/-- C5 at a concrete evacuee: the twice-cut evacuee merged. -/
theorem C5_merge_concatenation_witness :
    (∃ w1, mergeEvacuee twiceCutWorld 0 = Except.ok w1)
      ∧ ∀ w', EvcPath.DynamicStep_MergePaths twiceCutWorld [0] = Except.ok w' →
          (w'.evacuees 0).Paths = [2]
          ∧ (w'.paths 2).segs
            = concatHalves none ([1, 0].reverse.map (fun h => (twiceCutWorld.paths h).segs))
                (twiceCutWorld.paths 2).segs :=
  C5_merge_concatenation twiceCutWorld [0] 0 2 [1, 0] (by simp) (by simp)
    (by intro e' he' hne; simp at he'; exact absurd he' hne)
    (by simp [twiceCutWorld, sampleEvacuee]) rfl (by simp) (by simp)
    (by simp [twiceCutWorld, samplePath])
    (by intro h hh; simp at hh; rcases hh with rfl | rfl <;> simp [twiceCutWorld, samplePath])
    (by simp [twiceCutWorld, samplePath])
    (by intro h hh; simp at hh; rcases hh with rfl | rfl <;> simp [twiceCutWorld, samplePath])

/-- C5 fails as stated: on the twice-cut evacuee the merge returns the main path
with the segments `[(0, 0..1), (1, 0..1), (2, 0..1)]`; the splice segment on edge
1 has `from_ratio` 0, while the last segment of the frozen half that precedes
the main path (handle 1) has `from_ratio` 1/4. -/
theorem C5_counterexample :
    (EvcPath.DynamicStep_MergePaths twiceCutWorld [0]).toOption.map
        (fun w => ((w.evacuees 0).Paths, (w.paths 2).segs))
      = some ([2], [PathSegment.mk 0 0 1, PathSegment.mk 1 0 1, PathSegment.mk 2 0 1])
    ∧ lastFromRatio (twiceCutWorld.paths 1).segs = some (1 / 4)
    ∧ (0 : ℚ) ≠ 1 / 4 := by
  refine ⟨?_, ?_, by norm_num⟩
  · simp [EvcPath.DynamicStep_MergePaths, mergeEvacuee, identifyPaths, mergeHalf, twiceCutWorld,
      samplePath, sampleEvacuee, Except.toOption, bind, Except.bind, pure, Except.pure,
      Function.update, PathSegment.SetFromRatio, PathSegment.GetFromRatio]
  · simp [lastFromRatio, twiceCutWorld, samplePath, PathSegment.GetFromRatio]


/-- C3 at the failing input: a one-edge route of cost 10 starting at time 0 is
cut at slice time 3; the walk crosses the slice time inside segment 0, the
`to_ratio` written is 7/10, and the cost of the frozen half up to it is 7, not
the slice time 3. -/
theorem C3_failing_input :
    crossesAt (fun _ => 10) 3 (oneEdgePath 10) 0
      ∧ (EvcPath.DynamicStep_MoveOnPath (sliceArgs 3 []) (oneRouteWorld (oneEdgePath 10)) [0] []
            0).map
          (fun r => ((r.w.paths 0).Status, (r.w.paths 0).segs,
            cumulativeCost (fun _ => 10) (r.w.paths 0) 1))
        = some (PathStatus.FrozenSplitted, [PathSegment.mk 0 0 (7 / 10)], 7) := by
  constructor
  · refine ⟨by simp [oneEdgePath, samplePath], by norm_num [oneEdgePath, samplePath], ?_, ?_⟩
    · intro j hj
      have hj0 : j = 0 := by omega
      subst hj0
      norm_num [cumulativeCost, currentSegmentSum, oneEdgePath, samplePath]
    · norm_num [cumulativeCost, currentSegmentSum, oneEdgePath, samplePath,
        PathSegment.GetCurrentCost, PathSegment.GetEdgePortion]
  · simp [EvcPath.DynamicStep_MoveOnPath, sortByOrderDesc, sliceArgs, oneRouteWorld, oneEdgePath,
      samplePath, moveOnePath, sampleEvacuee, findCut, walkSegments, decrSizeT, eraseTail, splitOff,
      cutAt, flushReservations, PathSegment.GetCurrentCost, PathSegment.GetEdgePortion,
      Evacuee.DynamicMove, cumulativeCost, currentSegmentSum, PathSegment.SetToRatio, abs_div,
      abs_inv]
    norm_num [abs_div, abs_inv]

/-- C9 at the failing input: a route whose only segment runs from 4/5 to 1 on an
edge of current cost 10 satisfies the invariant; cut at slice time 1 its frozen
half is the segment from 4/5 to 1/10, which breaks `from_ratio ≤ to_ratio`. -/
theorem C9_failing_input :
    segmentInvariant (PathSegment.mk 0 (4 / 5) 1)
      ∧ (EvcPath.DynamicStep_MoveOnPath (sliceArgs 1 []) (oneRouteWorld anchoredPath) [0] []
            0).map (fun r => (r.w.paths 0).segs)
        = some [PathSegment.mk 0 (4 / 5) (1 / 10)]
      ∧ ¬ segmentInvariant (PathSegment.mk 0 (4 / 5) (1 / 10)) := by
  refine ⟨by norm_num [segmentInvariant], ?_, by norm_num [segmentInvariant]⟩
  simp [EvcPath.DynamicStep_MoveOnPath, sortByOrderDesc, sliceArgs, oneRouteWorld, anchoredPath,
    samplePath, moveOnePath, sampleEvacuee, findCut, walkSegments, decrSizeT, eraseTail, splitOff,
    cutAt, flushReservations, PathSegment.GetCurrentCost, PathSegment.GetEdgePortion,
    Evacuee.DynamicMove, PathSegment.SetToRatio, abs_div, abs_inv]
  norm_num [abs_div, abs_inv]


/-- C4 at the failing input: a route whose only segment runs from 0 to 1/2 on
edge 0 is cut at slice time 3 and merged again; the evacuee is left with one
path whose only segment runs from 0 to 1, not to 1/2. -/
theorem C4_failing_input :
    ((oneRouteWorld halfEdgePath).paths 0).segs = [PathSegment.mk 0 0 (1 / 2)]
      ∧ (EvcPath.DynamicStep_MoveOnPath (sliceArgs 3 []) (oneRouteWorld halfEdgePath) [0] []
            0).map
          (fun r => (EvcPath.DynamicStep_MergePaths r.w [0]).toOption.map
            (fun w2 => ((w2.evacuees 0).Paths, (w2.paths 1).segs)))
        = some (some ([1], [PathSegment.mk 0 0 1])) := by
  refine ⟨rfl, ?_⟩
  simp [EvcPath.DynamicStep_MoveOnPath, sortByOrderDesc, sliceArgs, oneRouteWorld, halfEdgePath,
    samplePath, moveOnePath, sampleEvacuee, findCut, walkSegments, decrSizeT, eraseTail, splitOff,
    cutAt, flushReservations, PathSegment.GetCurrentCost, PathSegment.GetEdgePortion,
    Evacuee.DynamicMove, PathSegment.SetToRatio, EvcPath.DynamicStep_MergePaths, mergeEvacuee,
    identifyPaths, mergeHalf, Except.toOption, bind, Except.bind, pure, Except.pure,
    Function.update, PathSegment.SetFromRatio, PathSegment.GetFromRatio, EvcPath.copy,
    PathSegment.ctor, abs_div, abs_inv]
  norm_num [abs_div, abs_inv]
  simp [swapAll, NAEdge.SwapReservation, identifyPaths, mergeHalf, Function.update]
  rfl


theorem incrInt_eq (x : Int) (h1 : INT_MIN ≤ x) (h2 : x < INT_MAX) : incrInt x = x + 1 := by
  unfold INT_MIN at h1
  unfold INT_MAX at h2
  unfold incrInt
  omega

theorem liveHalves_cons (a : MoveArgs) (w : World) (q : Nat) (L : List Nat) :
    liveHalves a w (q :: L)
      = (if isCut a w q && !decide (q ∈ a.AffectedPaths) then 1 else 0) + liveHalves a w L := by
  simp only [liveHalves, List.filter_cons]
  split_ifs <;> simp <;> omega

theorem moveOnePath_orders (a : MoveArgs) (st st' : MoveState) (q : Nat)
    (h : moveOnePath a st q = some st') (hq : q < st.w.nextPath) :
    (∀ p, p < st.w.nextPath → (st'.w.paths p).Order = (st.w.paths p).Order)
      ∧ ((st'.w.nextPath = st.w.nextPath ∧ st'.pathGenerationCount = st.pathGenerationCount)
        ∨ (st'.w.nextPath = st.w.nextPath + 1
          ∧ st'.pathGenerationCount = incrInt st.pathGenerationCount
          ∧ (st'.w.paths st.w.nextPath).Order = incrInt st.pathGenerationCount
          ∧ st'.activeCompleteCount = st.activeCompleteCount + 1)) := by
  have hqn : q ≠ st.w.nextPath := Nat.ne_of_lt hq
  rcases moveOnePath_cases a st st' q h with h | h | ⟨seg, sk, r, -, h⟩ | ⟨seg, sk, r, -, h⟩
  · rw [h]; exact ⟨fun _ _ => rfl, Or.inl ⟨rfl, rfl⟩⟩
  · rw [h]
    refine ⟨fun p _ => ?_, Or.inl ⟨rfl, rfl⟩⟩
    by_cases hp : p = q
    · subst hp; simp [freezeComplete]
    · simp [freezeComplete, Function.update_noteq hp]
  · rw [h]
    refine ⟨fun p _ => ?_, Or.inl ⟨by simp [eraseTail, dropAffected, cutAt, SafeZone.Reserve],
      by simp [eraseTail, dropAffected, cutAt, SafeZone.Reserve]⟩⟩
    by_cases hp : p = q
    · subst hp; simp [eraseTail, dropAffected, cutAt, SafeZone.Reserve]
    · simp [eraseTail, dropAffected, cutAt, SafeZone.Reserve, Function.update_noteq hp]
  · rw [h]
    refine ⟨fun p hlt => ?_, Or.inr ⟨by simp [eraseTail, splitOff, cutAt],
      by simp [eraseTail, splitOff, cutAt], ?_, by simp [eraseTail, splitOff, cutAt]⟩⟩
    · have hpn : p ≠ st.w.nextPath := Nat.ne_of_lt hlt
      by_cases hp : p = q
      · subst hp; simp [eraseTail, splitOff, cutAt, Function.update_noteq hqn]
      · simp [eraseTail, splitOff, cutAt, Function.update_noteq hp, Function.update_noteq hpn]
    · simp [eraseTail, splitOff, cutAt, Function.update_noteq hqn.symm]

/-- While the counter does not pass `INT_MAX`, the loop gives the new paths the
orders that follow the counter, one after the other. -/
theorem fold_orders (a : MoveArgs) (L : List Nat) (st st' : MoveState)
    (h : L.foldlM (moveOnePath a) st = some st') (hnd : L.Nodup)
    (halloc : ∀ p, p ∈ L → p < st.w.nextPath)
    (hlow : INT_MIN ≤ st.pathGenerationCount)
    (hover : st.pathGenerationCount + (liveHalves a st.w L : Int) ≤ INT_MAX) :
    st.w.nextPath ≤ st'.w.nextPath
      ∧ st'.pathGenerationCount
        = st.pathGenerationCount + ((st'.w.nextPath : Int) - (st.w.nextPath : Int))
      ∧ (∀ p, p < st.w.nextPath → (st'.w.paths p).Order = (st.w.paths p).Order)
      ∧ (∀ N, st.w.nextPath ≤ N → N < st'.w.nextPath →
          (st'.w.paths N).Order
            = st.pathGenerationCount + ((N : Int) - (st.w.nextPath : Int)) + 1) := by
  induction L generalizing st with
  | nil =>
    simp only [List.foldlM_nil, pure, Option.some.injEq] at h
    rw [← h]
    exact ⟨le_refl _, by simp, fun _ _ => rfl, fun N h1 h2 => absurd h2 (not_lt.mpr h1)⟩
  | cons q L ih =>
    rw [List.foldlM_cons] at h
    obtain ⟨st1, hs1, hrest⟩ := Option.bind_eq_some.mp h
    obtain ⟨o1, o2⟩ := moveOnePath_orders a st st1 q hs1 (halloc q (by simp))
    obtain ⟨-, c2⟩ := moveOnePath_counts a st st1 q hs1
    have hf1 := frameOn_step a st st1 q hs1
    have hq : q ∉ L := (List.nodup_cons.mp hnd).1
    have hlive : liveHalves a st1.w L = liveHalves a st.w L := by
      simp only [liveHalves]
      congr 1
      apply List.filter_congr
      intro p hp
      have hc : isCut a st1.w p = isCut a st.w p := by
        apply isCut_congr
        · refine hf1.2.1 p ?_ (halloc p (List.mem_cons_of_mem _ hp))
          simp only [List.mem_singleton]
          rintro rfl
          exact hq hp
        · exact moveOnePath_unreachable a st st1 q hs1
      rw [hc]
    rw [liveHalves_cons] at hover
    have hn1 : st.w.nextPath ≤ st1.w.nextPath := by
      rcases o2 with ⟨e, -⟩ | ⟨e, -, -, -⟩ <;> omega
    have hgen : (st1.w.nextPath = st.w.nextPath ∧ st1.pathGenerationCount = st.pathGenerationCount)
        ∨ (st1.w.nextPath = st.w.nextPath + 1
          ∧ st1.pathGenerationCount = st.pathGenerationCount + 1
          ∧ (st1.w.paths st.w.nextPath).Order = st.pathGenerationCount + 1
          ∧ st.pathGenerationCount + 1 + (liveHalves a st.w L : Int) ≤ INT_MAX) := by
      rcases o2 with ⟨e1, e2⟩ | ⟨e1, e2, e3, e4⟩
      · exact Or.inl ⟨e1, e2⟩
      · have hind : (if isCut a st.w q && !decide (q ∈ a.AffectedPaths) then 1 else 0) = 1 := by
          rw [e4] at c2
          omega
        rw [hind] at hover
        have hlt : st.pathGenerationCount < INT_MAX := by
          have : (0 : Int) ≤ (liveHalves a st.w L : Int) := Int.natCast_nonneg _
          push_cast at hover
          omega
        have hinc := incrInt_eq _ hlow hlt
        refine Or.inr ⟨e1, by rw [e2, hinc], by rw [e3, hinc], ?_⟩
        push_cast at hover
        omega
    have hlow1 : INT_MIN ≤ st1.pathGenerationCount := by
      rcases hgen with ⟨-, e2⟩ | ⟨-, e2, -, -⟩ <;> omega
    have hover1 : st1.pathGenerationCount + (liveHalves a st1.w L : Int) ≤ INT_MAX := by
      rw [hlive]
      rcases hgen with ⟨-, e2⟩ | ⟨-, e2, -, e4⟩
      · rw [e2]
        have : (0 : Int) ≤ ((if isCut a st.w q && !decide (q ∈ a.AffectedPaths) then 1 else 0
            : Nat) : Int) := Int.natCast_nonneg _
        push_cast at hover this
        omega
      · rw [e2]; exact e4
    obtain ⟨i1, i2, i3, i4⟩ := ih st1 hrest (List.nodup_cons.mp hnd).2
      (fun p hp => lt_of_lt_of_le (halloc p (List.mem_cons_of_mem _ hp)) hn1) hlow1 hover1
    refine ⟨le_trans hn1 i1, ?_, ?_, ?_⟩
    · rcases hgen with ⟨e1, e2⟩ | ⟨e1, e2, -, -⟩
      · rw [i2, e1, e2]
      · rw [i2, e1, e2]; push_cast; ring
    · intro p hp
      rw [i3 p (lt_of_lt_of_le hp hn1), o1 p hp]
    · intro N hN1 hN2
      rcases hgen with ⟨e1, e2⟩ | ⟨e1, e2, e3, -⟩
      · rw [i4 N (by omega) hN2, e1, e2]
      · by_cases hN : N = st.w.nextPath
        · subst hN
          rw [i3 _ (by omega), e3]; simp
        · rw [i4 N (by omega) hN2, e1, e2]; push_cast; ring


/-- C11 (as the code has it): on a list of distinct allocated paths whose start
costs are not after the slice time, when every existing path has an order of at
most `pathGenerationCount` and the counter, an `int`, does not pass `INT_MAX`
during the call (the counter plus the number of live halves the call creates is
at most `INT_MAX`), every live half the call creates has an order above every
order that existed before, a half created later has a greater order than one
created earlier, and afterwards `pathGenerationCount` bounds every order in
existence and is the order of the last half created, when there is one. -/
theorem C11_orders_increase (a : MoveArgs) (w : World) (allPaths dae : List Nat) (gen : Int)
    (hnd : allPaths.Nodup) (halloc : ∀ q, q ∈ allPaths → q < w.nextPath)
    (hstart : ∀ q, q ∈ allPaths → (w.paths q).PathStartCost ≤ a.CurrentTime)
    (hle : ∀ p, p < w.nextPath → (w.paths p).Order ≤ gen)
    (hlow : INT_MIN ≤ gen)
    (hover : gen + (liveHalves a w allPaths : Int) ≤ INT_MAX) :
    ∃ r, EvcPath.DynamicStep_MoveOnPath a w allPaths dae gen = some r
      ∧ (∀ N p, w.nextPath ≤ N → N < r.w.nextPath → p < w.nextPath →
          (w.paths p).Order < (r.w.paths N).Order)
      ∧ (∀ N1 N2, w.nextPath ≤ N1 → N1 < N2 → N2 < r.w.nextPath →
          (r.w.paths N1).Order < (r.w.paths N2).Order)
      ∧ (∀ p, p < r.w.nextPath → (r.w.paths p).Order ≤ r.pathGenerationCount)
      ∧ (w.nextPath < r.w.nextPath →
          (r.w.paths (r.w.nextPath - 1)).Order = r.pathGenerationCount) := by
  let st0 : MoveState :=
    { w := w, count := 0, activeCompleteCount := 0, RemoveReservations := [],
      pathGenerationCount := gen }
  have key : ∃ st3 : MoveState,
      EvcPath.DynamicStep_MoveOnPath a w allPaths dae gen = some
        { w := { st3.w with
            edgeRes := (flushReservations st3.RemoveReservations st3.w.edgeRes dae).1 }
          DynamicallyAffectedEdges :=
            (flushReservations st3.RemoveReservations st3.w.edgeRes dae).2
          pathGenerationCount := st3.pathGenerationCount
          count := st3.count
          activeCompleteCount := st3.activeCompleteCount
          ret := if st3.count > 0 then st3.count else st3.activeCompleteCount }
      ∧ w.nextPath ≤ st3.w.nextPath
      ∧ st3.pathGenerationCount = gen + ((st3.w.nextPath : Int) - (w.nextPath : Int))
      ∧ (∀ p, p < w.nextPath → (st3.w.paths p).Order = (w.paths p).Order)
      ∧ (∀ N, w.nextPath ≤ N → N < st3.w.nextPath →
          (st3.w.paths N).Order = gen + ((N : Int) - (w.nextPath : Int)) + 1) := by
    by_cases ht : 0 < a.CurrentTime
    · have hperm := sortByOrderDesc_perm w allPaths
      obtain ⟨st3, hfold⟩ := fold_total a (sortByOrderDesc w allPaths) st0
        (hperm.nodup_iff.mpr hnd) (fun p hp => halloc p (hperm.mem_iff.mp hp))
        (fun p hp => hstart p (hperm.mem_iff.mp hp))
      have e2 : liveHalves a w (sortByOrderDesc w allPaths) = liveHalves a w allPaths :=
        (hperm.filter _).length_eq
      refine ⟨st3, ?_, fold_orders a _ st0 st3 hfold (hperm.nodup_iff.mpr hnd)
        (fun p hp => halloc p (hperm.mem_iff.mp hp)) hlow (by rw [e2]; exact hover)⟩
      unfold EvcPath.DynamicStep_MoveOnPath
      simp only [gt_iff_lt, ht, if_true, hfold]
    · refine ⟨st0, ?_, le_refl _, by simp [st0], fun _ _ => rfl,
        fun N h1 h2 => absurd h2 (not_lt.mpr h1)⟩
      unfold EvcPath.DynamicStep_MoveOnPath
      simp only [gt_iff_lt, ht, if_false]
  obtain ⟨st3, hcall, k1, k2, k3, k4⟩ := key
  refine ⟨_, hcall, ?_, ?_, ?_, ?_⟩
  · intro N p hN1 hN2 hp
    show (w.paths p).Order < (st3.w.paths N).Order
    have hN2' : N < st3.w.nextPath := hN2
    rw [k4 N hN1 hN2']
    have := hle p hp
    have hN : (0 : Int) ≤ (N : Int) - (w.nextPath : Int) := by omega
    linarith
  · intro N1 N2 h1 h12 h2
    show (st3.w.paths N1).Order < (st3.w.paths N2).Order
    have h2' : N2 < st3.w.nextPath := h2
    rw [k4 N1 h1 (by omega), k4 N2 (by omega) h2']
    have : (N1 : Int) < (N2 : Int) := by exact_mod_cast h12
    linarith
  · intro p hp
    show (st3.w.paths p).Order ≤ st3.pathGenerationCount
    have hp' : p < st3.w.nextPath := hp
    by_cases hold : p < w.nextPath
    · rw [k3 p hold, k2]
      have := hle p hold
      have hN : (0 : Int) ≤ (st3.w.nextPath : Int) - (w.nextPath : Int) := by omega
      linarith
    · rw [k4 p (not_lt.mp hold) hp', k2]
      have : (p : Int) + 1 ≤ (st3.w.nextPath : Int) := by exact_mod_cast hp'
      linarith
  · intro hnew
    show (st3.w.paths (st3.w.nextPath - 1)).Order = st3.pathGenerationCount
    have hnew' : w.nextPath < st3.w.nextPath := hnew
    rw [k4 _ (by omega) (by omega), k2]
    have : ((st3.w.nextPath - 1 : Nat) : Int) = (st3.w.nextPath : Int) - 1 := by omega
    rw [this]; ring

theorem liveHalves_le_length (a : MoveArgs) (w : World) (L : List Nat) :
    liveHalves a w L ≤ L.length :=
  List.length_filter_le _ _

/-- C11 at a concrete slice: the two-edge route cut at time 3 outside the
affected set, with the counter at the order of the route; the live half gets
order 2, above the order 1 of the route, and the counter ends at 2. -/
theorem C11_orders_increase_witness :
    [0].Nodup
    ∧ (∀ q, q ∈ [0] → q < (oneRouteWorld twoEdgePath).nextPath)
    ∧ (∀ q, q ∈ [0] →
        ((oneRouteWorld twoEdgePath).paths q).PathStartCost ≤ (sliceArgs 3 []).CurrentTime)
    ∧ (∀ p, p < (oneRouteWorld twoEdgePath).nextPath →
        ((oneRouteWorld twoEdgePath).paths p).Order ≤ 1)
    ∧ INT_MIN ≤ 1
    ∧ (1 : Int) + (liveHalves (sliceArgs 3 []) (oneRouteWorld twoEdgePath) [0] : Int) ≤ INT_MAX
    ∧ (EvcPath.DynamicStep_MoveOnPath (sliceArgs 3 []) (oneRouteWorld twoEdgePath) [0] []
          1).map (fun r => (r.pathGenerationCount, r.w.nextPath, (r.w.paths 1).Order))
        = some (2, 2, 2)
    ∧ ∃ r, EvcPath.DynamicStep_MoveOnPath (sliceArgs 3 []) (oneRouteWorld twoEdgePath) [0] [] 1
        = some r
      ∧ (∀ N p, (oneRouteWorld twoEdgePath).nextPath ≤ N → N < r.w.nextPath →
          p < (oneRouteWorld twoEdgePath).nextPath →
          ((oneRouteWorld twoEdgePath).paths p).Order < (r.w.paths N).Order)
      ∧ (∀ N1 N2, (oneRouteWorld twoEdgePath).nextPath ≤ N1 → N1 < N2 → N2 < r.w.nextPath →
          (r.w.paths N1).Order < (r.w.paths N2).Order)
      ∧ (∀ p, p < r.w.nextPath → (r.w.paths p).Order ≤ r.pathGenerationCount)
      ∧ ((oneRouteWorld twoEdgePath).nextPath < r.w.nextPath →
          (r.w.paths (r.w.nextPath - 1)).Order = r.pathGenerationCount) := by
  have hover : (1 : Int) + (liveHalves (sliceArgs 3 []) (oneRouteWorld twoEdgePath) [0] : Int)
      ≤ INT_MAX := by
    have h := liveHalves_le_length (sliceArgs 3 []) (oneRouteWorld twoEdgePath) [0]
    have h' : (liveHalves (sliceArgs 3 []) (oneRouteWorld twoEdgePath) [0] : Int) ≤ 1 := by
      exact_mod_cast h
    unfold INT_MAX
    omega
  have hlow : INT_MIN ≤ 1 := by unfold INT_MIN; omega
  refine ⟨by simp, by simp [oneRouteWorld],
    by simp [oneRouteWorld, sliceArgs, twoEdgePath, samplePath],
    by intro p _; simp [oneRouteWorld, twoEdgePath, samplePath], hlow, hover, ?_,
    C11_orders_increase (sliceArgs 3 []) (oneRouteWorld twoEdgePath) [0] [] 1 (by simp)
      (by simp [oneRouteWorld]) (by simp [oneRouteWorld, sliceArgs, twoEdgePath, samplePath])
      (by intro p _; simp [oneRouteWorld, twoEdgePath, samplePath]) hlow hover⟩
  simp [EvcPath.DynamicStep_MoveOnPath, sortByOrderDesc, sliceArgs, oneRouteWorld, twoEdgePath,
    samplePath, moveOnePath, sampleEvacuee, findCut, walkSegments, decrSizeT, eraseTail,
    splitOff, cutAt, flushReservations, PathSegment.GetCurrentCost,
    PathSegment.GetEdgePortion, Evacuee.DynamicMove, EvcPath.copy, incrInt, Function.update]
  norm_num

/-- C11 fails as stated in two ways. With one path of order 1 and the counter at
5, a call that creates no live half (the path is cut inside the affected set)
leaves the counter at 5 while the only path in existence still has order 1. And
with the counter at `INT_MAX` the live half of a path cut outside the affected
set gets the order `INT_MIN`, below the order 1 of the path that existed. -/
theorem C11_counterexample :
    (EvcPath.DynamicStep_MoveOnPath (sliceArgs 3 [0]) (oneRouteWorld twoEdgePath) [0] [] 5).map
        (fun r => (r.pathGenerationCount, r.w.nextPath, (r.w.paths 0).Order))
      = some (5, 1, 1)
    ∧ ((oneRouteWorld twoEdgePath).paths 0).Order ≤ 5
    ∧ (EvcPath.DynamicStep_MoveOnPath (sliceArgs 3 []) (oneRouteWorld twoEdgePath) [0] []
          INT_MAX).map (fun r => (r.w.nextPath, (r.w.paths 1).Order, (r.w.paths 0).Order))
      = some (2, INT_MIN, 1)
    ∧ ((oneRouteWorld twoEdgePath).paths 0).Order ≤ INT_MAX
    ∧ INT_MIN < 1 := by
  refine ⟨?_, ?_, ?_, ?_, ?_⟩
  · simp [EvcPath.DynamicStep_MoveOnPath, sortByOrderDesc, sliceArgs, oneRouteWorld, twoEdgePath,
      samplePath, moveOnePath, sampleEvacuee, findCut, walkSegments, decrSizeT, eraseTail,
      dropAffected, cutAt, flushReservations, PathSegment.GetCurrentCost,
      PathSegment.GetEdgePortion, Evacuee.DynamicMove, SafeZone.Reserve]
    norm_num
  · simp [oneRouteWorld, twoEdgePath, samplePath]
  · simp [EvcPath.DynamicStep_MoveOnPath, sortByOrderDesc, sliceArgs, oneRouteWorld, twoEdgePath,
      samplePath, moveOnePath, sampleEvacuee, findCut, walkSegments, decrSizeT, eraseTail,
      splitOff, cutAt, flushReservations, PathSegment.GetCurrentCost,
      PathSegment.GetEdgePortion, Evacuee.DynamicMove, EvcPath.copy, incrInt, INT_MAX, INT_MIN,
      Function.update]
    norm_num
  · simp [oneRouteWorld, twoEdgePath, samplePath, INT_MAX]
  · unfold INT_MIN; omega


/-- C12: the cost `SafeZone::SafeZoneCost` returns is the reference cost of the
spec: infinity for capacity 0 under a positive cost per density, otherwise the
overflow penalty of a zone with positive capacity plus the entry cost over the
behind-edge, when there is one. -/
theorem C12_safe_zone_cost_reference (CASPER_INFINITY : ℚ) (GetCost : Nat → ℚ → ℚ → ℚ × ℚ)
    (z : SafeZone) (pop costPerDensity globalDeltaCost : ℚ) :
    (z.SafeZoneCost CASPER_INFINITY GetCost pop costPerDensity globalDeltaCost).1
      = safeZoneCostReference CASPER_INFINITY (fun e p => (GetCost e p globalDeltaCost).1) z pop
          costPerDensity := by
  unfold SafeZone.SafeZoneCost safeZoneCostReference
  by_cases h0 : z.capacity = 0 ∧ costPerDensity > 0
  · simp only [h0, and_self, if_true]
  · simp only [h0, if_false]
    have hpen : (if pop + z.reservedPop > z.capacity ∧ z.capacity > 0 then
          (0 : ℚ) + costPerDensity * ((pop + z.reservedPop) / z.capacity - 1) else 0)
        = (if z.capacity > 0 then
          costPerDensity * max 0 ((z.reservedPop + pop) / z.capacity - 1) else 0) := by
      rw [add_comm pop z.reservedPop]
      by_cases hc : z.capacity > 0
      · by_cases ht : z.reservedPop + pop > z.capacity
        · have : 0 ≤ (z.reservedPop + pop) / z.capacity - 1 := by
            rw [sub_nonneg, le_div_iff₀ hc]
            linarith
          simp only [ht, hc, and_self, if_true, max_eq_right this, zero_add]
        · have : (z.reservedPop + pop) / z.capacity - 1 ≤ 0 := by
            rw [sub_nonpos, div_le_iff₀ hc]
            linarith [not_lt.mp ht]
          simp only [ht, hc, false_and, if_false, if_true, max_eq_left this, mul_zero]
      · simp only [hc, and_false, if_false]
    cases hb : z.behindEdge with
    | none => simp only [hpen, add_zero]
    | some e => simp only [hpen]

/-- C13: `SafeZone::IsRestricted` answers true exactly when the zone has capacity
0 under a positive cost per density, or has a behind-edge that is not among the
edges of a successful adjacency query (a failed query gives no adjacent
edge). -/
theorem C13_is_restricted_iff (QueryAdjacencies : Nat → Option Nat → Option (List Nat))
    (z : SafeZone) (leadingEdge : Option Nat) (costPerDensity : ℚ) :
    z.IsRestricted QueryAdjacencies leadingEdge costPerDensity = true
      ↔ (z.capacity = 0 ∧ costPerDensity > 0)
        ∨ ∃ b, z.behindEdge = some b
            ∧ ∀ adj, QueryAdjacencies z.EID leadingEdge = some adj → b ∉ adj := by
  have hloop : ∀ (b : Nat) (adj : List Nat) (r : Bool),
      adj.foldl (fun r currentEdge => if b = currentEdge then false else r) r = true
        ↔ r = true ∧ b ∉ adj := by
    intro b adj
    induction adj with
    | nil => intro r; simp
    | cons x xs ih =>
      intro r
      rw [List.foldl_cons, ih]
      by_cases hx : b = x
      · simp [hx]
      · simp [hx]
  unfold SafeZone.IsRestricted
  by_cases h0 : z.capacity = 0 ∧ costPerDensity > 0
  · simp [h0]
  · cases hb : z.behindEdge with
    | none => simp [h0]
    | some b =>
      cases hq : QueryAdjacencies z.EID leadingEdge with
      | none => simp [h0]
      | some adj =>
        simp only [h0, decide_False, Bool.not_false, Bool.and_true, Option.isSome_some, if_true,
          false_or, Option.some.injEq, exists_eq_left']
        rw [hloop b adj true]
        constructor
        · intro h l hl
          rw [← hl]; exact h.2
        · intro h
          exact ⟨rfl, h adj rfl⟩


/-- C14 (as the code has it): the call returns true exactly for a registered
vertex and changes nothing for an unregistered one; at a restricted zone only
`foundRestrictedSafezone` is set; at a zone that is not restricted the total is
`costLeft + GVal + GlobalPenaltyCost + globalDeltaCost`, with the cost and the
`globalDeltaCost` that `SafeZoneCost` leaves, `TimeToBeat` becomes the smaller
of itself and the total, and the zone and the vertex are taken exactly when the
total is strictly smaller. -/
theorem C14_check_discovered_safe_point (CASPER_INFINITY : ℚ) (GetCost : Nat → ℚ → ℚ → ℚ × ℚ)
    (QueryAdjacencies : Nat → Option Nat → Option (List Nat)) (table : Nat → Option SafeZone)
    (v : NAVertex) (myEdge : Option Nat) (s : SafePointSearch) (cpd pop : ℚ) :
    ((SafeZoneTable.CheckDiscoveredSafePoint CASPER_INFINITY GetCost QueryAdjacencies table v
          myEdge s cpd pop).1 = true ↔ (table v.EID).isSome = true)
      ∧ (table v.EID = none →
          (SafeZoneTable.CheckDiscoveredSafePoint CASPER_INFINITY GetCost QueryAdjacencies table v
            myEdge s cpd pop).2 = s)
      ∧ ∀ zone, table v.EID = some zone →
          (zone.IsRestricted QueryAdjacencies myEdge cpd = true →
            (SafeZoneTable.CheckDiscoveredSafePoint CASPER_INFINITY GetCost QueryAdjacencies table
              v myEdge s cpd pop).2 = { s with foundRestrictedSafezone := true })
          ∧ (zone.IsRestricted QueryAdjacencies myEdge cpd = false →
            (SafeZoneTable.CheckDiscoveredSafePoint CASPER_INFINITY GetCost QueryAdjacencies table
                v myEdge s cpd pop).2.TimeToBeat
              = min s.TimeToBeat
                  ((zone.SafeZoneCost CASPER_INFINITY GetCost pop cpd s.globalDeltaCost).1 + v.GVal
                    + v.GlobalPenaltyCost
                    + (zone.SafeZoneCost CASPER_INFINITY GetCost pop cpd s.globalDeltaCost).2)
            ∧ (SafeZoneTable.CheckDiscoveredSafePoint CASPER_INFINITY GetCost QueryAdjacencies
                table v myEdge s cpd pop).2.foundRestrictedSafezone = s.foundRestrictedSafezone
            ∧ ((zone.SafeZoneCost CASPER_INFINITY GetCost pop cpd s.globalDeltaCost).1 + v.GVal
                  + v.GlobalPenaltyCost
                  + (zone.SafeZoneCost CASPER_INFINITY GetCost pop cpd s.globalDeltaCost).2
                < s.TimeToBeat →
                (SafeZoneTable.CheckDiscoveredSafePoint CASPER_INFINITY GetCost QueryAdjacencies
                    table v myEdge s cpd pop).2.BetterSafeZone = some zone
                ∧ (SafeZoneTable.CheckDiscoveredSafePoint CASPER_INFINITY GetCost QueryAdjacencies
                    table v myEdge s cpd pop).2.finalVertex = some v)
            ∧ (¬ (zone.SafeZoneCost CASPER_INFINITY GetCost pop cpd s.globalDeltaCost).1 + v.GVal
                  + v.GlobalPenaltyCost
                  + (zone.SafeZoneCost CASPER_INFINITY GetCost pop cpd s.globalDeltaCost).2
                < s.TimeToBeat →
                (SafeZoneTable.CheckDiscoveredSafePoint CASPER_INFINITY GetCost QueryAdjacencies
                    table v myEdge s cpd pop).2.BetterSafeZone = s.BetterSafeZone
                ∧ (SafeZoneTable.CheckDiscoveredSafePoint CASPER_INFINITY GetCost QueryAdjacencies
                    table v myEdge s cpd pop).2.finalVertex = s.finalVertex)) := by
  refine ⟨?_, ?_, ?_⟩
  · unfold SafeZoneTable.CheckDiscoveredSafePoint
    cases ht : table v.EID with
    | none => simp
    | some zone =>
      dsimp only
      split_ifs <;> simp
  · intro ht
    unfold SafeZoneTable.CheckDiscoveredSafePoint
    simp only [ht]
  · intro zone ht
    constructor
    · intro hr
      unfold SafeZoneTable.CheckDiscoveredSafePoint
      simp only [ht, hr, Bool.not_true, Bool.false_eq_true, if_false]
    · intro hr
      unfold SafeZoneTable.CheckDiscoveredSafePoint
      simp only [ht, hr, Bool.not_false, if_true, gt_iff_lt]
      by_cases hlt : (zone.SafeZoneCost CASPER_INFINITY GetCost pop cpd s.globalDeltaCost).1
          + v.GVal + v.GlobalPenaltyCost
          + (zone.SafeZoneCost CASPER_INFINITY GetCost pop cpd s.globalDeltaCost).2 < s.TimeToBeat
      · simp only [hlt, if_true, not_true_eq_false, false_implies, and_true, true_implies,
          and_self]
        exact (min_eq_right (le_of_lt hlt)).symm
      · simp only [hlt, if_false, not_false_eq_true, true_implies, false_implies, and_true,
          and_self]
        exact (min_eq_left (not_lt.mp hlt)).symm

/-- C14 fails as stated: at the open zone of capacity 10 without a behind-edge,
reached through a vertex with `GVal` 0 and global penalty 1, the time to beat
1/2 stays and no zone is taken, although `g + safe_zone_cost` is 0, below 1/2. -/
theorem C14_counterexample :
    SafeZoneTable.CheckDiscoveredSafePoint 1000 freeEdges (fun _ _ => none) openZoneTable
        (NAVertex.mk 7 0 1) none (freshSearch (1 / 2)) 0 1
      = (true, freshSearch (1 / 2))
    ∧ openZone.IsRestricted (fun _ _ => none) none 0 = false
    ∧ (NAVertex.mk 7 0 1).GVal + (openZone.SafeZoneCost 1000 freeEdges 1 0 0).1 = 0
    ∧ min (1 / 2 : ℚ) 0 ≠ 1 / 2 := by
  refine ⟨?_, ?_, ?_, ?_⟩
  · simp [SafeZoneTable.CheckDiscoveredSafePoint, openZoneTable, openZone, freshSearch,
      SafeZone.IsRestricted, SafeZone.SafeZoneCost, freeEdges]
    norm_num
  · simp [SafeZone.IsRestricted, openZone]
  · simp [SafeZone.SafeZoneCost, openZone, freeEdges]
  · norm_num


theorem demote_status (w : World) (e x : Nat)
    (h : (w.evacuees x).Status = EvacueeStatus.Unprocessed ∨ x = e) :
    ((w.demote e).evacuees x).Status = EvacueeStatus.Unprocessed := by
  unfold World.demote
  by_cases hx : x = e
  · subst hx; simp
  · rcases h with h | h
    · simp [Function.update, hx, h]
    · exact absurd h hx

theorem demoteCrossing_keeps (c : ℚ) (e : Nat) (st : World × List Nat) (pair : Nat × ℚ)
    (h : (st.1.evacuees e).Status = EvacueeStatus.Unprocessed) :
    ((demoteCrossing c st pair).1.evacuees e).Status = EvacueeStatus.Unprocessed := by
  unfold demoteCrossing
  split_ifs
  · exact demote_status _ _ _ (Or.inl h)
  · exact h

theorem demoteCrossing_sublist (c : ℚ) (st : World × List Nat) (pair : Nat × ℚ) :
    st.2 <+: (demoteCrossing c st pair).2 := by
  unfold demoteCrossing
  split_ifs
  · exact List.prefix_append _ _
  · exact List.prefix_refl _

theorem fold_demoteCrossing_keeps (c : ℚ) (e : Nat) (entries : List (Nat × ℚ)) :
    ∀ st : World × List Nat, (st.1.evacuees e).Status = EvacueeStatus.Unprocessed →
      ((entries.foldl (demoteCrossing c) st).1.evacuees e).Status
        = EvacueeStatus.Unprocessed := by
  induction entries with
  | nil => intro st h; exact h
  | cons p rest ih =>
    intro st h
    exact ih _ (demoteCrossing_keeps c e st p h)

theorem fold_demoteCrossing_prefix (c : ℚ) (entries : List (Nat × ℚ)) :
    ∀ st : World × List Nat, st.2 <+: (entries.foldl (demoteCrossing c) st).2 := by
  induction entries with
  | nil => intro st; exact List.prefix_refl _
  | cons p rest ih =>
    intro st
    exact (demoteCrossing_sublist c st p).trans (ih _)

/-- The test of line 300 in the words of the two cases of `quotientReaches`. -/
theorem secondChance_test (thr maxCost p e : ℚ) :
    (quotientReaches p maxCost thr = true ∨ quotientReaches e maxCost thr = true)
      ↔ ((maxCost ≠ 0 ∧ (thr ≤ p / maxCost ∨ thr ≤ e / maxCost))
          ∨ (maxCost = 0 ∧ (0 < p ∨ 0 < e))) := by
  unfold quotientReaches
  by_cases h : maxCost = 0
  · simp [h]
  · simp [h]

/-- C15 (as the code has it): for an `ActiveComplete` path whose evacuee is
`Processed`, `EvcPath::DoesItNeedASecondChance` leaves that evacuee `Unprocessed`
if and only if the prediction ratio or the congestion ratio is at least the
cost threshold, the ratios being the quotients of the code: for a largest cost
other than 0 the quotient by it, and for a largest cost of 0 a ratio that
reaches the threshold exactly when its numerator is positive. In that case the
evacuee is in the affecting list afterwards, after the entries the list had;
when neither ratio reaches the threshold the heap and the affecting list are
returned as they were. -/
theorem C15_second_chance_iff (cost : Nat → ℚ)
    (ThreasholdForCost ThreasholdForPathOverlap ThisIterationMaxCost : ℚ) (w : World)
    (AffectingList : List Nat) (pid : Nat)
    (hact : (w.paths pid).Status = PathStatus.ActiveComplete)
    (hproc : (w.evacuees (w.paths pid).myEvc).Status = EvacueeStatus.Processed) :
    (((EvcPath.DoesItNeedASecondChance cost ThreasholdForCost ThreasholdForPathOverlap
          ThisIterationMaxCost w AffectingList pid).1.evacuees (w.paths pid).myEvc).Status
        = EvacueeStatus.Unprocessed
      ↔ ((ThisIterationMaxCost ≠ 0
            ∧ (ThreasholdForCost ≤ ((w.paths pid).ReserveEvacuationCost
                  - (w.evacuees (w.paths pid).myEvc).PredictedCost) / ThisIterationMaxCost
              ∨ ThreasholdForCost ≤ ((w.paths pid).FinalEvacuationCost
                  - (w.paths pid).ReserveEvacuationCost) / ThisIterationMaxCost))
          ∨ (ThisIterationMaxCost = 0
            ∧ (0 < (w.paths pid).ReserveEvacuationCost
                  - (w.evacuees (w.paths pid).myEvc).PredictedCost
              ∨ 0 < (w.paths pid).FinalEvacuationCost - (w.paths pid).ReserveEvacuationCost))))
    ∧ (((ThisIterationMaxCost ≠ 0
            ∧ (ThreasholdForCost ≤ ((w.paths pid).ReserveEvacuationCost
                  - (w.evacuees (w.paths pid).myEvc).PredictedCost) / ThisIterationMaxCost
              ∨ ThreasholdForCost ≤ ((w.paths pid).FinalEvacuationCost
                  - (w.paths pid).ReserveEvacuationCost) / ThisIterationMaxCost))
          ∨ (ThisIterationMaxCost = 0
            ∧ (0 < (w.paths pid).ReserveEvacuationCost
                  - (w.evacuees (w.paths pid).myEvc).PredictedCost
              ∨ 0 < (w.paths pid).FinalEvacuationCost - (w.paths pid).ReserveEvacuationCost))) →
        (AffectingList ++ [(w.paths pid).myEvc]) <+:
          (EvcPath.DoesItNeedASecondChance cost ThreasholdForCost ThreasholdForPathOverlap
            ThisIterationMaxCost w AffectingList pid).2)
    ∧ (¬ ((ThisIterationMaxCost ≠ 0
            ∧ (ThreasholdForCost ≤ ((w.paths pid).ReserveEvacuationCost
                  - (w.evacuees (w.paths pid).myEvc).PredictedCost) / ThisIterationMaxCost
              ∨ ThreasholdForCost ≤ ((w.paths pid).FinalEvacuationCost
                  - (w.paths pid).ReserveEvacuationCost) / ThisIterationMaxCost))
          ∨ (ThisIterationMaxCost = 0
            ∧ (0 < (w.paths pid).ReserveEvacuationCost
                  - (w.evacuees (w.paths pid).myEvc).PredictedCost
              ∨ 0 < (w.paths pid).FinalEvacuationCost - (w.paths pid).ReserveEvacuationCost))) →
        EvcPath.DoesItNeedASecondChance cost ThreasholdForCost ThreasholdForPathOverlap
          ThisIterationMaxCost w AffectingList pid = (w, AffectingList)) := by
  have hq := secondChance_test ThreasholdForCost ThisIterationMaxCost
    ((w.paths pid).ReserveEvacuationCost - (w.evacuees (w.paths pid).myEvc).PredictedCost)
    ((w.paths pid).FinalEvacuationCost - (w.paths pid).ReserveEvacuationCost)
  by_cases hr : quotientReaches ((w.paths pid).ReserveEvacuationCost
          - (w.evacuees (w.paths pid).myEvc).PredictedCost) ThisIterationMaxCost
          ThreasholdForCost = true
      ∨ quotientReaches ((w.paths pid).FinalEvacuationCost - (w.paths pid).ReserveEvacuationCost)
          ThisIterationMaxCost ThreasholdForCost = true
  · have hr' := hq.mp hr
    refine ⟨⟨fun _ => hr', fun _ => ?_⟩, fun _ => ?_, fun h => absurd hr' h⟩
    · unfold EvcPath.DoesItNeedASecondChance
      dsimp only
      rw [if_pos ⟨hact, hr⟩, if_pos hproc]
      exact fold_demoteCrossing_keeps _ _ _ _ (demote_status _ _ _ (Or.inr rfl))
    · unfold EvcPath.DoesItNeedASecondChance
      dsimp only
      rw [if_pos ⟨hact, hr⟩, if_pos hproc]
      exact fold_demoteCrossing_prefix _ _
        (w.demote (w.paths pid).myEvc, AffectingList ++ [(w.paths pid).myEvc])
  · have hr' := fun h => hr (hq.mpr h)
    have hcall : EvcPath.DoesItNeedASecondChance cost ThreasholdForCost
        ThreasholdForPathOverlap ThisIterationMaxCost w AffectingList pid
        = (w, AffectingList) := by
      unfold EvcPath.DoesItNeedASecondChance
      dsimp only
      rw [if_neg (fun h => hr h.2)]
    rw [hcall]
    refine ⟨⟨fun h => ?_, fun h => absurd h hr'⟩, fun h => absurd h hr', fun _ => rfl⟩
    rw [hproc] at h
    exact absurd h (by decide)

/-- The route of cost 20 of the one-route world, in an iteration whose largest
cost is 20 and with threshold 1: the prediction ratio is exactly 1 and the
evacuee is demoted and listed. -/
theorem C15_second_chance_iff_witness :
    ((oneRouteWorld twoEdgePath).paths 0).Status = PathStatus.ActiveComplete
    ∧ ((oneRouteWorld twoEdgePath).evacuees ((oneRouteWorld twoEdgePath).paths 0).myEvc).Status
        = EvacueeStatus.Processed
    ∧ ((1 : ℚ) ≤ (((oneRouteWorld twoEdgePath).paths 0).ReserveEvacuationCost
              - ((oneRouteWorld twoEdgePath).evacuees
                  ((oneRouteWorld twoEdgePath).paths 0).myEvc).PredictedCost) / 20)
    ∧ ((EvcPath.DoesItNeedASecondChance (fun _ => 10) 1 1 20 (oneRouteWorld twoEdgePath) []
          0).1.evacuees ((oneRouteWorld twoEdgePath).paths 0).myEvc).Status
        = EvacueeStatus.Unprocessed :=
  ⟨by decide, by decide,
    by norm_num [oneRouteWorld, twoEdgePath, samplePath, sampleEvacuee],
    (C15_second_chance_iff (fun _ => 10) 1 1 20 (oneRouteWorld twoEdgePath) [] 0
      (by decide) (by decide)).1.mpr
      (Or.inl ⟨by norm_num,
        Or.inl (by norm_num [oneRouteWorld, twoEdgePath, samplePath, sampleEvacuee])⟩)⟩

/-- With a largest cost of 0 the quotients of the code are infinite or NaN: the
route of cost 20 with predicted cost 0 has a positive prediction numerator, its
ratio is `+inf` and the evacuee is demoted whatever the threshold (here 1000),
while the same route with the predicted cost 20 it was reserved at has the
numerators 0 and 0, and nothing changes. -/
theorem secondChance_zero_max :
    ((EvcPath.DoesItNeedASecondChance (fun _ => 10) 1000 1 0 (oneRouteWorld twoEdgePath) []
        0).1.evacuees 0).Status = EvacueeStatus.Unprocessed
    ∧ EvcPath.DoesItNeedASecondChance (fun _ => 10) 1000 1 0
        { oneRouteWorld twoEdgePath with
          evacuees := fun _ => { sampleEvacuee with Paths := [0], PredictedCost := 20 } } [] 0
      = ({ oneRouteWorld twoEdgePath with
          evacuees := fun _ => { sampleEvacuee with Paths := [0], PredictedCost := 20 } }, []) := by
  constructor
  · simp [EvcPath.DoesItNeedASecondChance, quotientReaches, oneRouteWorld, twoEdgePath,
      samplePath, sampleEvacuee, World.demote, demoteCrossing, Histogram.WeightedAdd,
      Histogram.add, NAEdge.GetUniqeCrossingPaths, PathSegment.GetCurrentCost,
      PathSegment.GetEdgePortion, Function.update]
  · simp [EvcPath.DoesItNeedASecondChance, quotientReaches, oneRouteWorld, twoEdgePath,
      samplePath, sampleEvacuee]

/-- C15 as stated fails when a ratio equals the threshold: the route of cost 20
with predicted cost 0, largest cost 20 and threshold 1 has prediction ratio 1
and congestion ratio 0, neither exceeding 1, yet the evacuee is demoted to
`Unprocessed` and joins the affecting list. -/
theorem C15_counterexample :
    ((EvcPath.DoesItNeedASecondChance (fun _ => 10) 1 1 20 (oneRouteWorld twoEdgePath) [] 0).1.evacuees
        0).Status = EvacueeStatus.Unprocessed
    ∧ (EvcPath.DoesItNeedASecondChance (fun _ => 10) 1 1 20 (oneRouteWorld twoEdgePath) [] 0).2 = [0]
    ∧ ((oneRouteWorld twoEdgePath).paths 0).Status = PathStatus.ActiveComplete
    ∧ ((oneRouteWorld twoEdgePath).evacuees 0).Status = EvacueeStatus.Processed
    ∧ ¬ ((1 : ℚ) < (((oneRouteWorld twoEdgePath).paths 0).ReserveEvacuationCost
            - ((oneRouteWorld twoEdgePath).evacuees 0).PredictedCost) / 20)
    ∧ ¬ ((1 : ℚ) < (((oneRouteWorld twoEdgePath).paths 0).FinalEvacuationCost
            - ((oneRouteWorld twoEdgePath).paths 0).ReserveEvacuationCost) / 20) := by
  refine ⟨?_, ?_, by decide, by decide, ?_, ?_⟩
  · simp [EvcPath.DoesItNeedASecondChance, quotientReaches, oneRouteWorld, twoEdgePath,
      samplePath, sampleEvacuee,
      World.demote, demoteCrossing, Histogram.WeightedAdd, Histogram.add,
      NAEdge.GetUniqeCrossingPaths, PathSegment.GetCurrentCost, PathSegment.GetEdgePortion,
      Function.update]
  · simp [EvcPath.DoesItNeedASecondChance, quotientReaches, oneRouteWorld, twoEdgePath,
      samplePath, sampleEvacuee,
      World.demote, demoteCrossing, Histogram.WeightedAdd, Histogram.add,
      NAEdge.GetUniqeCrossingPaths, PathSegment.GetCurrentCost, PathSegment.GetEdgePortion,
      Function.update]
  · norm_num [oneRouteWorld, twoEdgePath, samplePath, sampleEvacuee]
  · norm_num [oneRouteWorld, twoEdgePath, samplePath, sampleEvacuee]


theorem activePaths_cons_active (w : World) (path : Nat) (rest : List Nat)
    (h : (w.paths path).Status = PathStatus.ActiveComplete) :
    activePaths w (path :: rest) = path :: activePaths w rest := by
  simp [activePaths, h]

theorem activePaths_cons_frozen (w : World) (path : Nat) (rest : List Nat)
    (h : (w.paths path).Status ≠ PathStatus.ActiveComplete) :
    activePaths w (path :: rest) = activePaths w rest := by
  simp [activePaths, h]

theorem frozenPaths_cons_active (w : World) (path : Nat) (rest : List Nat)
    (h : (w.paths path).Status = PathStatus.ActiveComplete) :
    frozenPaths w (path :: rest) = frozenPaths w rest := by
  simp [frozenPaths, h]

theorem frozenPaths_cons_frozen (w : World) (path : Nat) (rest : List Nat)
    (h : (w.paths path).Status ≠ PathStatus.ActiveComplete) :
    frozenPaths w (path :: rest) = path :: frozenPaths w rest := by
  simp [frozenPaths, h]

theorem routedTo_cons (w : World) (z path : Nat) (rest : List Nat) :
    routedTo w z (path :: rest)
      = (if (w.paths path).MySafeZone = z then (w.paths path).RoutedPop else 0)
        + routedTo w z rest := by
  unfold routedTo
  by_cases h : (w.paths path).MySafeZone = z
  · simp [List.filter_cons, h]
  · simp [List.filter_cons, h]

/-- What the loop of `DetachPathsFromEvacuee` does from any point on. -/
theorem detachLoop_spec (evc : Nat) (rest : List Nat) :
    ∀ (st : DetachState) (kept : List Nat),
      (st.w.evacuees evc).Paths = kept ++ rest →
      (detachLoop evc st kept rest).w.paths = st.w.paths
      ∧ (detachLoop evc st kept rest).w.nextPath = st.w.nextPath
      ∧ (detachLoop evc st kept rest).w.evacuees
          = Function.update st.w.evacuees evc
              { ObjectID := (st.w.evacuees evc).ObjectID
                Population := (st.w.evacuees evc).Population
                Status := (st.w.evacuees evc).Status
                Paths := kept ++ frozenPaths st.w rest
                PredictedCost := (st.w.evacuees evc).PredictedCost
                FinalCost := (st.w.evacuees evc).FinalCost
                StartingCost := (st.w.evacuees evc).StartingCost
                VerticesAndRatio := (st.w.evacuees evc).VerticesAndRatio
                DiscoveryLeaf := (st.w.evacuees evc).DiscoveryLeaf }
      ∧ (∀ x e, x ∈ (detachLoop evc st kept rest).w.edgeRes e ↔
          x ∈ st.w.edgeRes e
            ∧ ¬ (x ∈ activePaths st.w rest ∧ ∃ s ∈ (st.w.paths x).segs, s.Edge = e))
      ∧ (∀ e, e ∈ (detachLoop evc st kept rest).touchedEdges ↔
          e ∈ st.touchedEdges
            ∨ ∃ x ∈ activePaths st.w rest, ∃ s ∈ (st.w.paths x).segs, s.Edge = e)
      ∧ (∀ z, (detachLoop evc st kept rest).w.zoneReserved z
          = st.w.zoneReserved z - routedTo st.w z (activePaths st.w rest))
      ∧ (detachLoop evc st kept rest).detachedPaths
          = st.detachedPaths.map (fun d => d ++ activePaths st.w rest) := by
  induction rest with
  | nil =>
    intro st kept hP
    refine ⟨rfl, rfl, ?_, ?_, ?_, ?_, ?_⟩
    · simp only [detachLoop, frozenPaths, List.filter_nil]
      rw [← hP]
      exact (Function.update_eq_self evc st.w.evacuees).symm
    · intro x e; simp [detachLoop, activePaths]
    · intro e; simp [detachLoop, activePaths]
    · intro z; simp [detachLoop, activePaths, routedTo]
    · simp [detachLoop, activePaths]
  | cons path rest ih =>
    intro st kept hP
    by_cases hact : (st.w.paths path).Status = PathStatus.ActiveComplete
    · have hstep : detachLoop evc st kept (path :: rest)
          = detachLoop evc (detachOne evc st kept rest path) kept rest := by
        rw [detachLoop, if_neg (not_not.mpr hact)]
      rw [hstep]
      have hP1 : ((detachOne evc st kept rest path).w.evacuees evc).Paths = kept ++ rest := by
        simp [detachOne, SafeZone.Reserve]
      obtain ⟨h1, h2, h3, h4, h5, h6, h7⟩ := ih (detachOne evc st kept rest path) kept hP1
      have hpaths : (detachOne evc st kept rest path).w.paths = st.w.paths := rfl
      have hA : activePaths (detachOne evc st kept rest path).w rest = activePaths st.w rest := rfl
      have hF : frozenPaths (detachOne evc st kept rest path).w rest = frozenPaths st.w rest := rfl
      rw [hA] at h4 h5 h6 h7
      rw [hF] at h3
      rw [hpaths] at h4 h5
      rw [activePaths_cons_active _ _ _ hact, frozenPaths_cons_active _ _ _ hact]
      refine ⟨h1, h2, ?_, ?_, ?_, ?_, ?_⟩
      · rw [h3]
        simp [detachOne, SafeZone.Reserve]
      · intro x e
        rw [h4]
        simp only [detachOne, SafeZone.Reserve, flushReservations_mem, List.mem_map,
          List.mem_reverse, Prod.mk.injEq, List.mem_cons]
        constructor
        · rintro ⟨⟨hx, hn⟩, hr⟩
          refine ⟨hx, ?_⟩
          rintro ⟨hx1 | hx1, s, hs, hse⟩
          · subst hx1
            exact hn ⟨s, hs, hse, rfl⟩
          · exact hr ⟨hx1, s, hs, hse⟩
        · rintro ⟨hx, hn⟩
          refine ⟨⟨hx, ?_⟩, ?_⟩
          · rintro ⟨s, hs, hse, hsx⟩
            subst hsx
            exact hn ⟨Or.inl rfl, s, hs, hse⟩
          · rintro ⟨hx1, s, hs, hse⟩
            exact hn ⟨Or.inr hx1, s, hs, hse⟩
      · intro e
        rw [h5]
        simp only [detachOne, SafeZone.Reserve, flushReservations_edges, List.mem_map,
          List.mem_reverse, List.mem_cons]
        constructor
        · rintro ((he | ⟨pr, ⟨s, hs, hpr⟩, hpe⟩) | ⟨x, hx, s, hs, hse⟩)
          · exact Or.inl he
          · subst hpr
            exact Or.inr ⟨path, Or.inl rfl, s, hs, hpe⟩
          · exact Or.inr ⟨x, Or.inr hx, s, hs, hse⟩
        · rintro (he | ⟨x, hx | hx, s, hs, hse⟩)
          · exact Or.inl (Or.inl he)
          · subst hx
            exact Or.inl (Or.inr ⟨(s.Edge, x), ⟨s, hs, rfl⟩, hse⟩)
          · exact Or.inr ⟨x, hx, s, hs, hse⟩
      · intro z
        rw [h6, routedTo_cons]
        have hR : routedTo (detachOne evc st kept rest path).w z (activePaths st.w rest)
            = routedTo st.w z (activePaths st.w rest) := rfl
        rw [hR]
        simp only [detachOne, SafeZone.Reserve]
        by_cases hz : (st.w.paths path).MySafeZone = z
        · subst hz
          rw [Function.update_same, if_pos rfl]
          ring
        · rw [Function.update_noteq (Ne.symm hz), if_neg hz]
          ring
      · rw [h7]
        simp only [detachOne]
        cases st.detachedPaths <;> simp
    · have hstep : detachLoop evc st kept (path :: rest)
          = detachLoop evc st (kept ++ [path]) rest := by
        rw [detachLoop, if_pos hact]
      rw [hstep]
      obtain ⟨h1, h2, h3, h4, h5, h6, h7⟩ := ih st (kept ++ [path]) (by simp [hP])
      rw [activePaths_cons_frozen _ _ _ hact, frozenPaths_cons_frozen _ _ _ hact]
      refine ⟨h1, h2, ?_, h4, h5, h6, h7⟩
      rw [h3]
      simp

/-- C16: `EvcPath::DetachPathsFromEvacuee` leaves in the path list of the
evacuee exactly the paths that are not `ActiveComplete`, in their order, and
changes nothing else about the evacuee or about any other evacuee or any path;
every removed path has no reservation left on the edge of any of its segments
and those edges are among the touched edges; a reservation is removed only for
a removed path on an edge of one of its segments and an edge is added to the
touched edges only for such a segment; the reserved population of every safe
zone goes down by the routed population of the removed paths heading for it;
the removed paths are appended to the vector of detached paths when one is
given. -/
theorem C16_detach_paths (w : World) (evc : Nat) (touchedEdges : List Nat)
    (detachedPaths : Option (List Nat)) :
    ((EvcPath.DetachPathsFromEvacuee w evc touchedEdges detachedPaths).w.evacuees evc).Paths
        = frozenPaths w (w.evacuees evc).Paths
    ∧ (EvcPath.DetachPathsFromEvacuee w evc touchedEdges detachedPaths).w.evacuees
        = Function.update w.evacuees evc
            { ObjectID := (w.evacuees evc).ObjectID
              Population := (w.evacuees evc).Population
              Status := (w.evacuees evc).Status
              Paths := frozenPaths w (w.evacuees evc).Paths
              PredictedCost := (w.evacuees evc).PredictedCost
              FinalCost := (w.evacuees evc).FinalCost
              StartingCost := (w.evacuees evc).StartingCost
              VerticesAndRatio := (w.evacuees evc).VerticesAndRatio
              DiscoveryLeaf := (w.evacuees evc).DiscoveryLeaf }
    ∧ (EvcPath.DetachPathsFromEvacuee w evc touchedEdges detachedPaths).w.paths = w.paths
    ∧ (∀ x ∈ activePaths w (w.evacuees evc).Paths, ∀ s ∈ (w.paths x).segs,
        x ∉ (EvcPath.DetachPathsFromEvacuee w evc touchedEdges detachedPaths).w.edgeRes s.Edge
        ∧ s.Edge ∈ (EvcPath.DetachPathsFromEvacuee w evc touchedEdges detachedPaths).touchedEdges)
    ∧ (∀ x e, x ∈ (EvcPath.DetachPathsFromEvacuee w evc touchedEdges detachedPaths).w.edgeRes e ↔
        x ∈ w.edgeRes e
          ∧ ¬ (x ∈ activePaths w (w.evacuees evc).Paths ∧ ∃ s ∈ (w.paths x).segs, s.Edge = e))
    ∧ (∀ e, e ∈ (EvcPath.DetachPathsFromEvacuee w evc touchedEdges detachedPaths).touchedEdges ↔
        e ∈ touchedEdges
          ∨ ∃ x ∈ activePaths w (w.evacuees evc).Paths, ∃ s ∈ (w.paths x).segs, s.Edge = e)
    ∧ (∀ z, (EvcPath.DetachPathsFromEvacuee w evc touchedEdges detachedPaths).w.zoneReserved z
        = w.zoneReserved z - routedTo w z (activePaths w (w.evacuees evc).Paths))
    ∧ (EvcPath.DetachPathsFromEvacuee w evc touchedEdges detachedPaths).detachedPaths
        = detachedPaths.map (fun d => d ++ activePaths w (w.evacuees evc).Paths) := by
  unfold EvcPath.DetachPathsFromEvacuee
  obtain ⟨h1, _, h3, h4, h5, h6, h7⟩ := detachLoop_spec evc (w.evacuees evc).Paths
    { w := w, touchedEdges := touchedEdges, detachedPaths := detachedPaths } [] (by simp)
  simp only [List.nil_append] at h3
  refine ⟨?_, h3, h1, ?_, h4, h5, h6, h7⟩
  · rw [h3, Function.update_same]
  · intro x hx s hs
    constructor
    · intro hmem
      exact ((h4 x s.Edge).1 hmem).2 ⟨hx, s, hs, rfl⟩
    · exact (h5 s.Edge).2 (Or.inr ⟨x, hx, s, hs, rfl⟩)


theorem mem_times_emplace (tf : List CriticalTime) (t x : ℚ) :
    x ∈ (emplace tf t).map (fun s => s.Time) ↔ x = t ∨ x ∈ tf.map (fun s => s.Time) := by
  induction tf with
  | nil => simp [emplace]
  | cons c rest ih =>
    unfold emplace
    by_cases h1 : t < c.Time
    · rw [if_pos h1]; simp
    · rw [if_neg h1]
      by_cases h2 : c.Time < t
      · rw [if_pos h2]
        simp only [List.map_cons, List.mem_cons, ih]
        tauto
      · rw [if_neg h2]
        have : t = c.Time := le_antisymm (not_lt.1 h2) (not_lt.1 h1)
        simp only [List.map_cons, List.mem_cons]
        constructor
        · intro h; exact Or.inr h
        · rintro (h | h)
          · exact Or.inl (h.trans this)
          · exact h

theorem sorted_emplace (tf : List CriticalTime) (t : ℚ)
    (h : (tf.map (fun s => s.Time)).Pairwise (fun a b => a < b)) :
    ((emplace tf t).map (fun s => s.Time)).Pairwise (fun a b => a < b) := by
  induction tf with
  | nil => simp [emplace]
  | cons c rest ih =>
    rw [List.map_cons, List.pairwise_cons] at h
    unfold emplace
    by_cases h1 : t < c.Time
    · rw [if_pos h1]
      simp only [List.map_cons, List.pairwise_cons, List.mem_cons]
      refine ⟨?_, ?_, h.2⟩
      · rintro x (hx | hx)
        · rw [hx]; exact h1
        · exact h1.trans (h.1 x hx)
      · exact h.1
    · rw [if_neg h1]
      by_cases h2 : c.Time < t
      · rw [if_pos h2, List.map_cons, List.pairwise_cons]
        refine ⟨?_, ih h.2⟩
        intro x hx
        rcases (mem_times_emplace rest t x).1 hx with hx | hx
        · rw [hx]; exact h2
        · exact h.1 x hx
      · rw [if_neg h2, List.map_cons, List.pairwise_cons]
        exact h

theorem mem_emplace (tf : List CriticalTime) (t : ℚ)
    (h : (tf.map (fun s => s.Time)).Pairwise (fun a b => a < b)) (s : CriticalTime) :
    s ∈ emplace tf t ↔
      s ∈ tf ∨ (s = { Time := t, Intersected := [] } ∧ t ∉ tf.map (fun s => s.Time)) := by
  induction tf with
  | nil => simp [emplace]
  | cons c rest ih =>
    rw [List.map_cons, List.pairwise_cons] at h
    unfold emplace
    by_cases h1 : t < c.Time
    · rw [if_pos h1]
      have hnot : t ∉ (c :: rest).map (fun s => s.Time) := by
        simp only [List.map_cons, List.mem_cons, not_or]
        refine ⟨ne_of_lt h1, fun hx => ?_⟩
        exact absurd (h1.trans (h.1 t hx)) (lt_irrefl _)
      simp only [List.mem_cons]
      constructor
      · rintro (hs | hs | hs)
        · exact Or.inr ⟨hs, hnot⟩
        · exact Or.inl (Or.inl hs)
        · exact Or.inl (Or.inr hs)
      · rintro ((hs | hs) | ⟨hs, _⟩)
        · exact Or.inr (Or.inl hs)
        · exact Or.inr (Or.inr hs)
        · exact Or.inl hs
    · rw [if_neg h1]
      by_cases h2 : c.Time < t
      · rw [if_pos h2]
        simp only [List.mem_cons, ih h.2, List.map_cons, not_or]
        constructor
        · rintro (hs | hs | ⟨hs, hn⟩)
          · exact Or.inl (Or.inl hs)
          · exact Or.inl (Or.inr hs)
          · exact Or.inr ⟨hs, ne_of_gt h2, hn⟩
        · rintro ((hs | hs) | ⟨hs, _, hn⟩)
          · exact Or.inl hs
          · exact Or.inr (Or.inl hs)
          · exact Or.inr (Or.inr ⟨hs, hn⟩)
      · rw [if_neg h2]
        have ht : t = c.Time := le_antisymm (not_lt.1 h2) (not_lt.1 h1)
        constructor
        · intro hs; exact Or.inl hs
        · rintro (hs | ⟨_, hn⟩)
          · exact hs
          · exact absurd (by simp [ht]) hn

theorem times_addIntersectedAt (tf : List CriticalTime) (t : ℚ) (p : SingleDynamicChange) :
    (addIntersectedAt tf t p).map (fun s => s.Time) = tf.map (fun s => s.Time) := by
  unfold addIntersectedAt
  rw [List.map_map]
  apply List.map_congr_left
  intro s _
  simp only [Function.comp]
  split_ifs <;> rfl

theorem length_addIntersectedAt (tf : List CriticalTime) (t : ℚ) (p : SingleDynamicChange) :
    (addIntersectedAt tf t p).length = tf.length := by
  simp [addIntersectedAt]

theorem builtFrom_cleared (INFINITE : ℚ) : BuiltFrom INFINITE (emplace (emplace [] 0) INFINITE) [] := by
  have h0 : ((emplace [] 0).map (fun s => s.Time)).Pairwise (fun a b => a < b) :=
    sorted_emplace [] 0 (by simp)
  refine ⟨sorted_emplace _ _ h0, ?_, ?_⟩
  · intro x
    rw [mem_times_emplace, mem_times_emplace]
    simp
    tauto
  · intro s hs
    rw [mem_emplace _ _ h0, mem_emplace _ _ (by simp)] at hs
    rcases hs with (hs | ⟨hs, _⟩) | ⟨hs, _⟩
    · simp at hs
    · rw [hs]; rfl
    · rw [hs]; rfl

theorem builtFrom_step (INFINITE : ℚ) (tf : List CriticalTime) (P : List SingleDynamicChange)
    (p : SingleDynamicChange) (h : BuiltFrom INFINITE tf P) :
    BuiltFrom INFINITE
      (addIntersectedAt (emplace (emplace tf p.StartTime) p.EndTime) p.StartTime p) (P ++ [p]) := by
  obtain ⟨hs, ht, hi⟩ := h
  have hs1 := sorted_emplace tf p.StartTime hs
  have hs2 := sorted_emplace _ p.EndTime hs1
  refine ⟨?_, ?_, ?_⟩
  · rw [times_addIntersectedAt]; exact hs2
  · intro x
    rw [times_addIntersectedAt, mem_times_emplace, mem_times_emplace, ht]
    simp only [List.mem_append, List.mem_singleton]
    constructor
    · rintro (hx | hx | hx | hx | ⟨c, hc, hx⟩)
      · exact Or.inr (Or.inr ⟨p, Or.inr rfl, Or.inr hx⟩)
      · exact Or.inr (Or.inr ⟨p, Or.inr rfl, Or.inl hx⟩)
      · exact Or.inl hx
      · exact Or.inr (Or.inl hx)
      · exact Or.inr (Or.inr ⟨c, Or.inl hc, hx⟩)
    · rintro (hx | hx | ⟨c, hc | hc, hx⟩)
      · exact Or.inr (Or.inr (Or.inl hx))
      · exact Or.inr (Or.inr (Or.inr (Or.inl hx)))
      · exact Or.inr (Or.inr (Or.inr (Or.inr ⟨c, hc, hx⟩)))
      · subst hc
        rcases hx with hx | hx
        · exact Or.inr (Or.inl hx)
        · exact Or.inl hx
  · intro s' hs'
    unfold addIntersectedAt at hs'
    rw [List.mem_map] at hs'
    obtain ⟨s, hs0, hs'⟩ := hs'
    have hold : s.Intersected = P.filter (fun c => decide (c.StartTime = s.Time)) := by
      rw [mem_emplace _ _ hs1, mem_emplace _ _ hs] at hs0
      have hfresh : ∀ t, t ∉ tf.map (fun s => s.Time) →
          P.filter (fun c => decide (c.StartTime = t)) = [] := by
        intro t hn
        rw [List.filter_eq_nil_iff]
        intro c hc hct
        simp only [decide_eq_true_eq] at hct
        exact hn ((ht t).2 (Or.inr (Or.inr ⟨c, hc, Or.inl hct.symm⟩)))
      rcases hs0 with (hs0 | ⟨hs0, hn⟩) | ⟨hs0, hn⟩
      · exact hi s hs0
      · rw [hs0]
        exact (hfresh _ hn).symm
      · rw [hs0]
        refine (hfresh _ ?_).symm
        intro hmem
        exact hn ((mem_times_emplace tf p.StartTime p.EndTime).2 (Or.inr hmem))
    by_cases hst : s.Time = p.StartTime
    · rw [if_pos hst] at hs'
      rw [← hs']
      simp only [List.filter_append, hold]
      simp [hst]
    · rw [if_neg hst] at hs'
      rw [← hs', hold]
      simp only [List.filter_append]
      simp [Ne.symm hst]

theorem builtFrom_fold (INFINITE : ℚ) (l : List SingleDynamicChange) :
    ∀ (tf : List CriticalTime) (P : List SingleDynamicChange), BuiltFrom INFINITE tf P →
      BuiltFrom INFINITE
        (l.foldl
          (fun tf p => addIntersectedAt (emplace (emplace tf p.StartTime) p.EndTime) p.StartTime p)
          tf)
        (P ++ l) := by
  induction l with
  | nil => intro tf P h; simpa using h
  | cons p l ih =>
    intro tf P h
    have := ih _ _ (builtFrom_step INFINITE tf P p h)
    simpa using this


theorem filter_split_perm {α : Type} (l : List α) (p q r : α → Bool)
    (hr : ∀ x ∈ l, r x = (p x || q x)) (hd : ∀ x ∈ l, ¬ (p x = true ∧ q x = true)) :
    (l.filter p ++ l.filter q).Perm (l.filter r) := by
  induction l with
  | nil => simp
  | cons x l ih =>
    have ih1 := ih (fun y hy => hr y (List.mem_cons_of_mem _ hy))
      (fun y hy => hd y (List.mem_cons_of_mem _ hy))
    have hx := hr x (List.mem_cons_self _ _)
    have hdx := hd x (List.mem_cons_self _ _)
    cases hp : p x <;> cases hq : q x
    · have hrx : r x = false := by rw [hx, hp, hq]; rfl
      simp only [List.filter_cons, hp, hq, hrx]
      exact ih1
    · have hrx : r x = true := by rw [hx, hp, hq]; rfl
      simp only [List.filter_cons, hp, hq, hrx]
      exact List.perm_middle.trans (List.Perm.cons x ih1)
    · have hrx : r x = true := by rw [hx, hp, hq]; rfl
      simp only [List.filter_cons, hp, hq, hrx]
      exact List.Perm.cons x ih1
    · exact absurd ⟨hp, hq⟩ hdx

theorem times_mergeLoop (INFINITE : ℚ) (l : List CriticalTime) :
    ∀ prev : List SingleDynamicChange,
      (mergeLoop INFINITE prev l).map (fun s => s.Time) = l.map (fun s => s.Time) := by
  induction l with
  | nil => intro prev; rfl
  | cons c rest ih =>
    intro prev
    simp only [mergeLoop, List.map_cons]
    rw [ih]

/-- What the loop of `MergeWithPreviousTimeFrame` leaves in every slice from
`thisTime` on, when the previous slice holds the changes active at its time:
the changes active at the time of the slice, each once. -/
theorem mergeLoop_spec (INFINITE : ℚ) (all : List SingleDynamicChange)
    (hvalid : ∀ c ∈ all, c.StartTime < c.EndTime) (l : List CriticalTime) :
    ∀ (prev : List SingleDynamicChange) (tprev : ℚ),
      (l.map (fun s => s.Time)).Pairwise (fun a b => a < b) →
      (∀ s ∈ l, tprev < s.Time) →
      (∀ c ∈ all, c.StartTime ≤ tprev ∨ c.StartTime ∈ l.map (fun s => s.Time)) →
      (∀ s ∈ l, s.Intersected = all.filter (fun c => decide (c.StartTime = s.Time))) →
      prev.Perm (all.filter (fun c => c.activeAt INFINITE tprev)) →
      ∀ s ∈ mergeLoop INFINITE prev l,
        s.Intersected.Perm (all.filter (fun c => c.activeAt INFINITE s.Time)) := by
  induction l with
  | nil => intro prev tprev _ _ _ _ _ s hs; simp [mergeLoop] at hs
  | cons c rest ih =>
    intro prev tprev hsorted hlt hstart hown hprev s hs
    rw [List.map_cons, List.pairwise_cons] at hsorted
    have hct : tprev < c.Time := hlt c (List.mem_cons_self _ _)
    have hmerged : (c.Intersected ++ prev.filter (fun prevChange =>
          decide (prevChange.EndTime > c.Time ∨ prevChange.EndTime ≥ INFINITE))).Perm
        (all.filter (fun ch => ch.activeAt INFINITE c.Time)) := by
      rw [hown c (List.mem_cons_self _ _)]
      have h1 : (prev.filter (fun prevChange =>
            decide (prevChange.EndTime > c.Time ∨ prevChange.EndTime ≥ INFINITE))).Perm
          (all.filter (fun ch => decide (ch.EndTime > c.Time ∨ ch.EndTime ≥ INFINITE)
            && ch.activeAt INFINITE tprev)) := by
        rw [← List.filter_filter]
        exact List.Perm.filter _ hprev
      refine (List.Perm.append_left _ h1).trans ?_
      apply filter_split_perm
      · intro ch hch
        have hv := hvalid ch hch
        have hst := hstart ch hch
        simp only [SingleDynamicChange.activeAt, List.map_cons, List.mem_cons] at hst ⊢
        rw [Bool.eq_iff_iff]
        simp only [Bool.or_eq_true, Bool.and_eq_true, decide_eq_true_eq]
        constructor
        · rintro ⟨hle, hend⟩
          by_cases heq : ch.StartTime = c.Time
          · exact Or.inl heq
          · refine Or.inr ⟨?_, ?_, ?_⟩
            · rcases hend with h | h
              · exact Or.inl h
              · exact Or.inr h
            · rcases hst with h | h | h
              · exact h
              · exact absurd h heq
              · exact absurd (lt_of_lt_of_le (hsorted.1 _ h) hle) (lt_irrefl _)
            · rcases hend with h | h
              · exact Or.inl (hct.trans h)
              · exact Or.inr h
        · rintro (heq | ⟨hend, hle, _⟩)
          · exact ⟨le_of_eq heq, Or.inl (heq ▸ hv)⟩
          · refine ⟨le_of_lt (lt_of_le_of_lt hle hct), ?_⟩
            rcases hend with h | h
            · exact Or.inl h
            · exact Or.inr h
      · intro ch _
        simp only [SingleDynamicChange.activeAt, Bool.and_eq_true, decide_eq_true_eq]
        rintro ⟨heq, _, hle, _⟩
        rw [heq] at hle
        exact absurd (lt_of_le_of_lt hle hct) (lt_irrefl _)
    simp only [mergeLoop, List.mem_cons] at hs
    rcases hs with hs | hs
    · rw [hs]
      exact hmerged
    · refine ih _ c.Time hsorted.2 ?_ ?_ ?_ hmerged s hs
      · intro s' hs'
        exact hsorted.1 _ (List.mem_map_of_mem _ hs')
      · intro ch hch
        rcases hstart ch hch with h | h
        · exact Or.inl (le_of_lt (lt_of_le_of_lt h hct))
        · rw [List.map_cons, List.mem_cons] at h
          rcases h with h | h
          · exact Or.inl (le_of_eq h)
          · exact Or.inr h
      · intro s' hs'
        exact hown s' (List.mem_cons_of_mem _ hs')

/-- The time frame of Smart and Full mode after the merge: the times are those
of the slices built, and every slice holds the changes active at its time, each
once. -/
theorem merge_spec (INFINITE : ℚ) (all : List SingleDynamicChange) (tf : List CriticalTime)
    (hvalid : ∀ c ∈ all, c.StartTime < c.EndTime) (h : BuiltFrom INFINITE tf all) :
    (CriticalTime.MergeWithPreviousTimeFrame INFINITE tf).map (fun s => s.Time)
        = tf.map (fun s => s.Time)
    ∧ ∀ s ∈ CriticalTime.MergeWithPreviousTimeFrame INFINITE tf,
        s.Intersected.Perm (all.filter (fun c => c.activeAt INFINITE s.Time)) := by
  obtain ⟨hs, ht, hi⟩ := h
  cases tf with
  | nil => simp [CriticalTime.MergeWithPreviousTimeFrame]
  | cons first rest =>
    rw [List.map_cons, List.pairwise_cons] at hs
    have hstart : ∀ c ∈ all, c.StartTime = first.Time
        ∨ c.StartTime ∈ rest.map (fun s => s.Time) := by
      intro c hc
      have := (ht c.StartTime).2 (Or.inr (Or.inr ⟨c, hc, Or.inl rfl⟩))
      simpa using this
    have hfirst : first.Intersected.Perm
        (all.filter (fun c => c.activeAt INFINITE first.Time)) := by
      rw [hi first (List.mem_cons_self _ _)]
      apply List.Perm.of_eq
      apply List.filter_congr
      intro c hc
      have hv := hvalid c hc
      simp only [SingleDynamicChange.activeAt]
      rw [Bool.eq_iff_iff]
      simp only [decide_eq_true_eq]
      constructor
      · intro heq
        exact ⟨le_of_eq heq, Or.inl (heq ▸ hv)⟩
      · rintro ⟨hle, _⟩
        rcases hstart c hc with h | h
        · exact h
        · exact absurd (lt_of_lt_of_le (hs.1 _ h) hle) (lt_irrefl _)
    constructor
    · simp only [CriticalTime.MergeWithPreviousTimeFrame, List.map_cons, times_mergeLoop]
    · intro s hs'
      simp only [CriticalTime.MergeWithPreviousTimeFrame, List.mem_cons] at hs'
      rcases hs' with hs' | hs'
      · rw [hs']; exact hfirst
      · refine mergeLoop_spec INFINITE all hvalid rest first.Intersected first.Time hs.2 ?_ ?_ ?_
          hfirst s hs'
        · intro s' h'
          exact hs.1 _ (List.mem_map_of_mem _ h')
        · intro c hc
          rcases hstart c hc with h | h
          · exact Or.inl (le_of_eq h)
          · exact Or.inr h
        · intro s' h'
          exact hi s' (List.mem_cons_of_mem _ h')


theorem cleared_eq (INFINITE : ℚ) (hinf : 0 < INFINITE) :
    emplace (emplace [] 0) INFINITE
      = [{ Time := 0, Intersected := [] }, { Time := INFINITE, Intersected := [] }] := by
  simp [emplace, hinf, not_lt.2 (le_of_lt hinf)]

theorem simple_fold (INFINITE : ℚ) (hinf : 0 < INFINITE) (l : List SingleDynamicChange) :
    ∀ A B : List SingleDynamicChange,
      l.foldl (fun tf p => addIntersectedAt (addIntersectedAt tf 0 p) INFINITE p)
          [{ Time := 0, Intersected := A }, { Time := INFINITE, Intersected := B }]
        = [{ Time := 0, Intersected := A ++ l }, { Time := INFINITE, Intersected := B ++ l }] := by
  induction l with
  | nil => intro A B; simp
  | cons p l ih =>
    intro A B
    have hne : INFINITE ≠ 0 := ne_of_gt hinf
    have hstep : addIntersectedAt
        (addIntersectedAt [{ Time := 0, Intersected := A }, { Time := INFINITE, Intersected := B }]
          0 p) INFINITE p
        = [{ Time := 0, Intersected := A ++ [p] }, { Time := INFINITE, Intersected := B ++ [p] }] := by
      simp [addIntersectedAt, hne, Ne.symm hne]
    rw [List.foldl_cons, hstep, ih]
    simp

theorem buildTimeFrame_simple (INFINITE : ℚ) (hinf : 0 < INFINITE)
    (allChanges : List SingleDynamicChange) :
    buildTimeFrame INFINITE DynamicMode.Simple allChanges
      = [{ Time := 0, Intersected := allChanges },
         { Time := INFINITE, Intersected := allChanges }] := by
  unfold buildTimeFrame
  simp only [cleared_eq INFINITE hinf]
  rw [simple_fold INFINITE hinf]
  simp

/-- When the table loads and `hr` holds no failure at the end, the engine has
the loaded changes and the time frame built from them. -/
theorem ctor_ok (INFINITE : ℚ) (IsValid : SingleDynamicChange → Bool)
    (table : Option ChangeTable) (dynamicMode : DynamicMode) (flag : Bool) (st : LoadState)
    (hload : loadTable IsValid table flag = Except.ok st) (hhr : st.hrFailed = false) :
    DynamicDisaster.ctor INFINITE IsValid table dynamicMode flag
      = ({ myDynamicMode :=
            if (dynamicMode = DynamicMode.Smart ∨ dynamicMode = DynamicMode.Full)
                ∧ (buildTimeFrame INFINITE dynamicMode st.allChanges).length = 2
            then DynamicMode.Simple else dynamicMode
           allChanges := st.allChanges
           dynamicTimeFrame := buildTimeFrame INFINITE dynamicMode st.allChanges },
         st.flagBadDynamicChangeSnapping) := by
  unfold DynamicDisaster.ctor
  rw [hload]
  simp [hhr]

/-- C17 (as the code has it): in Simple mode, with `INFINITE` above 0, the time
frame built from any list of changes has exactly the two slices of time 0 and
`INFINITE`, and each of the two holds every change, in the order of the list;
so the engine constructed in Simple mode from a table that loads has the loaded
changes, that time frame and mode Simple. -/
theorem C17_simple_time_frame (INFINITE : ℚ) (hinf : 0 < INFINITE)
    (allChanges : List SingleDynamicChange) :
    buildTimeFrame INFINITE DynamicMode.Simple allChanges
        = [{ Time := 0, Intersected := allChanges },
           { Time := INFINITE, Intersected := allChanges }]
    ∧ ∀ (IsValid : SingleDynamicChange → Bool) (table : Option ChangeTable) (flag : Bool)
        (st : LoadState), loadTable IsValid table flag = Except.ok st → st.hrFailed = false →
        DynamicDisaster.ctor INFINITE IsValid table DynamicMode.Simple flag
          = ({ myDynamicMode := DynamicMode.Simple
               allChanges := st.allChanges
               dynamicTimeFrame :=
                 [{ Time := 0, Intersected := st.allChanges },
                  { Time := INFINITE, Intersected := st.allChanges }] },
             st.flagBadDynamicChangeSnapping) := by
  refine ⟨buildTimeFrame_simple INFINITE hinf allChanges, ?_⟩
  intro IsValid table flag st hload hhr
  rw [ctor_ok INFINITE IsValid table DynamicMode.Simple flag st hload hhr,
    buildTimeFrame_simple INFINITE hinf]
  simp

/-- Simple mode with `INFINITE` read as 100 and the sample change. -/
theorem C17_simple_time_frame_witness :
    (0 : ℚ) < 100
    ∧ buildTimeFrame 100 DynamicMode.Simple [sampleChange]
        = [{ Time := 0, Intersected := [sampleChange] },
           { Time := 100, Intersected := [sampleChange] }] :=
  ⟨by norm_num, (C17_simple_time_frame 100 (by norm_num) [sampleChange]).1⟩

/-- C17 as stated fails for the slice at infinity: the engine constructed in
Simple mode from the table with the one sample row has the sample change in
the slice of time `INFINITE` (100 here), not an empty slice. -/
theorem C17_counterexample :
    (DynamicDisaster.ctor 100 (fun _ => true) (some sampleTable) DynamicMode.Simple false).1.dynamicTimeFrame
      = [{ Time := 0, Intersected := [sampleChange] },
         { Time := 100, Intersected := [sampleChange] }]
    ∧ (DynamicDisaster.ctor 100 (fun _ => true) (some sampleTable) DynamicMode.Simple false).1.allChanges
      = [sampleChange]
    ∧ (DynamicDisaster.ctor 100 (fun _ => true) (some sampleTable) DynamicMode.Simple false).1.myDynamicMode
      = DynamicMode.Simple := by
  have hload : loadTable (fun _ => true) (some sampleTable) false
      = Except.ok { allChanges := [sampleChange], flagBadDynamicChangeSnapping := false,
                    hrFailed := false } := rfl
  rw [ctor_ok 100 (fun _ => true) (some sampleTable) DynamicMode.Simple false _ hload rfl,
    buildTimeFrame_simple 100 (by norm_num)]
  simp


theorem buildTimeFrame_smart (INFINITE : ℚ) (dynamicMode : DynamicMode)
    (allChanges : List SingleDynamicChange)
    (hmode : dynamicMode = DynamicMode.Smart ∨ dynamicMode = DynamicMode.Full) :
    buildTimeFrame INFINITE dynamicMode allChanges
      = CriticalTime.MergeWithPreviousTimeFrame INFINITE
          (allChanges.foldl
            (fun tf p =>
              addIntersectedAt (emplace (emplace tf p.StartTime) p.EndTime) p.StartTime p)
            (emplace (emplace [] 0) INFINITE)) := by
  rcases hmode with h | h <;> rw [h] <;> rfl

/-- The times of the time frame of Smart and Full mode: increasing, and exactly
0, `INFINITE` and the start and the end of every change; no validity of the
changes is needed for this part. -/
theorem smart_times (INFINITE : ℚ) (dynamicMode : DynamicMode)
    (allChanges : List SingleDynamicChange)
    (hmode : dynamicMode = DynamicMode.Smart ∨ dynamicMode = DynamicMode.Full) :
    ((buildTimeFrame INFINITE dynamicMode allChanges).map (fun s => s.Time)).Pairwise
        (fun a b => a < b)
    ∧ ∀ x, x ∈ (buildTimeFrame INFINITE dynamicMode allChanges).map (fun s => s.Time) ↔
        x = 0 ∨ x = INFINITE ∨ ∃ c ∈ allChanges, x = c.StartTime ∨ x = c.EndTime := by
  have hb := builtFrom_fold INFINITE allChanges _ [] (builtFrom_cleared INFINITE)
  rw [List.nil_append] at hb
  have htimes : (buildTimeFrame INFINITE dynamicMode allChanges).map (fun s => s.Time)
      = (allChanges.foldl
            (fun tf p =>
              addIntersectedAt (emplace (emplace tf p.StartTime) p.EndTime) p.StartTime p)
            (emplace (emplace [] 0) INFINITE)).map (fun s => s.Time) := by
    rw [buildTimeFrame_smart INFINITE dynamicMode allChanges hmode]
    cases hfold : allChanges.foldl
            (fun tf p =>
              addIntersectedAt (emplace (emplace tf p.StartTime) p.EndTime) p.StartTime p)
            (emplace (emplace [] 0) INFINITE) with
    | nil => rfl
    | cons first rest =>
      simp only [CriticalTime.MergeWithPreviousTimeFrame, List.map_cons, times_mergeLoop]
  rw [htimes]
  exact ⟨hb.1, hb.2.1⟩

/-- C18: in Smart and Full mode, for every list of changes that each start
before they end, the slices of the constructed time frame are in increasing
time, one per value; their times are exactly 0, `INFINITE` and the start and
the end of every change; and the slice of time t holds, each once, exactly the
changes that start at or before t and end after t or at or after
`INFINITE`. -/
theorem C18_smart_time_frame (INFINITE : ℚ) (dynamicMode : DynamicMode)
    (allChanges : List SingleDynamicChange)
    (hmode : dynamicMode = DynamicMode.Smart ∨ dynamicMode = DynamicMode.Full)
    (hvalid : ∀ c ∈ allChanges, c.StartTime < c.EndTime) :
    ((buildTimeFrame INFINITE dynamicMode allChanges).map (fun s => s.Time)).Pairwise
        (fun a b => a < b)
    ∧ (∀ x, x ∈ (buildTimeFrame INFINITE dynamicMode allChanges).map (fun s => s.Time) ↔
        x = 0 ∨ x = INFINITE ∨ ∃ c ∈ allChanges, x = c.StartTime ∨ x = c.EndTime)
    ∧ (∀ s ∈ buildTimeFrame INFINITE dynamicMode allChanges,
        s.Intersected.Perm (allChanges.filter (fun c => c.activeAt INFINITE s.Time)))
    ∧ (∀ s ∈ buildTimeFrame INFINITE dynamicMode allChanges, ∀ c,
        c ∈ s.Intersected ↔
          c ∈ allChanges ∧ c.StartTime ≤ s.Time
            ∧ (s.Time < c.EndTime ∨ INFINITE ≤ c.EndTime)) := by
  have hb := builtFrom_fold INFINITE allChanges _ [] (builtFrom_cleared INFINITE)
  rw [List.nil_append] at hb
  have hm := merge_spec INFINITE allChanges _ hvalid hb
  rw [← buildTimeFrame_smart INFINITE dynamicMode allChanges hmode] at hm
  obtain ⟨h1, h2⟩ := smart_times INFINITE dynamicMode allChanges hmode
  refine ⟨h1, h2, hm.2, ?_⟩
  intro s hs c
  rw [(hm.2 s hs).mem_iff, List.mem_filter]
  simp [SingleDynamicChange.activeAt]

/-- Smart mode with `INFINITE` read as 100 and the sample change, which lasts
from time 2 to time 5: slices at 0, 2, 5 and 100. -/
theorem C18_smart_time_frame_witness :
    (∀ c ∈ [sampleChange], c.StartTime < c.EndTime)
    ∧ (∀ x, x ∈ (buildTimeFrame 100 DynamicMode.Smart [sampleChange]).map (fun s => s.Time) ↔
        x = 0 ∨ x = 100 ∨ ∃ c ∈ [sampleChange], x = c.StartTime ∨ x = c.EndTime) :=
  ⟨by norm_num [sampleChange],
    (C18_smart_time_frame 100 DynamicMode.Smart [sampleChange] (Or.inl rfl)
      (by norm_num [sampleChange])).2.1⟩

theorem length_two_times (l : List ℚ) (a b : ℚ) (hab : a < b)
    (hs : l.Pairwise (fun x y => x < y)) (ha : a ∈ l) (hb : b ∈ l) (hlen : l.length = 2) :
    l = [a, b] := by
  match l, hlen with
  | [x, y], _ =>
    simp only [List.pairwise_cons, List.mem_cons, List.mem_singleton, List.not_mem_nil,
      false_implies, implies_true, List.Pairwise.nil, and_true, forall_eq_or_imp, forall_eq,
      or_false] at hs ha hb
    rcases ha with ha | ha <;> rcases hb with hb | hb
    · subst ha; subst hb
      exact absurd hab (lt_irrefl _)
    · rw [ha, hb]
    · subst ha; subst hb
      exact absurd (hs.trans hab) (lt_irrefl _)
    · subst ha; subst hb
      exact absurd hab (lt_irrefl _)

/-- C20: when Smart or Full mode is requested, the mode after construction is
Simple if the constructed time frame has exactly two slices and the requested
mode if it has more than two; with `INFINITE` above 0, the times of a frame
of two slices are 0 and `INFINITE`. -/
theorem C20_downgrade (INFINITE : ℚ) (IsValid : SingleDynamicChange → Bool)
    (table : Option ChangeTable) (dynamicMode : DynamicMode) (flag : Bool)
    (hmode : dynamicMode = DynamicMode.Smart ∨ dynamicMode = DynamicMode.Full) :
    ((DynamicDisaster.ctor INFINITE IsValid table dynamicMode flag).1.dynamicTimeFrame.length = 2 →
        (DynamicDisaster.ctor INFINITE IsValid table dynamicMode flag).1.myDynamicMode
          = DynamicMode.Simple)
    ∧ (2 < (DynamicDisaster.ctor INFINITE IsValid table dynamicMode flag).1.dynamicTimeFrame.length →
        (DynamicDisaster.ctor INFINITE IsValid table dynamicMode flag).1.myDynamicMode
          = dynamicMode)
    ∧ (0 < INFINITE →
        (DynamicDisaster.ctor INFINITE IsValid table dynamicMode flag).1.dynamicTimeFrame.length = 2 →
        (DynamicDisaster.ctor INFINITE IsValid table dynamicMode flag).1.dynamicTimeFrame.map
            (fun s => s.Time) = [0, INFINITE]) := by
  cases hload : loadTable IsValid table flag with
  | error st =>
    have hc : DynamicDisaster.ctor INFINITE IsValid table dynamicMode flag
        = ({ myDynamicMode := DynamicMode.Disabled, allChanges := [], dynamicTimeFrame := [] },
            st.flagBadDynamicChangeSnapping) := by
      unfold DynamicDisaster.ctor
      rw [hload]
    rw [hc]
    simp
  | ok st =>
    by_cases hhr : st.hrFailed = true
    · have hc : DynamicDisaster.ctor INFINITE IsValid table dynamicMode flag
          = ({ myDynamicMode := DynamicMode.Disabled, allChanges := [], dynamicTimeFrame := [] },
              st.flagBadDynamicChangeSnapping) := by
        unfold DynamicDisaster.ctor
        rw [hload]
        simp [hhr]
      rw [hc]
      simp
    · rw [ctor_ok INFINITE IsValid table dynamicMode flag st hload (by simpa using hhr)]
      refine ⟨fun h => ?_, fun h => ?_, fun hinf h => ?_⟩
      · exact if_pos ⟨hmode, h⟩
      · exact if_neg (fun hh => absurd hh.2 (Nat.ne_of_gt h))
      · obtain ⟨h1, h2⟩ := smart_times INFINITE dynamicMode st.allChanges hmode
        exact length_two_times _ 0 INFINITE hinf h1 ((h2 0).2 (Or.inl rfl))
          ((h2 INFINITE).2 (Or.inr (Or.inl rfl))) (by simpa using h)

theorem sampleTable_smart :
    buildTimeFrame 100 DynamicMode.Smart [sampleChange]
      = [{ Time := 0, Intersected := [] }, { Time := 2, Intersected := [sampleChange] },
         { Time := 5, Intersected := [] }, { Time := 100, Intersected := [] }] := by
  norm_num [buildTimeFrame, sampleChange, emplace, addIntersectedAt,
    CriticalTime.MergeWithPreviousTimeFrame, mergeLoop]

/-- Smart mode requested for the table with the one sample row: four slices,
and the mode stays Smart. -/
theorem C20_downgrade_witness :
    2 < (DynamicDisaster.ctor 100 (fun _ => true) (some sampleTable) DynamicMode.Smart
            false).1.dynamicTimeFrame.length
    ∧ (DynamicDisaster.ctor 100 (fun _ => true) (some sampleTable) DynamicMode.Smart
            false).1.myDynamicMode = DynamicMode.Smart :=
  have hlen : 2 < (DynamicDisaster.ctor 100 (fun _ => true) (some sampleTable) DynamicMode.Smart
            false).1.dynamicTimeFrame.length := by
    rw [ctor_ok 100 (fun _ => true) (some sampleTable) DynamicMode.Smart false
      { allChanges := [sampleChange], flagBadDynamicChangeSnapping := false, hrFailed := false }
      rfl rfl, sampleTable_smart]
    simp
  ⟨hlen,
    (C20_downgrade 100 (fun _ => true) (some sampleTable) DynamicMode.Smart false
      (Or.inl rfl)).2.1 hlen⟩


theorem applyDirection_spec (edges : Nat × esriNetworkEdgeDirection → ℚ × ℚ)
    (polygon : SingleDynamicChange) (dir : esriNetworkEdgeDirection)
    (hnd : polygon.EnclosedEdges.Nodup)
    (m : Nat × esriNetworkEdgeDirection → Option EdgeOriginalData)
    (k : Nat × esriNetworkEdgeDirection) :
    applyDirection edges polygon dir m k
      = if k.2 = dir ∧ k.1 ∈ polygon.EnclosedEdges then
          some
            { OriginalCost := ((m k).getD (EdgeOriginalData.ctor (edges k))).OriginalCost
              OriginalCapacity := ((m k).getD (EdgeOriginalData.ctor (edges k))).OriginalCapacity
              CostRatio := ((m k).getD (EdgeOriginalData.ctor (edges k))).CostRatio
                * polygon.AffectedCostRate
              CapacityRatio := ((m k).getD (EdgeOriginalData.ctor (edges k))).CapacityRatio
                * polygon.AffectedCapacityRate }
        else m k := by
  unfold applyDirection
  generalize polygon.EnclosedEdges = es at hnd
  induction es generalizing m with
  | nil => simp
  | cons e es ih =>
    rw [List.nodup_cons] at hnd
    rw [List.foldl_cons, ih _ hnd.2]
    by_cases hk : k = (e, dir)
    · subst hk
      simp [hnd.1]
    · have hne : ¬ (k.2 = dir ∧ k.1 = e) := by
        rintro ⟨h1, h2⟩
        exact hk (Prod.ext h2 h1)
      rw [Function.update_noteq hk]
      by_cases hes : k.2 = dir ∧ k.1 ∈ es
      · rw [if_pos hes, if_pos ⟨hes.1, List.mem_cons_of_mem _ hes.2⟩]
      · rw [if_neg hes, if_neg]
        rintro ⟨h1, h2⟩
        rcases List.mem_cons.1 h2 with h2 | h2
        · exact hne ⟨h1, h2⟩
        · exact hes ⟨h1, h2⟩

theorem costProduct_snoc (k : Nat × esriNetworkEdgeDirection) (P : List SingleDynamicChange)
    (p : SingleDynamicChange) :
    costProduct k (P ++ [p])
      = costProduct k P * (if p.covers k then p.AffectedCostRate else 1) := by
  unfold costProduct
  by_cases h : p.covers k = true
  · simp [List.filter_append, h]
  · simp [List.filter_append, h]

theorem capacityProduct_snoc (k : Nat × esriNetworkEdgeDirection) (P : List SingleDynamicChange)
    (p : SingleDynamicChange) :
    capacityProduct k (P ++ [p])
      = capacityProduct k P * (if p.covers k then p.AffectedCapacityRate else 1) := by
  unfold capacityProduct
  by_cases h : p.covers k = true
  · simp [List.filter_append, h]
  · simp [List.filter_append, h]

theorem products_of_not_covered (k : Nat × esriNetworkEdgeDirection)
    (P : List SingleDynamicChange) (h : P.any (fun c => c.covers k) = false) :
    costProduct k P = 1 ∧ capacityProduct k P = 1 := by
  have hnil : P.filter (fun c => c.covers k) = [] := by
    rw [List.filter_eq_nil_iff]
    intro c hc hcov
    rw [List.any_eq_false] at h
    exact h c hc hcov
  simp [costProduct, capacityProduct, hnil]

theorem applyChange_spec (edges : Nat × esriNetworkEdgeDirection → ℚ × ℚ)
    (polygon : SingleDynamicChange) (hnd : polygon.EnclosedEdges.Nodup)
    (m : Nat × esriNetworkEdgeDirection → Option EdgeOriginalData)
    (k : Nat × esriNetworkEdgeDirection) :
    applyChange edges m polygon k
      = if polygon.covers k then
          some
            { OriginalCost := ((m k).getD (EdgeOriginalData.ctor (edges k))).OriginalCost
              OriginalCapacity := ((m k).getD (EdgeOriginalData.ctor (edges k))).OriginalCapacity
              CostRatio := ((m k).getD (EdgeOriginalData.ctor (edges k))).CostRatio
                * polygon.AffectedCostRate
              CapacityRatio := ((m k).getD (EdgeOriginalData.ctor (edges k))).CapacityRatio
                * polygon.AffectedCapacityRate }
        else m k := by
  obtain ⟨e, d⟩ := k
  unfold applyChange SingleDynamicChange.covers
  cases hal : polygon.DisasterDirection.Along <;> cases hag : polygon.DisasterDirection.Against <;>
    cases d <;> by_cases he : e ∈ polygon.EnclosedEdges <;>
    simp [applyDirection_spec edges polygon _ hnd, hal, hag, he]

theorem fold_applyChange (edges : Nat × esriNetworkEdgeDirection → ℚ × ℚ)
    (m : Nat × esriNetworkEdgeDirection → Option EdgeOriginalData)
    (l : List SingleDynamicChange) :
    ∀ P : List SingleDynamicChange, (∀ c ∈ l, c.EnclosedEdges.Nodup) →
      l.foldl (applyChange edges) (composedRatios edges m P) = composedRatios edges m (P ++ l) := by
  induction l with
  | nil => intro P _; simp
  | cons p l ih =>
    intro P hnd
    have hstep : applyChange edges (composedRatios edges m P) p
        = composedRatios edges m (P ++ [p]) := by
      funext k
      rw [applyChange_spec edges p (hnd p (List.mem_cons_self _ _))]
      unfold composedRatios
      rw [costProduct_snoc, capacityProduct_snoc]
      by_cases hcov : p.covers k = true
      · by_cases hold : ((m k).isSome || P.any (fun c => c.covers k)) = true
        · simp [hcov, hold]
        · have hP : P.any (fun c => c.covers k) = false := by
            cases h : P.any (fun c => c.covers k)
            · rfl
            · simp [h] at hold
          have hm : m k = none := by
            cases h : m k
            · rfl
            · simp [h] at hold
          obtain ⟨h1, h2⟩ := products_of_not_covered k P hP
          rw [if_neg hold, h1, h2]
          simp [hcov, hm, EdgeOriginalData.ctor]
      · simp [hcov]
    rw [List.foldl_cons, hstep, ih (P ++ [p]) (fun c hc => hnd c (List.mem_cons_of_mem _ hc))]
    simp

/-- The undo and apply steps leave the map that the specification words. -/
theorem undoAndApply_eq (edges : Nat × esriNetworkEdgeDirection → ℚ × ℚ) (slice : CriticalTime)
    (m : Nat × esriNetworkEdgeDirection → Option EdgeOriginalData)
    (hnd : ∀ c ∈ slice.Intersected, c.EnclosedEdges.Nodup) :
    slice.undoAndApply edges m = composedRatios edges m slice.Intersected := by
  have h0 : (fun k => (m k).map EdgeOriginalData.ResetRatios) = composedRatios edges m [] := by
    funext k
    unfold composedRatios
    cases h : m k <;>
      simp [costProduct, capacityProduct, EdgeOriginalData.ResetRatios]
  unfold CriticalTime.undoAndApply
  rw [h0, fold_applyChange edges m slice.Intersected [] hnd]
  simp

theorem composedRatios_perm (edges : Nat × esriNetworkEdgeDirection → ℚ × ℚ)
    (m : Nat × esriNetworkEdgeDirection → Option EdgeOriginalData)
    (l l' : List SingleDynamicChange) (h : l'.Perm l) :
    composedRatios edges m l' = composedRatios edges m l := by
  funext k
  have hany : l'.any (fun c => c.covers k) = l.any (fun c => c.covers k) := by
    rw [Bool.eq_iff_iff]
    simp only [List.any_eq_true]
    constructor
    · rintro ⟨c, hc, hk⟩
      exact ⟨c, h.mem_iff.1 hc, hk⟩
    · rintro ⟨c, hc, hk⟩
      exact ⟨c, h.mem_iff.2 hc, hk⟩
  have hcost : costProduct k l' = costProduct k l :=
    List.Perm.prod_eq ((h.filter _).map _)
  have hcap : capacityProduct k l' = capacityProduct k l :=
    List.Perm.prod_eq ((h.filter _).map _)
  unfold composedRatios
  rw [hany, hcost, hcap]

/-- C19: after the undo and apply steps of `CriticalTime::ProcessAllChanges` at
a slice whose changes each list an enclosed edge once, every entry of the
backup map has as `CostRatio` the product of `AffectedCostRate`, and as
`CapacityRatio` the product of `AffectedCapacityRate`, over the changes of the
slice that enclose the edge id and whose mask has the direction (1 when there
is none); the map has an entry exactly for the edges that had one or that a
change of the slice covers; the result is the same for any map that differs
only in the ratios left by earlier slices, and for any other order of the
changes of the slice. -/
theorem C19_ratio_products (edges : Nat × esriNetworkEdgeDirection → ℚ × ℚ)
    (slice : CriticalTime)
    (OriginalEdgeSettings : Nat × esriNetworkEdgeDirection → Option EdgeOriginalData)
    (hnd : ∀ c ∈ slice.Intersected, c.EnclosedEdges.Nodup) :
    (∀ k d, slice.undoAndApply edges OriginalEdgeSettings k = some d →
        d.CostRatio = costProduct k slice.Intersected
        ∧ d.CapacityRatio = capacityProduct k slice.Intersected)
    ∧ (∀ k, (slice.undoAndApply edges OriginalEdgeSettings k).isSome = true ↔
        (OriginalEdgeSettings k).isSome = true ∨ ∃ c ∈ slice.Intersected, c.covers k = true)
    ∧ (∀ earlier : Nat × esriNetworkEdgeDirection → Option EdgeOriginalData,
        (∀ k, (earlier k).map EdgeOriginalData.ResetRatios
            = (OriginalEdgeSettings k).map EdgeOriginalData.ResetRatios) →
        slice.undoAndApply edges earlier = slice.undoAndApply edges OriginalEdgeSettings)
    ∧ (∀ reordered : CriticalTime, reordered.Intersected.Perm slice.Intersected →
        reordered.undoAndApply edges OriginalEdgeSettings
          = slice.undoAndApply edges OriginalEdgeSettings) := by
  have heq := undoAndApply_eq edges slice OriginalEdgeSettings hnd
  refine ⟨?_, ?_, ?_, ?_⟩
  · intro k d hd
    rw [heq] at hd
    unfold composedRatios at hd
    split_ifs at hd
    rw [Option.some.injEq] at hd
    rw [← hd]
    exact ⟨rfl, rfl⟩
  · intro k
    rw [heq]
    unfold composedRatios
    split_ifs with h
    · simp only [Option.isSome_some, true_iff]
      simpa using h
    · simp only [Option.isSome_none, Bool.false_eq_true, false_iff]
      simpa using h
  · intro earlier hsame
    unfold CriticalTime.undoAndApply
    rw [funext hsame]
  · intro reordered hperm
    have hnd' : ∀ c ∈ reordered.Intersected, c.EnclosedEdges.Nodup :=
      fun c hc => hnd c (hperm.mem_iff.1 hc)
    rw [heq, undoAndApply_eq edges reordered OriginalEdgeSettings hnd']
    exact composedRatios_perm edges OriginalEdgeSettings _ _ hperm

/-- The slice with the sample change over edge 4, from an empty backup map:
both directions of edge 4 get cost ratio 3 and capacity ratio 1/2. -/
theorem C19_ratio_products_witness :
    (∀ c ∈ sampleSlice.Intersected, c.EnclosedEdges.Nodup)
    ∧ (∀ k d, sampleSlice.undoAndApply (fun _ => (10, 1)) (fun _ => none) k = some d →
        d.CostRatio = costProduct k sampleSlice.Intersected
        ∧ d.CapacityRatio = capacityProduct k sampleSlice.Intersected)
    ∧ costProduct (4, esriNetworkEdgeDirection.esriNEDAlongDigitized) sampleSlice.Intersected = 3
    ∧ sampleSlice.undoAndApply (fun _ => (10, 1)) (fun _ => none)
        (4, esriNetworkEdgeDirection.esriNEDAlongDigitized)
        = some { OriginalCost := 10, OriginalCapacity := 1, CostRatio := 3,
                 CapacityRatio := 1 / 2 } :=
  ⟨by simp [sampleSlice, sampleChange],
    (C19_ratio_products (fun _ => (10, 1)) sampleSlice (fun _ => none)
      (by simp [sampleSlice, sampleChange])).1,
    by simp [costProduct, sampleSlice, sampleChange, SingleDynamicChange.covers],
    by simp [CriticalTime.undoAndApply, applyChange, applyDirection, sampleSlice, sampleChange,
      EdgeOriginalData.ctor, Function.update]⟩


/-- The set of enclosed edges that the constructor loads lists every edge id
once. -/
theorem enclosedEdges_nodup (edgeQueries : List (Option Nat)) :
    (enclosedEdges edgeQueries).Nodup := by
  unfold enclosedEdges
  have key : ∀ (qs : List (Option Nat)) (acc : List Nat), acc.Nodup →
      (qs.foldl
        (fun acc q =>
          match q with
          | some EID => if EID ∈ acc then acc else acc ++ [EID]
          | none => acc)
        acc).Nodup := by
    intro qs
    induction qs with
    | nil => intro acc h; exact h
    | cons q qs ih =>
      intro acc h
      rw [List.foldl_cons]
      apply ih
      cases q with
      | none => exact h
      | some EID =>
        by_cases hmem : EID ∈ acc
        · simp only [hmem, if_true]; exact h
        · simp only [hmem, if_false]
          rw [List.nodup_append]
          refine ⟨h, List.nodup_singleton _, ?_⟩
          intro a ha hb
          rw [List.mem_singleton] at hb
          exact hmem (hb ▸ ha)
  exact key edgeQueries [] List.nodup_nil


theorem demote_status_other (w : World) (e x : Nat) (h : x ≠ e) :
    ((w.demote e).evacuees x).Status = (w.evacuees x).Status := by
  unfold World.demote
  simp [Function.update, h]

theorem appendedFrom_demote (w0 : World) (l0 : List Nat) (st : World × List Nat)
    (added : List Nat) (x : Nat) (h : AppendedFrom w0 l0 st added)
    (hx : (st.1.evacuees x).Status = EvacueeStatus.Processed) :
    AppendedFrom w0 l0 (st.1.demote x, st.2 ++ [x]) (added ++ [x]) := by
  obtain ⟨h1, h2, h3, h4⟩ := h
  have hxn : x ∉ added := by
    intro hmem
    have := (h3 x hmem).2
    rw [hx] at this
    exact absurd this (by decide)
  refine ⟨?_, ?_, ?_, ?_⟩
  · simp [h1]
  · rw [List.nodup_append]
    refine ⟨h2, List.nodup_singleton _, ?_⟩
    intro a ha hb
    rw [List.mem_singleton] at hb
    exact hxn (hb ▸ ha)
  · intro e he
    rw [List.mem_append, List.mem_singleton] at he
    rcases he with he | he
    · refine ⟨(h3 e he).1, ?_⟩
      exact demote_status _ _ _ (Or.inl (h3 e he).2)
    · subst he
      refine ⟨?_, demote_status _ _ _ (Or.inr rfl)⟩
      rw [← h4 e hxn]
      exact hx
  · intro e he
    rw [List.mem_append, List.mem_singleton, not_or] at he
    show ((st.1.demote x).evacuees e).Status = _
    rw [demote_status_other _ _ _ he.2]
    exact h4 e he.1

theorem appendedFrom_demoteCrossing (c : ℚ) (w0 : World) (l0 : List Nat)
    (st : World × List Nat) (pair : Nat × ℚ) (added : List Nat)
    (h : AppendedFrom w0 l0 st added) :
    ∃ added', AppendedFrom w0 l0 (demoteCrossing c st pair) added' := by
  unfold demoteCrossing
  split_ifs with hg
  · exact ⟨_, appendedFrom_demote w0 l0 st added _ h hg.2.1⟩
  · exact ⟨added, h⟩

theorem appendedFrom_fold (c : ℚ) (w0 : World) (l0 : List Nat) (entries : List (Nat × ℚ)) :
    ∀ (st : World × List Nat) (added : List Nat), AppendedFrom w0 l0 st added →
      ∃ added', AppendedFrom w0 l0 (entries.foldl (demoteCrossing c) st) added' := by
  induction entries with
  | nil => intro st added h; exact ⟨added, h⟩
  | cons p rest ih =>
    intro st added h
    obtain ⟨a1, h1⟩ := appendedFrom_demoteCrossing c w0 l0 st p added h
    exact ih _ a1 h1

/-- One `DoesItNeedASecondChance` call appends only evacuees that were
`Processed`, leaves them `Unprocessed`, appends none twice and changes no other
status. -/
theorem secondChance_appended (cost : Nat → ℚ) (thr thrOverlap maxCost : ℚ) (w : World)
    (l : List Nat) (pid : Nat) :
    ∃ added, AppendedFrom w l
      (EvcPath.DoesItNeedASecondChance cost thr thrOverlap maxCost w l pid) added := by
  have h0 : AppendedFrom w l (w, l) [] :=
    ⟨by simp, List.nodup_nil, fun e he => absurd he (List.not_mem_nil e), fun _ _ => rfl⟩
  unfold EvcPath.DoesItNeedASecondChance
  dsimp only
  split_ifs with hg hp
  · have h1 := appendedFrom_demote w l (w, l) [] _ h0 hp
    exact appendedFrom_fold _ w l _ _ _ h1
  · exact appendedFrom_fold _ w l _ _ _ h0
  · exact ⟨[], h0⟩

/-- A list without duplicates whose members are all `Unprocessed` stays so
through one call, and the call only appends to it. -/
theorem secondChance_keeps (cost : Nat → ℚ) (thr thrOverlap maxCost : ℚ) (w : World)
    (l : List Nat) (pid : Nat) (hnd : l.Nodup)
    (hun : ∀ e ∈ l, (w.evacuees e).Status = EvacueeStatus.Unprocessed) :
    (EvcPath.DoesItNeedASecondChance cost thr thrOverlap maxCost w l pid).2.Nodup
    ∧ (∀ e ∈ (EvcPath.DoesItNeedASecondChance cost thr thrOverlap maxCost w l pid).2,
        ((EvcPath.DoesItNeedASecondChance cost thr thrOverlap maxCost w l pid).1.evacuees e).Status
          = EvacueeStatus.Unprocessed)
    ∧ l <+: (EvcPath.DoesItNeedASecondChance cost thr thrOverlap maxCost w l pid).2 := by
  obtain ⟨added, h1, h2, h3, h4⟩ := secondChance_appended cost thr thrOverlap maxCost w l pid
  have hdisj : ∀ e ∈ l, e ∉ added := by
    intro e he hmem
    have := (h3 e hmem).1
    rw [hun e he] at this
    exact absurd this (by decide)
  refine ⟨?_, ?_, ?_⟩
  · rw [h1, List.nodup_append]
    exact ⟨hnd, h2, fun a ha hb => hdisj a ha hb⟩
  · intro e he
    rw [h1, List.mem_append] at he
    by_cases hmem : e ∈ added
    · exact (h3 e hmem).2
    · rcases he with he | he
      · rw [h4 e hmem]; exact hun e he
      · exact absurd he hmem
  · rw [h1]; exact List.prefix_append _ _

theorem secondChanceCalls_keeps (cost : Nat → ℚ) (calls : List SecondChanceCall) :
    ∀ st : World × List Nat, st.2.Nodup →
      (∀ e ∈ st.2, (st.1.evacuees e).Status = EvacueeStatus.Unprocessed) →
      (secondChanceCalls cost calls st).2.Nodup
      ∧ (∀ e ∈ (secondChanceCalls cost calls st).2,
          ((secondChanceCalls cost calls st).1.evacuees e).Status = EvacueeStatus.Unprocessed)
      ∧ st.2 <+: (secondChanceCalls cost calls st).2 := by
  induction calls with
  | nil => intro st hnd hun; exact ⟨hnd, hun, List.prefix_refl _⟩
  | cons c rest ih =>
    intro st hnd hun
    obtain ⟨k1, k2, k3⟩ := secondChance_keeps cost c.ThreasholdForCost c.ThreasholdForPathOverlap
      c.ThisIterationMaxCost st.1 st.2 c.path hnd hun
    obtain ⟨i1, i2, i3⟩ := ih _ k1 k2
    exact ⟨i1, i2, k3.trans i3⟩

/-- C30: every evacuee that a `DoesItNeedASecondChance` call appends to the
affecting list was `Processed` before the call and is `Unprocessed` after it,
the call appends no evacuee twice and changes the status of no other evacuee;
and from an affecting list without duplicates whose members are all
`Unprocessed`, any sequence of calls leaves a list without duplicates whose
members are all `Unprocessed` and that starts with the list given. -/
theorem C30_no_double_append (cost : Nat → ℚ) (calls : List SecondChanceCall) (w : World)
    (AffectingList : List Nat) (hnd : AffectingList.Nodup)
    (hun : ∀ e ∈ AffectingList, (w.evacuees e).Status = EvacueeStatus.Unprocessed) :
    (∀ (thr thrOverlap maxCost : ℚ) (w1 : World) (l1 : List Nat) (pid : Nat),
      ∃ added,
        (EvcPath.DoesItNeedASecondChance cost thr thrOverlap maxCost w1 l1 pid).2 = l1 ++ added
        ∧ added.Nodup
        ∧ (∀ e ∈ added, (w1.evacuees e).Status = EvacueeStatus.Processed
            ∧ ((EvcPath.DoesItNeedASecondChance cost thr thrOverlap maxCost w1 l1
                  pid).1.evacuees e).Status = EvacueeStatus.Unprocessed)
        ∧ ∀ e, e ∉ added →
            ((EvcPath.DoesItNeedASecondChance cost thr thrOverlap maxCost w1 l1
                pid).1.evacuees e).Status = (w1.evacuees e).Status)
    ∧ (secondChanceCalls cost calls (w, AffectingList)).2.Nodup
    ∧ (∀ e ∈ (secondChanceCalls cost calls (w, AffectingList)).2,
        ((secondChanceCalls cost calls (w, AffectingList)).1.evacuees e).Status
          = EvacueeStatus.Unprocessed)
    ∧ AffectingList <+: (secondChanceCalls cost calls (w, AffectingList)).2 := by
  refine ⟨?_, secondChanceCalls_keeps cost calls (w, AffectingList) hnd hun⟩
  intro thr thrOverlap maxCost w1 l1 pid
  obtain ⟨added, h⟩ := secondChance_appended cost thr thrOverlap maxCost w1 l1 pid
  exact ⟨added, h⟩

/-- Two calls in a row on the route of cost 20 with threshold 1 and largest cost
20: the first appends evacuee 0, the second appends nothing. -/
theorem C30_no_double_append_witness :
    ([] : List Nat).Nodup
    ∧ (secondChanceCalls (fun _ => 10)
        [{ ThreasholdForCost := 1, ThreasholdForPathOverlap := 1, ThisIterationMaxCost := 20,
           path := 0 },
         { ThreasholdForCost := 1, ThreasholdForPathOverlap := 1, ThisIterationMaxCost := 20,
           path := 0 }]
        (oneRouteWorld twoEdgePath, [])).2.Nodup :=
  ⟨List.nodup_nil,
    (C30_no_double_append (fun _ => 10) _ (oneRouteWorld twoEdgePath) [] List.nodup_nil
      (fun e he => absurd he (List.not_mem_nil e))).2.1⟩


/-- Two second-chance calls in a row on the same route append its evacuee
once. -/
theorem secondChance_twice :
    (secondChanceCalls (fun _ => 10)
        [{ ThreasholdForCost := 1, ThreasholdForPathOverlap := 1, ThisIterationMaxCost := 20,
           path := 0 },
         { ThreasholdForCost := 1, ThreasholdForPathOverlap := 1, ThisIterationMaxCost := 20,
           path := 0 }]
        (oneRouteWorld twoEdgePath, [])).2 = [0] := by
  simp [secondChanceCalls, EvcPath.DoesItNeedASecondChance, quotientReaches, oneRouteWorld,
    twoEdgePath, samplePath, sampleEvacuee, World.demote, demoteCrossing, Histogram.WeightedAdd,
    Histogram.add, NAEdge.GetUniqeCrossingPaths, PathSegment.GetCurrentCost,
    PathSegment.GetEdgePortion, Function.update]

/-- C29 (as the code has it): `EvcPath::CalculateFinalEvacuationCost` leaves the
evacuee of the path with the larger of its final cost before and the new final
cost of the path, so never with a lower final cost; an evacuee whose final cost
is the `CASPER_INFINITY` that the constructor stored has a final cost of at
least `CASPER_INFINITY` afterwards: exactly `CASPER_INFINITY` when the new final
cost of the path is not above it, and the new final cost of the path when that
is above it. -/
theorem C29_final_cost_never_lowers (cost : Nat → ℚ) (initDelayCostPerPop : ℚ) (w : World)
    (pid : Nat) :
    ((EvcPath.CalculateFinalEvacuationCost cost initDelayCostPerPop w pid).evacuees
          (w.paths pid).myEvc).FinalCost
        = max (w.evacuees (w.paths pid).myEvc).FinalCost
            ((EvcPath.CalculateFinalEvacuationCost cost initDelayCostPerPop w pid).paths
              pid).FinalEvacuationCost
    ∧ (w.evacuees (w.paths pid).myEvc).FinalCost
        ≤ ((EvcPath.CalculateFinalEvacuationCost cost initDelayCostPerPop w pid).evacuees
            (w.paths pid).myEvc).FinalCost
    ∧ ∀ (CASPER_INFINITY pop : ℚ) (objectID : Nat),
        (w.evacuees (w.paths pid).myEvc).FinalCost
            = (Evacuee.ctor CASPER_INFINITY pop objectID).FinalCost →
        CASPER_INFINITY
            ≤ ((EvcPath.CalculateFinalEvacuationCost cost initDelayCostPerPop w pid).evacuees
                (w.paths pid).myEvc).FinalCost
        ∧ (((EvcPath.CalculateFinalEvacuationCost cost initDelayCostPerPop w pid).paths
              pid).FinalEvacuationCost ≤ CASPER_INFINITY →
            ((EvcPath.CalculateFinalEvacuationCost cost initDelayCostPerPop w pid).evacuees
                (w.paths pid).myEvc).FinalCost = CASPER_INFINITY)
        ∧ (CASPER_INFINITY
              < ((EvcPath.CalculateFinalEvacuationCost cost initDelayCostPerPop w pid).paths
                  pid).FinalEvacuationCost →
            ((EvcPath.CalculateFinalEvacuationCost cost initDelayCostPerPop w pid).evacuees
                (w.paths pid).myEvc).FinalCost
              = ((EvcPath.CalculateFinalEvacuationCost cost initDelayCostPerPop w pid).paths
                  pid).FinalEvacuationCost) := by
  have hmax : ((EvcPath.CalculateFinalEvacuationCost cost initDelayCostPerPop w pid).evacuees
          (w.paths pid).myEvc).FinalCost
        = max (w.evacuees (w.paths pid).myEvc).FinalCost
            ((EvcPath.CalculateFinalEvacuationCost cost initDelayCostPerPop w pid).paths
              pid).FinalEvacuationCost := by
    simp [EvcPath.CalculateFinalEvacuationCost]
  refine ⟨hmax, ?_, ?_⟩
  · rw [hmax]; exact le_max_left _ _
  · intro CASPER_INFINITY pop objectID hinit
    have hinf : (w.evacuees (w.paths pid).myEvc).FinalCost = CASPER_INFINITY := hinit
    rw [hmax, hinf]
    exact ⟨le_max_left _ _, fun hle => max_eq_left hle, fun hlt => max_eq_right (le_of_lt hlt)⟩

/-- C29 as stated fails when the new final cost of the path is above the value
the constructor stored: with `CASPER_INFINITY = 1000`, an evacuee fresh from the
constructor and a route over two edges that cost 2000 each, the final cost of
the evacuee after the call is 4000, not 1000. -/
theorem C29_counterexample :
    (freshEvacueeWorld.evacuees (freshEvacueeWorld.paths 0).myEvc).FinalCost
        = (Evacuee.ctor 1000 1 0).FinalCost
    ∧ (Evacuee.ctor 1000 1 0).FinalCost = 1000
    ∧ ((EvcPath.CalculateFinalEvacuationCost (fun _ => 2000) 0 freshEvacueeWorld 0).evacuees
          (freshEvacueeWorld.paths 0).myEvc).FinalCost = 4000
    ∧ (4000 : ℚ) ≠ 1000 := by
  refine ⟨rfl, rfl, ?_, by norm_num⟩
  simp [EvcPath.CalculateFinalEvacuationCost, freshEvacueeWorld, oneRouteWorld, twoEdgePath,
    samplePath, Evacuee.ctor, PathSegment.GetCurrentCost, PathSegment.GetEdgePortion]
  norm_num

/-- The saturation density stored by the constructor of `NAEdgeCache` is above
the stored critical density whenever the configured saturation density is
positive. -/
theorem saturation_above_of_pos (a b : Int) (S C : ℚ) (two : Bool) (d : ℚ)
    (m : EVC_TRAFFIC_MODEL) (hS : 0 < S) :
    (NAEdgeCache.ctor a b S C two d m).criticalDensPerCap
      < (NAEdgeCache.ctor a b S C two d m).saturationPerCap := by
  unfold NAEdgeCache.ctor
  dsimp only
  split_ifs with h
  · linarith
  · exact not_le.1 h

/-- C23 fails for a configured saturation density of 0 with critical density 1:
the constructor stores 0 + 1 = 1 as saturation density, equal to the critical
density and not above it. -/
theorem C23_failing_input :
    (NAEdgeCache.ctor 0 0 0 1 false 0 EVC_TRAFFIC_MODEL.CASPER).saturationPerCap = 1
    ∧ (NAEdgeCache.ctor 0 0 0 1 false 0 EVC_TRAFFIC_MODEL.CASPER).criticalDensPerCap = 1
    ∧ ¬ ((NAEdgeCache.ctor 0 0 0 1 false 0 EVC_TRAFFIC_MODEL.CASPER).saturationPerCap
          > (NAEdgeCache.ctor 0 0 0 1 false 0 EVC_TRAFFIC_MODEL.CASPER).criticalDensPerCap) := by
  norm_num [NAEdgeCache.ctor]


theorem getLast_ne_none_of_all (qs : List (Option Nat)) (h : qs.all (fun q => q.isSome) = true) :
    (qs.getLast? == some none) = false := by
  cases hl : qs.getLast? with
  | none => rfl
  | some x =>
    have hx : x ∈ qs := List.mem_of_getLast?_eq_some hl
    rw [List.all_eq_true] at h
    have := h x hx
    cases x with
    | none => simp at this
    | some v => rfl

theorem loadRow_ok (IsValid : SingleDynamicChange → Bool) (st : LoadState) (r : RowRead)
    (h : r.readsOk = true) :
    ∃ f, loadRow IsValid st r
      = Except.ok { allChanges := st.allChanges ++ (r.item.toList.filter IsValid)
                    flagBadDynamicChangeSnapping := f
                    hrFailed := false } := by
  cases r with
  | valueError => simp [RowRead.readsOk] at h
  | noLocation => exact ⟨st.flagBadDynamicChangeSnapping, by simp [loadRow, RowRead.item]⟩
  | located dir s e c k qs j =>
    simp only [RowRead.readsOk] at h
    refine ⟨st.flagBadDynamicChangeSnapping || (j != 0 && qs.length == 0), ?_⟩
    simp only [loadRow, RowRead.item, getLast_ne_none_of_all qs h, Option.toList]
    split_ifs with hv <;> simp [List.filter_cons, hv]

theorem loadRows_ok (IsValid : SingleDynamicChange → Bool) (rows : List RowRead) :
    ∀ st : LoadState, (∀ r ∈ rows, r.readsOk = true) → st.hrFailed = false →
      ∃ f, rows.foldlM (loadRow IsValid) st
        = Except.ok { allChanges := st.allChanges ++ (rows.filterMap RowRead.item).filter IsValid
                      flagBadDynamicChangeSnapping := f
                      hrFailed := false } := by
  induction rows with
  | nil =>
    intro st _ hhr
    refine ⟨st.flagBadDynamicChangeSnapping, ?_⟩
    simp only [List.foldlM_nil, List.filterMap_nil, List.filter_nil, List.append_nil]
    rw [← hhr]
    rfl
  | cons r rows ih =>
    intro st hr _
    obtain ⟨f1, h1⟩ := loadRow_ok IsValid st r (hr r (List.mem_cons_self _ _))
    obtain ⟨f2, h2⟩ := ih
      { allChanges := st.allChanges ++ (r.item.toList.filter IsValid)
        flagBadDynamicChangeSnapping := f1
        hrFailed := false }
      (fun x hx => hr x (List.mem_cons_of_mem _ hx)) rfl
    refine ⟨f2, ?_⟩
    rw [List.foldlM_cons, h1]
    show List.foldlM (loadRow IsValid) _ rows = _
    rw [h2]
    cases hi : r.item with
    | none => simp [List.filterMap_cons, hi]
    | some c =>
      simp [List.filterMap_cons, hi, List.filter_cons]
      split_ifs <;> simp

theorem loadRows_error (IsValid : SingleDynamicChange → Bool) (rows : List RowRead) :
    ∀ st : LoadState, RowRead.valueError ∈ rows →
      ∃ st', rows.foldlM (loadRow IsValid) st = Except.error st' := by
  induction rows with
  | nil => intro st h; simp at h
  | cons r rows ih =>
    intro st h
    rw [List.foldlM_cons]
    cases hrow : loadRow IsValid st r with
    | error e => exact ⟨e, rfl⟩
    | ok st1 =>
      have hne : r ≠ RowRead.valueError := by
        intro heq
        rw [heq] at hrow
        simp [loadRow] at hrow
      rcases List.mem_cons.1 h with h | h
      · exact absurd h.symm hne
      · exact ih st1 h

/-- The engine built from a table all of whose reads succeed: the rows that pass
the validity check, in table order, and the time frame of the requested mode
over them. -/
theorem ctor_of_reads (INFINITE : ℚ) (IsValid : SingleDynamicChange → Bool) (t : ChangeTable)
    (dynamicMode : DynamicMode) (flag : Bool) (hfields : t.fieldsOk = true)
    (hreads : ∀ r ∈ t.rows, r.readsOk = true) :
    (DynamicDisaster.ctor INFINITE IsValid (some t) dynamicMode flag).1
      = { myDynamicMode :=
            if (dynamicMode = DynamicMode.Smart ∨ dynamicMode = DynamicMode.Full)
                ∧ (buildTimeFrame INFINITE dynamicMode
                    ((t.rows.filterMap RowRead.item).filter IsValid)).length = 2
            then DynamicMode.Simple else dynamicMode
          allChanges := (t.rows.filterMap RowRead.item).filter IsValid
          dynamicTimeFrame :=
            buildTimeFrame INFINITE dynamicMode ((t.rows.filterMap RowRead.item).filter IsValid) } := by
  obtain ⟨f, hf⟩ := loadRows_ok IsValid t.rows
    { allChanges := [], flagBadDynamicChangeSnapping := flag, hrFailed := false } hreads rfl
  have hload : loadTable IsValid (some t) flag
      = Except.ok { allChanges := (t.rows.filterMap RowRead.item).filter IsValid
                    flagBadDynamicChangeSnapping := f
                    hrFailed := false } := by
    unfold loadTable
    simp only [hfields, if_true]
    rw [hf]
    simp
  rw [ctor_ok INFINITE IsValid (some t) dynamicMode flag _ hload rfl]

/-- C25 (as the code has it): a row that fails the validity check is skipped.
When the table is there, the field lookups succeed and every read of every row
succeeds, the engine holds exactly the rows that pass the validity check, in
table order, with the time frame of the requested mode built from them, and its
mode is Disabled only if that was requested. The engine ends with no loaded
change, an empty time frame and mode Disabled when the table is missing, a
field lookup fails or a read of a row value fails. -/
theorem C25_invalid_rows_skipped (INFINITE : ℚ) (IsValid : SingleDynamicChange → Bool)
    (t : ChangeTable) (dynamicMode : DynamicMode) (flag : Bool) (hfields : t.fieldsOk = true)
    (hreads : ∀ r ∈ t.rows, r.readsOk = true) :
    (DynamicDisaster.ctor INFINITE IsValid (some t) dynamicMode flag).1.allChanges
        = (t.rows.filterMap RowRead.item).filter IsValid
    ∧ (DynamicDisaster.ctor INFINITE IsValid (some t) dynamicMode flag).1.dynamicTimeFrame
        = buildTimeFrame INFINITE dynamicMode ((t.rows.filterMap RowRead.item).filter IsValid)
    ∧ ((DynamicDisaster.ctor INFINITE IsValid (some t) dynamicMode flag).1.myDynamicMode
          = DynamicMode.Disabled → dynamicMode = DynamicMode.Disabled)
    ∧ (∀ broken : ChangeTable, broken.fieldsOk = false ∨ RowRead.valueError ∈ broken.rows →
        (DynamicDisaster.ctor INFINITE IsValid (some broken) dynamicMode flag).1
          = { myDynamicMode := DynamicMode.Disabled, allChanges := [], dynamicTimeFrame := [] })
    ∧ (DynamicDisaster.ctor INFINITE IsValid none dynamicMode flag).1
        = { myDynamicMode := DynamicMode.Disabled, allChanges := [], dynamicTimeFrame := [] } := by
  have hc := ctor_of_reads INFINITE IsValid t dynamicMode flag hfields hreads
  refine ⟨by rw [hc], by rw [hc], ?_, ?_, ?_⟩
  · rw [hc]
    dsimp only
    split_ifs with h
    · intro hd; exact absurd hd (by decide)
    · exact id
  · intro broken hb
    have hload : ∃ st', loadTable IsValid (some broken) flag = Except.error st' := by
      unfold loadTable
      by_cases hf : broken.fieldsOk = true
      · simp only [hf, if_true]
        rcases hb with hb | hb
        · rw [hf] at hb; exact absurd hb (by decide)
        · exact loadRows_error IsValid broken.rows _ hb
      · simp only [hf]
        exact ⟨_, rfl⟩
    obtain ⟨st', hst⟩ := hload
    unfold DynamicDisaster.ctor
    rw [hst]
  · rfl

/-- The table with the one sample row read in Smart mode with `INFINITE` as 100
and the check that a change starts before it ends. -/
theorem C25_invalid_rows_skipped_witness :
    sampleTable.fieldsOk = true
    ∧ (∀ r ∈ sampleTable.rows, r.readsOk = true)
    ∧ (DynamicDisaster.ctor 100 startsBeforeEnd (some sampleTable) DynamicMode.Smart
          false).1.allChanges
        = (sampleTable.rows.filterMap RowRead.item).filter startsBeforeEnd :=
  ⟨rfl, by simp [sampleTable, RowRead.readsOk],
    (C25_invalid_rows_skipped 100 startsBeforeEnd sampleTable DynamicMode.Smart false rfl
      (by simp [sampleTable, RowRead.readsOk])).1⟩

/-- C25 as stated fails: the table whose first row ends before it starts, and so
fails the validity check, still gives an engine in Smart mode that holds the
second row as its one loaded change, with four slices. -/
theorem C25_counterexample :
    startsBeforeEnd
        { DisasterDirection := { Along := true, Against := true }, StartTime := 5, EndTime := 2,
          AffectedCostRate := 3, AffectedCapacityRate := 1 / 2, EnclosedEdges := [4] } = false
    ∧ (DynamicDisaster.ctor 100 startsBeforeEnd (some malformedTable) DynamicMode.Smart
          false).1.allChanges = [sampleChange]
    ∧ (DynamicDisaster.ctor 100 startsBeforeEnd (some malformedTable) DynamicMode.Smart
          false).1.myDynamicMode = DynamicMode.Smart
    ∧ (DynamicDisaster.ctor 100 startsBeforeEnd (some malformedTable) DynamicMode.Smart
          false).1.dynamicTimeFrame.length = 4 := by
  have hrows : (malformedTable.rows.filterMap RowRead.item).filter startsBeforeEnd
      = [sampleChange] := by
    simp [malformedTable, RowRead.item, enclosedEdges, startsBeforeEnd, sampleChange,
      List.filter_cons]
    norm_num
  have hc := ctor_of_reads 100 startsBeforeEnd malformedTable DynamicMode.Smart false rfl
    (by simp [malformedTable, RowRead.readsOk])
  rw [hrows, sampleTable_smart] at hc
  rw [hc]
  refine ⟨?_, rfl, ?_, rfl⟩
  · norm_num [startsBeforeEnd]
  · simp


theorem identifyPaths_spec (w : World) (ps : List Nat) :
    ∀ (fl : List Nat) (mp : Option Nat),
      identifyPaths w ps fl mp
        = if (mp.toList ++ mainPaths w ps).length ≤ 1 then
            some (fl ++ ps.filter (fun p => decide ((w.paths p).Status = PathStatus.FrozenSplitted)),
              (mp.toList ++ mainPaths w ps).head?)
          else none := by
  induction ps with
  | nil =>
    intro fl mp
    cases mp <;> simp [identifyPaths, mainPaths]
  | cons p ps ih =>
    intro fl mp
    by_cases hp : (w.paths p).Status = PathStatus.FrozenSplitted
    · cases mp with
      | some m =>
        rw [identifyPaths, if_pos hp, ih]
        simp [mainPaths, hp]
      | none =>
        rw [identifyPaths, if_pos hp, ih]
        simp [mainPaths, hp]
    · cases mp with
      | some m =>
        rw [identifyPaths, if_neg hp]
        simp [mainPaths, hp]
      | none =>
        rw [identifyPaths, if_neg hp]
        simp only [ih]
        simp [mainPaths, hp]

theorem mergeHalf_status (m : Nat) (w w' : World) (fp : Nat)
    (h : mergeHalf m w fp = Except.ok w') :
    (∀ p, (w'.paths p).Status = (w.paths p).Status) ∧ w'.evacuees = w.evacuees := by
  unfold mergeHalf at h
  split at h
  · simp only [Except.ok.injEq] at h
    subst h
    refine ⟨fun p => ?_, rfl⟩
    by_cases h2 : p = fp
    · subst h2; simp
    · by_cases h1 : p = m
      · subst h1; simp [Function.update_noteq h2]
      · simp [Function.update_noteq h1, Function.update_noteq h2]
  · exact absurd h (by simp)

theorem mergeHalf_error (m : Nat) (w : World) (fp : Nat) (err : MergeError)
    (h : mergeHalf m w fp = Except.error err) : err = MergeError.emptyPath := by
  unfold mergeHalf at h
  split at h
  · exact absurd h (by simp)
  · simp only [Except.error.injEq] at h
    exact h.symm

theorem foldlM_mergeHalf_status (m : Nat) (halves : List Nat) :
    ∀ (w w' : World), halves.foldlM (mergeHalf m) w = Except.ok w' →
      (∀ p, (w'.paths p).Status = (w.paths p).Status) ∧ w'.evacuees = w.evacuees := by
  induction halves with
  | nil =>
    intro w w' h
    simp only [List.foldlM_nil] at h
    have : w = w' := by simpa [pure, Except.pure] using h
    subst this
    exact ⟨fun _ => rfl, rfl⟩
  | cons fp rest ih =>
    intro w w' h
    rw [List.foldlM_cons] at h
    cases h1 : mergeHalf m w fp with
    | error err => rw [h1] at h; exact absurd h (by simp [bind, Except.bind])
    | ok w1 =>
      rw [h1] at h
      have h2 : rest.foldlM (mergeHalf m) w1 = Except.ok w' := h
      obtain ⟨a1, a2⟩ := mergeHalf_status m w w1 fp h1
      obtain ⟨b1, b2⟩ := ih w1 w' h2
      exact ⟨fun p => (b1 p).trans (a1 p), b2.trans a2⟩

theorem foldlM_mergeHalf_error (m : Nat) (halves : List Nat) :
    ∀ (w : World) (err : MergeError), halves.foldlM (mergeHalf m) w = Except.error err →
      err = MergeError.emptyPath := by
  induction halves with
  | nil =>
    intro w err h
    simp [pure, Except.pure] at h
  | cons fp rest ih =>
    intro w err h
    rw [List.foldlM_cons] at h
    cases h1 : mergeHalf m w fp with
    | error e1 =>
      rw [h1] at h
      have : e1 = err := by simpa [bind, Except.bind] using h
      rw [← this]
      exact mergeHalf_error m w fp e1 h1
    | ok w1 =>
      rw [h1] at h
      exact ih w1 err h

theorem mainPaths_eq_self_of_no_frozen (w : World) (ps : List Nat)
    (h : ps.filter (fun p => decide ((w.paths p).Status = PathStatus.FrozenSplitted)) = []) :
    mainPaths w ps = ps := by
  unfold mainPaths
  rw [List.filter_eq_self]
  intro p hp
  rw [List.filter_eq_nil_iff] at h
  have := h p hp
  simpa using this

/-- What a normal return of the loop body for one evacuee leaves: the status of
every path and of every evacuee as it was, and the evacuee merged. -/
theorem mergeEvacuee_ok_spec (w w' : World) (e : Nat) (h : mergeEvacuee w e = Except.ok w') :
    (∀ p, (w'.paths p).Status = (w.paths p).Status)
    ∧ (∀ e', (w'.evacuees e').Status = (w.evacuees e').Status)
    ∧ Merged w' e := by
  unfold mergeEvacuee at h
  dsimp only at h
  by_cases hst : (w.evacuees e).Status ≠ EvacueeStatus.Unreachable
  · rw [if_pos hst, identifyPaths_spec] at h
    simp only [Option.toList, List.nil_append] at h
    by_cases hlen : (mainPaths w (w.evacuees e).Paths).length ≤ 1
    · rw [if_pos hlen] at h
      dsimp only at h
      by_cases hfl : (w.evacuees e).Paths.filter
          (fun p => decide ((w.paths p).Status = PathStatus.FrozenSplitted)) = []
      · rw [if_pos hfl] at h
        simp only [Except.ok.injEq] at h
        subst h
        refine ⟨fun _ => rfl, fun _ => rfl, ?_, ?_⟩
        · rw [← mainPaths_eq_self_of_no_frozen w _ hfl]; exact hlen
        · intro p hp
          rw [List.filter_eq_nil_iff] at hfl
          simpa using hfl p hp
      · rw [if_neg hfl] at h
        cases hhead : (mainPaths w (w.evacuees e).Paths).head? with
        | none =>
          rw [hhead] at h
          simp only [Except.ok.injEq] at h
          subst h
          refine ⟨fun _ => rfl, fun e' => ?_, ?_, ?_⟩
          · by_cases he : e' = e
            · subst he; simp
            · simp [Function.update_noteq he]
          · simp
          · simp
        | some m =>
          rw [hhead] at h
          dsimp only at h
          cases hfold : List.foldlM (mergeHalf m)  w
              ((w.evacuees e).Paths.filter
                (fun p => decide ((w.paths p).Status = PathStatus.FrozenSplitted))) with
          | error err => rw [hfold] at h; exact absurd h (by simp)
          | ok w1 =>
            rw [hfold] at h
            simp only [Except.ok.injEq] at h
            obtain ⟨s1, s2⟩ := foldlM_mergeHalf_status m _ w w1 hfold
            have hm : m ∈ mainPaths w (w.evacuees e).Paths := List.mem_of_mem_head? hhead
            have hmst : (w.paths m).Status ≠ PathStatus.FrozenSplitted := by
              unfold mainPaths at hm
              simpa using (List.mem_filter.1 hm).2
            subst h
            refine ⟨fun p => ?_, fun e' => ?_, ?_, ?_⟩
            · by_cases hp : p = m
              · subst hp; simp [s1]
              · simp [Function.update_noteq hp, s1]
            · by_cases he : e' = e
              · subst he; simp [s2]
              · simp [Function.update_noteq he, s2]
            · simp
            · intro p hp
              have hpm : p = m := by simpa using hp
              subst hpm
              simp [s1, hmst]
    · rw [if_neg hlen] at h
      exact absurd h (by simp)
  · rw [if_neg hst] at h
    simp only [Except.ok.injEq] at h
    subst h
    refine ⟨fun _ => rfl, fun e' => ?_, ?_, ?_⟩
    · by_cases he : e' = e
      · subst he; simp
      · simp [Function.update_noteq he]
    · simp
    · simp

/-- The loop body throws only for an evacuee that is not `Unreachable` and has
more than one path that is not `FrozenSplitted`. -/
theorem mergeEvacuee_many (w : World) (e : Nat)
    (h : mergeEvacuee w e = Except.error MergeError.manyMainPaths) :
    (w.evacuees e).Status ≠ EvacueeStatus.Unreachable
    ∧ 1 < (mainPaths w (w.evacuees e).Paths).length := by
  unfold mergeEvacuee at h
  dsimp only at h
  by_cases hst : (w.evacuees e).Status ≠ EvacueeStatus.Unreachable
  · refine ⟨hst, ?_⟩
    rw [if_pos hst, identifyPaths_spec] at h
    simp only [Option.toList, List.nil_append] at h
    by_cases hlen : (mainPaths w (w.evacuees e).Paths).length ≤ 1
    · rw [if_pos hlen] at h
      dsimp only at h
      by_cases hfl : (w.evacuees e).Paths.filter
          (fun p => decide ((w.paths p).Status = PathStatus.FrozenSplitted)) = []
      · rw [if_pos hfl] at h
        exact absurd h (by simp)
      · rw [if_neg hfl] at h
        cases hhead : (mainPaths w (w.evacuees e).Paths).head? with
        | none =>
          rw [hhead] at h
          exact absurd h (by simp)
        | some m =>
          rw [hhead] at h
          dsimp only at h
          cases hfold : List.foldlM (mergeHalf m)  w
              ((w.evacuees e).Paths.filter
                (fun p => decide ((w.paths p).Status = PathStatus.FrozenSplitted))) with
          | error err =>
            rw [hfold] at h
            have herr := foldlM_mergeHalf_error m _ w err hfold
            simp only [Except.error.injEq] at h
            rw [herr] at h
            exact absurd h (by decide)
          | ok w1 =>
            rw [hfold] at h
            exact absurd h (by simp)
    · exact not_le.1 hlen
  · rw [if_neg hst] at h
    exact absurd h (by simp)

theorem mergeEvacuee_ok_pre (w w' : World) (e : Nat) (h : mergeEvacuee w e = Except.ok w') :
    (w.evacuees e).Status = EvacueeStatus.Unreachable
    ∨ (mainPaths w (w.evacuees e).Paths).length ≤ 1 := by
  by_cases hst : (w.evacuees e).Status = EvacueeStatus.Unreachable
  · exact Or.inl hst
  · right
    unfold mergeEvacuee at h
    dsimp only at h
    rw [if_pos hst, identifyPaths_spec] at h
    simp only [Option.toList, List.nil_append] at h
    by_contra hlen
    rw [if_neg hlen] at h
    exact absurd h (by simp)

theorem mainPaths_congr (w w' : World) (ps : List Nat)
    (h : ∀ p, (w'.paths p).Status = (w.paths p).Status) : mainPaths w' ps = mainPaths w ps := by
  unfold mainPaths
  apply List.filter_congr
  intro p _
  rw [h p]

theorem merged_keeps (w w' : World) (e e' : Nat) (h : mergeEvacuee w e = Except.ok w')
    (hm : Merged w e') : Merged w' e' := by
  obtain ⟨s1, _, s3⟩ := mergeEvacuee_ok_spec w w' e h
  by_cases he : e' = e
  · subst he; exact s3
  · have hsame := (mergeEvacuee_frame w w' e h).1 e' he
    unfold Merged at hm ⊢
    rw [hsame]
    refine ⟨hm.1, fun p hp => ?_⟩
    rw [s1 p]
    exact hm.2 p hp

theorem fold_merged_keeps (L : List Nat) :
    ∀ (w w' : World) (e' : Nat), L.foldlM mergeEvacuee w = Except.ok w' → Merged w e' →
      Merged w' e' := by
  induction L with
  | nil =>
    intro w w' e' h hm
    have : w = w' := by simpa [pure, Except.pure] using h
    subst this
    exact hm
  | cons e0 rest ih =>
    intro w w' e' h hm
    rw [List.foldlM_cons] at h
    cases h1 : mergeEvacuee w e0 with
    | error err => rw [h1] at h; exact absurd h (by simp [bind, Except.bind])
    | ok w1 =>
      rw [h1] at h
      exact ih w1 w' e' h (merged_keeps w w1 e0 e' h1 hm)

theorem fold_merged (L : List Nat) :
    ∀ (w w' : World), L.foldlM mergeEvacuee w = Except.ok w' → ∀ e ∈ L, Merged w' e := by
  induction L with
  | nil => intro w w' _ e he; exact absurd he (List.not_mem_nil e)
  | cons e0 rest ih =>
    intro w w' h e he
    rw [List.foldlM_cons] at h
    cases h1 : mergeEvacuee w e0 with
    | error err => rw [h1] at h; exact absurd h (by simp [bind, Except.bind])
    | ok w1 =>
      rw [h1] at h
      have h2 : rest.foldlM mergeEvacuee w1 = Except.ok w' := h
      rcases List.mem_cons.1 he with he | he
      · subst he
        exact fold_merged_keeps rest w1 w' e h2 (mergeEvacuee_ok_spec w w1 e h1).2.2
      · exact ih w1 w' h2 e he

/-- The state of an evacuee that decides whether the loop body throws is the
same before and after the body has run for another evacuee, and after it has
run for the evacuee itself the evacuee is merged. -/
theorem many_transfer (w w1 : World) (e0 e : Nat) (h1 : mergeEvacuee w e0 = Except.ok w1)
    (hs : (w1.evacuees e).Status ≠ EvacueeStatus.Unreachable)
    (hl : 1 < (mainPaths w1 (w1.evacuees e).Paths).length) :
    (w.evacuees e).Status ≠ EvacueeStatus.Unreachable
    ∧ 1 < (mainPaths w (w.evacuees e).Paths).length := by
  obtain ⟨s1, s2, s3⟩ := mergeEvacuee_ok_spec w w1 e0 h1
  by_cases he : e = e0
  · subst he
    exfalso
    have hle : (mainPaths w1 (w1.evacuees e).Paths).length ≤ (w1.evacuees e).Paths.length :=
      List.length_filter_le _ _
    have := s3.1
    omega
  · have hsame := (mergeEvacuee_frame w w1 e0 h1).1 e he
    rw [hsame] at hs hl
    rw [mainPaths_congr w w1 _ s1] at hl
    exact ⟨hs, hl⟩

theorem fold_many (L : List Nat) :
    ∀ w : World, L.foldlM mergeEvacuee w = Except.error MergeError.manyMainPaths →
      ∃ e ∈ L, (w.evacuees e).Status ≠ EvacueeStatus.Unreachable
        ∧ 1 < (mainPaths w (w.evacuees e).Paths).length := by
  induction L with
  | nil => intro w h; simp [pure, Except.pure] at h
  | cons e0 rest ih =>
    intro w h
    rw [List.foldlM_cons] at h
    cases h1 : mergeEvacuee w e0 with
    | error err =>
      rw [h1] at h
      have : err = MergeError.manyMainPaths := by simpa [bind, Except.bind] using h
      rw [this] at h1
      exact ⟨e0, List.mem_cons_self _ _, mergeEvacuee_many w e0 h1⟩
    | ok w1 =>
      rw [h1] at h
      obtain ⟨e, he, hs, hl⟩ := ih w1 h
      exact ⟨e, List.mem_cons_of_mem _ he, many_transfer w w1 e0 e h1 hs hl⟩

theorem fold_ok_pre (L : List Nat) :
    ∀ (w w' : World), L.foldlM mergeEvacuee w = Except.ok w' →
      ∀ e ∈ L, (w.evacuees e).Status = EvacueeStatus.Unreachable
        ∨ (mainPaths w (w.evacuees e).Paths).length ≤ 1 := by
  induction L with
  | nil => intro w w' _ e he; exact absurd he (List.not_mem_nil e)
  | cons e0 rest ih =>
    intro w w' h e he
    rw [List.foldlM_cons] at h
    cases h1 : mergeEvacuee w e0 with
    | error err => rw [h1] at h; exact absurd h (by simp [bind, Except.bind])
    | ok w1 =>
      rw [h1] at h
      by_cases hee : e = e0
      · subst hee; exact mergeEvacuee_ok_pre w w1 e h1
      · rcases List.mem_cons.1 he with he | he
        · exact absurd he hee
        · by_contra hcon
          rw [not_or, not_le] at hcon
          obtain ⟨s1, _, _⟩ := mergeEvacuee_ok_spec w w1 e0 h1
          have hsame := (mergeEvacuee_frame w w1 e0 h1).1 e hee
          rcases ih w1 w' h e he with h3 | h3
          · rw [hsame] at h3; exact hcon.1 h3
          · rw [hsame, mainPaths_congr w w1 _ s1] at h3
            omega

/-- C24: when `EvcPath::DynamicStep_MergePaths` returns normally, every evacuee
of the list has at most one path and no path of status `FrozenSplitted` in its
path list; when it throws its `std::logic_error`, some evacuee of the list that
is not `Unreachable` has more than one path that is not `FrozenSplitted`; and a
normal return means that no evacuee of the list was such an evacuee. -/
theorem C24_merge_leaves_one_path (w : World) (AllEvacuees : List Nat) :
    (∀ w', EvcPath.DynamicStep_MergePaths w AllEvacuees = Except.ok w' →
      ∀ e ∈ AllEvacuees,
        (w'.evacuees e).Paths.length ≤ 1
        ∧ ∀ p ∈ (w'.evacuees e).Paths, (w'.paths p).Status ≠ PathStatus.FrozenSplitted)
    ∧ (EvcPath.DynamicStep_MergePaths w AllEvacuees = Except.error MergeError.manyMainPaths →
        ∃ e ∈ AllEvacuees, (w.evacuees e).Status ≠ EvacueeStatus.Unreachable
          ∧ 1 < (mainPaths w (w.evacuees e).Paths).length)
    ∧ (∀ w', EvcPath.DynamicStep_MergePaths w AllEvacuees = Except.ok w' →
        ∀ e ∈ AllEvacuees, (w.evacuees e).Status = EvacueeStatus.Unreachable
          ∨ (mainPaths w (w.evacuees e).Paths).length ≤ 1) := by
  unfold EvcPath.DynamicStep_MergePaths
  refine ⟨?_, fold_many AllEvacuees w, fold_ok_pre AllEvacuees w⟩
  intro w' h e he
  exact fold_merged AllEvacuees w w' h e he

/-- The twice-cut evacuee is merged by a call that returns normally. -/
theorem mergePaths_twiceCut :
    (EvcPath.DynamicStep_MergePaths twiceCutWorld [0]).toOption.map
        (fun w => (w.evacuees 0).Paths) = some [2] := by
  simp [EvcPath.DynamicStep_MergePaths, mergeEvacuee, identifyPaths, mergeHalf, twiceCutWorld,
    samplePath, sampleEvacuee, Except.toOption, bind, Except.bind, pure, Except.pure,
    Function.update, PathSegment.SetFromRatio, PathSegment.GetFromRatio]


theorem registerVertex_registered (evc : Nat) (t : NAEvacueeVertexTable) (v : AnchorVertex)
    (x : Nat) :
    (registerVertex evc t v).registered x
      = if x = v.EID then t.registered x ++ [evc] else t.registered x := by
  unfold registerVertex NAEvacueeVertexTable.registered
  by_cases hk : v.EID ∈ t.keys
  · by_cases hx : x = v.EID
    · subst hx; simp [hk]
    · simp [hk, hx, Function.update_noteq hx]
  · by_cases hx : x = v.EID
    · subst hx; simp [hk]
    · simp [hk, hx, Function.update_noteq hx]

theorem fold_registerVertex_registered (evc : Nat) (vs : List AnchorVertex) (x : Nat) :
    ∀ t : NAEvacueeVertexTable,
      (vs.foldl (registerVertex evc) t).registered x
        = t.registered x
          ++ List.replicate (vs.filter (fun v => decide (v.EID = x))).length evc := by
  induction vs with
  | nil => intro t; simp
  | cons v vs ih =>
    intro t
    rw [List.foldl_cons, ih, registerVertex_registered]
    by_cases hx : x = v.EID
    · subst hx
      simp [List.replicate_succ, List.append_assoc]
    · have hx' : ¬ v.EID = x := fun h => hx h.symm
      simp [hx, hx']

theorem fold_registerVertex_count (evc e : Nat) (vs : List AnchorVertex) (x : Nat)
    (t : NAEvacueeVertexTable) :
    (vs.foldl (registerVertex evc) t).regCount x e
      = t.regCount x e
        + (if e = evc then (vs.filter (fun v => decide (v.EID = x))).length else 0) := by
  unfold NAEvacueeVertexTable.regCount
  rw [fold_registerVertex_registered, List.count_append]
  by_cases he : e = evc
  · subst he; simp [List.count_replicate_self]
  · have : List.count e (List.replicate
        (vs.filter (fun v => decide (v.EID = x))).length evc) = 0 := by
      rw [List.count_eq_zero]
      intro hmem
      exact he (List.eq_of_mem_replicate hmem)
    simp [he, this]

/-- The loop body of `InsertReachable` case by case. -/
theorem insertReachableOne_spec (INF : ℚ) (origCost : Nat → ℚ) (edgeEID : Nat → Nat)
    (sortDir : CARMASort) (st : ReachState) (evc : Nat) :
    (∀ e', e' ≠ evc →
      (insertReachableOne INF origCost edgeEID sortDir st evc).w.evacuees e'
        = st.w.evacuees e')
    ∧ (¬ (st.w.evacuees evc).awaitsCARMA →
        insertReachableOne INF origCost edgeEID sortDir st evc = st)
    ∧ ((st.w.evacuees evc).awaitsCARMA → (st.w.evacuees evc).trapped INF origCost →
        ((insertReachableOne INF origCost edgeEID sortDir st evc).w.evacuees evc).Status
          = EvacueeStatus.Unreachable
        ∧ (insertReachableOne INF origCost edgeEID sortDir st evc).table = st.table)
    ∧ ((st.w.evacuees evc).awaitsCARMA → ¬ (st.w.evacuees evc).trapped INF origCost →
        ((insertReachableOne INF origCost edgeEID sortDir st evc).w.evacuees evc).Status
          = EvacueeStatus.CARMALooking
        ∧ (insertReachableOne INF origCost edgeEID sortDir st evc).table
          = (st.w.evacuees evc).VerticesAndRatio.foldl (registerVertex evc) st.table) := by
  unfold insertReachableOne Evacuee.awaitsCARMA Evacuee.trapped
  dsimp only
  by_cases ha : (st.w.evacuees evc).Status = EvacueeStatus.Unprocessed
      ∧ (st.w.evacuees evc).Population > 0
  · rw [if_pos ha]
    by_cases hs : sortDir = CARMASort.BWCont ∨ sortDir = CARMASort.FWCont
    · rw [if_pos hs]
      cases hl : (st.w.evacuees evc).DiscoveryLeaf with
      | none =>
        simp only [hl]
        refine ⟨fun e' he => by simp [markLooking, Function.update_noteq he],
          fun h => absurd ha h, fun _ h => ?_, fun _ _ => by simp [markLooking]⟩
        obtain ⟨leaf, h1, _⟩ := h
        exact absurd h1 (by simp)
      | some leaf =>
        simp only [hl]
        by_cases hc : origCost leaf ≥ INF
        · rw [if_pos hc]
          refine ⟨fun e' he => by simp [Function.update_noteq he],
            fun h => absurd ha h, fun _ _ => by simp, fun _ h => ?_⟩
          exact absurd ⟨leaf, rfl, hc⟩ h
        · rw [if_neg hc]
          refine ⟨fun e' he => by simp [markLooking, Function.update_noteq he],
            fun h => absurd ha h, fun _ h => ?_, fun _ _ => by simp [markLooking]⟩
          obtain ⟨leaf', h1, h2⟩ := h
          simp only [Option.some.injEq] at h1
          rw [← h1] at h2
          exact absurd h2 hc
    · rw [if_neg hs]
      cases hl : (st.w.evacuees evc).DiscoveryLeaf with
      | none =>
        simp only [hl]
        refine ⟨fun e' he => by simp [markLooking, Function.update_noteq he],
          fun h => absurd ha h, fun _ h => ?_, fun _ _ => by simp [markLooking]⟩
        obtain ⟨leaf, h1, _⟩ := h
        exact absurd h1 (by simp)
      | some leaf =>
        simp only [hl]
        by_cases hc : origCost leaf ≥ INF
        · rw [if_pos hc]
          refine ⟨fun e' he => by simp [Function.update_noteq he],
            fun h => absurd ha h, fun _ _ => by simp, fun _ h => ?_⟩
          exact absurd ⟨leaf, rfl, hc⟩ h
        · rw [if_neg hc]
          refine ⟨fun e' he => by simp [markLooking, Function.update_noteq he],
            fun h => absurd ha h, fun _ h => ?_, fun _ _ => by simp [markLooking]⟩
          obtain ⟨leaf', h1, h2⟩ := h
          simp only [Option.some.injEq] at h1
          rw [← h1] at h2
          exact absurd h2 hc
  · rw [if_neg ha]
    exact ⟨fun _ _ => rfl, fun _ => rfl, fun h => absurd h ha, fun h => absurd h ha⟩

theorem insertReachableOne_table (INF : ℚ) (origCost : Nat → ℚ) (edgeEID : Nat → Nat)
    (sortDir : CARMASort) (st : ReachState) (evc : Nat) :
    (insertReachableOne INF origCost edgeEID sortDir st evc).table = st.table
    ∨ (insertReachableOne INF origCost edgeEID sortDir st evc).table
        = (st.w.evacuees evc).VerticesAndRatio.foldl (registerVertex evc) st.table := by
  obtain ⟨_, h2, h3, h4⟩ := insertReachableOne_spec INF origCost edgeEID sortDir st evc
  by_cases ha : (st.w.evacuees evc).awaitsCARMA
  · by_cases ht : (st.w.evacuees evc).trapped INF origCost
    · exact Or.inl (h3 ha ht).2
    · exact Or.inr (h4 ha ht).2
  · left; rw [h2 ha]

theorem insertReachableOne_other (INF : ℚ) (origCost : Nat → ℚ) (edgeEID : Nat → Nat)
    (sortDir : CARMASort) (st : ReachState) (evc e : Nat) (he : e ≠ evc) :
    (insertReachableOne INF origCost edgeEID sortDir st evc).w.evacuees e = st.w.evacuees e
    ∧ ∀ x, (insertReachableOne INF origCost edgeEID sortDir st evc).table.regCount x e
        = st.table.regCount x e := by
  refine ⟨(insertReachableOne_spec INF origCost edgeEID sortDir st evc).1 e he, fun x => ?_⟩
  rcases insertReachableOne_table INF origCost edgeEID sortDir st evc with h | h
  · rw [h]
  · rw [h, fold_registerVertex_count, if_neg he, Nat.add_zero]

theorem insertReachableOne_outcome (INF : ℚ) (origCost : Nat → ℚ) (edgeEID : Nat → Nat)
    (sortDir : CARMASort) (st : ReachState) (evc : Nat) :
    InsertOutcome INF origCost (st.w.evacuees evc) (fun x => st.table.regCount x evc)
      (insertReachableOne INF origCost edgeEID sortDir st evc) evc := by
  obtain ⟨_, h2, h3, h4⟩ := insertReachableOne_spec INF origCost edgeEID sortDir st evc
  refine ⟨fun ha ht => ?_, fun ha ht => ?_, fun ha => ?_⟩
  · refine ⟨(h3 ha ht).1, fun x => ?_⟩
    rw [(h3 ha ht).2]
  · refine ⟨(h4 ha ht).1, fun x => ?_⟩
    rw [(h4 ha ht).2, fold_registerVertex_count, if_pos rfl]
  · rw [h2 ha]
    exact ⟨rfl, fun _ => rfl⟩

theorem insertReachableOne_settled (INF : ℚ) (origCost : Nat → ℚ) (edgeEID : Nat → Nat)
    (sortDir : CARMASort) (st : ReachState) (evc : Nat) :
    ¬ ((insertReachableOne INF origCost edgeEID sortDir st evc).w.evacuees evc).awaitsCARMA := by
  obtain ⟨_, h2, h3, h4⟩ := insertReachableOne_spec INF origCost edgeEID sortDir st evc
  by_cases ha : (st.w.evacuees evc).awaitsCARMA
  · by_cases ht : (st.w.evacuees evc).trapped INF origCost
    · intro hq
      have := (h3 ha ht).1
      rw [hq.1] at this
      exact absurd this (by decide)
    · intro hq
      have := (h4 ha ht).1
      rw [hq.1] at this
      exact absurd this (by decide)
  · rw [h2 ha]; exact ha

/-- An evacuee that `InsertReachable` does not take up keeps its record and its
registrations through any further turns of the loop. -/
theorem insertReachable_inert (INF : ℚ) (origCost : Nat → ℚ) (edgeEID : Nat → Nat)
    (sortDir : CARMASort) (e : Nat) (list : List Nat) :
    ∀ st : ReachState, ¬ (st.w.evacuees e).awaitsCARMA →
      (list.foldl (insertReachableOne INF origCost edgeEID sortDir) st).w.evacuees e
          = st.w.evacuees e
      ∧ ∀ x, (list.foldl (insertReachableOne INF origCost edgeEID sortDir) st).table.regCount x e
          = st.table.regCount x e := by
  induction list with
  | nil => intro st _; exact ⟨rfl, fun _ => rfl⟩
  | cons evc rest ih =>
    intro st hn
    rw [List.foldl_cons]
    by_cases he : e = evc
    · subst he
      rw [(insertReachableOne_spec INF origCost edgeEID sortDir st e).2.1 hn]
      exact ih st hn
    · obtain ⟨o1, o2⟩ := insertReachableOne_other INF origCost edgeEID sortDir st evc e he
      obtain ⟨i1, i2⟩ := ih (insertReachableOne INF origCost edgeEID sortDir st evc)
        (by rw [o1]; exact hn)
      exact ⟨i1.trans o1, fun x => (i2 x).trans (o2 x)⟩

theorem insertOutcome_of_same (INF : ℚ) (origCost : Nat → ℚ) (r : Evacuee) (c : Nat → Nat)
    (mid out : ReachState) (e : Nat) (h : InsertOutcome INF origCost r c mid e)
    (h1 : out.w.evacuees e = mid.w.evacuees e)
    (h2 : ∀ x, out.table.regCount x e = mid.table.regCount x e) :
    InsertOutcome INF origCost r c out e := by
  unfold InsertOutcome at h ⊢
  simp only [h1, h2]
  exact h

theorem insertReachable_outcome (INF : ℚ) (origCost : Nat → ℚ) (edgeEID : Nat → Nat)
    (sortDir : CARMASort) (e : Nat) (list : List Nat) :
    ∀ st : ReachState, e ∈ list →
      InsertOutcome INF origCost (st.w.evacuees e) (fun x => st.table.regCount x e)
        (list.foldl (insertReachableOne INF origCost edgeEID sortDir) st) e := by
  induction list with
  | nil => intro st he; exact absurd he (List.not_mem_nil e)
  | cons evc rest ih =>
    intro st he
    rw [List.foldl_cons]
    by_cases hee : e = evc
    · subst hee
      obtain ⟨i1, i2⟩ := insertReachable_inert INF origCost edgeEID sortDir e rest _
        (insertReachableOne_settled INF origCost edgeEID sortDir st e)
      exact insertOutcome_of_same INF origCost _ _ _ _ e
        (insertReachableOne_outcome INF origCost edgeEID sortDir st e) i1 i2
    · have hmem : e ∈ rest := by
        rcases List.mem_cons.1 he with h | h
        · exact absurd h hee
        · exact h
      obtain ⟨o1, o2⟩ := insertReachableOne_other INF origCost edgeEID sortDir st evc e hee
      have := ih (insertReachableOne INF origCost edgeEID sortDir st evc) hmem
      rw [o1] at this
      simp only [o2] at this
      exact this


/-- C21: for an evacuee of the list, `NAEvacueeVertexTable::InsertReachable`
leaves it `Unreachable` and registers it under no vertex when it was
`Unprocessed` with positive population and its discovery leaf has an original
cost of at least `CASPER_INFINITY`; leaves it `CARMALooking` and registered
under the EID of each of its anchor vertices (once more per anchor) when it was
`Unprocessed` with positive population and not so trapped; and leaves its record
and its registrations as they were when it had another status or a population
that is not positive. -/
theorem C21_insert_reachable (CASPER_INFINITY : ℚ) (origCost : Nat → ℚ) (edgeEID : Nat → Nat)
    (w : World) (table : NAEvacueeVertexTable) (list : List Nat) (sortDir : CARMASort)
    (leafs : List (Nat × Nat)) (e : Nat) (he : e ∈ list) :
    ((w.evacuees e).Status = EvacueeStatus.Unprocessed → (w.evacuees e).Population > 0 →
      (∃ leaf, (w.evacuees e).DiscoveryLeaf = some leaf ∧ origCost leaf ≥ CASPER_INFINITY) →
      ((NAEvacueeVertexTable.InsertReachable CASPER_INFINITY origCost edgeEID w table list sortDir
            leafs).w.evacuees e).Status = EvacueeStatus.Unreachable
      ∧ ∀ x, (NAEvacueeVertexTable.InsertReachable CASPER_INFINITY origCost edgeEID w table list
            sortDir leafs).table.regCount x e = table.regCount x e)
    ∧ ((w.evacuees e).Status = EvacueeStatus.Unprocessed → (w.evacuees e).Population > 0 →
      ¬ (∃ leaf, (w.evacuees e).DiscoveryLeaf = some leaf ∧ origCost leaf ≥ CASPER_INFINITY) →
      ((NAEvacueeVertexTable.InsertReachable CASPER_INFINITY origCost edgeEID w table list sortDir
            leafs).w.evacuees e).Status = EvacueeStatus.CARMALooking
      ∧ (∀ v ∈ (w.evacuees e).VerticesAndRatio,
          e ∈ (NAEvacueeVertexTable.InsertReachable CASPER_INFINITY origCost edgeEID w table list
            sortDir leafs).table.registered v.EID)
      ∧ ∀ x, (NAEvacueeVertexTable.InsertReachable CASPER_INFINITY origCost edgeEID w table list
            sortDir leafs).table.regCount x e
          = table.regCount x e
            + ((w.evacuees e).VerticesAndRatio.filter (fun v => decide (v.EID = x))).length)
    ∧ (¬ ((w.evacuees e).Status = EvacueeStatus.Unprocessed ∧ (w.evacuees e).Population > 0) →
      (NAEvacueeVertexTable.InsertReachable CASPER_INFINITY origCost edgeEID w table list sortDir
            leafs).w.evacuees e = w.evacuees e
      ∧ ∀ x, (NAEvacueeVertexTable.InsertReachable CASPER_INFINITY origCost edgeEID w table list
            sortDir leafs).table.regCount x e = table.regCount x e) := by
  obtain ⟨h1, h2, h3⟩ := insertReachable_outcome CASPER_INFINITY origCost edgeEID sortDir e list
    { w := w, table := table, leafs := leafs } he
  refine ⟨fun hs hp ht => h1 ⟨hs, hp⟩ ht, fun hs hp ht => ?_, fun hn => h3 hn⟩
  obtain ⟨k1, k2⟩ := h2 ⟨hs, hp⟩ ht
  refine ⟨k1, fun v hv => ?_, k2⟩
  have hpos : 0 < (NAEvacueeVertexTable.InsertReachable CASPER_INFINITY origCost edgeEID w table
      list sortDir leafs).table.regCount v.EID e := by
    have hlen : 0 < ((w.evacuees e).VerticesAndRatio.filter
        (fun u => decide (u.EID = v.EID))).length := by
      apply List.length_pos_of_mem (a := v)
      exact List.mem_filter.2 ⟨hv, by simp⟩
    have hk : (NAEvacueeVertexTable.InsertReachable CASPER_INFINITY origCost edgeEID w table
        list sortDir leafs).table.regCount v.EID e
        = table.regCount v.EID e
          + ((w.evacuees e).VerticesAndRatio.filter (fun u => decide (u.EID = v.EID))).length :=
      k2 v.EID
    rw [hk]
    omega
  exact List.count_pos_iff.1 hpos

/-- The evacuee of `carmaWorld`, `Unprocessed` with population 1 and no
discovery leaf, inserted into an empty table: it is registered under both of its
junctions. -/
theorem C21_insert_reachable_witness :
    (0 ∈ [0])
    ∧ ((NAEvacueeVertexTable.InsertReachable 1000 (fun _ => 10) (fun edge => edge) carmaWorld
          { keys := [], entries := fun _ => [] } [0] CARMASort.Forward []).w.evacuees 0).Status
        = EvacueeStatus.CARMALooking
    ∧ (∀ v ∈ (carmaWorld.evacuees 0).VerticesAndRatio,
        0 ∈ (NAEvacueeVertexTable.InsertReachable 1000 (fun _ => 10) (fun edge => edge) carmaWorld
          { keys := [], entries := fun _ => [] } [0] CARMASort.Forward []).table.registered
            v.EID) :=
  have h := (C21_insert_reachable 1000 (fun _ => 10) (fun edge => edge) carmaWorld
      { keys := [], entries := fun _ => [] } [0] CARMASort.Forward [] 0 (by simp)).2.1
      (by simp [carmaWorld, twoAnchorEvacuee]) (by norm_num [carmaWorld, twoAnchorEvacuee])
      (by simp [carmaWorld, twoAnchorEvacuee])
  ⟨by simp, h.1, h.2.1⟩


theorem discovered_status (INF : ℚ) (GetCost : Nat → ℚ → ℚ) (myVertex : NAVertex)
    (myEdge : Option Nat) (pop : ℚ) (e : Evacuee) (v : AnchorVertex) :
    (e.discovered INF GetCost myVertex myEdge pop v).Status ≠ EvacueeStatus.CARMALooking := by
  unfold Evacuee.discovered
  dsimp only
  split_ifs <;> simp

/-- One turn of the loop of `RemoveDiscoveredEvacuees` keeps the account of what
has been appended, appends the evacuee of the turn if it was `CARMALooking`
with an anchor at the vertex and not appended before, and nothing else. -/
theorem discoveredFrom_step (INF : ℚ) (GetCost : Nat → ℚ → ℚ) (myVertex : NAVertex)
    (myEdge : Option Nat) (pop : ℚ) (w0 : World) (S0 : List Nat) (st : DiscoverState)
    (added : List Nat) (evc : Nat)
    (h : DiscoveredFrom INF GetCost myVertex myEdge pop w0 S0 st added) :
    ∃ added', DiscoveredFrom INF GetCost myVertex myEdge pop w0 S0
        (discoverOne INF GetCost myVertex myEdge pop st evc) added'
      ∧ (∀ e, e ∈ added → e ∈ added')
      ∧ (∀ e, e ∈ added' → e ∈ added ∨ e = evc)
      ∧ ((w0.evacuees evc).Status = EvacueeStatus.CARMALooking →
          (∃ v, (w0.evacuees evc).VerticesAndRatio.find?
              (fun v => decide (v.EID = myVertex.EID)) = some v) → evc ∈ added') := by
  obtain ⟨h1, h2, h3, h4⟩ := h
  by_cases hmem : evc ∈ added
  · -- already appended: the turn does nothing
    have hrec := (h3 evc hmem).2
    obtain ⟨v, hv, hst⟩ := hrec
    have hno : (st.w.evacuees evc).Status ≠ EvacueeStatus.CARMALooking := by
      rw [hst]; exact discovered_status _ _ _ _ _ _ _
    have hsame : discoverOne INF GetCost myVertex myEdge pop st evc = st := by
      unfold discoverOne
      dsimp only
      split
      · rw [if_neg hno]
      · rfl
    rw [hsame]
    exact ⟨added, ⟨h1, h2, h3, h4⟩, fun _ he => he, fun _ he => Or.inl he, fun _ _ => hmem⟩
  · have hrec := h4 evc hmem
    cases hf : (w0.evacuees evc).VerticesAndRatio.find?
        (fun v => decide (v.EID = myVertex.EID)) with
    | none =>
      have hsame : discoverOne INF GetCost myVertex myEdge pop st evc = st := by
        unfold discoverOne
        dsimp only
        rw [hrec, hf]
      rw [hsame]
      refine ⟨added, ⟨h1, h2, h3, h4⟩, fun _ he => he, fun _ he => Or.inl he, fun _ hv => ?_⟩
      obtain ⟨v, hv⟩ := hv
      exact absurd hv (by simp)
    | some v =>
      by_cases hl : (w0.evacuees evc).Status = EvacueeStatus.CARMALooking
      · have hstep : discoverOne INF GetCost myVertex myEdge pop st evc
            = { w := { st.w with
                  evacuees := Function.update st.w.evacuees evc
                    ((w0.evacuees evc).discovered INF GetCost myVertex myEdge pop v) }
                SortedEvacuees := st.SortedEvacuees ++ [evc] } := by
          unfold discoverOne
          dsimp only
          rw [hrec, hf]
          dsimp only
          rw [if_pos hl]
        rw [hstep]
        refine ⟨added ++ [evc], ⟨?_, ?_, ?_, ?_⟩, fun _ he => List.mem_append_left _ he,
          fun e he => ?_, fun _ _ => by simp⟩
        · simp [h1]
        · rw [List.nodup_append]
          refine ⟨h2, List.nodup_singleton _, ?_⟩
          intro a ha hb
          rw [List.mem_singleton] at hb
          exact hmem (hb ▸ ha)
        · intro e he
          rw [List.mem_append, List.mem_singleton] at he
          rcases he with he | he
          · have hne : e ≠ evc := fun hh => hmem (hh ▸ he)
            obtain ⟨k1, u, k2, k3⟩ := h3 e he
            refine ⟨k1, u, k2, ?_⟩
            simp only [Function.update_noteq hne]
            exact k3
          · subst he
            exact ⟨hl, v, hf, by simp⟩
        · intro e he
          rw [List.mem_append, List.mem_singleton, not_or] at he
          simp only [Function.update_noteq he.2]
          exact h4 e he.1
        · rw [List.mem_append, List.mem_singleton] at he
          exact he
      · have hsame : discoverOne INF GetCost myVertex myEdge pop st evc = st := by
          unfold discoverOne
          dsimp only
          rw [hrec, hf]
          dsimp only
          rw [if_neg hl]
        rw [hsame]
        exact ⟨added, ⟨h1, h2, h3, h4⟩, fun _ he => he, fun _ he => Or.inl he,
          fun hh _ => absurd hh hl⟩

theorem discoveredFrom_fold (INF : ℚ) (GetCost : Nat → ℚ → ℚ) (myVertex : NAVertex)
    (myEdge : Option Nat) (pop : ℚ) (w0 : World) (S0 : List Nat) (l : List Nat) :
    ∀ (st : DiscoverState) (added : List Nat),
      DiscoveredFrom INF GetCost myVertex myEdge pop w0 S0 st added →
      ∃ added', DiscoveredFrom INF GetCost myVertex myEdge pop w0 S0
          (l.foldl (discoverOne INF GetCost myVertex myEdge pop) st) added'
        ∧ (∀ e, e ∈ added → e ∈ added')
        ∧ (∀ e, e ∈ added' → e ∈ added ∨ e ∈ l)
        ∧ (∀ e ∈ l, (w0.evacuees e).Status = EvacueeStatus.CARMALooking →
            (∃ v, (w0.evacuees e).VerticesAndRatio.find?
                (fun v => decide (v.EID = myVertex.EID)) = some v) → e ∈ added') := by
  induction l with
  | nil =>
    intro st added h
    exact ⟨added, h, fun _ he => he, fun _ he => Or.inl he,
      fun e he => absurd he (List.not_mem_nil e)⟩
  | cons evc rest ih =>
    intro st added h
    obtain ⟨a1, d1, m1, s1, c1⟩ := discoveredFrom_step INF GetCost myVertex myEdge pop w0 S0 st
      added evc h
    obtain ⟨a2, d2, m2, s2, c2⟩ := ih _ a1 d1
    rw [List.foldl_cons]
    refine ⟨a2, d2, fun e he => m2 e (m1 e he), fun e he => ?_, fun e he hl hv => ?_⟩
    · rcases s2 e he with h' | h'
      · rcases s1 e h' with h'' | h''
        · exact Or.inl h''
        · exact Or.inr (h'' ▸ List.mem_cons_self _ _)
      · exact Or.inr (List.mem_cons_of_mem _ h')
    · rcases List.mem_cons.1 he with he | he
      · subst he
        exact m2 e (c1 hl hv)
      · exact c2 e he hl hv

/-- One `RemoveDiscoveredEvacuees` call: the evacuees it appends are those of the
entry of the vertex that were `CARMALooking` with an anchor at the vertex, each
once, with the record that the discovery gives; every other evacuee keeps its
record. -/
theorem removeDiscovered_spec (INF : ℚ) (GetCost : Nat → ℚ → ℚ) (w : World)
    (table : NAEvacueeVertexTable) (myVertex : NAVertex) (myEdge : Option Nat)
    (S : List Nat) (pop : ℚ) :
    ∃ added, DiscoveredFrom INF GetCost myVertex myEdge pop w S
        (NAEvacueeVertexTable.RemoveDiscoveredEvacuees INF GetCost w table myVertex myEdge S
          pop).1 added
      ∧ (∀ e, e ∈ added → e ∈ table.registered myVertex.EID)
      ∧ (∀ e ∈ table.registered myVertex.EID,
          (w.evacuees e).Status = EvacueeStatus.CARMALooking →
          (∃ v, (w.evacuees e).VerticesAndRatio.find?
              (fun v => decide (v.EID = myVertex.EID)) = some v) → e ∈ added) := by
  have h0 : DiscoveredFrom INF GetCost myVertex myEdge pop w S
      { w := w, SortedEvacuees := S } [] :=
    ⟨by simp, List.nodup_nil, fun e he => absurd he (List.not_mem_nil e), fun _ _ => rfl⟩
  unfold NAEvacueeVertexTable.RemoveDiscoveredEvacuees NAEvacueeVertexTable.registered
  by_cases hk : myVertex.EID ∈ table.keys
  · simp only [hk, if_true]
    obtain ⟨a, d, _, s, c⟩ := discoveredFrom_fold INF GetCost myVertex myEdge pop w S
      (table.entries myVertex.EID) _ [] h0
    refine ⟨a, d, fun e he => ?_, c⟩
    rcases s e he with h' | h'
    · exact absurd h' (List.not_mem_nil e)
    · exact h'
  · simp only [hk, if_false]
    exact ⟨[], h0, fun e he => absurd he (List.not_mem_nil e),
      fun e he => absurd he (List.not_mem_nil e)⟩


/-- C22 (as the code has it): when `RemoveDiscoveredEvacuees` is called for a
vertex under which a `CARMALooking` evacuee with an anchor at that vertex is
registered, the evacuee joins `SortedEvacuees`; when the cost of the edge behind
the anchor is below `CASPER_INFINITY` it becomes `Unprocessed`, its predicted
cost becomes the smaller of the one it held and
`g(vertex) + anchor_ratio * edge_cost + starting_cost`, and its discovery leaf
the expanding edge; otherwise it becomes `Unreachable` and keeps its predicted
cost and its discovery leaf. -/
theorem C22_remove_discovered (CASPER_INFINITY : ℚ) (GetCost : Nat → ℚ → ℚ) (w : World)
    (table : NAEvacueeVertexTable) (myVertex : NAVertex) (myEdge : Option Nat)
    (SortedEvacuees : List Nat) (pop : ℚ) (e : Nat) (v : AnchorVertex)
    (hreg : e ∈ table.registered myVertex.EID)
    (hlook : (w.evacuees e).Status = EvacueeStatus.CARMALooking)
    (hanchor : (w.evacuees e).VerticesAndRatio.find? (fun u => decide (u.EID = myVertex.EID))
      = some v) :
    e ∈ (NAEvacueeVertexTable.RemoveDiscoveredEvacuees CASPER_INFINITY GetCost w table myVertex
          myEdge SortedEvacuees pop).1.SortedEvacuees
    ∧ (anchorEdgeCost GetCost pop v < CASPER_INFINITY →
        ((NAEvacueeVertexTable.RemoveDiscoveredEvacuees CASPER_INFINITY GetCost w table myVertex
            myEdge SortedEvacuees pop).1.w.evacuees e).Status = EvacueeStatus.Unprocessed
        ∧ ((NAEvacueeVertexTable.RemoveDiscoveredEvacuees CASPER_INFINITY GetCost w table myVertex
            myEdge SortedEvacuees pop).1.w.evacuees e).PredictedCost
          = min (w.evacuees e).PredictedCost
              (myVertex.GVal + v.GVal * anchorEdgeCost GetCost pop v + (w.evacuees e).StartingCost)
        ∧ ((NAEvacueeVertexTable.RemoveDiscoveredEvacuees CASPER_INFINITY GetCost w table myVertex
            myEdge SortedEvacuees pop).1.w.evacuees e).DiscoveryLeaf = myEdge)
    ∧ (¬ anchorEdgeCost GetCost pop v < CASPER_INFINITY →
        ((NAEvacueeVertexTable.RemoveDiscoveredEvacuees CASPER_INFINITY GetCost w table myVertex
            myEdge SortedEvacuees pop).1.w.evacuees e).Status = EvacueeStatus.Unreachable
        ∧ ((NAEvacueeVertexTable.RemoveDiscoveredEvacuees CASPER_INFINITY GetCost w table myVertex
            myEdge SortedEvacuees pop).1.w.evacuees e).PredictedCost
          = (w.evacuees e).PredictedCost
        ∧ ((NAEvacueeVertexTable.RemoveDiscoveredEvacuees CASPER_INFINITY GetCost w table myVertex
            myEdge SortedEvacuees pop).1.w.evacuees e).DiscoveryLeaf
          = (w.evacuees e).DiscoveryLeaf) := by
  obtain ⟨added, ⟨d1, _, d3, _⟩, _, hin⟩ := removeDiscovered_spec CASPER_INFINITY GetCost w table
    myVertex myEdge SortedEvacuees pop
  have he : e ∈ added := hin e hreg hlook ⟨v, hanchor⟩
  obtain ⟨_, u, hu, hrec⟩ := d3 e he
  have huv : u = v := by
    rw [hanchor] at hu
    exact (Option.some.inj hu).symm
  subst huv
  refine ⟨?_, fun hc => ?_, fun hc => ?_⟩
  · rw [d1]; exact List.mem_append_right _ he
  · rw [hrec]
    simp [Evacuee.discovered, hc]
  · rw [hrec]
    simp [Evacuee.discovered, hc]

/-- The `CARMALooking` evacuee with predicted cost 1000 discovered at junction 1
by a vertex with g = 3 over an edge of cost 10. -/
theorem C22_remove_discovered_witness :
    0 ∈ twoAnchorTable.registered 1
    ∧ ((lookingWorld 1000).evacuees 0).Status = EvacueeStatus.CARMALooking
    ∧ ((NAEvacueeVertexTable.RemoveDiscoveredEvacuees 1000 (fun _ _ => 10) (lookingWorld 1000)
          twoAnchorTable { EID := 1, GVal := 3, GlobalPenaltyCost := 0 } (some 7) [] 1).1.w.evacuees
          0).PredictedCost
        = min ((lookingWorld 1000).evacuees 0).PredictedCost
            (3 + (1 / 2) * anchorEdgeCost (fun _ _ => 10) 1
                { EID := 1, behindEdge := some 10, GVal := 1 / 2 }
              + ((lookingWorld 1000).evacuees 0).StartingCost) :=
  ⟨by simp [twoAnchorTable, NAEvacueeVertexTable.registered],
    by simp [lookingWorld],
    ((C22_remove_discovered 1000 (fun _ _ => 10) (lookingWorld 1000) twoAnchorTable
      { EID := 1, GVal := 3, GlobalPenaltyCost := 0 } (some 7) [] 1 0
      { EID := 1, behindEdge := some 10, GVal := 1 / 2 }
      (by simp [twoAnchorTable, NAEvacueeVertexTable.registered])
      (by simp [lookingWorld])
      (by simp [lookingWorld, twoAnchorEvacuee])).2.1
      (by norm_num [anchorEdgeCost])).2.1⟩

/-- C22 as stated fails when the evacuee already holds a lower predicted cost:
with predicted cost 1 before the call, g = 3, ratio 1/2, edge cost 10 and
starting cost 0, the predicted cost after the call is still 1, not
3 + (1/2) * 10 + 0 = 8. -/
theorem C22_counterexample :
    ((NAEvacueeVertexTable.RemoveDiscoveredEvacuees 1000 (fun _ _ => 10) (lookingWorld 1)
        twoAnchorTable { EID := 1, GVal := 3, GlobalPenaltyCost := 0 } (some 7) [] 1).1.w.evacuees
        0).PredictedCost = 1
    ∧ ((NAEvacueeVertexTable.RemoveDiscoveredEvacuees 1000 (fun _ _ => 10) (lookingWorld 1)
        twoAnchorTable { EID := 1, GVal := 3, GlobalPenaltyCost := 0 } (some 7) [] 1).1.w.evacuees
        0).Status = EvacueeStatus.Unprocessed
    ∧ ((lookingWorld 1).evacuees 0).Status = EvacueeStatus.CARMALooking
    ∧ (3 : ℚ) + (1 / 2) * 10 + ((lookingWorld 1).evacuees 0).StartingCost = 8
    ∧ (1 : ℚ) ≠ 8 := by
  refine ⟨?_, ?_, by simp [lookingWorld], by norm_num [lookingWorld, twoAnchorEvacuee],
    by norm_num⟩
  · simp [NAEvacueeVertexTable.RemoveDiscoveredEvacuees, twoAnchorTable, discoverOne,
      lookingWorld, twoAnchorEvacuee, Evacuee.discovered, anchorEdgeCost, Function.update]
    norm_num
  · simp [NAEvacueeVertexTable.RemoveDiscoveredEvacuees, twoAnchorTable, discoverOne,
      lookingWorld, twoAnchorEvacuee, Evacuee.discovered, anchorEdgeCost, Function.update]
    norm_num


theorem loadedFrom_step (INF : ℚ) (source : List Nat) (w0 : World) (S0 : List Nat)
    (st : DiscoverState) (added : List Nat) (evc : Nat) (hsrc : evc ∈ source)
    (h : LoadedFrom INF source w0 S0 st added) :
    ∃ added', LoadedFrom INF source w0 S0 (loadOne INF st evc) added' := by
  obtain ⟨h1, h2, h3⟩ := h
  unfold loadOne
  dsimp only
  by_cases hg : (st.w.evacuees evc).Status = EvacueeStatus.CARMALooking
      ∨ (st.w.evacuees evc).PredictedCost ≥ INF
  · rw [if_pos hg]
    refine ⟨added, h1, fun e he => ?_, fun e => ?_⟩
    · by_cases hee : e = evc
      · subst hee
        obtain ⟨_, k2, k3⟩ := h2 e he
        refine ⟨by simp, ?_, k3⟩
        simpa using k2
      · simp only [Function.update_noteq hee]
        exact h2 e he
    · by_cases hee : e = evc
      · subst hee
        simpa using h3 e
      · simp only [Function.update_noteq hee]
        exact h3 e
  · rw [if_neg hg]
    rw [not_or, not_le] at hg
    refine ⟨added ++ [evc], by simp [h1], fun e he => ?_, h3⟩
    rw [List.mem_append, List.mem_singleton] at he
    rcases he with he | he
    · exact h2 e he
    · subst he
      exact ⟨hg.1, hg.2, hsrc⟩

theorem loadedFrom_fold (INF : ℚ) (source : List Nat) (w0 : World) (S0 : List Nat)
    (l : List Nat) :
    ∀ (st : DiscoverState) (added : List Nat), (∀ e ∈ l, e ∈ source) →
      LoadedFrom INF source w0 S0 st added →
      ∃ added', LoadedFrom INF source w0 S0 (l.foldl (loadOne INF) st) added' := by
  induction l with
  | nil => intro st added _ h; exact ⟨added, h⟩
  | cons evc rest ih =>
    intro st added hsrc h
    obtain ⟨a1, h1⟩ := loadedFrom_step INF source w0 S0 st added evc
      (hsrc evc (List.mem_cons_self _ _)) h
    exact ih _ a1 (fun e he => hsrc e (List.mem_cons_of_mem _ he)) h1

theorem loadedFrom_keys (INF : ℚ) (source : List Nat) (w0 : World) (S0 : List Nat)
    (entries : Nat → List Nat) (keys : List Nat) :
    ∀ (st : DiscoverState) (added : List Nat), (∀ k ∈ keys, ∀ e ∈ entries k, e ∈ source) →
      LoadedFrom INF source w0 S0 st added →
      ∃ added', LoadedFrom INF source w0 S0
        (keys.foldl (fun st k => (entries k).foldl (loadOne INF) st) st) added' := by
  induction keys with
  | nil => intro st added _ h; exact ⟨added, h⟩
  | cons k rest ih =>
    intro st added hsrc h
    obtain ⟨a1, h1⟩ := loadedFrom_fold INF source w0 S0 (entries k) st added
      (hsrc k (List.mem_cons_self _ _)) h
    exact ih _ a1 (fun k' hk' => hsrc k' (List.mem_cons_of_mem _ hk')) h1

/-- `LoadSortedEvacuees` appends only evacuees listed in the table that are not
`CARMALooking` and have a predicted cost below `CASPER_INFINITY`. -/
theorem loadSorted_spec (INF : ℚ) (w : World) (table : NAEvacueeVertexTable) (S : List Nat) :
    ∃ added, (NAEvacueeVertexTable.LoadSortedEvacuees INF w table S).SortedEvacuees = S ++ added
      ∧ ∀ e ∈ added,
          ((NAEvacueeVertexTable.LoadSortedEvacuees INF w table S).w.evacuees e).Status
            ≠ EvacueeStatus.CARMALooking
          ∧ ((NAEvacueeVertexTable.LoadSortedEvacuees INF w table S).w.evacuees e).PredictedCost
            < INF
          ∧ ∃ k ∈ table.keys, e ∈ table.entries k := by
  have h0 : LoadedFrom INF (table.keys.flatMap table.entries) w S
      { w := w, SortedEvacuees := S } [] :=
    ⟨by simp, fun e he => absurd he (List.not_mem_nil e), fun _ => rfl⟩
  obtain ⟨added, h1, h2, _⟩ := loadedFrom_keys INF (table.keys.flatMap table.entries) w S
    table.entries table.keys _ []
    (fun k hk e he => List.mem_flatMap.2 ⟨k, hk, he⟩) h0
  refine ⟨added, h1, fun e he => ?_⟩
  obtain ⟨k1, k2, k3⟩ := h2 e he
  exact ⟨k1, k2, List.mem_flatMap.1 k3⟩

/-- One `RemoveDiscoveredEvacuees` call keeps the account of a run: what it
appends was `CARMALooking`, so not appended before. -/
theorem foundOnce_call (INF : ℚ) (GetCost : Nat → ℚ → ℚ) (S0 : List Nat) (st : DiscoverState)
    (table : NAEvacueeVertexTable) (A : List Nat) (c : DiscoverCall)
    (h : FoundOnce S0 st A) :
    ∃ A', FoundOnce S0
      (NAEvacueeVertexTable.RemoveDiscoveredEvacuees INF GetCost st.w table c.myVertex c.myEdge
        st.SortedEvacuees c.pop).1 A' := by
  obtain ⟨h1, h2, h3⟩ := h
  obtain ⟨added, ⟨d1, d2, d3, d4⟩, _, _⟩ := removeDiscovered_spec INF GetCost st.w table
    c.myVertex c.myEdge st.SortedEvacuees c.pop
  have hdisj : ∀ e ∈ A, e ∉ added := by
    intro e he hmem
    exact h3 e he (d3 e hmem).1
  refine ⟨A ++ added, ?_, ?_, ?_⟩
  · rw [d1, h1, List.append_assoc]
  · rw [List.nodup_append]
    exact ⟨h2, d2, fun a ha hb => hdisj a ha hb⟩
  · intro e he
    rw [List.mem_append] at he
    by_cases hmem : e ∈ added
    · obtain ⟨_, v, _, hrec⟩ := d3 e hmem
      rw [hrec]
      exact discovered_status _ _ _ _ _ _ _
    · rcases he with he | he
      · rw [d4 e hmem]
        exact h3 e he
      · exact absurd he hmem

theorem foundOnce_calls (INF : ℚ) (GetCost : Nat → ℚ → ℚ) (S0 : List Nat)
    (calls : List DiscoverCall) :
    ∀ (st : DiscoverState × NAEvacueeVertexTable) (A : List Nat), FoundOnce S0 st.1 A →
      ∃ A', FoundOnce S0 (discoverCalls INF GetCost calls st).1 A' := by
  induction calls with
  | nil => intro st A h; exact ⟨A, h⟩
  | cons c rest ih =>
    intro st A h
    obtain ⟨A1, h1⟩ := foundOnce_call INF GetCost S0 st.1 st.2 A c h
    exact ih _ A1 h1


/-- C26 (as the code has it): over one CARMA pass, the
`RemoveDiscoveredEvacuees` calls, whatever vertices they visit, append no
evacuee more than once; `LoadSortedEvacuees` then appends only evacuees that
are still listed in the table after those calls; so `SortedEvacuees` after the
pass is a list without duplicates followed by such evacuees. The same holds for any run of calls from any heap, table and
vector. -/
theorem C26_discover_appends_once (CASPER_INFINITY : ℚ) (origCost : Nat → ℚ)
    (edgeEID : Nat → Nat) (GetCost : Nat → ℚ → ℚ) (w : World) (list : List Nat)
    (sortDir : CARMASort) (calls : List DiscoverCall) :
    (∃ A B,
      (carmaPass CASPER_INFINITY origCost edgeEID GetCost w list sortDir calls).SortedEvacuees
          = A ++ B
      ∧ A.Nodup
      ∧ (discoverCalls CASPER_INFINITY GetCost calls
            ({ w := (NAEvacueeVertexTable.InsertReachable CASPER_INFINITY origCost edgeEID w
                  { keys := [], entries := fun _ => [] } list sortDir []).w,
               SortedEvacuees := [] },
              (NAEvacueeVertexTable.InsertReachable CASPER_INFINITY origCost edgeEID w
                  { keys := [], entries := fun _ => [] } list sortDir []).table)).1.SortedEvacuees
          = A
      ∧ ∀ e ∈ B, ∃ k ∈ (discoverCalls CASPER_INFINITY GetCost calls
            ({ w := (NAEvacueeVertexTable.InsertReachable CASPER_INFINITY origCost edgeEID w
                  { keys := [], entries := fun _ => [] } list sortDir []).w,
               SortedEvacuees := [] },
              (NAEvacueeVertexTable.InsertReachable CASPER_INFINITY origCost edgeEID w
                  { keys := [], entries := fun _ => [] } list sortDir []).table)).2.keys,
          e ∈ (discoverCalls CASPER_INFINITY GetCost calls
            ({ w := (NAEvacueeVertexTable.InsertReachable CASPER_INFINITY origCost edgeEID w
                  { keys := [], entries := fun _ => [] } list sortDir []).w,
               SortedEvacuees := [] },
              (NAEvacueeVertexTable.InsertReachable CASPER_INFINITY origCost edgeEID w
                  { keys := [], entries := fun _ => [] } list sortDir []).table)).2.entries k)
    ∧ ∀ (st : DiscoverState × NAEvacueeVertexTable),
        ∃ A, (discoverCalls CASPER_INFINITY GetCost calls st).1.SortedEvacuees
            = st.1.SortedEvacuees ++ A
          ∧ A.Nodup := by
  have hgen : ∀ (st : DiscoverState × NAEvacueeVertexTable),
      ∃ A, (discoverCalls CASPER_INFINITY GetCost calls st).1.SortedEvacuees
          = st.1.SortedEvacuees ++ A
        ∧ A.Nodup := by
    intro st
    obtain ⟨A, h1, h2, _⟩ := foundOnce_calls CASPER_INFINITY GetCost st.1.SortedEvacuees calls st
      [] ⟨by simp, List.nodup_nil, fun e he => absurd he (List.not_mem_nil e)⟩
    exact ⟨A, h1, h2⟩
  refine ⟨?_, hgen⟩
  obtain ⟨A, hA, hnd⟩ := hgen
    ({ w := (NAEvacueeVertexTable.InsertReachable CASPER_INFINITY origCost edgeEID w
          { keys := [], entries := fun _ => [] } list sortDir []).w,
       SortedEvacuees := [] },
      (NAEvacueeVertexTable.InsertReachable CASPER_INFINITY origCost edgeEID w
          { keys := [], entries := fun _ => [] } list sortDir []).table)
  simp only [List.nil_append] at hA
  obtain ⟨B, hB, hreg⟩ := loadSorted_spec CASPER_INFINITY
    (discoverCalls CASPER_INFINITY GetCost calls
      ({ w := (NAEvacueeVertexTable.InsertReachable CASPER_INFINITY origCost edgeEID w
            { keys := [], entries := fun _ => [] } list sortDir []).w,
         SortedEvacuees := [] },
        (NAEvacueeVertexTable.InsertReachable CASPER_INFINITY origCost edgeEID w
            { keys := [], entries := fun _ => [] } list sortDir []).table)).1.w
    (discoverCalls CASPER_INFINITY GetCost calls
      ({ w := (NAEvacueeVertexTable.InsertReachable CASPER_INFINITY origCost edgeEID w
            { keys := [], entries := fun _ => [] } list sortDir []).w,
         SortedEvacuees := [] },
        (NAEvacueeVertexTable.InsertReachable CASPER_INFINITY origCost edgeEID w
            { keys := [], entries := fun _ => [] } list sortDir []).table)).2
    (discoverCalls CASPER_INFINITY GetCost calls
      ({ w := (NAEvacueeVertexTable.InsertReachable CASPER_INFINITY origCost edgeEID w
            { keys := [], entries := fun _ => [] } list sortDir []).w,
         SortedEvacuees := [] },
        (NAEvacueeVertexTable.InsertReachable CASPER_INFINITY origCost edgeEID w
            { keys := [], entries := fun _ => [] } list sortDir []).table)).1.SortedEvacuees
  refine ⟨A, B, ?_, hnd, hA, fun e he => (hreg e he).2.2⟩
  unfold carmaPass
  dsimp only
  rw [hB, hA]

/-- C26 as stated fails: the evacuee with anchors at the junctions 1 and 2 is
discovered by the one `RemoveDiscoveredEvacuees` call of the pass, at junction
1, and appended; it stays listed under junction 2, is `Unprocessed` with the
finite predicted cost 8, and `LoadSortedEvacuees` appends it a second time. -/
theorem C26_counterexample :
    (carmaPass 1000 (fun _ => 10) (fun edge => edge) (fun _ _ => 10) carmaWorld [0]
        CARMASort.Forward
        [{ myVertex := { EID := 1, GVal := 3, GlobalPenaltyCost := 0 }, myEdge := some 7,
           pop := 1 }]).SortedEvacuees = [0, 0] := by
  simp [carmaPass, NAEvacueeVertexTable.InsertReachable, insertReachableOne, markLooking,
    registerVertex, discoverCalls, NAEvacueeVertexTable.RemoveDiscoveredEvacuees, discoverOne,
    Evacuee.discovered, anchorEdgeCost, NAEvacueeVertexTable.LoadSortedEvacuees, loadOne,
    carmaWorld, twoAnchorEvacuee, Function.update]
  norm_num
  simp

/-- C27 (as the code has it): every evacuee that `RemoveDiscoveredEvacuees`
appends was `CARMALooking` with an anchor at the vertex, and when the cost of
the edge behind that anchor is below `CASPER_INFINITY` it is `Unprocessed` with
a predicted cost of at most `g(vertex) + anchor_ratio * edge_cost +
starting_cost`; every evacuee that `LoadSortedEvacuees` appends is not
`CARMALooking` and has a predicted cost below `CASPER_INFINITY`. -/
theorem C27_appended_evacuees (CASPER_INFINITY : ℚ) (GetCost : Nat → ℚ → ℚ) :
    (∀ (w : World) (table : NAEvacueeVertexTable) (myVertex : NAVertex) (myEdge : Option Nat)
        (S : List Nat) (pop : ℚ),
      ∃ added,
        (NAEvacueeVertexTable.RemoveDiscoveredEvacuees CASPER_INFINITY GetCost w table myVertex
            myEdge S pop).1.SortedEvacuees = S ++ added
        ∧ ∀ e ∈ added, (w.evacuees e).Status = EvacueeStatus.CARMALooking
          ∧ ∃ v, (w.evacuees e).VerticesAndRatio.find? (fun u => decide (u.EID = myVertex.EID))
                = some v
              ∧ (anchorEdgeCost GetCost pop v < CASPER_INFINITY →
                  ((NAEvacueeVertexTable.RemoveDiscoveredEvacuees CASPER_INFINITY GetCost w table
                      myVertex myEdge S pop).1.w.evacuees e).Status = EvacueeStatus.Unprocessed
                  ∧ ((NAEvacueeVertexTable.RemoveDiscoveredEvacuees CASPER_INFINITY GetCost w
                      table myVertex myEdge S pop).1.w.evacuees e).PredictedCost
                    ≤ myVertex.GVal + v.GVal * anchorEdgeCost GetCost pop v
                        + (w.evacuees e).StartingCost))
    ∧ (∀ (w : World) (table : NAEvacueeVertexTable) (S : List Nat),
      ∃ added,
        (NAEvacueeVertexTable.LoadSortedEvacuees CASPER_INFINITY w table S).SortedEvacuees
            = S ++ added
        ∧ ∀ e ∈ added,
            ((NAEvacueeVertexTable.LoadSortedEvacuees CASPER_INFINITY w table S).w.evacuees
                e).Status ≠ EvacueeStatus.CARMALooking
            ∧ ((NAEvacueeVertexTable.LoadSortedEvacuees CASPER_INFINITY w table S).w.evacuees
                e).PredictedCost < CASPER_INFINITY) := by
  constructor
  · intro w table myVertex myEdge S pop
    obtain ⟨added, ⟨d1, _, d3, _⟩, _, _⟩ := removeDiscovered_spec CASPER_INFINITY GetCost w table
      myVertex myEdge S pop
    refine ⟨added, d1, fun e he => ?_⟩
    obtain ⟨k1, v, k2, k3⟩ := d3 e he
    refine ⟨k1, v, k2, fun hc => ?_⟩
    rw [k3]
    simp only [Evacuee.discovered, hc, if_true]
    exact ⟨trivial, min_le_right _ _⟩
  · intro w table S
    obtain ⟨added, h1, h2⟩ := loadSorted_spec CASPER_INFINITY w table S
    exact ⟨added, h1, fun e he => ⟨(h2 e he).1, (h2 e he).2.1⟩⟩

/-- C27 as stated fails in both functions. `RemoveDiscoveredEvacuees` at an
anchor whose edge costs `CASPER_INFINITY` (1000 here) marks the evacuee
`Unreachable` and still appends it. `LoadSortedEvacuees` on a `CARMALooking`
evacuee with the finite predicted cost 5 that is listed under two junctions
marks it `Unreachable` at the first and appends it at the second. -/
theorem C27_counterexample :
    (NAEvacueeVertexTable.RemoveDiscoveredEvacuees 1000 (fun _ _ => 1000) (lookingWorld 5)
        twoAnchorTable { EID := 1, GVal := 3, GlobalPenaltyCost := 0 } (some 7) []
        1).1.SortedEvacuees = [0]
    ∧ ((NAEvacueeVertexTable.RemoveDiscoveredEvacuees 1000 (fun _ _ => 1000) (lookingWorld 5)
        twoAnchorTable { EID := 1, GVal := 3, GlobalPenaltyCost := 0 } (some 7) []
        1).1.w.evacuees 0).Status = EvacueeStatus.Unreachable
    ∧ (NAEvacueeVertexTable.LoadSortedEvacuees 1000 (lookingWorld 5) twoAnchorTable
        []).SortedEvacuees = [0]
    ∧ ((NAEvacueeVertexTable.LoadSortedEvacuees 1000 (lookingWorld 5) twoAnchorTable
        []).w.evacuees 0).Status = EvacueeStatus.Unreachable := by
  refine ⟨?_, ?_, ?_, ?_⟩
  · simp [NAEvacueeVertexTable.RemoveDiscoveredEvacuees, twoAnchorTable, discoverOne,
      lookingWorld, twoAnchorEvacuee, Evacuee.discovered, anchorEdgeCost, Function.update]
  · simp [NAEvacueeVertexTable.RemoveDiscoveredEvacuees, twoAnchorTable, discoverOne,
      lookingWorld, twoAnchorEvacuee, Evacuee.discovered, anchorEdgeCost, Function.update]
  · simp [NAEvacueeVertexTable.LoadSortedEvacuees, twoAnchorTable, loadOne, lookingWorld,
      twoAnchorEvacuee, Function.update]
    norm_num
  · simp [NAEvacueeVertexTable.LoadSortedEvacuees, twoAnchorTable, loadOne, lookingWorld,
      twoAnchorEvacuee, Function.update]
    norm_num


theorem totalPopulation_split (w : World) (M : List Nat) (x : Nat) (hnd : M.Nodup)
    (hx : x ∈ M) :
    totalPopulation w M
      = (w.evacuees x).Population + totalPopulation w (M.filter (fun y => decide (y ≠ x))) := by
  induction M with
  | nil => exact absurd hx (List.not_mem_nil x)
  | cons a M ih =>
    rw [List.nodup_cons] at hnd
    by_cases hax : a = x
    · subst hax
      have hself : M.filter (fun y => decide (y ≠ a)) = M := by
        rw [List.filter_eq_self]
        intro y hy
        have : y ≠ a := fun h => hnd.1 (h ▸ hy)
        simpa using this
      have hcons : (a :: M).filter (fun y => decide (y ≠ a)) = M := by
        rw [List.filter_cons]
        simp only [ne_eq, not_true_eq_false, decide_False, Bool.false_eq_true, if_false]
        exact hself
      unfold totalPopulation
      rw [hcons]
      simp
    · have hxM : x ∈ M := by
        rcases List.mem_cons.1 hx with h | h
        · exact absurd h.symm hax
        · exact h
      have := ih hnd.2 hxM
      unfold totalPopulation at this ⊢
      simp only [List.filter_cons, hax, ne_eq, not_false_eq_true, decide_True, if_true,
        List.map_cons, List.sum_cons]
      rw [this]
      ring

theorem totalPopulation_congr (w w' : World) (l : List Nat)
    (h : ∀ e ∈ l, (w'.evacuees e).Population = (w.evacuees e).Population) :
    totalPopulation w' l = totalPopulation w l := by
  unfold totalPopulation
  congr 1
  apply List.map_congr_left
  exact h

theorem absorb_other (w : World) (left i e : Nat) (h : e ≠ left) :
    (w.absorb left i).evacuees e = w.evacuees e := by
  unfold World.absorb
  simp [Function.update_noteq h]

theorem absorb_population (w : World) (left i : Nat) :
    ((w.absorb left i).evacuees left).Population
      = (w.evacuees left).Population + (w.evacuees i).Population := by
  unfold World.absorb
  simp

theorem absorb_fixed (w : World) (left i e : Nat) :
    ((w.absorb left i).evacuees e).VerticesAndRatio = (w.evacuees e).VerticesAndRatio
    ∧ ((w.absorb left i).evacuees e).ObjectID = (w.evacuees e).ObjectID := by
  by_cases h : e = left
  · subst h
    unfold World.absorb
    simp
  · rw [absorb_other w left i e h]
    exact ⟨rfl, rfl⟩

theorem survivors_snoc (L T : List Nat) (i : Nat) :
    survivors L (T ++ [i]) = (survivors L T).filter (fun y => decide (y ≠ i)) := by
  unfold survivors
  rw [List.filter_filter]
  apply List.filter_congr
  intro x _
  simp only [List.mem_append, List.mem_singleton, not_or, ne_eq]
  by_cases h1 : x ∈ T <;> by_cases h2 : x = i <;> simp [h1, h2]

/-- Putting `i` on `ToErase` and adding its population to `left` keeps the
population held by the evacuees that are not on `ToErase`. -/
theorem absorb_total (w : World) (L T : List Nat) (left i : Nat) (hnd : L.Nodup)
    (hl : left ∈ L) (hi : i ∈ L) (hlT : left ∉ T) (hiT : i ∉ T) (hne : left ≠ i) :
    totalPopulation (w.absorb left i) (survivors L (T ++ [i]))
      = totalPopulation w (survivors L T) := by
  have hM : (survivors L T).Nodup := List.Nodup.filter _ hnd
  have hiM : i ∈ survivors L T := List.mem_filter.2 ⟨hi, by simpa using hiT⟩
  have hlM : left ∈ survivors L T := List.mem_filter.2 ⟨hl, by simpa using hlT⟩
  have hN : ((survivors L T).filter (fun y => decide (y ≠ i))).Nodup := List.Nodup.filter _ hM
  have hlN : left ∈ (survivors L T).filter (fun y => decide (y ≠ i)) :=
    List.mem_filter.2 ⟨hlM, by simpa using hne⟩
  rw [survivors_snoc, totalPopulation_split w _ i hM hiM,
    totalPopulation_split (w.absorb left i) _ left hN hlN,
    totalPopulation_split w _ left hN hlN, absorb_population]
  have hrest : totalPopulation (w.absorb left i)
        (((survivors L T).filter (fun y => decide (y ≠ i))).filter
          (fun y => decide (y ≠ left)))
      = totalPopulation w
        (((survivors L T).filter (fun y => decide (y ≠ i))).filter
          (fun y => decide (y ≠ left))) := by
    apply totalPopulation_congr
    intro e he
    have hne' : e ≠ left := by simpa using (List.mem_filter.1 he).2
    rw [absorb_other w left i e hne']
  rw [hrest]
  ring


theorem grouped_tail (L : List Nat) (w0 : World) (st : ClusterState) (i : Nat)
    (pending : List Nat) (h : Grouped L w0 st (i :: pending)) :
    Grouped L w0 st pending
    ∧ i ∈ L ∧ i ∉ st.ToErase ∧ i ∉ pending := by
  obtain ⟨h1, h2, h3, h4, h5⟩ := h
  rw [List.nodup_cons] at h3
  exact ⟨⟨h1, fun x hx => h2 x (List.mem_cons_of_mem _ hx), h3.2, h4, h5⟩,
    (h2 i (List.mem_cons_self _ _)).1, (h2 i (List.mem_cons_self _ _)).2, h3.1⟩

/-- One merge: `i`, the next evacuee to be walked, goes on `ToErase` and its
population to `left`, another evacuee of the list that is not on `ToErase`. -/
theorem grouped_absorb (L : List Nat) (w0 : World) (hnd : L.Nodup) (st : ClusterState)
    (left i : Nat) (pending : List Nat) (h : Grouped L w0 st (i :: pending))
    (hl : left ∈ L) (hlT : left ∉ st.ToErase) (hne : left ≠ i) :
    Grouped L w0 { w := st.w.absorb left i, ToErase := st.ToErase ++ [i] } pending
    ∧ left ∉ st.ToErase ++ [i] := by
  obtain ⟨⟨h1, h2, h3, h4, h5⟩, hi, hiT, hip⟩ := grouped_tail L w0 st i pending h
  refine ⟨⟨?_, ?_, h3, ?_, ?_⟩, ?_⟩
  · show totalPopulation (st.w.absorb left i) (survivors L (st.ToErase ++ [i])) = _
    rw [absorb_total st.w L st.ToErase left i hnd hl hi hlT hiT hne]
    exact h1
  · intro x hx
    refine ⟨(h2 x hx).1, ?_⟩
    show x ∉ st.ToErase ++ [i]
    rw [List.mem_append, List.mem_singleton, not_or]
    exact ⟨(h2 x hx).2, fun hh => hip (hh ▸ hx)⟩
  · intro e
    obtain ⟨a1, a2⟩ := absorb_fixed st.w left i e
    exact ⟨a1.trans (h4 e).1, a2.trans (h4 e).2⟩
  · intro x hx
    have hx' : x ∈ st.ToErase ++ [i] := hx
    rw [List.mem_append, List.mem_singleton] at hx'
    rcases hx' with hx' | hx'
    · exact h5 x hx'
    · rw [hx']; exact hi
  · rw [List.mem_append, List.mem_singleton, not_or]
    exact ⟨hlT, hne⟩

/-- The walk of `MergeEvacueeClusters` over one list keeps the account of the
merges. -/
theorem grouped_cluster (L : List Nat) (w0 : World) (hnd : L.Nodup) (OKDistance edgeCost : ℚ)
    (l : List Nat) :
    ∀ (st : ClusterState) (left : Option Nat) (pending : List Nat),
      Grouped L w0 st (l ++ pending) →
      (∀ x, left = some x → x ∈ L ∧ x ∉ st.ToErase ∧ x ∉ l ++ pending) →
      Grouped L w0 (l.foldl (mergeClusterOne OKDistance edgeCost) (st, left)).1 pending := by
  induction l with
  | nil => intro st left pending h _; simpa using h
  | cons i rest ih =>
    intro st left pending h hleft
    rw [List.foldl_cons]
    have h' : Grouped L w0 st (i :: (rest ++ pending)) := h
    obtain ⟨ht, hi, hiT, hip⟩ := grouped_tail L w0 st i (rest ++ pending) h'
    cases hl : left with
    | none =>
      have hstep : mergeClusterOne OKDistance edgeCost (st, none) i = (st, some i) := rfl
      rw [hstep]
      apply ih st (some i) pending ht
      intro x hx
      have : i = x := Option.some.inj hx
      subst this
      exact ⟨hi, hiT, hip⟩
    | some x =>
      obtain ⟨xl, xT, xp⟩ := hleft x hl
      by_cases hc : quotientReaches OKDistance edgeCost |frontGVal st.w i - frontGVal st.w x|
          = true
      · have hstep : mergeClusterOne OKDistance edgeCost (st, some x) i
            = ({ w := st.w.absorb x i, ToErase := st.ToErase ++ [i] }, some x) := by
          unfold mergeClusterOne
          simp only [hc, if_true]
        rw [hstep]
        obtain ⟨g1, g2⟩ := grouped_absorb L w0 hnd st x i (rest ++ pending) h' xl xT
          (fun hh => xp (hh ▸ List.mem_cons_self _ _))
        apply ih _ (some x) pending g1
        intro y hy
        have : x = y := Option.some.inj hy
        subst this
        exact ⟨xl, g2, fun hh => xp (List.mem_cons_of_mem _ hh)⟩
      · have hstep : mergeClusterOne OKDistance edgeCost (st, some x) i = (st, some i) := by
          unfold mergeClusterOne
          simp only [hc, Bool.false_eq_true, if_false]
        rw [hstep]
        apply ih st (some i) pending ht
        intro y hy
        have : i = y := Option.some.inj hy
        subst this
        exact ⟨hi, hiT, hip⟩

/-- `MergeEvacueeClusters` over a whole map keeps the account of the merges. -/
theorem grouped_clusters (origCost : Nat → ℚ) (OKDistance : ℚ) (L : List Nat) (w0 : World)
    (hnd : L.Nodup) (lists : Nat → List Nat) (keys : List Nat) :
    ∀ (st : ClusterState) (pending : List Nat),
      Grouped L w0 st (keys.flatMap lists ++ pending) →
      Grouped L w0
        (keys.foldl
          (fun st k =>
            match lists k with
            | [] => st
            | first :: rest =>
              ((first :: rest).foldl
                (mergeClusterOne OKDistance (frontEdgeCost origCost st.w first)) (st, none)).1)
          st)
        pending := by
  induction keys with
  | nil => intro st pending h; simpa using h
  | cons k ks ih =>
    intro st pending h
    rw [List.foldl_cons]
    apply ih
    rw [List.flatMap_cons, List.append_assoc] at h
    cases hk : lists k with
    | nil =>
      rw [hk] at h
      simpa using h
    | cons first rest =>
      rw [hk] at h
      dsimp only
      exact grouped_cluster L w0 hnd _ _ (first :: rest) st none _ h
        (fun x hx => absurd hx (by simp))

theorem mergeEvacueeClusters_grouped (origCost : Nat → ℚ) (OKDistance : ℚ) (L : List Nat)
    (w0 : World) (hnd : L.Nodup) (m : MapOfLists) (st : ClusterState) (pending : List Nat)
    (h : Grouped L w0 st (m.members ++ pending)) :
    Grouped L w0 (MergeEvacueeClusters origCost st m OKDistance) pending := by
  unfold MergeEvacueeClusters
  exact grouped_clusters origCost OKDistance L w0 hnd m.lists m.keys st pending h


theorem sortedInsert_perm (w : World) (evc : Nat) (l : List Nat) :
    (sortedInsert w evc l).Perm (evc :: l) := by
  induction l with
  | nil => exact List.Perm.refl _
  | cons j rest ih =>
    unfold sortedInsert
    split_ifs
    · exact (List.Perm.cons j ih).trans (List.Perm.swap evc j rest)
    · exact List.Perm.refl _

theorem flatMap_update_of_not_mem (lists : Nat → List Nat) (eid : Nat) (l : List Nat)
    (keys : List Nat) (h : eid ∉ keys) :
    keys.flatMap (Function.update lists eid l) = keys.flatMap lists := by
  induction keys with
  | nil => rfl
  | cons k ks ih =>
    rw [List.mem_cons, not_or] at h
    rw [List.flatMap_cons, List.flatMap_cons, ih h.2, Function.update_noteq (Ne.symm h.1)]

theorem flatMap_update_perm (lists : Nat → List Nat) (eid x : Nat) (l : List Nat)
    (hl : l.Perm (x :: lists eid)) (keys : List Nat) (hnd : keys.Nodup) (hk : eid ∈ keys) :
    (keys.flatMap (Function.update lists eid l)).Perm (x :: keys.flatMap lists) := by
  induction keys with
  | nil => exact absurd hk (List.not_mem_nil eid)
  | cons k ks ih =>
    rw [List.nodup_cons] at hnd
    rw [List.flatMap_cons, List.flatMap_cons]
    by_cases hke : k = eid
    · subst hke
      rw [Function.update_same, flatMap_update_of_not_mem lists k l ks hnd.1]
      exact List.Perm.append_right _ hl
    · have hmem : eid ∈ ks := by
        rcases List.mem_cons.1 hk with h | h
        · exact absurd h.symm hke
        · exact h
      rw [Function.update_noteq hke]
      exact (List.Perm.append_left _ (ih hnd.2 hmem)).trans List.perm_middle

/-- `SortedInsertIntoMapOfLists` adds the evacuee to the members of the map and
keeps the keys of the map distinct. -/
theorem sortedInsertIntoMap_members (w : World) (m : MapOfLists) (eid evc : Nat)
    (hnd : m.keys.Nodup) :
    (SortedInsertIntoMapOfLists w m eid evc).members.Perm (evc :: m.members)
    ∧ (SortedInsertIntoMapOfLists w m eid evc).keys.Nodup := by
  unfold SortedInsertIntoMapOfLists MapOfLists.members
  by_cases hk : eid ∈ m.keys
  · simp only [hk, if_true]
    exact ⟨flatMap_update_perm m.lists eid evc _ (sortedInsert_perm w evc _) m.keys hnd hk, hnd⟩
  · simp only [hk, if_false]
    have hnd' : (m.keys ++ [eid]).Nodup := by
      rw [List.nodup_append]
      refine ⟨hnd, List.nodup_singleton _, ?_⟩
      intro a ha hb
      rw [List.mem_singleton] at hb
      exact hk (hb ▸ ha)
    refine ⟨?_, hnd'⟩
    have hp := flatMap_update_perm (Function.update m.lists eid []) eid evc
      (sortedInsert w evc (Function.update m.lists eid [] eid))
      (sortedInsert_perm w evc _) (m.keys ++ [eid]) hnd' (by simp)
    refine hp.trans (List.Perm.cons evc ?_)
    rw [List.flatMap_append, flatMap_update_of_not_mem m.lists eid [] m.keys hk]
    simp

theorem grouped_perm (L : List Nat) (w0 : World) (st : ClusterState) (p q : List Nat)
    (hpq : q.Perm p) (h : Grouped L w0 st p) : Grouped L w0 st q := by
  obtain ⟨h1, h2, h3, h4, h5⟩ := h
  exact ⟨h1, fun x hx => h2 x (hpq.mem_iff.1 hx), hpq.nodup_iff.2 h3, h4, h5⟩

theorem grouped_cons (L : List Nat) (w0 : World) (st : ClusterState) (p : List Nat) (x : Nat)
    (hx : x ∈ L) (hxT : x ∉ st.ToErase) (hxp : x ∉ p) (h : Grouped L w0 st p) :
    Grouped L w0 st (x :: p) := by
  obtain ⟨h1, h2, h3, h4, h5⟩ := h
  refine ⟨h1, fun y hy => ?_, List.nodup_cons.2 ⟨hxp, h3⟩, h4, h5⟩
  rcases List.mem_cons.1 hy with hy | hy
  · rw [hy]; exact ⟨hx, hxT⟩
  · exact h2 y hy


/-- The first loop keeps its invariant when the evacuee of the turn joins the
members of the maps and nothing else changes. -/
theorem groupingInv_insert (L : List Nat) (w0 : World) (P : List Nat) (st st' : GroupingState)
    (evc : Nat) (heL : evc ∈ L) (heP : evc ∉ P)
    (h : GroupingInv L w0 P st) (hw : st'.w = st.w) (hT : st'.ToErase = st.ToErase)
    (hV : st'.VertexEvacuee = st.VertexEvacuee)
    (hperm : (st'.EdgeAgainstEvacuee.members
        ++ (st'.EdgeAlongEvacuee.members ++ st'.DoubleEdgeEvacuee.members)).Perm
      (evc :: (st.EdgeAgainstEvacuee.members
        ++ (st.EdgeAlongEvacuee.members ++ st.DoubleEdgeEvacuee.members))))
    (hk1 : st'.EdgeAgainstEvacuee.keys.Nodup) (hk2 : st'.EdgeAlongEvacuee.keys.Nodup)
    (hk3 : st'.DoubleEdgeEvacuee.keys.Nodup) :
    GroupingInv L w0 (P ++ [evc]) st' := by
  obtain ⟨g, t, v, m, _, _, _⟩ := h
  have heT : evc ∉ st.ToErase := fun hh => heP (t evc hh)
  have hep : evc ∉ st.EdgeAgainstEvacuee.members
      ++ (st.EdgeAlongEvacuee.members ++ st.DoubleEdgeEvacuee.members) :=
    fun hh => heP (m evc hh)
  refine ⟨?_, ?_, ?_, ?_, hk1, hk2, hk3⟩
  · rw [hw, hT]
    exact grouped_perm L w0 _ _ _ hperm (grouped_cons L w0 _ _ evc heL heT hep g)
  · intro x hx
    rw [hT] at hx
    exact List.mem_append_left _ (t x hx)
  · intro k x hx
    rw [hV] at hx
    rw [hT]
    exact ⟨List.mem_append_left _ (v k x hx).1, (v k x hx).2⟩
  · intro x hx
    rcases List.mem_cons.1 (hperm.mem_iff.1 hx) with hx' | hx'
    · rw [hx']; simp
    · exact List.mem_append_left _ (m x hx')

/-- One turn of the first loop of `FinilizeGroupings` on an evacuee of the list
that has an anchor and was not walked before: it returns and keeps the
invariant. -/
theorem groupOne_inv (edgeEID : Nat → Nat) (edgeDirection : Nat → esriNetworkEdgeDirection)
    (L : List Nat) (w0 : World) (hnd : L.Nodup) (P : List Nat) (st : GroupingState) (evc : Nat)
    (hP : ∀ x ∈ P, x ∈ L) (heL : evc ∈ L) (heP : evc ∉ P)
    (hanch : (w0.evacuees evc).VerticesAndRatio ≠ [])
    (h : GroupingInv L w0 P st) :
    ∃ st', groupOne edgeEID edgeDirection st evc = some st'
      ∧ GroupingInv L w0 (P ++ [evc]) st' := by
  have h' := h
  obtain ⟨g, t, v, m, k1, k2, k3⟩ := h
  have hsame : (st.w.evacuees evc).VerticesAndRatio = (w0.evacuees evc).VerticesAndRatio :=
    (g.2.2.2.1 evc).1
  have heT : evc ∉ st.ToErase := fun hh => heP (t evc hh)
  have hep : evc ∉ st.EdgeAgainstEvacuee.members
      ++ (st.EdgeAlongEvacuee.members ++ st.DoubleEdgeEvacuee.members) :=
    fun hh => heP (m evc hh)
  cases hv : (w0.evacuees evc).VerticesAndRatio with
  | nil => exact absurd hv hanch
  | cons v1 vs =>
    rw [hv] at hsame
    unfold groupOne
    rw [hsame]
    dsimp only
    cases hb : v1.behindEdge with
    | none =>
      dsimp only
      cases hV : st.VertexEvacuee v1.EID with
      | none =>
        refine ⟨_, rfl, ?_, ?_, ?_, ?_, k1, k2, k3⟩
        · exact g
        · intro x hx
          exact List.mem_append_left _ (t x hx)
        · intro k x hx
          by_cases hk : k = v1.EID
          · subst hk
            have hx' : some evc = some x := by simpa using hx
            have : evc = x := Option.some.inj hx'
            subst this
            exact ⟨by simp, heT⟩
          · have hx' : st.VertexEvacuee k = some x := by
              simpa [Function.update_noteq hk] using hx
            exact ⟨List.mem_append_left _ (v k x hx').1, (v k x hx').2⟩
        · intro x hx
          exact List.mem_append_left _ (m x hx)
      | some i =>
        obtain ⟨iP, iT⟩ := v v1.EID i hV
        have hne : i ≠ evc := fun hh => heP (hh ▸ iP)
        obtain ⟨ga, _⟩ := grouped_absorb L w0 hnd { w := st.w, ToErase := st.ToErase } i evc _
          (grouped_cons L w0 _ _ evc heL heT hep g) (hP i iP) iT hne
        refine ⟨_, rfl, ?_, ?_, ?_, ?_, k1, k2, k3⟩
        · exact ga
        · intro x hx
          have hx' : x ∈ st.ToErase ++ [evc] := hx
          rw [List.mem_append, List.mem_singleton] at hx'
          rcases hx' with hx' | hx'
          · exact List.mem_append_left _ (t x hx')
          · rw [hx']; simp
        · intro k x hx
          have hx' : st.VertexEvacuee k = some x := hx
          refine ⟨List.mem_append_left _ (v k x hx').1, ?_⟩
          show x ∉ st.ToErase ++ [evc]
          rw [List.mem_append, List.mem_singleton, not_or]
          exact ⟨(v k x hx').2, fun hh => heP (hh ▸ (v k x hx').1)⟩
        · intro x hx
          exact List.mem_append_left _ (m x hx)
    | some e1 =>
      dsimp only
      by_cases h2 : (v1 :: vs).length = 2
      · rw [if_pos h2]
        obtain ⟨p1, p2⟩ := sortedInsertIntoMap_members st.w st.DoubleEdgeEvacuee (edgeEID e1) evc k3
        refine ⟨_, rfl, groupingInv_insert L w0 P st _ evc heL heP h' rfl rfl rfl ?_ k1 k2 p2⟩
        exact ((List.Perm.append_left _ (List.Perm.append_left _ p1)).trans
          (List.Perm.append_left _ List.perm_middle)).trans List.perm_middle
      · rw [if_neg h2]
        by_cases hd : edgeDirection e1 = esriNetworkEdgeDirection.esriNEDAlongDigitized
        · rw [if_pos hd]
          obtain ⟨p1, p2⟩ := sortedInsertIntoMap_members st.w st.EdgeAlongEvacuee (edgeEID e1)
            evc k2
          refine ⟨_, rfl, groupingInv_insert L w0 P st _ evc heL heP h' rfl rfl rfl ?_ k1 p2 k3⟩
          exact (List.Perm.append_left _ (List.Perm.append_right _ p1)).trans List.perm_middle
        · rw [if_neg hd]
          obtain ⟨p1, p2⟩ := sortedInsertIntoMap_members st.w st.EdgeAgainstEvacuee (edgeEID e1)
            evc k1
          refine ⟨_, rfl, groupingInv_insert L w0 P st _ evc heL heP h' rfl rfl rfl ?_ p2 k2 k3⟩
          exact List.Perm.append_right _ p1


/-- The first loop of `FinilizeGroupings` returns on a list of distinct evacuees
that all have an anchor, and leaves its invariant for the whole list. -/
theorem groupAll_inv (edgeEID : Nat → Nat) (edgeDirection : Nat → esriNetworkEdgeDirection)
    (L : List Nat) (w0 : World) (hnd : L.Nodup) (R : List Nat) :
    ∀ (P : List Nat) (st : GroupingState), P ++ R = L →
      (∀ e ∈ R, (w0.evacuees e).VerticesAndRatio ≠ []) →
      GroupingInv L w0 P st →
      ∃ st', R.foldlM (groupOne edgeEID edgeDirection) st = some st'
        ∧ GroupingInv L w0 L st' := by
  induction R with
  | nil =>
    intro P st hPR _ h
    rw [List.append_nil] at hPR
    subst hPR
    exact ⟨st, rfl, h⟩
  | cons evc rest ih =>
    intro P st hPR hanch h
    have hndPR : (P ++ evc :: rest).Nodup := by rw [hPR]; exact hnd
    have heP : evc ∉ P := by
      intro hh
      exact (List.disjoint_of_nodup_append hndPR) hh (List.mem_cons_self _ _)
    have heL : evc ∈ L := by rw [← hPR]; simp
    have hP : ∀ x ∈ P, x ∈ L := by
      intro x hx
      rw [← hPR]
      exact List.mem_append_left _ hx
    obtain ⟨st1, h1, g1⟩ := groupOne_inv edgeEID edgeDirection L w0 hnd P st evc hP heL heP
      (hanch evc (List.mem_cons_self _ _)) h
    obtain ⟨st2, h2, g2⟩ := ih (P ++ [evc]) st1 (by rw [List.append_assoc]; exact hPR)
      (fun e he => hanch e (List.mem_cons_of_mem _ he)) g1
    refine ⟨st2, ?_, g2⟩
    rw [List.foldlM_cons, h1]
    exact h2

theorem unordered_erase_eq_filter (w : World) (M : List Nat) (e : Nat) (hnd : M.Nodup)
    (hinj : ∀ x ∈ M, (w.evacuees x).ObjectID = (w.evacuees e).ObjectID → x = e) :
    unordered_erase w M e = M.filter (fun x => decide (x ≠ e)) := by
  unfold unordered_erase
  induction M with
  | nil => rfl
  | cons a M ih =>
    rw [List.nodup_cons] at hnd
    have ihM := ih hnd.2 (fun x hx => hinj x (List.mem_cons_of_mem _ hx))
    by_cases ha : (w.evacuees a).ObjectID = (w.evacuees e).ObjectID
    · have hae : a = e := hinj a (List.mem_cons_self _ _) ha
      subst hae
      have hself : M.filter (fun x => decide (x ≠ a)) = M := by
        rw [List.filter_eq_self]
        intro y hy
        have : y ≠ a := fun h => hnd.1 (h ▸ hy)
        simpa using this
      rw [List.eraseP_cons_of_pos (by simp [ha]), List.filter_cons]
      simp only [ne_eq, not_true_eq_false, decide_False, Bool.false_eq_true, if_false]
      exact hself.symm
    · have hae : a ≠ e := fun hh => ha (by rw [hh])
      rw [List.eraseP_cons_of_neg (by simpa using ha), ihM, List.filter_cons]
      simp [hae]

/-- The loop over `ToErase` leaves in the list the evacuees that are not on
`ToErase`, when the object ids along the list are distinct and `ToErase` holds
evacuees of the list. -/
theorem erase_all_eq_survivors (w : World) (L : List Nat)
    (hids : (L.map (fun e => (w.evacuees e).ObjectID)).Nodup) (T : List Nat) :
    ∀ M : List Nat, M.Sublist L → (∀ t ∈ T, t ∈ L) →
      T.foldl (unordered_erase w) M = M.filter (fun x => decide (x ∉ T)) := by
  have hinjL : ∀ x ∈ L, ∀ y ∈ L, (w.evacuees x).ObjectID = (w.evacuees y).ObjectID → x = y :=
    fun x hx y hy hxy => List.inj_on_of_nodup_map hids hx hy hxy
  have hndL : L.Nodup := List.Nodup.of_map _ hids
  induction T with
  | nil => intro M _ _; simp
  | cons t ts ih =>
    intro M hM hT
    have hMnd : M.Nodup := List.Nodup.sublist hM hndL
    have ht : t ∈ L := hT t (List.mem_cons_self _ _)
    rw [List.foldl_cons, unordered_erase_eq_filter w M t hMnd
      (fun x hx hxy => hinjL x (hM.subset hx) t ht hxy)]
    rw [ih _ ((List.filter_sublist _).trans hM) (fun x hx => hT x (List.mem_cons_of_mem _ hx)),
      List.filter_filter]
    apply List.filter_congr
    intro x _
    by_cases h1 : x = t <;> by_cases h2 : x ∈ ts <;> simp [h1, h2]


/-- The merge branch of `FinilizeGroupings` on a list of distinct object ids whose
evacuees all have an anchor: the first loop returns, and the erased list holds
the population of the list before. -/
theorem finilize_merge_total (origCost : Nat → ℚ) (edgeEID : Nat → Nat)
    (edgeDirection : Nat → esriNetworkEdgeDirection) (w : World) (L : List Nat)
    (OKDistance : ℚ)
    (hids : (L.map (fun e => (w.evacuees e).ObjectID)).Nodup)
    (hanch : ∀ e ∈ L, (w.evacuees e).VerticesAndRatio ≠ []) :
    ∃ g, L.foldlM (groupOne edgeEID edgeDirection)
          { w := w
            VertexEvacuee := fun _ => none
            EdgeAlongEvacuee := { keys := [], lists := fun _ => [] }
            EdgeAgainstEvacuee := { keys := [], lists := fun _ => [] }
            DoubleEdgeEvacuee := { keys := [], lists := fun _ => [] }
            ToErase := [] } = some g
      ∧ totalPopulation
          (MergeEvacueeClusters origCost
            (MergeEvacueeClusters origCost
              (MergeEvacueeClusters origCost { w := g.w, ToErase := g.ToErase }
                g.EdgeAgainstEvacuee OKDistance)
              g.EdgeAlongEvacuee OKDistance)
            g.DoubleEdgeEvacuee OKDistance).w
          ((MergeEvacueeClusters origCost
            (MergeEvacueeClusters origCost
              (MergeEvacueeClusters origCost { w := g.w, ToErase := g.ToErase }
                g.EdgeAgainstEvacuee OKDistance)
              g.EdgeAlongEvacuee OKDistance)
            g.DoubleEdgeEvacuee OKDistance).ToErase.foldl
            (unordered_erase
              (MergeEvacueeClusters origCost
                (MergeEvacueeClusters origCost
                  (MergeEvacueeClusters origCost { w := g.w, ToErase := g.ToErase }
                    g.EdgeAgainstEvacuee OKDistance)
                  g.EdgeAlongEvacuee OKDistance)
                g.DoubleEdgeEvacuee OKDistance).w) L)
        = totalPopulation w L := by
  have hnd : L.Nodup := List.Nodup.of_map _ hids
  have hinit : GroupingInv L w []
      { w := w
        VertexEvacuee := fun _ => none
        EdgeAlongEvacuee := { keys := [], lists := fun _ => [] }
        EdgeAgainstEvacuee := { keys := [], lists := fun _ => [] }
        DoubleEdgeEvacuee := { keys := [], lists := fun _ => [] }
        ToErase := [] } := by
    refine ⟨⟨?_, ?_, ?_, ?_, ?_⟩, ?_, ?_, ?_, ?_, ?_, ?_⟩
    · simp [survivors]
    · simp [MapOfLists.members]
    · simp [MapOfLists.members]
    · intro e; exact ⟨rfl, rfl⟩
    · simp
    · simp
    · simp
    · simp [MapOfLists.members]
    · simp
    · simp
    · simp
  obtain ⟨g, hg, hinv⟩ := groupAll_inv edgeEID edgeDirection L w hnd L [] _ (List.nil_append L)
    hanch hinit
  refine ⟨g, hg, ?_⟩
  have h1 := mergeEvacueeClusters_grouped origCost OKDistance L w hnd g.EdgeAgainstEvacuee
    { w := g.w, ToErase := g.ToErase } _ hinv.1
  have h2 := mergeEvacueeClusters_grouped origCost OKDistance L w hnd g.EdgeAlongEvacuee _ _ h1
  have h3 := mergeEvacueeClusters_grouped origCost OKDistance L w hnd g.DoubleEdgeEvacuee _ []
    (by rw [List.append_nil]; exact h2)
  generalize MergeEvacueeClusters origCost
    (MergeEvacueeClusters origCost
      (MergeEvacueeClusters origCost { w := g.w, ToErase := g.ToErase }
        g.EdgeAgainstEvacuee OKDistance)
      g.EdgeAlongEvacuee OKDistance)
    g.DoubleEdgeEvacuee OKDistance = c3 at h3 ⊢
  obtain ⟨htot, _, _, hsame, hsub⟩ := h3
  have hids3 : (L.map (fun e => (c3.w.evacuees e).ObjectID)).Nodup := by
    have : (fun e => (c3.w.evacuees e).ObjectID) = (fun e => (w.evacuees e).ObjectID) := by
      funext e
      exact (hsame e).2
    rw [this]
    exact hids
  rw [erase_all_eq_survivors c3.w L hids3 c3.ToErase L (List.Sublist.refl L) hsub]
  exact htot

/-- C28: `EvacueeList::FinilizeGroupings` conserves population. On a list whose
evacuees have pairwise distinct object ids and an anchor vertex each, for every
grouping option, every `OKDistance` and every dynamic mode, the call returns
and the sum of `Population` over the evacuees left in the list equals the sum
over the list before the call. -/
theorem C28_population_conserved (origCost : Nat → ℚ) (edgeEID : Nat → Nat)
    (edgeDirection : Nat → esriNetworkEdgeDirection) (w : World) (list : EvacueeList)
    (OKDistance : ℚ) (DynamicCASPEREnabled : DynamicMode)
    (hids : (list.items.map (fun e => (w.evacuees e).ObjectID)).Nodup)
    (hanch : ∀ e ∈ list.items, (w.evacuees e).VerticesAndRatio ≠ []) :
    ∃ w' list', EvacueeList.FinilizeGroupings origCost edgeEID edgeDirection w list OKDistance
          DynamicCASPEREnabled = some (w', list')
      ∧ totalPopulation w' list'.items = totalPopulation w list.items := by
  obtain ⟨g, hg, htot⟩ := finilize_merge_total origCost edgeEID edgeDirection w list.items
    OKDistance hids hanch
  unfold EvacueeList.FinilizeGroupings
  dsimp only
  by_cases hm : list.groupingOption.Merge = true
  · by_cases hd : DynamicCASPEREnabled = DynamicMode.Full ∨ DynamicCASPEREnabled = DynamicMode.Smart
    · rw [if_pos hd]
      dsimp only
      rw [if_pos hm]
      simp only [hg]
      exact ⟨_, _, rfl, htot⟩
    · rw [if_neg hd, if_pos hm]
      simp only [hg]
      exact ⟨_, _, rfl, htot⟩
  · by_cases hd : DynamicCASPEREnabled = DynamicMode.Full ∨ DynamicCASPEREnabled = DynamicMode.Smart
    · rw [if_pos hd]
      dsimp only
      rw [if_neg hm]
      exact ⟨_, _, rfl, rfl⟩
    · rw [if_neg hd, if_neg hm]
      exact ⟨_, _, rfl, rfl⟩

/-- C28 at the list of the evacuees 0 and 1 of `groupingWorld` with the merge
option on. -/
theorem C28_population_conserved_witness :
    (groupingList.items.map (fun e => (groupingWorld.evacuees e).ObjectID)).Nodup
    ∧ (∀ e ∈ groupingList.items, (groupingWorld.evacuees e).VerticesAndRatio ≠ [])
    ∧ ∃ w' list', EvacueeList.FinilizeGroupings (fun _ => 1) (fun e => e)
          (fun _ => esriNetworkEdgeDirection.esriNEDAlongDigitized)
          groupingWorld groupingList 1 DynamicMode.Disabled = some (w', list')
      ∧ totalPopulation w' list'.items = totalPopulation groupingWorld groupingList.items :=
  ⟨by simp [groupingList, groupingWorld, twoAnchorEvacuee],
   by simp [groupingList, groupingWorld, twoAnchorEvacuee],
   C28_population_conserved _ _ _ groupingWorld groupingList 1 DynamicMode.Disabled
     (by simp [groupingList, groupingWorld, twoAnchorEvacuee])
     (by simp [groupingList, groupingWorld, twoAnchorEvacuee])⟩


/-- The two evacuees of `groupingList` sit on the same edge at the same place:
evacuee 1 is inserted in front of evacuee 0, and the call leaves it alone in the
list with the population of both. -/
theorem finilize_groupingList :
    (EvacueeList.FinilizeGroupings (fun _ => 1) (fun e => e)
        (fun _ => esriNetworkEdgeDirection.esriNEDAlongDigitized)
        groupingWorld groupingList 1 DynamicMode.Disabled).map
      (fun r => (r.2.items, totalPopulation r.1 r.2.items)) = some ([1], 2) := by
  simp [EvacueeList.FinilizeGroupings, groupingList, groupingWorld, carmaWorld, twoAnchorEvacuee,
    groupOne, SortedInsertIntoMapOfLists, sortedInsert, MergeEvacueeClusters, mergeClusterOne,
    quotientReaches, frontGVal, frontEdgeCost, World.absorb, unordered_erase, totalPopulation, Function.update,
    List.foldlM, List.eraseP]
  norm_num

end CASPER
